import Mathlib

/-!
# CasADi sparsity patterns: a shallow embedding

The definitions below follow `casadi/core/sparsity.cpp` and
`casadi/core/function/linsol.cpp`.

Conventions of the embedding.

* A `std::vector<int>` is a `List`; the read `v[i]` is `vget v i` and the write
  `v[i] = x` is `v.set i x`.
* Dimensions, offsets and stored indices are non-negative in the source, and are
  carried as `Nat`, also in the flat buffer of `compressed`.  An argument keeps the type
  `Int` wherever the source inspects its sign (the coordinate lists of `triplet`, the
  indices of `add_nz`).
* An `int` has 32 bits, and `wrap n` is the value that an `int` expression with the exact
  value `n` takes in two's complement.  The products of two dimensions or of two entry
  counts (`dense`, `compressed`, `kron`), the sums of row counts, column counts and
  entry counts over a list of patterns (`vertcat`, `diagcat`), the size of the work vector
  and the entry counter of `norm_0_mul` go through `wrap`; vectors that receive such
  values hold `Int`s.  The `+1` in the size of a vector, and the sums that stay below
  the number of elements of a vector held in memory (a position in `row` or `colind`,
  the column offset of `horzcat`), are exact.
* A call that throws returns `Except.error` with the text of the failed assertion.  A
  vector created with a negative size, which the allocation refuses, and a loop that
  writes outside its vector, which is undefined behaviour, end the call without a
  result as well: they return `Except.error "std::length_error"` and
  `Except.error "out of range: ..."`, which are no assertions of the source.
* A `while` loop runs on fuel and returns `none` when the fuel is used up; the
  theorems show that this never happens.
* A bit mask `bvec_t` is a `Nat`, and `|` is `|||`.
* A `double` is a `Double`, the quiet NaN or a rational number; a pointer to a buffer is
  an `Option`, and the null pointer is `none`.
* A loop `for (i=a; i<b; ++i)` is `forLoop a b`.
-/

namespace casadi

deriving instance DecidableEq for Except

/-- The `while (cond) body` loop, run for at most `fuel` tests of the condition. -/
def whileFuel {σ : Type} (cond : σ → Bool) (body : σ → σ) : Nat → σ → Option σ
  | 0, _ => none
  | fuel + 1, s => if cond s then whileFuel cond body fuel (body s) else some s

/-- The read `v[i]` of a `std::vector<int>`; outside the vector it gives 0. -/
def vget (v : List Nat) (i : Nat) : Nat := v.getD i 0

/-- The read `v[i]` of a vector of `int` that may hold negative values. -/
def iget (v : List Int) (i : Nat) : Int := v.getD i 0

/-- The value of an `int` expression whose exact value is `n`: the two's complement
reading of the low 32 bits of `n`, that is the number between `-2^31` and `2^31 - 1` that
differs from `n` by a multiple of `2^32`.  For `n = -(m+1)` the low 32 bits are those of
`2^32 - 1 - m % 2^32`. -/
def wrap (n : Int) : Int :=
  match n with
  | Int.ofNat m =>
    let r := m % 4294967296
    if r < 2147483648 then Int.ofNat r else Int.negSucc (4294967295 - r)
  | Int.negSucc m =>
    let r := m % 4294967296
    if r < 2147483648 then Int.negSucc r else Int.ofNat (4294967295 - r)

/-- The loop `for (i=a; i<b; ++i) s = f(s, i)`. -/
def forLoop {σ : Type} (a b : Nat) (f : σ → Nat → σ) (s : σ) : σ :=
  (List.range' a (b - a)).foldl f s

/-- The call `v.resize(n)` of `std::vector<int>`: cut, or fill up with zeros. -/
def resize (v : List Nat) (n : Nat) : List Nat :=
  v.take n ++ List.replicate (n - v.length) 0

/-- The statement `v[i]++`. -/
def incr (v : List Nat) (i : Nat) : List Nat :=
  v.set i (vget v i + 1)

/-- The compressed-column data `(nrow, ncol, colind, row)` of a pattern. -/
structure Sparsity where
  nrow : Nat
  ncol : Nat
  colind : List Nat
  row : List Nat
deriving DecidableEq, Repr

namespace Sparsity

def size1 (p : Sparsity) : Nat := p.nrow

def size2 (p : Sparsity) : Nat := p.ncol

def numel (p : Sparsity) : Nat := p.nrow * p.ncol

/-- Modelled from the spec: `SparsityInternal::nnz` is not among the sources; the data
model gives the number of stored entries as `colind[ncol]`. -/
def nnz (p : Sparsity) : Nat := vget p.colind p.ncol

/-- Modelled from the spec: `SparsityInternal::is_dense` is not among the sources; a
pattern is dense when `nnz == nrow*ncol`. -/
def is_dense (p : Sparsity) : Bool := p.nnz == p.numel

/-- The compressed-column invariant of the data model: `colind` has `ncol+1` entries,
starts at zero and never decreases, `row` has `colind[ncol]` entries, all below `nrow`,
and the rows of one column increase strictly. -/
def wf (p : Sparsity) : Prop :=
  p.colind.length = p.ncol + 1 ∧
  vget p.colind 0 = 0 ∧
  (∀ c, c < p.ncol → vget p.colind c ≤ vget p.colind (c + 1)) ∧
  p.row.length = vget p.colind p.ncol ∧
  (∀ k, k < p.row.length → vget p.row k < p.nrow) ∧
  (∀ c, c < p.ncol → ∀ k, k < p.row.length → vget p.colind c ≤ k →
    k + 1 < vget p.colind (c + 1) → vget p.row k < vget p.row (k + 1))

instance (p : Sparsity) : Decidable p.wf := by
  unfold wf; infer_instance

/-- The pattern stores an entry at `(r, c)`. -/
def has_entry (p : Sparsity) (r c : Nat) : Prop :=
  c < p.ncol ∧ ∃ k, vget p.colind c ≤ k ∧ k < vget p.colind (c + 1) ∧ vget p.row k = r

/-- Modelled from the spec: `SparsityInternal::sanity_check(true)` is not among the
sources; it rejects data that breaks the compressed-column invariant. -/
def sanity_check (p : Sparsity) : Except String Unit :=
  if p.wf then .ok () else .error "sanity_check"

/-- The singleton of `EmptySparsity`. -/
def getEmpty : Sparsity := ⟨0, 0, [0], []⟩

/-- The singleton of `ScalarSparsity`. -/
def getScalar : Sparsity := ⟨1, 1, [0, 1], [0]⟩

/-- The singleton of `ScalarSparseSparsity`; of its one-element `row` buffer the node
keeps `colind[1] = 0` entries. -/
def getScalarSparse : Sparsity := ⟨1, 1, [0, 0], []⟩

/-- The pattern that `Sparsity::assign_cached` leaves in `*this`, by value: the
assertions of the vector overload, the singletons, and otherwise a node holding the
arguments (taken from the cache or created). -/
def assign_cached (nrow ncol : Nat) (colind row : List Nat) : Except String Sparsity :=
  if colind.length ≠ ncol + 1 then .error "colind.size()==ncol+1"
  else if row.length ≠ colind.getLastD 0 then .error "row.size()==colind.back()"
  else if ncol = 0 ∧ nrow = 0 then .ok getEmpty
  else if ncol = 1 ∧ nrow = 1 then
    if vget colind ncol = 0 then .ok getScalarSparse else .ok getScalar
  else .ok ⟨nrow, ncol, colind, row⟩

/-- The constructor `Sparsity(nrow, ncol, colind, row)`: `assign_cached`, then
`sanity_check(true)` on the pattern now held. -/
def ofVectors (nrow ncol : Nat) (colind row : List Nat) : Except String Sparsity :=
  match assign_cached nrow ncol colind row with
  | .error e => .error e
  | .ok p =>
    match sanity_check p with
    | .error e => .error e
    | .ok _ => .ok p

/-- The constructor `Sparsity(nrow, ncol, colind, row)` on `int` data that can be
negative: the assertions `nrow>=0` and `ncol>=0`, which `ofVectors` has from the type of
its arguments, then `assign_cached` and `sanity_check(true)`.  A negative entry of `colind`
or `row` breaks the compressed-column invariant, so with one the call can only end in an
assertion of `assign_cached`, in a singleton, or in the failure of `sanity_check`. -/
def ofInts (nrow ncol : Int) (colind row : List Int) : Except String Sparsity :=
  if ¬ (nrow ≥ 0) then .error "nrow>=0"
  else if ¬ (ncol ≥ 0) then .error "ncol>=0"
  else if colind.all (fun x => decide (0 ≤ x)) && row.all (fun x => decide (0 ≤ x)) then
    ofVectors nrow.toNat ncol.toNat (colind.map Int.toNat) (row.map Int.toNat)
  else if colind.length ≠ ncol.toNat + 1 then .error "colind.size()==ncol+1"
  else if (row.length : Int) ≠ colind.getLastD 0 then .error "row.size()==colind.back()"
  else if ncol = 0 ∧ nrow = 0 then .ok getEmpty
  else if ncol = 1 ∧ nrow = 1 then
    if iget colind 1 = 0 then .ok getScalarSparse else .ok getScalar
  else .error "sanity_check"

/-! ## `Sparsity::triplet` -/

/-- The consistency loop of `triplet`: the bounds of every coordinate, and the flag
`perfectly_ordered`.  The arguments are the rest of `col` and of `row`, then `last_col`,
`last_row` and the flag. -/
def triplet_check (nrow ncol : Nat) :
    List Int → List Int → Int → Int → Bool → Except String Bool
  | c :: cs, r :: rs, last_col, last_row, perfectly_ordered =>
    if ¬ (c ≥ 0 ∧ c < ncol) then .error "Column index out of bounds"
    else if ¬ (r ≥ 0 ∧ r < nrow) then .error "Row index out of bounds"
    else triplet_check nrow ncol cs rs c r
      (perfectly_ordered &&
        (decide (c < last_col) || (decide (c = last_col) && decide (r ≤ last_row))))
  | _, _, _, _, perfectly_ordered => .ok perfectly_ordered

/-- One turn of the offset loop of the quick return:
`while (el<col.size() && col[el]==i) el++; r_colind[i+1] = el`.  The state is
`(el, r_colind)`. -/
def triplet_offset (col : List Nat) (s : Nat × List Nat) (i : Nat) : Option (Nat × List Nat) :=
  match whileFuel (fun el => decide (el < col.length) && decide (vget col el = i))
      (fun el => el + 1) (col.length + 1) s.1 with
  | none => none
  | some el => some (el, s.2.set (i + 1) el)

/-- The offset loop of the quick return, over the columns `i = 0 .. ncol-1`. -/
def triplet_offsets (ncol : Nat) (col : List Nat) (r_colind : List Nat) : Option (List Nat) :=
  match (List.range ncol).foldlM (triplet_offset col) (0, r_colind) with
  | none => none
  | some s => some s.2

/-- The counting loops `for (it in keys) count[*it+1]++`. -/
def triplet_count (keys : List Nat) (count : List Nat) : List Nat :=
  keys.foldl (fun cnt x => incr cnt (x + 1)) count

/-- The loops `for (i=0; i<n; ++i) count[i+1] += count[i]`. -/
def triplet_cumsum (n : Nat) (count : List Nat) : List Nat :=
  (List.range n).foldl (fun cnt i => cnt.set (i + 1) (vget cnt (i + 1) + vget cnt i)) count

/-- The scatter loops `for (x in items) out[count[key[x]]++] = x`; the state is
`(count, out)`. -/
def triplet_scatter (key : List Nat) (items : List Nat) (count out : List Nat) :
    List Nat × List Nat :=
  items.foldl (fun (s : List Nat × List Nat) x =>
      (incr s.1 (vget key x), s.2.set (vget s.1 (vget key x)) x))
    (count, out)

/-- The variables of the last loop of `triplet`: the iterator `it` (as a position in
`mapping1`), `r_el`, `j_prev` and the two work vectors. -/
structure TripletState where
  it : Nat
  r_el : Nat
  j_prev : Int
  mapping1 : List Nat
  mapping2 : List Nat
deriving DecidableEq, Repr

/-- The body of `while (it!=mapping1.end() && col[*it]==i)`.  With `invert_mapping`
the vector `r_row` is `mapping1`, otherwise it is `mapping2`. -/
def triplet_body (row : List Nat) (invert_mapping : Bool) (s : TripletState) : TripletState :=
  let el := vget s.mapping1 s.it
  let it := s.it + 1
  let j := vget row el
  let fresh : Bool := decide ((j : Int) ≠ s.j_prev)
  -- if (j!=j_prev) r_row[r_el++] = j;
  let mapping1 := if fresh && invert_mapping then s.mapping1.set s.r_el j else s.mapping1
  let mapping2 := if fresh && !invert_mapping then s.mapping2.set s.r_el j else s.mapping2
  let r_el := if fresh then s.r_el + 1 else s.r_el
  if invert_mapping then
    { it := it, r_el := r_el, j_prev := j, mapping1 := mapping1,
      mapping2 := mapping2.set el (r_el - 1) }
  else
    { it := it, r_el := r_el, j_prev := j,
      mapping1 := if fresh then mapping1.set (r_el - 1) el else mapping1,
      mapping2 := mapping2 }

/-- One turn of the loop over the columns at the end of `triplet`: `j_prev = -1`, the
`while` loop over the entries of column `i`, then `r_colind[i+1] = r_el`.  The state is
the pair of the loop variables and `r_colind`. -/
def triplet_column (row col : List Nat) (invert_mapping : Bool)
    (s : TripletState × List Nat) (i : Nat) : Option (TripletState × List Nat) :=
  match whileFuel
      (fun t => decide (t.it < t.mapping1.length) && decide (vget col (vget t.mapping1 t.it) = i))
      (triplet_body row invert_mapping) (col.length + 1) { s.1 with j_prev := -1 } with
  | none => none
  | some t => some (t, s.2.set (i + 1) t.r_el)

/-- The loop over the columns at the end of `triplet`, after `r_colind[0] = 0`. -/
def triplet_columns (ncol : Nat) (row col : List Nat) (invert_mapping : Bool)
    (s : TripletState) (r_colind : List Nat) : Option (TripletState × List Nat) :=
  (List.range ncol).foldlM (triplet_column row col invert_mapping) (s, r_colind.set 0 0)

/-- The general path of `triplet` (after the quick return), on checked coordinates:
the vectors `(r_colind, r_row, mapping)` at the final `return`. -/
def triplet_sort (nrow ncol : Nat) (row col : List Nat) (mapping : List Nat)
    (invert_mapping : Bool) : Option (List Nat × List Nat × List Nat) :=
  let r_colind := List.replicate (ncol + 1) 0
  let r_row : List Nat := []
  -- Reuse data
  let mapping1 := if invert_mapping then r_row else mapping
  let mapping2 := if invert_mapping then mapping else r_row
  -- Number of elements in each row: rowcount is mapping1, resized and filled with zeros
  let rowcount := List.replicate (resize mapping1 (nrow + 1)).length 0
  let rowcount := triplet_count row rowcount
  -- Cumsum to get index offset for each row
  let rowcount := triplet_cumsum nrow rowcount
  -- New row for each old row
  let mapping2 := resize mapping2 row.length
  let scattered := triplet_scatter row (List.range row.length) rowcount mapping2
  let rowcount := scattered.1
  let mapping2 := scattered.2
  -- Number of elements in each col: colcount is r_colind
  let colcount := triplet_count (mapping2.map (fun x => vget col x)) r_colind
  -- Cumsum to get index offset for each col
  let colcount := triplet_cumsum ncol colcount
  -- New col for each old col: mapping1 is rowcount
  let mapping1 := resize rowcount col.length
  let scattered := triplet_scatter col mapping2 colcount mapping1
  let r_colind := scattered.1
  let mapping1 := scattered.2
  -- r_row.resize(col.size()), where r_row is mapping1 or mapping2
  let mapping1 := if invert_mapping then resize mapping1 col.length else mapping1
  let mapping2 := if invert_mapping then mapping2 else resize mapping2 col.length
  -- Loop over columns
  match triplet_columns ncol row col invert_mapping
      { it := 0, r_el := 0, j_prev := -1, mapping1 := mapping1, mapping2 := mapping2 } r_colind with
  | none => none
  | some (s, r_colind) =>
    -- r_row.resize(r_el); if (!invert_mapping) mapping1.resize(r_el)
    if invert_mapping then
      some (r_colind, resize s.mapping1 s.r_el, s.mapping2)
    else
      some (r_colind, resize s.mapping2 s.r_el, resize s.mapping1 s.r_el)

/-- The vectors `(r_colind, r_row, mapping)` that `Sparsity::triplet` has built when it
calls the constructor `Sparsity(nrow, ncol, r_colind, r_row)`. -/
def triplet_vectors (nrow ncol : Nat) (row col : List Int) (mapping : List Nat)
    (invert_mapping : Bool) : Except String (List Nat × List Nat × List Nat) :=
  if col.length ≠ row.length then .error "inconsistent lengths"
  else
    match triplet_check nrow ncol col row (-1) (-1) true with
    | .error e => .error e
    | .ok perfectly_ordered =>
      if perfectly_ordered then
        -- Quick return: r_row is a copy of row, mapping is the identity
        match triplet_offsets ncol (col.map Int.toNat) (List.replicate (ncol + 1) 0) with
        | none => .error "out of fuel"
        | some r_colind => .ok (r_colind, row.map Int.toNat, List.range row.length)
      else
        match triplet_sort nrow ncol (row.map Int.toNat) (col.map Int.toNat) mapping
            invert_mapping with
        | none => .error "out of fuel"
        | some v => .ok v

/-- The call `Sparsity::triplet(nrow, ncol, row, col, mapping, invert_mapping)`: the
returned pattern and the final content of `mapping`. -/
def triplet (nrow ncol : Nat) (row col : List Int) (mapping : List Nat)
    (invert_mapping : Bool) : Except String (Sparsity × List Nat) :=
  match triplet_vectors nrow ncol row col mapping invert_mapping with
  | .error e => .error e
  | .ok v =>
    match ofVectors nrow ncol v.1 v.2.1 with
    | .error e => .error e
    | .ok p => .ok (p, v.2.2)

/-! ## `Sparsity::dense`, `Sparsity::compress` and `Sparsity::compressed` -/

/-- The loop `for (cc=0; cc<ncol+1; ++cc) colind[cc] = cc*nrow` of `dense`. -/
def dense_colind (nrow ncol : Nat) : List Nat :=
  forLoop 0 (ncol + 1) (fun colind cc => colind.set cc (cc * nrow)) (List.replicate (ncol + 1) 0)

/-- The loops `for (cc<ncol) for (rr<nrow) row[rr+cc*nrow] = rr` of `dense`. -/
def dense_row (nrow ncol : Nat) : List Nat :=
  forLoop 0 ncol (fun row cc => forLoop 0 nrow (fun row rr => row.set (rr + cc * nrow) rr) row)
    (List.replicate (ncol * nrow) 0)

/-- The call `Sparsity::dense(nrow, ncol)`.  The vector `row` is created with the `int`
product `ncol*nrow` as its size, and the loops write `row[rr+cc*nrow]` for each of the
`ncol*nrow` pairs `(cc, rr)`, at the indices `0, 1, 2, ...` in this order.  When the
product does not fit an `int`, the size is negative or smaller than the number of writes:
the vector is not created or the loop leaves it, and the call returns no pattern.
Otherwise no product `cc*nrow` wraps. -/
def dense (nrow ncol : Nat) : Except String Sparsity :=
  -- std::vector<int> row(ncol*nrow)
  if wrap ((ncol : Int) * (nrow : Int)) < ((ncol * nrow : Nat) : Int) then
    .error "out of range: row[rr+cc*nrow]"
  else ofVectors nrow ncol (dense_colind nrow ncol) (dense_row nrow ncol)

/-- The call `Sparsity::compressed(const int* v)`, on the buffer that `v` points to. -/
def compressed_ptr (v : List Nat) : Except String Sparsity :=
  let nrow := vget v 0
  let ncol := vget v 1
  let colind := v.drop 2
  if vget colind 0 = 1 then
    -- Dense matrix
    dense nrow ncol
  else
    let nnz := vget colind ncol
    -- nrow*ncol == nnz, on ints: `wrap` leaves every `int` of the buffer as it is
    if wrap ((nrow : Int) * (ncol : Int)) = wrap (nnz : Int) then
      -- Dense matrix
      dense nrow ncol
    else
      -- Sparse matrix
      let row := v.drop (2 + ncol + 1)
      ofVectors nrow ncol (colind.take (ncol + 1)) (row.take nnz)

/-- The call `Sparsity::compressed(const std::vector<int>& v)`. -/
def compressed (v : List Nat) : Except String Sparsity :=
  if ¬ (v.length ≥ 2) then .error "v.size() >= 2"
  else
    let nrow := vget v 0
    let ncol := vget v 1
    if ¬ (v.length ≥ 2 + ncol + 1) then .error "v.size() >= 2 + ncol+1"
    else
      let nnz := vget v (2 + ncol)
      -- nrow*ncol==nnz, on ints: `wrap` leaves every `int` of the vector as it is
      let dense : Bool := decide (v.length = 2 + ncol + 1) &&
        decide (wrap ((nrow : Int) * (ncol : Int)) = wrap (nnz : Int))
      let sparse : Bool := decide (v.length = 2 + ncol + 1 + nnz)
      if ¬ (dense || sparse) then .error "dense || sparse"
      else compressed_ptr v

/-! ## `Sparsity::add_nz` -/

/-- The search loop of `add_nz`,
`for (ind=colind[cc]; ind<colind[cc+1]; ++ind) { if (row[ind]==rr) return ind; else if (row[ind]>rr) break; }`,
with `n` turns left: `Sum.inl ind` when the element exists, `Sum.inr ind` for the place
where it is to be added. -/
def add_nz_search (row : List Nat) (rr : Nat) : Nat → Nat → Sum Nat Nat
  | 0, ind => .inr ind
  | n + 1, ind =>
    if vget row ind = rr then .inl ind
    else if vget row ind > rr then .inr ind
    else add_nz_search row rr n (ind + 1)

/-- The body of `add_nz` after the consistency check, with the checked (non-negative)
indices: the returned index, or the failure, and the pattern that the reference holds
afterwards. -/
def add_nz_checked (p : Sparsity) (rr cc : Nat) : Except String Nat × Sparsity :=
  -- Quick return if matrix is dense
  if p.is_dense then (.ok (rr + cc * p.size1), p)
  else
    let size1 := p.size1
    let size2 := p.size2
    let nnz := p.nnz
    let colind := p.colind
    let row := p.row
    -- Quick return if we are adding an element to the end
    if vget colind cc = nnz ∨ (vget colind (cc + 1) = nnz ∧ vget row (nnz - 1) < rr) then
      -- rowv(nnz+1); copy(row, row+nnz, rowv.begin()); rowv[nnz] = rr
      let rowv := (resize (row.take nnz) (nnz + 1)).set nnz rr
      -- colindv(colind, colind+size2+1); for (c=cc; c<size2; ++c) colindv[c+1]++
      let colindv := forLoop cc size2 (fun v c => incr v (c + 1)) (colind.take (size2 + 1))
      match assign_cached size1 size2 colindv rowv with
      | .error e => (.error e, p)
      | .ok q => (.ok (rowv.length - 1), q)
    else
      -- go to the place where the element should be
      match add_nz_search row rr (vget colind (cc + 1) - vget colind cc) (vget colind cc) with
      | .inl ind => (.ok ind, p)
      | .inr ind =>
        -- insert the element: rowv.insert(rowv.begin()+ind, rr);
        -- for (c=cc+1; c<size2+1; ++c) colindv[c]++
        let rowv := row.take ind ++ rr :: row.drop ind
        let colindv := forLoop (cc + 1) (size2 + 1) (fun v c => incr v c) colind
        match assign_cached size1 size2 colindv rowv with
        | .error e => (.error e, p)
        | .ok q => (.ok ind, q)

/-- The call `p.add_nz(rr, cc)`: the returned index, or the failure, and the pattern that
the reference holds afterwards. -/
def add_nz (p : Sparsity) (rr cc : Int) : Except String Nat × Sparsity :=
  -- If negative index, count from the back
  let rr := if rr < 0 then rr + p.size1 else rr
  let cc := if cc < 0 then cc + p.size2 else cc
  -- Check consistency
  if ¬ (rr ≥ 0 ∧ rr < p.size1) then (.error "Row index out of bounds", p)
  else if ¬ (cc ≥ 0 ∧ cc < p.size2) then (.error "Column index out of bounds", p)
  else add_nz_checked p rr.toNat cc.toNat

end Sparsity

/-! ## The cache of `Sparsity::assign_cached` -/

/-- A shared `SparsityInternal` node: one of the three singletons, or a node created by
`assign_cached`, named by its serial number. -/
inductive Instance where
  | getEmpty
  | getScalar
  | getScalarSparse
  | node (id : Nat)
deriving DecidableEq, Repr

/-- The process-wide state around the cache: the serial number of the next node, the nodes
that are alive with their content, the entries `(hash, weak reference)` of the multimap
in the order of iteration, and its `bucket_count()`. -/
structure Cache where
  next : Nat
  live : List (Nat × Sparsity)
  entries : List (Nat × Nat)
  buckets : Nat
deriving Repr

namespace Cache

/-- The call `wref.alive()`. -/
def alive (st : Cache) (id : Nat) : Bool :=
  st.live.any (fun n => n.1 == id)

/-- Modelled from the spec: `ref.is_equal(nrow, ncol, colind, row)` for the node behind a
weak reference; `SparsityInternal::is_equal` is not among the sources, it is the full
comparison of the four components. -/
def is_equal (st : Cache) (id : Nat) (t : Sparsity) : Bool :=
  st.live.any (fun n => n.1 == id && n.2 == t)

/-- The outcome of the loop over `cache.equal_range(h)`. -/
inductive Lookup where
  | found (id : Nat)
  | reuse (index : Nat)
  | missing
deriving DecidableEq, Repr

/-- The loop over `cache.equal_range(h)`: entries with another key are not in the range; a
live entry is adopted when it is equal and skipped otherwise; at the first dead entry the
rest of the range is searched for a live equal entry, and without one the dead entry is
reused.  `index` is the position of the first listed entry in the multimap. -/
def lookup (st : Cache) (h : Nat) (t : Sparsity) : List (Nat × Nat) → Nat → Lookup
  | [], _ => .missing
  | e :: rest, index =>
    if e.1 ≠ h then lookup st h t rest (index + 1)
    else if st.alive e.2 then
      if st.is_equal e.2 t then .found e.2 else lookup st h t rest (index + 1)
    else
      match rest.find? (fun j => j.1 == h && st.alive j.2 && st.is_equal j.2 t) with
      | some j => .found j.2
      | none => .reuse index

/-- The call `assign_cached(nrow, ncol, colind, row)` (pointer overload) on the tuple `t`
with hash function `hash`: the new state and the instance that `*this` owns afterwards.
Where `cache.insert` places the entry (`position`) and the bucket count afterwards
(`buckets_after`) are left to the library and are arguments here. -/
def assign_cached (hash : Sparsity → Nat) (position buckets_after : Nat) (st : Cache)
    (t : Sparsity) : Cache × Instance :=
  -- Scalars and empty patterns are handled separately
  if t.ncol = 0 ∧ t.nrow = 0 then (st, .getEmpty)
  else if t.ncol = 1 ∧ t.nrow = 1 then
    if vget t.colind t.ncol = 0 then (st, .getScalarSparse) else (st, .getScalar)
  else
    let h := hash t
    let bucket_count_before := st.buckets
    let created : Cache := { st with next := st.next + 1, live := (st.next, t) :: st.live }
    match (if bucket_count_before > 0 then lookup st h t st.entries 0 else .missing) with
    | .found id => (st, .node id)
    | .reuse index =>
      -- The cached entry has been deleted, create a new one: wref = *this
      ({ created with entries := st.entries.set index (h, st.next) }, .node st.next)
    | .missing =>
      -- No matching sparsity pattern could be found, create a new one and cache it
      let inserted : Cache :=
        { created with
          entries := st.entries.take position ++ (h, st.next) :: st.entries.drop position,
          buckets := buckets_after }
      -- garbage-collect deleted references when the number of buckets has changed
      if bucket_count_before ≠ buckets_after then
        ({ inserted with entries := inserted.entries.filter (fun e => inserted.alive e.2) },
          .node st.next)
      else (inserted, .node st.next)

/-- The data `(nrow, ncol, colind, row)` held by an instance. -/
def content (st : Cache) : Instance → Option Sparsity
  | .getEmpty => some Sparsity.getEmpty
  | .getScalar => some Sparsity.getScalar
  | .getScalarSparse => some Sparsity.getScalarSparse
  | .node id => (st.live.find? (fun n => n.1 == id)).map (fun n => n.2)

/-- The last owning reference to node `id` is dropped: the node is destroyed and every
weak reference to it is dead from now on. -/
def release (st : Cache) (id : Nat) : Cache :=
  { st with live := st.live.filter (fun n => n.1 != id) }

/-- The states of the cache that a program can reach: from the empty cache by calls of
`assign_cached` and by nodes dying.  A multimap that holds an entry has a bucket. -/
inductive Reachable (hash : Sparsity → Nat) : Cache → Prop where
  | init (buckets : Nat) : Reachable hash ⟨0, [], [], buckets⟩
  | assign (st : Cache) (t : Sparsity) (position buckets_after : Nat) :
      Reachable hash st → 0 < buckets_after →
      Reachable hash (assign_cached hash position buckets_after st t).1
  | release (st : Cache) (id : Nat) : Reachable hash st → Reachable hash (release st id)

end Cache

/-! ## `Linsol::linsol_spsolve` -/

/-- The members of `Linsol` that `linsol_spsolve` reads: the pattern of `A` and the block
triangular decomposition stored by the constructor. -/
structure Linsol where
  sparsity : Sparsity
  rowperm : List Nat
  colperm : List Nat
  rowblock : List Nat
  colblock : List Nat
deriving Repr

namespace Linsol

/-- One block of the forward sweep of `linsol_spsolve`. -/
def spsolve_forward_block (self : Linsol) (B : List Nat) (X : List Nat) (b : Nat) : List Nat :=
  let A_colind := self.sparsity.colind
  let A_row := self.sparsity.row
  -- Get dependencies from all right-hand-sides in the block ...
  let block_dep := forLoop (vget self.rowblock b) (vget self.rowblock (b + 1))
    (fun dep el => dep ||| vget B (vget self.rowperm el)) 0
  -- ... as well as all other variables in the block
  let block_dep := forLoop (vget self.colblock b) (vget self.colblock (b + 1))
    (fun dep el => dep ||| vget X (vget self.colperm el)) block_dep
  -- Propagate ...
  forLoop (vget self.colblock b) (vget self.colblock (b + 1))
    (fun X el =>
      let cc := vget self.colperm el
      -- ... to all variables in the block ...
      let X := X.set cc (vget X cc ||| block_dep)
      -- ... as well as to other variables which depends on variables in the block
      forLoop (vget A_colind cc) (vget A_colind (cc + 1))
        (fun X k => X.set (vget A_row k) (vget X (vget A_row k) ||| block_dep)) X)
    X

/-- One block of the transposed sweep of `linsol_spsolve`. -/
def spsolve_transposed_block (self : Linsol) (B : List Nat) (X : List Nat) (b : Nat) : List Nat :=
  let A_colind := self.sparsity.colind
  let A_row := self.sparsity.row
  -- Get dependencies ...
  let block_dep := forLoop (vget self.colblock b) (vget self.colblock (b + 1))
    (fun dep el =>
      let cc := vget self.colperm el
      -- .. from all right-hand-sides in the block ...
      let dep := dep ||| vget B cc
      -- ... as well as from all depending variables ...
      forLoop (vget A_colind cc) (vget A_colind (cc + 1))
        (fun dep k => dep ||| vget X (vget A_row k)) dep)
    0
  -- Propagate to all variables in the block
  forLoop (vget self.rowblock b) (vget self.rowblock (b + 1))
    (fun X el => X.set (vget self.rowperm el) (vget X (vget self.rowperm el) ||| block_dep)) X

/-- The call `linsol_spsolve(X, B, tr)`: the content of `X` afterwards. -/
def linsol_spsolve (self : Linsol) (X B : List Nat) (tr : Bool) : List Nat :=
  let nb := self.rowblock.length - 1
  if !tr then
    -- loop over the blocks forward
    forLoop 0 nb (spsolve_forward_block self B) X
  else
    -- loop over the blocks backward
    (List.range nb).reverse.foldl (spsolve_transposed_block self B) X

end Linsol

end casadi

namespace casadi
namespace Sparsity

/-! ## `Sparsity::horzcat`, `Sparsity::vertcat` and `Sparsity::horzsplit` -/

/-- The constructor `Sparsity(nrow, ncol)`: `row` is empty and `colind` holds `ncol+1`
zeros. -/
def ofDims (nrow ncol : Nat) : Except String Sparsity :=
  match assign_cached nrow ncol (List.replicate (ncol + 1) 0) [] with
  | .error e => .error e
  | .ok p =>
    match sanity_check p with
    | .error e => .error e
    | .ok _ => .ok p

/-- The overload `Sparsity::triplet(nrow, ncol, row, col)`: a local, empty `mapping` and
no inversion. -/
def triplet_rc (nrow ncol : Nat) (row col : List Int) : Except String Sparsity :=
  match triplet nrow ncol row col [] false with
  | .error e => .error e
  | .ok r => .ok r.1

/-- The loop `for (i=0; i<sp.size() && ret_nrow==0; ++i) ret_nrow = sp[i].size1()` of
`horzcat`, from the pattern `sp[i]` on. -/
def horzcat_nrow : List Sparsity → Nat → Nat
  | [], ret_nrow => ret_nrow
  | p :: sp, ret_nrow => if ret_nrow = 0 then horzcat_nrow sp p.size1 else ret_nrow

/-- The triplet vectors and the column offset that `horzcat` builds. -/
structure HorzcatState where
  ret_row : List Int
  ret_col : List Int
  ret_ncol : Nat
deriving DecidableEq, Repr

/-- The loops `for (cc<sp_ncol) for (k=sp_colind[cc]; k<sp_colind[cc+1]; ++k)` of `horzcat`
with the two calls of `push_back`. -/
def horzcat_entries (p : Sparsity) (s : HorzcatState) : HorzcatState :=
  forLoop 0 p.size2 (fun s cc =>
    forLoop (vget p.colind cc) (vget p.colind (cc + 1)) (fun s k =>
      { s with ret_row := s.ret_row ++ [(vget p.row k : Int)],
               ret_col := s.ret_col ++ [((cc + s.ret_ncol : Nat) : Int)] }) s) s

/-- The loop "Append all patterns" of `horzcat`, from the iterator `i` on. -/
def horzcat_append (ret_nrow : Nat) : List Sparsity → HorzcatState → Except String HorzcatState
  | [], s => .ok s
  | p :: sp, s =>
    if ¬ (p.size1 = ret_nrow ∨ p.size1 = 0) then
      .error "Sparsity::horzcat: Mismatching number of rows"
    else
      -- Add entries to pattern
      let s := horzcat_entries p s
      -- Update offset
      horzcat_append ret_nrow sp { s with ret_ncol := s.ret_ncol + p.size2 }

/-- The call `Sparsity::horzcat(sp)`.  The count `nnz_total` only sizes the two calls of
`reserve`. -/
def horzcat (sp : List Sparsity) : Except String Sparsity :=
  match sp with
  -- Quick return if possible
  | [] => ofDims 0 0
  | [p] => .ok p
  | _ =>
    let ret_nrow := horzcat_nrow sp 0
    match horzcat_append ret_nrow sp ⟨[], [], 0⟩ with
    | .error e => .error e
    | .ok s => triplet_rc ret_nrow s.ret_ncol s.ret_row s.ret_col

/-- Modelled from the spec: `is_nondecreasing` of `std_vector_tools.hpp` is not among the
sources; no element is smaller than the one before it. -/
def is_nondecreasing : List Int → Bool
  | a :: b :: v => decide (a ≤ b) && is_nondecreasing (b :: v)
  | _ => true

/-- Modelled from the spec: `is_nonincreasing` of `std_vector_tools.hpp` is not among the
sources; no element is larger than the one before it. -/
def is_nonincreasing : List Int → Bool
  | a :: b :: v => decide (b ≤ a) && is_nonincreasing (b :: v)
  | _ => true

/-- Modelled from the spec: `is_monotone` of `std_vector_tools.hpp` is not among the
sources; a sequence is monotone when it never decreases or never increases. -/
def is_monotone (v : List Int) : Bool :=
  is_nondecreasing v || is_nonincreasing v

/-- The work vectors `colind` and `row` of `horzsplit`, which are kept from one output to
the next, and the list `ret`. -/
structure HorzsplitState where
  colind : List Nat
  row : List Nat
  ret : List Sparsity
deriving DecidableEq, Repr

/-- The body of the loop `for (i=0; i<n; ++i)` of `horzsplit`. -/
def horzsplit_body (x : Sparsity) (offset : List Nat) (s : HorzsplitState) (i : Nat) :
    Except String HorzsplitState :=
  let first_col := vget offset i
  let last_col := vget offset (i + 1)
  let ncol := last_col - first_col
  -- colind.resize(ncol+1); copy(colind_x+first_col, colind_x+last_col+1, colind.begin())
  let colind := resize s.colind (ncol + 1)
  let colind := forLoop 0 (last_col + 1 - first_col)
    (fun v j => v.set j (vget x.colind (first_col + j))) colind
  -- for (it=colind.begin()+1; it!=colind.end(); ++it) *it -= colind[0]
  let colind := forLoop 1 colind.length (fun v j => v.set j (vget v j - vget v 0)) colind
  let colind := colind.set 0 0
  -- row.resize(colind.back()); copy(row_x+colind_x[first_col], row_x+colind_x[last_col], row.begin())
  let row := resize s.row (colind.getLastD 0)
  let row := forLoop 0 (vget x.colind last_col - vget x.colind first_col)
    (fun v j => v.set j (vget x.row (vget x.colind first_col + j))) row
  -- Append to the list
  match ofVectors x.size1 ncol colind row with
  | .error e => .error e
  | .ok p => .ok ⟨colind, row, s.ret ++ [p]⟩

/-- One turn of the loop of `horzsplit`; an exception thrown in an earlier turn has ended
the loop. -/
def horzsplit_step (x : Sparsity) (offset : List Nat) (s : Except String HorzsplitState)
    (i : Nat) : Except String HorzsplitState :=
  match s with
  | .error e => .error e
  | .ok s => horzsplit_body x offset s i

/-- The call `Sparsity::horzsplit(x, offset)`.  Past the four checks every offset lies
between `0` and `x.size2()`, and is read as a `Nat`. -/
def horzsplit (x : Sparsity) (offset : List Int) : Except String (List Sparsity) :=
  -- Consistency check
  if ¬ (offset.length ≥ 1) then .error "offset.size()>=1"
  else if ¬ (offset.headD 0 = 0) then .error "offset.front()==0"
  else if ¬ (offset.getLastD 0 = (x.size2 : Int)) then
    .error "horzsplit(Sparsity, std::vector<int>): Last elements of offset must equal the number of columns"
  else if ¬ (is_monotone offset = true) then .error "is_monotone(offset)"
  else
    -- Number of outputs
    let n := offset.length - 1
    let offset := offset.map Int.toNat
    -- Get the sparsity patterns of the outputs
    match forLoop 0 n (horzsplit_step x offset) (.ok ⟨[], [], []⟩) with
    | .error e => .error e
    | .ok s => .ok s.ret

/-! ## `Sparsity::sprank` and `Sparsity::is_singular` -/

end Sparsity

/-- What `Sparsity::btf` hands back: its return value and the six vectors that it fills.
`SparsityInternal::btf` is not among the sources; the functions that call it take it as
the parameter `btf`. -/
structure Btf where
  nb : Nat
  rowperm : List Nat
  colperm : List Nat
  rowblock : List Nat
  colblock : List Nat
  coarse_rowblock : List Nat
  coarse_colblock : List Nat
deriving DecidableEq, Repr

namespace Sparsity

/-- The call `Sparsity::sprank(x)`: `coarse_colblock.at(3)` of the decomposition, where
`at` throws outside the vector. -/
def sprank (btf : Sparsity → Btf) (x : Sparsity) : Except String Nat :=
  match (btf x).coarse_colblock[3]? with
  | some r => .ok r
  | none => .error "vector::at"

/-- Modelled from the spec: `SparsityInternal::is_square` is not among the sources; a
pattern is square when it has as many rows as columns. -/
def is_square (p : Sparsity) : Bool := p.size1 == p.size2

/-- The call `x.is_singular()`. -/
def is_singular (btf : Sparsity → Btf) (x : Sparsity) : Except String Bool :=
  if ¬ (x.is_square = true) then .error "is_singular: only defined for square matrices"
  else
    match sprank btf x with
    | .error e => .error e
    | .ok r => .ok (r != x.size2)

end Sparsity

/-! ## The constructor of `Linsol` and `Linsol::eval` -/

namespace LinsolNode

end LinsolNode

end casadi

namespace casadi

/-- The read `v[i]` of a `std::vector<bool>`. -/
def bget (v : List Bool) (i : Nat) : Bool := v.getD i false

namespace Sparsity

/-! ## `Sparsity::diagcat` and `Sparsity::kron` -/

/-- The local variables of `diagcat`; `n`, `m` and `nz` are `int`s that take up the
dimensions and entry counts of the parts. -/
structure DiagcatState where
  n : Int
  m : Int
  colind : List Int
  row : List Int
  nz : Int
deriving DecidableEq, Repr

/-- The body of the loop `for (i=0; i<v.size(); ++i)` of `diagcat`, for the pattern
`v[i]`. -/
def diagcat_body (s : DiagcatState) (p : Sparsity) : DiagcatState :=
  let colind_ := p.colind
  let ncol := p.size2
  let row_ := p.row
  let sz := p.nnz
  -- for (k=1; k<ncol+1; ++k) colind.push_back(colind_[k]+nz)
  let colind := forLoop 1 (ncol + 1)
    (fun colind k => colind ++ [wrap ((vget colind_ k : Int) + s.nz)]) s.colind
  -- for (k=0; k<sz; ++k) row.push_back(row_[k]+m)
  let row := forLoop 0 sz (fun row k => row ++ [wrap ((vget row_ k : Int) + s.m)]) s.row
  -- n+= v[i].size2(); m+= v[i].size1(); nz+= v[i].nnz()
  { n := wrap (s.n + (p.size2 : Int)), m := wrap (s.m + (p.size1 : Int)), colind := colind,
    row := row, nz := wrap (s.nz + (p.nnz : Int)) }

/-- The call `Sparsity::diagcat(v)`. -/
def diagcat (v : List Sparsity) : Except String Sparsity :=
  let s := v.foldl diagcat_body { n := 0, m := 0, colind := [0], row := [], nz := 0 }
  ofInts s.m s.n s.colind s.row

/-- The vectors `r_colind` and `r_row` of `kron` and the counters `i` and `j`. -/
structure KronState where
  r_colind : List Int
  r_row : List Int
  i : Nat
  j : Nat
deriving DecidableEq, Repr

/-- The two loops "Loop over existing nonzeros" of `kron`, over the nonzeros
`a_start..a_stop` of a column of `a` and the nonzeros `b_start..b_stop` of a column of
`b`. -/
def kron_nonzeros (a b : Sparsity) (a_start a_stop b_start b_stop : Nat) (s : KronState) :
    KronState :=
  let b_nrow := b.size1
  forLoop a_start a_stop (fun s a_el =>
    let a_r := vget a.row a_el
    -- Loop over existing nonzeros
    forLoop b_start b_stop (fun (s : KronState) b_el =>
      let b_r := vget b.row b_el
      -- r_row_ptr[i++] = a_r*b_nrow+b_r
      { s with r_row := s.r_row.set s.i (wrap (wrap ((a_r : Int) * (b_nrow : Int)) + (b_r : Int))),
               i := s.i + 1 }) s) s

/-- The body of the loop of `kron` over the columns `b_cc` of `b`, for the column `a_cc`
of `a`. -/
def kron_column (a b : Sparsity) (a_cc b_cc : Nat) (s : KronState) : KronState :=
  let a_start := vget a.colind a_cc
  let a_stop := vget a.colind (a_cc + 1)
  let b_start := vget b.colind b_cc
  let b_stop := vget b.colind (b_cc + 1)
  let s := kron_nonzeros a b a_start a_stop b_start b_stop s
  -- j+=1; r_colind_ptr[j] = r_colind_ptr[j-1] + (b_stop-b_start)*(a_stop-a_start)
  let j := s.j + 1
  { s with j := j,
           r_colind := s.r_colind.set j
             (wrap (iget s.r_colind (j - 1) +
               wrap (((b_stop : Int) - (b_start : Int)) * ((a_stop : Int) - (a_start : Int))))) }

/-- The loops of `kron` over the columns of `a` and the columns of `b`, on the vectors
`r_colind(a_ncol*b_ncol+1, 0)` and `r_row(a.nnz()*b.nnz())`. -/
def kron_loop (a b : Sparsity) : KronState :=
  let a_ncol := a.size2
  let b_ncol := b.size2
  -- Loop over the columns
  forLoop 0 a_ncol (fun s a_cc =>
    -- Loop over the columns
    forLoop 0 b_ncol (fun s b_cc => kron_column a b a_cc b_cc s) s)
    { r_colind := List.replicate (wrap ((a_ncol : Int) * (b_ncol : Int)) + 1).toNat 0,
      r_row := List.replicate (wrap ((a.nnz : Int) * (b.nnz : Int))).toNat 0, i := 0, j := 0 }

/-- The part of `kron` after the quick return for two dense patterns.  The two vectors
are created with `int` products as sizes, and the loops write through the pointers
`r_row_ptr` and `r_colind_ptr`, the elements `0..i-1` and `1..j` for the final values of
the counters: with a negative size, or a size below what is written, the call returns no
pattern. -/
def kron_general (a b : Sparsity) : Except String Sparsity :=
  let size_colind := wrap ((a.size2 : Int) * (b.size2 : Int)) + 1
  let size_row := wrap ((a.nnz : Int) * (b.nnz : Int))
  if size_colind < 0 ∨ size_row < 0 then .error "std::length_error"
  else
    let s := kron_loop a b
    if size_row < (s.i : Int) ∨ (0 < s.j ∧ size_colind ≤ (s.j : Int)) then
      .error "out of range: r_row_ptr[i++], r_colind_ptr[j]"
    else
      ofInts (wrap ((a.size1 : Int) * (b.size1 : Int))) (wrap ((a.size2 : Int) * (b.size2 : Int)))
        s.r_colind s.r_row

/-- The call `Sparsity::kron(a, b)`; `dense` starts with the assertions `nrow>=0` and
`ncol>=0` on the two `int` products it is given. -/
def kron (a b : Sparsity) : Except String Sparsity :=
  if a.is_dense && b.is_dense then
    let nrow := wrap ((a.size1 : Int) * (b.size1 : Int))
    let ncol := wrap ((a.size2 : Int) * (b.size2 : Int))
    if ¬ (nrow ≥ 0) then .error "nrow>=0"
    else if ¬ (ncol ≥ 0) then .error "ncol>=0"
    else dense nrow.toNat ncol.toNat
  else kron_general a b

/-! ## `Sparsity::norm_0_mul` -/

/-- The work vector `Iwork` in the first pass of `norm_0_mul`: its first `n_row+1`
entries `Cp`, its last `n_col` entries `mask`, and the counter `nnz`. -/
structure Pass1State where
  Cp : List Int
  mask : List Int
  nnz : Int
deriving DecidableEq, Repr

/-- The first pass of `norm_0_mul`. -/
def norm_0_mul_pass1 (x A : Sparsity) : Pass1State :=
  let n_row := A.size2
  let n_col := x.size1
  let Aj := A.row
  let Ap := A.colind
  let Bj := x.row
  let Bp := x.colind
  -- std::fill(mask, mask+n_col, -1); Cp[0] = 0; int nnz = 0
  forLoop 0 n_row (fun s i =>
    -- int row_nnz = 0
    let r := forLoop (vget Ap i) (vget Ap (i + 1)) (fun r jj =>
      let j := vget Aj jj
      forLoop (vget Bp j) (vget Bp (j + 1)) (fun (r : List Int × Int) kk =>
        let k := vget Bj kk
        -- if (mask[k] != i) { mask[k] = i; row_nnz++; }
        if iget r.1 k ≠ (i : Int) then (r.1.set k (i : Int), wrap (r.2 + 1)) else r) r)
      (s.mask, 0)
    let next_nnz := wrap (s.nnz + r.2)
    { Cp := s.Cp.set (i + 1) next_nnz, mask := r.1, nnz := next_nnz })
    { Cp := (List.replicate (n_row + 1) 0).set 0 0, mask := List.replicate n_col (-1), nnz := 0 }

/-- The second pass of `norm_0_mul`: `next` takes the place of `mask` in `Iwork`, and
`sums` is `Bwork`; `head` and `length` are the local variables of one turn.  The counter
`nnz` is an `int`; `length` counts the rows linked in one turn, each once, and stays
below `n_col`. -/
structure Pass2State where
  Cp : List Int
  next : List Int
  sums : List Bool
  nnz : Int
  head : Int
  length : Nat
deriving DecidableEq, Repr

/-- The body of the innermost loop of the second pass, for the row `k = Bj[kk]`. -/
def norm_0_mul_mark (s : Pass2State) (k : Nat) : Pass2State :=
  -- sums[k] = true
  let s := { s with sums := s.sums.set k true }
  -- if (next[k] == -1) { next[k] = head; head = k; length++; }
  if iget s.next k = -1 then
    { s with next := s.next.set k s.head, head := (k : Int), length := s.length + 1 }
  else s

/-- The loops of the second pass over the nonzeros of column `i` of `A` and of the
matching columns of `x`. -/
def norm_0_mul_scan (x A : Sparsity) (s : Pass2State) (i : Nat) : Pass2State :=
  forLoop (vget A.colind i) (vget A.colind (i + 1)) (fun s jj =>
    let j := vget A.row jj
    forLoop (vget x.colind j) (vget x.colind (j + 1)) (fun (s : Pass2State) kk =>
      norm_0_mul_mark s (vget x.row kk)) s) s

/-- The body of the loop `for (jj=0; jj<length; jj++)` of the second pass. -/
def norm_0_mul_pop (s : Pass2State) : Pass2State :=
  -- if (sums[head]) nnz++
  let nnz := if bget s.sums s.head.toNat then wrap (s.nnz + 1) else s.nnz
  let temp := s.head
  let head := iget s.next s.head.toNat
  -- next[temp] = -1; sums[temp] = 0
  { s with nnz := nnz, head := head, next := s.next.set temp.toNat (-1),
           sums := s.sums.set temp.toNat false }

/-- The loop `for (jj=0; jj<length; jj++)` of the second pass. -/
def norm_0_mul_count (s : Pass2State) : Pass2State :=
  forLoop 0 s.length (fun (s : Pass2State) _ => norm_0_mul_pop s) s

/-- The body of the loop of the second pass over the columns `i` of `A`. -/
def norm_0_mul_column (x A : Sparsity) (s : Pass2State) (i : Nat) : Pass2State :=
  let s := { s with head := -2, length := 0 }
  let s := norm_0_mul_scan x A s i
  let s := norm_0_mul_count s
  { s with Cp := s.Cp.set (i + 1) s.nnz }

/-- The call `Sparsity::norm_0_mul(x, A)`, with its `int` result.  The work vector
`Iwork` is created with the `int` sum `n_row+1+n_col` as its size and the two passes use
each of its `n_row+1+n_col` elements: when the sum does not fit an `int`, the vector is
not created or the passes leave it, and the call returns no count. -/
def norm_0_mul (x A : Sparsity) : Except String Int :=
  if ¬ (A.size1 = x.size2) then .error "Dimension error."
  else
    let n_row := A.size2
    let n_col := x.size1
    -- std::vector<int> Iwork(n_row+1+n_col)
    if wrap ((n_row : Int) + 1 + (n_col : Int)) < ((n_row + 1 + n_col : Nat) : Int) then
      .error "out of range: Iwork"
    else
      -- Pass 1
      let p := norm_0_mul_pass1 x A
      -- Pass 2: std::fill(next, next+n_col, -1); std::fill(sums.begin(), sums.end(), false)
      let s := forLoop 0 n_row (norm_0_mul_column x A)
        { Cp := p.Cp.set 0 0, next := p.mask.map (fun _ => -1),
          sums := List.replicate n_col false, nnz := 0, head := 0, length := 0 }
      .ok s.nnz

/-! ## `Sparsity::mul_sparsityF` and `Sparsity::mul_sparsityR` -/

/-- The buffers `x`, `y`, `z` and `w` of `mul_sparsityF` and `mul_sparsityR`, and the
indices at which `w` has been read or written, in order. -/
structure MulState where
  x : List Nat
  y : List Nat
  z : List Nat
  w : List Nat
  w_index : List Nat
deriving DecidableEq, Repr

/-- The loop "Get the dense column of z" of `mul_sparsityF` and `mul_sparsityR`. -/
def mul_load (z_sp : Sparsity) (cc : Nat) (s : MulState) : MulState :=
  forLoop (vget z_sp.colind cc) (vget z_sp.colind (cc + 1)) (fun (s : MulState) kk =>
    -- w[z_row[kk]] = z[kk]
    { s with w := s.w.set (vget z_sp.row kk) (vget s.z kk),
             w_index := s.w_index ++ [vget z_sp.row kk] }) s

/-- The loop "Get the sparse column of z" of `mul_sparsityF` and `mul_sparsityR`. -/
def mul_store (z_sp : Sparsity) (cc : Nat) (s : MulState) : MulState :=
  forLoop (vget z_sp.colind cc) (vget z_sp.colind (cc + 1)) (fun (s : MulState) kk =>
    -- z[kk] = w[z_row[kk]]
    { s with z := s.z.set kk (vget s.w (vget z_sp.row kk)),
             w_index := s.w_index ++ [vget z_sp.row kk] }) s

/-- The loop "Loop over corresponding columns of x" of `mul_sparsityF`, for the row `rr`
and the value `yy` of a nonzero of `y`. -/
def mul_sparsityF_inner (x_sp : Sparsity) (rr yy : Nat) (s : MulState) : MulState :=
  forLoop (vget x_sp.colind rr) (vget x_sp.colind (rr + 1)) (fun (s : MulState) kk1 =>
    -- w[x_row[kk1]] |= x[kk1] | yy
    { s with w := s.w.set (vget x_sp.row kk1)
               (vget s.w (vget x_sp.row kk1) ||| (vget s.x kk1 ||| yy)),
             w_index := s.w_index ++ [vget x_sp.row kk1] }) s

/-- The loop "Loop over the nonzeros of y" of `mul_sparsityF`. -/
def mul_sparsityF_column (x_sp y_sp : Sparsity) (cc : Nat) (s : MulState) : MulState :=
  forLoop (vget y_sp.colind cc) (vget y_sp.colind (cc + 1)) (fun (s : MulState) kk =>
    -- int rr = y_row[kk]; bvec_t yy = y[kk]
    mul_sparsityF_inner x_sp (vget y_sp.row kk) (vget s.y kk) s) s

/-- The call `Sparsity::mul_sparsityF(x, x_sp, y, y_sp, z, z_sp, w)`: the buffers
afterwards. -/
def mul_sparsityF (x : List Nat) (x_sp : Sparsity) (y : List Nat) (y_sp : Sparsity)
    (z : List Nat) (z_sp : Sparsity) (w : List Nat) : Except String MulState :=
  -- Assert dimensions
  if ¬ (z_sp.size1 = x_sp.size1 ∧ x_sp.size2 = y_sp.size1 ∧ y_sp.size2 = z_sp.size2) then
    .error "Dimension error."
  else
    -- Loop over the columns of y and z
    let ncol := z_sp.size2
    .ok (forLoop 0 ncol (fun s cc =>
      mul_store z_sp cc (mul_sparsityF_column x_sp y_sp cc (mul_load z_sp cc s)))
      { x := x, y := y, z := z, w := w, w_index := [] })

/-- The loop "Loop over corresponding columns of x" of `mul_sparsityR`, for the row `rr`
of a nonzero of `y`: the buffers and the local variable `yy`. -/
def mul_sparsityR_inner (x_sp : Sparsity) (rr : Nat) (s : MulState) : MulState × Nat :=
  forLoop (vget x_sp.colind rr) (vget x_sp.colind (rr + 1))
    (fun (r : MulState × Nat) kk1 =>
      -- yy |= w[x_row[kk1]]; x[kk1] |= w[x_row[kk1]]
      ({ r.1 with x := r.1.x.set kk1 (vget r.1.x kk1 ||| vget r.1.w (vget x_sp.row kk1)),
                  w_index := r.1.w_index ++ [vget x_sp.row kk1, vget x_sp.row kk1] },
        r.2 ||| vget r.1.w (vget x_sp.row kk1))) (s, 0)

/-- The loop "Loop over the nonzeros of y" of `mul_sparsityR`. -/
def mul_sparsityR_column (x_sp y_sp : Sparsity) (cc : Nat) (s : MulState) : MulState :=
  forLoop (vget y_sp.colind cc) (vget y_sp.colind (cc + 1)) (fun (s : MulState) kk =>
    let r := mul_sparsityR_inner x_sp (vget y_sp.row kk) s
    -- y[kk] |= yy
    { r.1 with y := r.1.y.set kk (vget r.1.y kk ||| r.2) }) s

/-- The call `Sparsity::mul_sparsityR(x, x_sp, y, y_sp, z, z_sp, w)`: the buffers
afterwards. -/
def mul_sparsityR (x : List Nat) (x_sp : Sparsity) (y : List Nat) (y_sp : Sparsity)
    (z : List Nat) (z_sp : Sparsity) (w : List Nat) : Except String MulState :=
  -- Assert dimensions
  if ¬ (z_sp.size1 = x_sp.size1 ∧ x_sp.size2 = y_sp.size1 ∧ y_sp.size2 = z_sp.size2) then
    .error "Dimension error."
  else
    -- Loop over the columns of y and z
    let ncol := z_sp.size2
    .ok (forLoop 0 ncol (fun s cc =>
      mul_store z_sp cc (mul_sparsityR_column x_sp y_sp cc (mul_load z_sp cc s)))
      { x := x, y := y, z := z, w := w, w_index := [] })

end Sparsity
end casadi

namespace casadi

/-- Modelled from the spec: `range(n)` of `std_vector_tools` is not among the sources; it
is the vector `0, 1, ..., n-1`. -/
def range (n : Nat) : List Nat := List.range n

namespace Sparsity

/-! ## `Sparsity::diag` and `Sparsity::band` -/

end Sparsity

/-! ## `HorzRepmat::sp_rev` -/

/-- The members of a `HorzRepmat` node that `sp_rev` reads: the number of repetitions
`n_`, and `dep(0).nnz()`, the number of nonzeros of the repeated argument (`MXNode::dep`
is not among the sources). -/
structure HorzRepmat where
  n : Nat
  nnz : Nat
deriving DecidableEq, Repr

/-- The function `Orring` of `repmat.cpp`. -/
def Orring (x y : Nat) : Nat := x ||| y

namespace HorzRepmat

/-- The call `sp_rev(arg, res, iw, w, mem)`: the buffers `arg[0]` and `res[0]`
afterwards. -/
def sp_rev (self : HorzRepmat) (arg0 res0 : List Nat) : List Nat × List Nat :=
  let nnz := self.nnz
  let arg0 := forLoop 0 self.n (fun arg0 i =>
    -- std::transform(res[0]+i*nnz, res[0]+(i+1)*nnz, arg[0], arg[0], &Orring)
    forLoop 0 nnz (fun arg0 k => arg0.set k (Orring (vget res0 (i * nnz + k)) (vget arg0 k)))
      arg0) arg0
  -- std::fill(res[0], res[0]+nnz, 0)
  let res0 := forLoop 0 nnz (fun res0 k => res0.set k 0) res0
  (arg0, res0)

end HorzRepmat

end casadi

namespace casadi

/-! ## Auxiliary definitions for the proofs -/
/-- The number of elements in the segments before segment `i`. -/
def offs {α : Type} (segs : Nat → List α) (i : Nat) : Nat :=
  ((List.range i).flatMap segs).length

namespace Sparsity

/-- The pattern whose column `c` stores the rows `seg c`. -/
def ofSegs (nrow ncol : Nat) (seg : Nat → List Nat) : Sparsity :=
  ⟨nrow, ncol, (List.range (ncol + 1)).map (offs seg), (List.range ncol).flatMap seg⟩

/-- The pattern `p` with the row `r` put at slot `ind`, in column `c`: what `add_nz` passes
to `assign_cached` when it inserts. -/
def insert_nz (p : Sparsity) (r c ind : Nat) : Sparsity :=
  ⟨p.nrow, p.ncol, forLoop (c + 1) (p.ncol + 1) (fun v j => incr v j) p.colind,
    p.row.take ind ++ r :: p.row.drop ind⟩

/-- The conditions under which `add_nz` inserts `r` at slot `ind` of column `c`. -/
structure InsertAt (p : Sparsity) (r c ind : Nat) : Prop where
  wf : p.wf
  hr : r < p.nrow
  hc : c < p.ncol
  lo : vget p.colind c ≤ ind
  hi : ind ≤ vget p.colind (c + 1)
  below : ∀ k, vget p.colind c ≤ k → k < ind → vget p.row k < r
  above : ∀ k, ind ≤ k → k < vget p.colind (c + 1) → r < vget p.row k

/-- The sum `f 0 + ... + f j`. -/
def psum (f : Nat → Nat) : Nat → Nat
  | 0 => f 0
  | j + 1 => psum f j + f (j + 1)

/-- The state of a scatter loop after the items `pre` have been placed. -/
def ScatterInv (key items pre cnt out : List Nat) : Prop :=
  out.length = items.length ∧
  (∀ r, r + 1 < cnt.length →
    vget cnt r = items.countP (fun x => vget key x < r) + pre.countP (fun x => vget key x = r)) ∧
  (∀ r j, j < pre.countP (fun x => vget key x = r) →
    vget out (items.countP (fun x => vget key x < r) + j) =
      vget (pre.filter (fun x => vget key x = r)) j)

/-- The input indices `k` with `row[k] = r` and `col[k] = c`, in increasing order. -/
def triplet_group (row col : List Nat) (r c : Nat) : List Nat :=
  (List.range row.length).filter (fun k => decide (vget col k = c) && decide (vget row k = r))

/-- The input indices of column `c`, ordered by row and then by index. -/
def triplet_block (nrow : Nat) (row col : List Nat) (c : Nat) : List Nat :=
  (List.range nrow).flatMap (fun r => triplet_group row col r c)

/-- All input indices, ordered by column, then by row, then by index. -/
def triplet_sorted (nrow ncol : Nat) (row col : List Nat) : List Nat :=
  (List.range ncol).flatMap (triplet_block nrow row col)

/-- Does some input index have the coordinates `(r, c)`? -/
def triplet_present (row col : List Nat) (r c : Nat) : Bool :=
  !(triplet_group row col r c).isEmpty

/-- The rows below `m` that occur in column `c` of the input, in increasing order. -/
def triplet_seg_upto (row col : List Nat) (c m : Nat) : List Nat :=
  (List.range m).filter (fun r => triplet_present row col r c)

/-- The rows that occur in column `c` of the input, in increasing order. -/
def triplet_seg (nrow : Nat) (row col : List Nat) (c : Nat) : List Nat :=
  triplet_seg_upto row col c nrow

/-- The column offsets of the pattern that `triplet` builds. -/
def triplet_colind (nrow ncol : Nat) (row col : List Nat) : List Nat :=
  (List.range (ncol + 1)).map (offs (triplet_seg nrow row col))

/-- The row indices of the pattern that `triplet` builds. -/
def triplet_row (nrow ncol : Nat) (row col : List Nat) : List Nat :=
  (List.range ncol).flatMap (triplet_seg nrow row col)

/-- The storage slot of the entry `(r, c)`. -/
def triplet_slot (nrow : Nat) (row col : List Nat) (r c : Nat) : Nat :=
  offs (triplet_seg nrow row col) c + (triplet_seg_upto row col c r).length

/-- The content of `mapping` when `triplet` returns. -/
def triplet_mapping (nrow ncol : Nat) (row col : List Nat) (invert_mapping : Bool) : List Nat :=
  if invert_mapping then
    (List.range row.length).map (fun k => triplet_slot nrow row col (vget row k) (vget col k))
  else
    (List.range ncol).flatMap (fun c =>
      (List.range nrow).flatMap (fun r => (triplet_group row col r c).head?.toList))

/-- What the last loop of `triplet` has produced so far: the rows written to `r_row`, the
first index of every stored entry, and the slot given to every index met. -/
structure TripletOut where
  j_prev : Int
  rows : List Nat
  firsts : List Nat
  slots : List (Nat × Nat)

/-- One turn of the last loop of `triplet`, on `TripletOut`. -/
def triplet_out_step (row : List Nat) (a : TripletOut) (el : Nat) : TripletOut :=
  if (vget row el : Int) ≠ a.j_prev then
    { j_prev := vget row el, rows := a.rows ++ [vget row el], firsts := a.firsts ++ [el],
      slots := a.slots ++ [(el, a.rows.length)] }
  else
    { j_prev := vget row el, rows := a.rows, firsts := a.firsts,
      slots := a.slots ++ [(el, a.rows.length - 1)] }

/-- The work vectors of the last loop of `triplet` hold the output `a` when the first `t`
entries of the sorted index list `L` have been read. -/
def TripletRel (invert_mapping : Bool) (L : List Nat) (s : TripletState) (a : TripletOut)
    (t : Nat) : Prop :=
  s.it = t ∧ s.r_el = a.rows.length ∧ s.j_prev = a.j_prev ∧ a.rows.length ≤ t ∧
  a.firsts.length = a.rows.length ∧
  s.mapping1.length = L.length ∧ s.mapping2.length = L.length ∧
  (∀ p, t ≤ p → vget s.mapping1 p = vget L p) ∧
  a.slots.map Prod.fst = L.take t ∧
  (invert_mapping = true →
    (∀ q, q < a.rows.length → vget s.mapping1 q = vget a.rows q) ∧
    (∀ pr ∈ a.slots, vget s.mapping2 pr.1 = pr.2)) ∧
  (invert_mapping = false →
    (∀ q, q < a.rows.length → vget s.mapping2 q = vget a.rows q ∧ vget s.mapping1 q = vget a.firsts q))

end Sparsity

namespace Cache

/-- The invariant of the cache: serial numbers below `next`, every live node listed
under its hash, one content per node, one live node per content, no node of a singleton
shape, and no entry without a bucket. -/
structure Inv (hash : Sparsity → Nat) (st : Cache) : Prop where
  fresh_live : ∀ n ∈ st.live, n.1 < st.next
  fresh_entries : ∀ e ∈ st.entries, e.2 < st.next
  cached : ∀ n ∈ st.live, (hash n.2, n.1) ∈ st.entries
  ids : ∀ n ∈ st.live, ∀ m ∈ st.live, n.1 = m.1 → n = m
  canonical : ∀ n ∈ st.live, ∀ m ∈ st.live, n.2 = m.2 → n.1 = m.1
  shape : ∀ n ∈ st.live, ¬ (n.2.ncol = 0 ∧ n.2.nrow = 0) ∧ ¬ (n.2.ncol = 1 ∧ n.2.nrow = 1)
  buckets : st.buckets = 0 → st.entries = []

end Cache

end casadi

namespace casadi
namespace Sparsity

/-! ## Auxiliary definitions for the proofs on concatenation and splitting -/

/-- The rows stored in column `c`. -/
def col_rows (p : Sparsity) (c : Nat) : List Nat :=
  (p.row.drop (vget p.colind c)).take (vget p.colind (c + 1) - vget p.colind c)

/-- The stored entries `(row, column)`, in the order of storage. -/
def entries (p : Sparsity) : List (Nat × Nat) :=
  (List.range p.ncol).flatMap (fun cc =>
    (List.range' (vget p.colind cc) (vget p.colind (cc + 1) - vget p.colind cc)).map
      (fun k => (vget p.row k, cc)))

/-- The number of columns of the patterns before `sp[i]`. -/
def col_offset (sp : List Sparsity) (i : Nat) : Nat :=
  ((sp.take i).map size2).sum

/-- The number of rows of the patterns before `sp[i]`. -/
def row_offset (sp : List Sparsity) (i : Nat) : Nat :=
  ((sp.take i).map size1).sum

/-- The entries of the patterns `sp`, laid side by side from column `off` on. -/
def hentries : List Sparsity → Nat → List (Nat × Nat)
  | [], _ => []
  | p :: sp, off => (entries p).map (fun e => (e.1, e.2 + off)) ++ hentries sp (off + p.size2)

/-- The rows in column `c` of the patterns `sp` laid side by side. -/
def hseg : List Sparsity → Nat → List Nat
  | [], _ => []
  | p :: sp, c => if c < p.size2 then col_rows p c else hseg sp (c - p.size2)

/-- The columns `offset[i], ..., offset[i+1]-1` of `x`, as a pattern. -/
def horzsplit_piece (x : Sparsity) (offset : List Nat) (i : Nat) : Sparsity :=
  ofSegs x.nrow (vget offset (i + 1) - vget offset i) (fun c => col_rows x (vget offset i + c))

end Sparsity
end casadi

namespace casadi
namespace Sparsity

/-! ## Auxiliary definitions for the proofs on `diagcat` and `kron` -/

/-- The rows in column `c` of the patterns `v` laid along the diagonal, from row `m` on. -/
def dseg : List Sparsity → Nat → Nat → List Nat
  | [], _, _ => []
  | p :: v, m, c =>
    if c < p.size2 then (col_rows p c).map (fun r => r + m) else dseg v (m + p.size1) (c - p.size2)

/-- The column offsets that `diagcat` appends for the patterns `v`, from the count `nz`
on. -/
def dcolind : List Sparsity → Nat → List Nat
  | [], _ => []
  | p :: v, nz =>
    (List.range' 1 p.size2).map (fun k => vget p.colind k + nz) ++ dcolind v (nz + p.nnz)

/-- The rows that `diagcat` appends for the patterns `v`, from row `m` on. -/
def drow : List Sparsity → Nat → List Nat
  | [], _ => []
  | p :: v, m => (List.range p.nnz).map (fun k => vget p.row k + m) ++ drow v (m + p.size1)

/-- The rows in column `c` of the Kronecker product of `a` and `b`. -/
def kseg (a b : Sparsity) (c : Nat) : List Nat :=
  (col_rows a (c / b.size2)).flatMap (fun ar =>
    (col_rows b (c % b.size2)).map (fun br => ar * b.size1 + br))

/-- The vectors and counters of `kron` over the naturals: `kron_loop` runs on the casts
of these values as long as no product leaves the `int` range. -/
structure KronNat where
  r_colind : List Nat
  r_row : List Nat
  i : Nat
  j : Nat
deriving DecidableEq, Repr

/-- The loops of `kron_nonzeros`, with the products and sums taken in the naturals. -/
def kron_nonzeros_nat (a b : Sparsity) (a_start a_stop b_start b_stop : Nat) (s : KronNat) :
    KronNat :=
  let b_nrow := b.size1
  forLoop a_start a_stop (fun s a_el =>
    let a_r := vget a.row a_el
    forLoop b_start b_stop (fun (s : KronNat) b_el =>
      let b_r := vget b.row b_el
      { s with r_row := s.r_row.set s.i (a_r * b_nrow + b_r), i := s.i + 1 }) s) s

/-- The body `kron_column`, with the products and sums taken in the naturals. -/
def kron_column_nat (a b : Sparsity) (a_cc b_cc : Nat) (s : KronNat) : KronNat :=
  let a_start := vget a.colind a_cc
  let a_stop := vget a.colind (a_cc + 1)
  let b_start := vget b.colind b_cc
  let b_stop := vget b.colind (b_cc + 1)
  let s := kron_nonzeros_nat a b a_start a_stop b_start b_stop s
  let j := s.j + 1
  { s with j := j,
           r_colind := s.r_colind.set j
             (vget s.r_colind (j - 1) + (b_stop - b_start) * (a_stop - a_start)) }

/-- The loops `kron_loop`, with the products and sums taken in the naturals. -/
def kron_loop_nat (a b : Sparsity) : KronNat :=
  let a_ncol := a.size2
  let b_ncol := b.size2
  forLoop 0 a_ncol (fun s a_cc =>
    forLoop 0 b_ncol (fun s b_cc => kron_column_nat a b a_cc b_cc s) s)
    { r_colind := List.replicate (a_ncol * b_ncol + 1) 0,
      r_row := List.replicate (a.nnz * b.nnz) 0, i := 0, j := 0 }

/-- The state `s` of `kron` holds the casts of the vectors of `t`, and the same
counters. -/
def kron_rel (s : KronState) (t : KronNat) : Prop :=
  s.r_colind = t.r_colind.map (fun (n : Nat) => (n : Int)) ∧
  s.r_row = t.r_row.map (fun (n : Nat) => (n : Int)) ∧ s.i = t.i ∧ s.j = t.j

/-- The statement `r_row_ptr[i++] = v` of `kron`. -/
def kpush (s : KronNat) (v : Nat) : KronNat :=
  { s with r_row := s.r_row.set s.i v, i := s.i + 1 }

/-- The state of `kron` before the turn for the column `c` of the result: the first `c`
columns of the result have been written. -/
def kron_inv (a b : Sparsity) (c : Nat) (s : KronNat) : Prop :=
  s.j = c ∧ s.i = offs (kseg a b) c ∧
  s.r_colind.length = a.size2 * b.size2 + 1 ∧ s.r_row.length = a.nnz * b.nnz ∧
  (∀ d, d ≤ c → vget s.r_colind d = offs (kseg a b) d) ∧
  (∀ k, k < offs (kseg a b) c →
    vget s.r_row k = vget ((List.range (a.size2 * b.size2)).flatMap (kseg a b)) k)

/-- The rows `Bj[kk]` that the second pass of `norm_0_mul` visits in the turn for the
column `i` of `A`, in order. -/
def scan_list (x A : Sparsity) (i : Nat) : List Nat :=
  (List.range' (vget A.colind i) (vget A.colind (i + 1) - vget A.colind i)).flatMap
    (fun jj => (List.range' (vget x.colind (vget A.row jj))
      (vget x.colind (vget A.row jj + 1) - vget x.colind (vget A.row jj))).map (vget x.row))

/-- The list `next` of `norm_0_mul` links the rows `ch` from `head` on, and ends with
`-2`. -/
def linked (next : List Int) : Int → List Nat → Prop
  | head, [] => head = -2
  | head, k :: rest => head = (k : Int) ∧ linked next (iget next k) rest

/-- The state of the second pass of `norm_0_mul` in the turn for a column, with the rows
`ch` in the linked list. -/
def norm_inv (n : Nat) (s : Pass2State) (ch : List Nat) : Prop :=
  s.next.length = n ∧ s.sums.length = n ∧ ch.Nodup ∧ (∀ k ∈ ch, k < n) ∧
  linked s.next s.head ch ∧ (∀ k, k < n → k ∉ ch → iget s.next k = -1) ∧
  (∀ k, k < n → (bget s.sums k = true ↔ k ∈ ch))

/-- The work vectors of the second pass of `norm_0_mul` between two columns. -/
def norm_clean (n : Nat) (s : Pass2State) : Prop :=
  s.next.length = n ∧ s.sums.length = n ∧ (∀ k, k < n → iget s.next k = -1) ∧
  (∀ k, k < n → bget s.sums k = false)

end Sparsity
end casadi

namespace casadi

/-- The bitwise OR of two buffers of `bvec_t`, element by element. -/
def bor (a b : List Nat) : List Nat := List.zipWith (fun x y => x ||| y) a b

/-- The buffers `X1`, `X2`, `X3` have one length and are related by `ρ` element by
element. -/
def lrel (ρ : Nat → Nat → Nat → Prop) (X1 X2 X3 : List Nat) : Prop :=
  X2.length = X1.length ∧ X3.length = X1.length ∧
  ∀ k, ρ (vget X1 k) (vget X2 k) (vget X3 k)

/-- The buffer `Y` has the length of `X` and every bit that is set in `X`. -/
def contains (Y X : List Nat) : Prop :=
  Y.length = X.length ∧ ∀ k bit, (vget X k).testBit bit = true → (vget Y k).testBit bit = true

namespace Linsol

/-! ## The parts of one block of `linsol_spsolve`, for the proofs -/

/-- The loop `for (k=A_colind[cc]; k<A_colind[cc+1]; ++k) X[A_row[k]] |= block_dep` of the
forward sweep. -/
def or_col (self : Linsol) (cc dep : Nat) (X : List Nat) : List Nat :=
  forLoop (vget self.sparsity.colind cc) (vget self.sparsity.colind (cc + 1))
    (fun X k => X.set (vget self.sparsity.row k) (vget X (vget self.sparsity.row k) ||| dep)) X

/-- The loop `for (k=A_colind[cc]; k<A_colind[cc+1]; ++k) block_dep |= X[A_row[k]]` of the
transposed sweep. -/
def gather_col (self : Linsol) (cc : Nat) (X : List Nat) (dep : Nat) : Nat :=
  forLoop (vget self.sparsity.colind cc) (vget self.sparsity.colind (cc + 1))
    (fun dep k => dep ||| vget X (vget self.sparsity.row k)) dep

/-- The value of `block_dep` in block `b` of the forward sweep. -/
def forward_dep (self : Linsol) (B X : List Nat) (b : Nat) : Nat :=
  forLoop (vget self.colblock b) (vget self.colblock (b + 1))
    (fun dep el => dep ||| vget X (vget self.colperm el))
    (forLoop (vget self.rowblock b) (vget self.rowblock (b + 1))
      (fun dep el => dep ||| vget B (vget self.rowperm el)) 0)

/-- The loop "Propagate" of block `b` of the forward sweep, for the value `dep` of
`block_dep`. -/
def forward_propagate (self : Linsol) (dep : Nat) (X : List Nat) (b : Nat) : List Nat :=
  forLoop (vget self.colblock b) (vget self.colblock (b + 1))
    (fun X el =>
      or_col self (vget self.colperm el) dep
        (X.set (vget self.colperm el) (vget X (vget self.colperm el) ||| dep))) X

/-- The value of `block_dep` in block `b` of the transposed sweep. -/
def transposed_dep (self : Linsol) (B X : List Nat) (b : Nat) : Nat :=
  forLoop (vget self.colblock b) (vget self.colblock (b + 1))
    (fun dep el => gather_col self (vget self.colperm el) X (dep ||| vget B (vget self.colperm el)))
    0

/-- The loop "Propagate to all variables in the block" of block `b` of the transposed
sweep, for the value `dep` of `block_dep`. -/
def transposed_propagate (self : Linsol) (dep : Nat) (X : List Nat) (b : Nat) : List Nat :=
  forLoop (vget self.rowblock b) (vget self.rowblock (b + 1))
    (fun X el => X.set (vget self.rowperm el) (vget X (vget self.rowperm el) ||| dep)) X

/-- The variable `i` can be reached from the variable `j` along the nonzeros of `A`: a
nonzero `A(r, c)` is a step from `c` to `r`. -/
def reach (A : Sparsity) (j i : Nat) : Prop :=
  Relation.ReflTransGen (fun c r => A.has_entry r c) j i

end Linsol

end casadi

namespace casadi

/-! ## Reads and writes of vectors -/

theorem vget_set (l : List Nat) (i j a : Nat) :
    vget (l.set i a) j = if i = j ∧ i < l.length then a else vget l j := by
  simp only [vget, List.getD_eq_getElem?_getD, List.getElem?_set]
  by_cases h : i = j
  · subst h
    by_cases h2 : i < l.length
    · simp [h2]
    · have : l[i]? = none := List.getElem?_eq_none (by omega)
      simp [h2, this]
  · simp [h]

theorem vget_set_self (l : List Nat) (i a : Nat) (h : i < l.length) :
    vget (l.set i a) i = a := by
  rw [vget_set]; simp [h]

theorem vget_set_ne (l : List Nat) (i j a : Nat) (h : i ≠ j) :
    vget (l.set i a) j = vget l j := by
  rw [vget_set]; simp [h]

theorem vget_of_le (l : List Nat) (j : Nat) (h : l.length ≤ j) : vget l j = 0 :=
  List.getD_eq_default l 0 h

theorem ext_vget {l₁ l₂ : List Nat} (hlen : l₁.length = l₂.length)
    (h : ∀ p, p < l₁.length → vget l₁ p = vget l₂ p) : l₁ = l₂ := by
  apply List.ext_getElem hlen
  intro n h1 h2
  have := h n h1
  unfold vget at this
  rwa [List.getD_eq_getElem l₁ 0 h1, List.getD_eq_getElem l₂ 0 h2] at this

@[simp] theorem length_incr (v : List Nat) (i : Nat) : (incr v i).length = v.length := by
  simp [incr]

theorem vget_incr (v : List Nat) (i j : Nat) :
    vget (incr v i) j = if i = j ∧ i < v.length then vget v i + 1 else vget v j := by
  unfold incr
  rw [vget_set]

@[simp] theorem length_resize (v : List Nat) (n : Nat) : (resize v n).length = n := by
  simp [resize]; omega

theorem vget_resize (v : List Nat) (n j : Nat) :
    vget (resize v n) j = if j < n then vget v j else 0 := by
  unfold resize vget
  by_cases hj : j < n
  · simp only [hj, if_true]
    by_cases hv : j < v.length
    · rw [List.getD_append _ _ _ _ (by simp; omega)]
      simp [List.getD_eq_getElem?_getD, List.getElem?_take, hj]
    · rw [List.getD_append_right _ _ _ _ (by simp; omega)]
      rw [List.getD_eq_default v 0 (by omega)]
      simp only [List.getD_eq_getElem?_getD, List.getElem?_replicate]
      split <;> rfl
  · simp only [hj, if_false]
    apply List.getD_eq_default
    simp; omega

theorem resize_eq_of_prefix (v out : List Nat)
    (h2 : ∀ q, q < out.length → vget v q = vget out q) : resize v out.length = out := by
  apply ext_vget (by simp)
  intro p hp
  simp at hp
  rw [vget_resize, if_pos hp, h2 p hp]

theorem vget_replicate_zero (n j : Nat) : vget (List.replicate n 0) j = 0 := by
  simp [vget, List.getD_eq_getElem?_getD, List.getElem?_replicate]
  split <;> simp

theorem map_vget_range (l : List Nat) :
    (List.range l.length).map (fun k => vget l k) = l := by
  apply List.ext_getElem (by simp)
  intro n h1 h2
  simp [vget, List.getElem?_eq_getElem h2]

/-! ## Lists cut into consecutive segments -/

theorem offs_zero {α : Type} (segs : Nat → List α) : offs segs 0 = 0 := by
  simp [offs]

theorem offs_succ {α : Type} (segs : Nat → List α) (i : Nat) :
    offs segs (i + 1) = offs segs i + (segs i).length := by
  simp [offs, List.range_succ, List.flatMap_append]

theorem offs_mono {α : Type} (segs : Nat → List α) {i j : Nat} (h : i ≤ j) :
    offs segs i ≤ offs segs j := by
  induction j with
  | zero => simp at h; subst h; exact Nat.le_refl _
  | succ j ih =>
    rcases Nat.eq_or_lt_of_le h with h | h
    · subst h; exact Nat.le_refl _
    · have := ih (by omega)
      rw [offs_succ]; omega

theorem flatMap_range_succ {α : Type} (segs : Nat → List α) (N : Nat) :
    (List.range (N + 1)).flatMap segs = (List.range N).flatMap segs ++ segs N := by
  simp [List.range_succ, List.flatMap_append]

theorem getElem?_flatMap_range {α : Type} (segs : Nat → List α) (N c j : Nat)
    (hc : c < N) (hj : j < (segs c).length) :
    ((List.range N).flatMap segs)[offs segs c + j]? = (segs c)[j]? := by
  induction N with
  | zero => omega
  | succ N ih =>
    rw [flatMap_range_succ]
    rcases Nat.eq_or_lt_of_le (Nat.le_of_lt_succ hc) with h | h
    · subst h
      rw [List.getElem?_append_right (by simp [offs])]
      simp [offs]
    · have h1 : offs segs c + j < ((List.range N).flatMap segs).length := by
        have := offs_mono segs (show c + 1 ≤ N by omega)
        rw [offs_succ] at this
        simp only [offs] at this ⊢
        omega
      rw [List.getElem?_append_left h1]
      exact ih h

theorem offs_cover {α : Type} (segs : Nat → List α) (N p : Nat) (hp : p < offs segs N) :
    ∃ c j, c < N ∧ j < (segs c).length ∧ p = offs segs c + j := by
  induction N with
  | zero => simp [offs] at hp
  | succ N ih =>
    by_cases h : p < offs segs N
    · obtain ⟨c, j, hc, hj, e⟩ := ih h
      exact ⟨c, j, by omega, hj, e⟩
    · rw [offs_succ] at hp
      exact ⟨N, p - offs segs N, by omega, by omega, by omega⟩

theorem offs_unique {α : Type} (segs : Nat → List α) (c c' j j' : Nat)
    (hj : j < (segs c).length) (hj' : j' < (segs c').length)
    (e : offs segs c + j = offs segs c' + j') : c = c' ∧ j = j' := by
  rcases Nat.lt_trichotomy c c' with h | h | h
  · have := offs_mono segs (show c + 1 ≤ c' by omega)
    rw [offs_succ] at this; omega
  · subst h; exact ⟨rfl, by omega⟩
  · have := offs_mono segs (show c' + 1 ≤ c by omega)
    rw [offs_succ] at this; omega

end casadi

namespace casadi
namespace Sparsity

/-! ## The two counting sorts of `triplet` -/

@[simp] theorem length_triplet_count (keys cnt : List Nat) :
    (triplet_count keys cnt).length = cnt.length := by
  unfold triplet_count
  induction keys generalizing cnt with
  | nil => rfl
  | cons x xs ih => simp [List.foldl_cons, ih]

theorem vget_triplet_count (keys cnt : List Nat) (j : Nat)
    (h : ∀ x ∈ keys, x + 1 < cnt.length) :
    vget (triplet_count keys cnt) j = vget cnt j + keys.countP (fun x => x + 1 = j) := by
  unfold triplet_count
  induction keys generalizing cnt with
  | nil => simp
  | cons x xs ih =>
    rw [List.foldl_cons, ih _ (by intro y hy; simp; exact h y (List.mem_cons_of_mem _ hy))]
    rw [vget_incr, List.countP_cons]
    have hx := h x (List.mem_cons_self _ _)
    by_cases e : x + 1 = j
    · subst e; simp [hx]; omega
    · simp [e]

@[simp] theorem length_triplet_cumsum (n : Nat) (cnt : List Nat) :
    (triplet_cumsum n cnt).length = cnt.length := by
  unfold triplet_cumsum
  induction n with
  | zero => rfl
  | succ n ih => simp [List.range_succ, List.foldl_append, ih]

theorem triplet_cumsum_succ (n : Nat) (cnt : List Nat) :
    triplet_cumsum (n + 1) cnt =
      (triplet_cumsum n cnt).set (n + 1)
        (vget (triplet_cumsum n cnt) (n + 1) + vget (triplet_cumsum n cnt) n) := by
  simp [triplet_cumsum, List.range_succ, List.foldl_append]

theorem vget_triplet_cumsum (n : Nat) (cnt : List Nat) (j : Nat) (hn : n < cnt.length) :
    vget (triplet_cumsum n cnt) j =
      if j ≤ n then psum (fun t => vget cnt t) j else vget cnt j := by
  induction n generalizing j with
  | zero =>
    by_cases hj : j = 0
    · subst hj; simp [triplet_cumsum, psum]
    · have : ¬ j ≤ 0 := by omega
      simp only [this, if_false]; rfl
  | succ n ih =>
    rw [triplet_cumsum_succ, vget_set]
    have hlen : (triplet_cumsum n cnt).length = cnt.length := length_triplet_cumsum n cnt
    by_cases e : n + 1 = j
    · subst e
      rw [if_pos ⟨rfl, by omega⟩, ih (n + 1) (by omega), ih n (by omega)]
      simp [psum]; omega
    · rw [if_neg (by intro h; exact e h.1), ih j (by omega)]
      by_cases hj : j ≤ n
      · simp [hj, show j ≤ n + 1 by omega]
      · simp [hj, show ¬ j ≤ n + 1 by omega]

theorem countP_lt_succ (l : List Nat) (f : Nat → Nat) (j : Nat) :
    l.countP (fun x => f x < j + 1) = l.countP (fun x => f x < j) + l.countP (fun x => f x = j) := by
  induction l with
  | nil => simp
  | cons x xs ih =>
    simp only [List.countP_cons, ih]
    by_cases h1 : f x < j
    · have h2 : f x < j + 1 := by omega
      have h3 : ¬ f x = j := by omega
      simp [h1, h2, h3]; omega
    · by_cases h3 : f x = j
      · have h2 : f x < j + 1 := by omega
        simp [h1, h2, h3]; omega
      · have h2 : ¬ f x < j + 1 := by omega
        simp [h1, h2, h3]

theorem psum_count (l : List Nat) (f : Nat → Nat) (g : Nat → Nat)
    (h0 : g 0 = 0) (hg : ∀ j, g (j + 1) = l.countP (fun x => f x = j)) (j : Nat) :
    psum g j = l.countP (fun x => f x < j) := by
  induction j with
  | zero => simp [psum, h0]
  | succ j ih => rw [psum, ih, hg, countP_lt_succ]

/-- After counting and summing, slot `j` of the count vector holds the number of items
whose key is below `j`. -/
theorem vget_count_cumsum (K : Nat) (items : List Nat) (f : Nat → Nat)
    (hf : ∀ x ∈ items, f x < K) (j : Nat) (hj : j ≤ K) :
    vget (triplet_cumsum K (triplet_count (items.map f) (List.replicate (K + 1) 0))) j =
      items.countP (fun x => f x < j) := by
  rw [vget_triplet_cumsum _ _ _ (by simp), if_pos hj]
  apply psum_count
  · rw [vget_triplet_count _ _ _ (by simpa using hf)]
    simp [vget_replicate_zero]
  · intro t
    rw [vget_triplet_count _ _ _ (by simpa using hf), vget_replicate_zero, List.countP_map]
    simp [Function.comp_def]

end Sparsity
end casadi

namespace casadi
namespace Sparsity

theorem countP_lt_mono (l : List Nat) (f : Nat → Nat) {r r' : Nat} (h : r ≤ r') :
    l.countP (fun x => f x < r) ≤ l.countP (fun x => f x < r') := by
  induction r' with
  | zero => simp at h; subst h; exact Nat.le_refl _
  | succ r' ih =>
    rcases Nat.eq_or_lt_of_le h with h | h
    · subst h; exact Nat.le_refl _
    · have := ih (by omega)
      rw [countP_lt_succ]; omega

theorem countP_lt_add_le (l : List Nat) (f : Nat → Nat) {r r' : Nat} (h : r < r') :
    l.countP (fun x => f x < r) + l.countP (fun x => f x = r) ≤ l.countP (fun x => f x < r') := by
  rw [← countP_lt_succ]
  exact countP_lt_mono l f h

theorem vget_congr {l₁ l₂ : List Nat} {i j : Nat} (h : l₁[i]? = l₂[j]?) : vget l₁ i = vget l₂ j := by
  unfold vget
  rw [List.getD_eq_getElem?_getD, List.getD_eq_getElem?_getD, h]

theorem triplet_scatter_cons (key : List Nat) (x : Nat) (post cnt out : List Nat) :
    triplet_scatter key (x :: post) cnt out =
      triplet_scatter key post (incr cnt (vget key x)) (out.set (vget cnt (vget key x)) x) := by
  simp [triplet_scatter]

theorem vget_append_single (l : List Nat) (x j : Nat) :
    vget (l ++ [x]) j = if j = l.length then x else vget l j := by
  unfold vget
  by_cases h : j < l.length
  · rw [List.getD_append _ _ _ _ h]; simp [Nat.ne_of_lt h]
  · by_cases e : j = l.length
    · subst e; simp
    · rw [List.getD_eq_default _ _ (by simp; omega), List.getD_eq_default _ _ (by omega)]
      simp [e]

theorem scatter_spec (key : List Nat) (items : List Nat) (K : Nat)
    (hK : ∀ x ∈ items, vget key x < K) :
    ∀ (post pre cnt out : List Nat), items = pre ++ post → cnt.length = K + 1 →
      ScatterInv key items pre cnt out →
      (triplet_scatter key post cnt out).1.length = K + 1 ∧
      ScatterInv key items items
        (triplet_scatter key post cnt out).1 (triplet_scatter key post cnt out).2 := by
  intro post
  induction post with
  | nil =>
    intro pre cnt out hitems hlen hinv
    simp at hitems; subst hitems
    exact ⟨hlen, hinv⟩
  | cons x post ih =>
    intro pre cnt out hitems hlen hinv
    rw [triplet_scatter_cons]
    have hx : vget key x < K := hK x (by rw [hitems]; simp)
    obtain ⟨hout, hcnt, hpos⟩ := hinv
    have hc0 := hcnt (vget key x) (by omega)
    have hcount : pre.countP (fun y => vget key y = vget key x) + 1 ≤
        items.countP (fun y => vget key y = vget key x) := by
      rw [hitems, List.countP_append, List.countP_cons]; simp
    have hle : items.countP (fun y => vget key y < vget key x) +
        items.countP (fun y => vget key y = vget key x) ≤ items.length := by
      rw [← countP_lt_succ items (fun y => vget key y)]; exact List.countP_le_length _
    apply ih (pre ++ [x]) _ _ (by rw [hitems]; simp) (by simp [hlen])
    refine ⟨by simp [hout], ?_, ?_⟩
    · intro r hr
      simp only [length_incr] at hr
      rw [vget_incr, List.countP_append]
      by_cases e : vget key x = r
      · subst e
        rw [if_pos ⟨rfl, by omega⟩, hc0]; simp; omega
      · rw [if_neg (by intro h; exact e h.1), hcnt r hr]
        have : ¬ (vget key x = r) := e
        simp [this]
    · intro r j hj
      rw [List.countP_append] at hj
      rw [List.filter_append, vget_set]
      by_cases e : vget key x = r
      · subst e
        simp only [List.countP_cons, List.countP_nil] at hj
        simp only [decide_True, List.filter_cons_of_pos, List.filter_nil]
        rw [vget_append_single, ← List.countP_eq_length_filter]
        by_cases ej : j = pre.countP (fun y => vget key y = vget key x)
        · subst ej
          rw [if_pos ⟨by omega, by omega⟩]; simp
        · rw [if_neg (by intro h; omega), if_neg ej]
          apply hpos
          simp at hj; omega
      · have hne : ¬ (vget key x = r) := e
        simp only [List.countP_cons, List.countP_nil, hne, decide_False] at hj
        simp only [hne, decide_False, List.filter_cons_of_neg, List.filter_nil, List.append_nil,
          Bool.false_eq_true, not_false_eq_true]
        have hj' : j < pre.countP (fun y => vget key y = r) := by simpa using hj
        have hjr : pre.countP (fun y => vget key y = r) ≤ items.countP (fun y => vget key y = r) := by
          rw [hitems, List.countP_append]; omega
        rw [if_neg, hpos r j hj']
        intro h
        rcases Nat.lt_or_gt_of_ne e with h1 | h1
        · have := countP_lt_add_le items (fun y => vget key y) h1
          beta_reduce at this; omega
        · have := countP_lt_add_le items (fun y => vget key y) h1
          beta_reduce at this; omega

theorem offs_filter_eq (items : List Nat) (f : Nat → Nat) (r : Nat) :
    offs (fun r => items.filter (fun x => f x = r)) r = items.countP (fun x => f x < r) := by
  induction r with
  | zero => simp [offs]
  | succ r ih => rw [offs_succ, ih, countP_lt_succ, List.countP_eq_length_filter (fun x => decide (f x = r))]

/-- Both sorting passes of `triplet` are stable counting sorts: the output lists the
items bucket by bucket, each bucket in the order of the input. -/
theorem counting_sort (key items : List Nat) (K : Nat) (out : List Nat)
    (hK : ∀ x ∈ items, vget key x < K) (hout : out.length = items.length) :
    (triplet_scatter key items
      (triplet_cumsum K (triplet_count (items.map (fun x => vget key x)) (List.replicate (K + 1) 0)))
      out).1.length = K + 1 ∧
    (triplet_scatter key items
      (triplet_cumsum K (triplet_count (items.map (fun x => vget key x)) (List.replicate (K + 1) 0)))
      out).2 = (List.range K).flatMap (fun r => items.filter (fun x => vget key x = r)) := by
  have hinv0 : ScatterInv key items []
      (triplet_cumsum K (triplet_count (items.map (fun x => vget key x)) (List.replicate (K + 1) 0)))
      out := by
    refine ⟨hout, ?_, ?_⟩
    · intro r hr
      simp at hr
      rw [vget_count_cumsum K items _ hK r (by omega)]; simp
    · intro r j hj; simp at hj
  obtain ⟨h1, h2, -, h4⟩ := scatter_spec key items K hK items [] _ out (by simp) (by simp) hinv0
  refine ⟨h1, ?_⟩
  have hlen : ((List.range K).flatMap (fun r => items.filter (fun x => vget key x = r))).length =
      items.length := by
    have := offs_filter_eq items (fun x => vget key x) K
    unfold offs at this
    rw [this, List.countP_eq_length]
    intro x hx; simpa using hK x hx
  apply ext_vget (by rw [h2, hlen])
  intro p hp
  rw [h2, ← hlen] at hp
  obtain ⟨c, j, hc, hj, e⟩ := offs_cover _ K p hp
  subst e
  have hj' := hj
  rw [← List.countP_eq_length_filter] at hj'
  have := getElem?_flatMap_range (fun r => items.filter (fun x => vget key x = r)) K c j hc hj
  rw [offs_filter_eq items (fun x => vget key x)] at this ⊢
  rw [h4 c j hj']
  exact (vget_congr this).symm

end Sparsity
end casadi

namespace casadi
namespace Sparsity

/-! ## The last loop of `triplet`, on lists -/

theorem triplet_out_same (row : List Nat) (r : Nat) :
    ∀ (xs : List Nat) (a : TripletOut), (∀ x ∈ xs, vget row x = r) → a.j_prev = r →
      xs.foldl (triplet_out_step row) a =
        { j_prev := r, rows := a.rows, firsts := a.firsts,
          slots := a.slots ++ xs.map (fun x => (x, a.rows.length - 1)) } := by
  intro xs
  induction xs with
  | nil => intro a _ hj; cases a; simp at hj; simp [hj]
  | cons x xs ih =>
    intro a hx hj
    have hxr : vget row x = r := hx x (List.mem_cons_self _ _)
    rw [List.foldl_cons]
    have hstep : triplet_out_step row a x =
        { j_prev := r, rows := a.rows, firsts := a.firsts,
          slots := a.slots ++ [(x, a.rows.length - 1)] } := by
      simp [triplet_out_step, hxr, hj]
    rw [hstep, ih _ (fun y hy => hx y (List.mem_cons_of_mem _ hy)) rfl]
    simp

theorem triplet_out_group (row : List Nat) (r : Nat) (G : List Nat) (a : TripletOut)
    (hG : ∀ x ∈ G, vget row x = r) (hj : a.j_prev ≠ r) :
    G.foldl (triplet_out_step row) a =
      { j_prev := if G.isEmpty then a.j_prev else r,
        rows := a.rows ++ (if G.isEmpty then [] else [r]),
        firsts := a.firsts ++ G.head?.toList,
        slots := a.slots ++ G.map (fun x => (x, a.rows.length)) } := by
  cases G with
  | nil => simp
  | cons x xs =>
    have hxr : vget row x = r := hG x (List.mem_cons_self _ _)
    rw [List.foldl_cons]
    have hstep : triplet_out_step row a x =
        { j_prev := r, rows := a.rows ++ [r], firsts := a.firsts ++ [x],
          slots := a.slots ++ [(x, a.rows.length)] } := by
      have : ¬ ((r : Int) = a.j_prev) := fun h => hj h.symm
      simp [triplet_out_step, hxr, this]
    rw [hstep, triplet_out_same row r xs _ (fun y hy => hG y (List.mem_cons_of_mem _ hy)) rfl]
    simp

theorem triplet_group_row (row col : List Nat) (r c : Nat) :
    ∀ x ∈ triplet_group row col r c, vget row x = r := by
  intro x hx
  simp [triplet_group] at hx
  exact hx.2.2

theorem triplet_group_col (row col : List Nat) (r c : Nat) :
    ∀ x ∈ triplet_group row col r c, vget col x = c := by
  intro x hx
  simp [triplet_group] at hx
  exact hx.2.1

theorem triplet_seg_upto_succ (row col : List Nat) (c m : Nat) :
    triplet_seg_upto row col c (m + 1) =
      triplet_seg_upto row col c m ++ (if (triplet_group row col m c).isEmpty then [] else [m]) := by
  simp only [triplet_seg_upto, List.range_succ, List.filter_append, triplet_present]
  cases h : (triplet_group row col m c).isEmpty <;> simp [List.filter_cons, h]

/-- The effect of the inner `while` loop on one column, started with `j_prev = -1`. -/
theorem triplet_out_block (row col : List Nat) (c m : Nat) (a : TripletOut)
    (hj : a.j_prev = -1) :
    ∃ jp : Int, jp < m ∧
      ((List.range m).flatMap (fun r => triplet_group row col r c)).foldl (triplet_out_step row) a =
        { j_prev := jp,
          rows := a.rows ++ triplet_seg_upto row col c m,
          firsts := a.firsts ++
            (List.range m).flatMap (fun r => (triplet_group row col r c).head?.toList),
          slots := a.slots ++ (List.range m).flatMap (fun r =>
            (triplet_group row col r c).map
              (fun x => (x, a.rows.length + (triplet_seg_upto row col c r).length))) } := by
  induction m with
  | zero =>
    refine ⟨-1, by simp, ?_⟩
    cases a; simp at hj; simp [triplet_seg_upto, hj]
  | succ m ih =>
    obtain ⟨jp, hjp, e⟩ := ih
    rw [flatMap_range_succ, List.foldl_append, e]
    rw [triplet_out_group row m _ _ (triplet_group_row row col m c) (by simp; omega)]
    refine ⟨if (triplet_group row col m c).isEmpty then jp else m, ?_, ?_⟩
    · split
      · push_cast; omega
      · push_cast; omega
    · rw [flatMap_range_succ, flatMap_range_succ, triplet_seg_upto_succ]
      simp [List.append_assoc]

end Sparsity
end casadi

namespace casadi
namespace Sparsity

/-! ## The last loop of `triplet`, on the work vectors -/

theorem vget_lt_length_mem (L : List Nat) (t : Nat) (h : t < L.length) : vget L t ∈ L := by
  unfold vget
  rw [List.getD_eq_getElem L 0 h]
  exact List.getElem_mem h

theorem take_succ_vget (L : List Nat) (t : Nat) (h : t < L.length) :
    L.take (t + 1) = L.take t ++ [vget L t] := by
  unfold vget
  rw [List.take_succ, List.getD_eq_getElem L 0 h, List.getElem?_eq_getElem h]
  rfl

theorem drop_eq_vget_cons (L : List Nat) (t : Nat) (h : t < L.length) :
    L.drop t = vget L t :: L.drop (t + 1) := by
  unfold vget
  rw [List.getD_eq_getElem L 0 h]
  exact List.drop_eq_getElem_cons h

theorem vget_not_mem_take (L : List Nat) (t : Nat) (h : t < L.length) (hnd : L.Nodup) :
    vget L t ∉ L.take t := by
  have e : L = L.take t ++ vget L t :: L.drop (t + 1) := by
    rw [← drop_eq_vget_cons L t h, List.take_append_drop]
  rw [e] at hnd
  have := (List.nodup_append.1 hnd).2.2
  intro hmem
  exact this hmem (List.mem_cons_self _ _)

theorem triplet_body_rel (row : List Nat) (inv : Bool) (L : List Nat) (s : TripletState)
    (a : TripletOut) (t : Nat) (hrel : TripletRel inv L s a t) (ht : t < L.length)
    (hnd : L.Nodup) (hL : ∀ x ∈ L, x < L.length) :
    TripletRel inv L (triplet_body row inv s) (triplet_out_step row a (vget L t)) (t + 1) := by
  obtain ⟨hit, hrel_el, hjp, hle, hfl, hm1, hm2, hrest, hslots, hinv, hninv⟩ := hrel
  have hel : vget s.mapping1 s.it = vget L t := by rw [hit]; exact hrest t (Nat.le_refl _)
  have helt : vget L t < L.length := hL _ (vget_lt_length_mem L t ht)
  have hnot : ∀ pr ∈ a.slots, pr.1 ≠ vget L t := by
    intro pr hpr e
    have h1 : pr.1 ∈ a.slots.map Prod.fst := List.mem_map_of_mem _ hpr
    rw [hslots, e] at h1
    exact vget_not_mem_take L t ht hnd h1
  by_cases hfresh : (vget row (vget L t) : Int) ≠ a.j_prev
  · -- a new entry
    have hstep : triplet_out_step row a (vget L t) =
        { j_prev := vget row (vget L t), rows := a.rows ++ [vget row (vget L t)],
          firsts := a.firsts ++ [vget L t], slots := a.slots ++ [(vget L t, a.rows.length)] } := by
      simp [triplet_out_step, hfresh]
    rw [hstep]
    cases inv with
    | true =>
      have hbody : triplet_body row true s =
          { it := s.it + 1, r_el := s.r_el + 1, j_prev := vget row (vget L t),
            mapping1 := s.mapping1.set s.r_el (vget row (vget L t)),
            mapping2 := s.mapping2.set (vget L t) s.r_el } := by
        simp [triplet_body, hel, hjp, hfresh]
      rw [hbody]
      obtain ⟨hrows, hsl⟩ := hinv rfl
      refine ⟨by simp [hit], by simp [hrel_el], rfl, by simp; omega, by simp [hfl], by simp [hm1],
        by simp [hm2], ?_, ?_, ?_, ?_⟩
      · intro p hp
        simp only
        rw [vget_set_ne _ _ _ _ (by omega)]
        exact hrest p (by omega)
      · simp only [List.map_append, List.map_cons, List.map_nil]
        rw [hslots, take_succ_vget L t ht]
      · intro _
        constructor
        · intro q hq
          simp only [List.length_append, List.length_cons, List.length_nil] at hq
          simp only
          rw [vget_set, vget_append_single, hrel_el]
          by_cases e : q = a.rows.length
          · subst e; rw [if_pos ⟨rfl, by omega⟩, if_pos rfl]
          · rw [if_neg (by intro h; exact e h.1.symm), if_neg e]
            exact hrows q (by omega)
        · intro pr hpr
          simp only
          rw [List.mem_append] at hpr
          rcases hpr with hpr | hpr
          · rw [vget_set_ne _ _ _ _ (fun e => hnot pr hpr e.symm)]
            exact hsl pr hpr
          · simp at hpr; subst hpr
            simp only
            rw [vget_set_self _ _ _ (by omega), hrel_el]
      · intro h; cases h
    | false =>
      have hbody : triplet_body row false s =
          { it := s.it + 1, r_el := s.r_el + 1, j_prev := vget row (vget L t),
            mapping1 := s.mapping1.set s.r_el (vget L t),
            mapping2 := s.mapping2.set s.r_el (vget row (vget L t)) } := by
        simp [triplet_body, hel, hjp, hfresh]
      rw [hbody]
      have hboth := hninv rfl
      refine ⟨by simp [hit], by simp [hrel_el], rfl, by simp; omega, by simp [hfl], by simp [hm1],
        by simp [hm2], ?_, ?_, ?_, ?_⟩
      · intro p hp
        simp only
        rw [vget_set_ne _ _ _ _ (by omega)]
        exact hrest p (by omega)
      · simp only [List.map_append, List.map_cons, List.map_nil]
        rw [hslots, take_succ_vget L t ht]
      · intro h; cases h
      · intro _ q hq
        simp only [List.length_append, List.length_cons, List.length_nil] at hq
        simp only
        constructor
        · rw [vget_set, vget_append_single, hrel_el]
          by_cases e : q = a.rows.length
          · subst e; rw [if_pos ⟨rfl, by omega⟩, if_pos rfl]
          · rw [if_neg (by intro h; exact e h.1.symm), if_neg e]
            exact (hboth q (by omega)).1
        · rw [vget_set, vget_append_single, hrel_el, hfl]
          by_cases e : q = a.rows.length
          · subst e; rw [if_pos ⟨rfl, by omega⟩, if_pos rfl]
          · rw [if_neg (by intro h; exact e h.1.symm), if_neg e]
            exact (hboth q (by omega)).2
  · -- a duplicate of the previous entry
    have hdup : (vget row (vget L t) : Int) = a.j_prev := by
      by_contra h; exact hfresh h
    have hstep : triplet_out_step row a (vget L t) =
        { j_prev := vget row (vget L t), rows := a.rows, firsts := a.firsts,
          slots := a.slots ++ [(vget L t, a.rows.length - 1)] } := by
      simp [triplet_out_step, hdup]
    rw [hstep]
    cases inv with
    | true =>
      have hbody : triplet_body row true s =
          { it := s.it + 1, r_el := s.r_el, j_prev := vget row (vget L t),
            mapping1 := s.mapping1,
            mapping2 := s.mapping2.set (vget L t) (s.r_el - 1) } := by
        simp [triplet_body, hel, hjp, hdup]
      rw [hbody]
      obtain ⟨hrows, hsl⟩ := hinv rfl
      refine ⟨by simp [hit], hrel_el, rfl, by simp; omega, hfl, hm1,
        by simp [hm2], ?_, ?_, ?_, ?_⟩
      · intro p hp
        exact hrest p (by omega)
      · simp only [List.map_append, List.map_cons, List.map_nil]
        rw [hslots, take_succ_vget L t ht]
      · intro _
        refine ⟨hrows, ?_⟩
        intro pr hpr
        simp only
        rw [List.mem_append] at hpr
        rcases hpr with hpr | hpr
        · rw [vget_set_ne _ _ _ _ (fun e => hnot pr hpr e.symm)]
          exact hsl pr hpr
        · simp at hpr; subst hpr
          simp only
          rw [vget_set_self _ _ _ (by omega), hrel_el]
      · intro h; cases h
    | false =>
      have hbody : triplet_body row false s =
          { it := s.it + 1, r_el := s.r_el, j_prev := vget row (vget L t),
            mapping1 := s.mapping1, mapping2 := s.mapping2 } := by
        simp [triplet_body, hel, hjp, hdup]
      rw [hbody]
      refine ⟨by simp [hit], hrel_el, rfl, by simp; omega, hfl, hm1, hm2, ?_, ?_, ?_, hninv⟩
      · intro p hp
        exact hrest p (by omega)
      · simp only [List.map_append, List.map_cons, List.map_nil]
        rw [hslots, take_succ_vget L t ht]
      · intro h; cases h

end Sparsity
end casadi

namespace casadi
namespace Sparsity

theorem triplet_while (row col : List Nat) (inv : Bool) (L : List Nat) (i : Nat)
    (hnd : L.Nodup) (hL : ∀ x ∈ L, x < L.length) (rest : List Nat)
    (hrest : ∀ y, rest.head? = some y → vget col y ≠ i) :
    ∀ (blk : List Nat) (s : TripletState) (a : TripletOut) (t fuel : Nat),
      TripletRel inv L s a t → L.drop t = blk ++ rest → (∀ x ∈ blk, vget col x = i) →
      blk.length < fuel →
      ∃ s', whileFuel
          (fun t => decide (t.it < t.mapping1.length) && decide (vget col (vget t.mapping1 t.it) = i))
          (triplet_body row inv) fuel s = some s' ∧
        TripletRel inv L s' (blk.foldl (triplet_out_step row) a) (t + blk.length) := by
  intro blk
  induction blk with
  | nil =>
    intro s a t fuel hrel hdrop _ hfuel
    obtain ⟨f, rfl⟩ : ∃ f, fuel = f + 1 := ⟨fuel - 1, by simp at hfuel; omega⟩
    refine ⟨s, ?_, by simpa using hrel⟩
    have hcond : (decide (s.it < s.mapping1.length) &&
        decide (vget col (vget s.mapping1 s.it) = i)) = false := by
      obtain ⟨hit, -, -, -, -, hm1, -, hr, -⟩ := hrel
      by_cases ht : t < L.length
      · have h1 := drop_eq_vget_cons L t ht
        rw [hdrop] at h1
        simp only [List.nil_append] at h1
        have h2 := hrest (vget L t) (by rw [h1]; rfl)
        rw [hit, hr t (Nat.le_refl _)]
        simp [h2]
      · rw [hit, hm1]; simp [ht]
    simp [whileFuel, hcond]
  | cons x blk ih =>
    intro s a t fuel hrel hdrop hblk hfuel
    obtain ⟨f, rfl⟩ : ∃ f, fuel = f + 1 := ⟨fuel - 1, by simp at hfuel; omega⟩
    have ht : t < L.length := by
      by_contra h
      rw [List.drop_eq_nil_of_le (by omega)] at hdrop
      simp at hdrop
    have h1 := drop_eq_vget_cons L t ht
    rw [hdrop] at h1
    simp only [List.cons_append, List.cons.injEq] at h1
    obtain ⟨hx, htl⟩ := h1
    have hcond : (decide (s.it < s.mapping1.length) &&
        decide (vget col (vget s.mapping1 s.it) = i)) = true := by
      obtain ⟨hit, -, -, -, -, hm1, -, hr, -⟩ := hrel
      rw [hit, hm1, hr t (Nat.le_refl _), ← hx]
      simp [ht, hblk x (List.mem_cons_self _ _)]
    have hrel' := triplet_body_rel row inv L s a t hrel ht hnd hL
    rw [← hx] at hrel'
    obtain ⟨s', hs', hr'⟩ := ih (triplet_body row inv s) (triplet_out_step row a x) (t + 1) f
      hrel' htl.symm (fun y hy => hblk y (List.mem_cons_of_mem _ hy))
      (by simp at hfuel; omega)
    refine ⟨s', ?_, ?_⟩
    · simp only [whileFuel, hcond, if_true]
      exact hs'
    · rw [List.foldl_cons, List.length_cons, show t + (blk.length + 1) = t + 1 + blk.length by omega]
      exact hr'

/-! ### Segments of a concatenation -/

theorem drop_offs {α : Type} (segs : Nat → List α) (N i : Nat) (hi : i < N) :
    ((List.range N).flatMap segs).drop (offs segs i) =
      segs i ++ ((List.range N).flatMap segs).drop (offs segs (i + 1)) := by
  induction N with
  | zero => omega
  | succ N ih =>
    rw [flatMap_range_succ]
    rcases Nat.eq_or_lt_of_le (Nat.le_of_lt_succ hi) with h | h
    · subst h
      have e1 : offs segs i = ((List.range i).flatMap segs).length := rfl
      rw [offs_succ, e1, List.drop_left]
      rw [List.drop_eq_nil_of_le (by simp)]
      simp
    · have h1 : offs segs i ≤ ((List.range N).flatMap segs).length := offs_mono segs (Nat.le_of_lt h)
      have h2 : offs segs (i + 1) ≤ ((List.range N).flatMap segs).length := offs_mono segs h
      rw [List.drop_append_of_le_length h1, List.drop_append_of_le_length h2, ih h]
      simp

theorem mem_drop_offs {α : Type} (segs : Nat → List α) (N : Nat) :
    ∀ (d i : Nat), i + d = N → ∀ y ∈ ((List.range N).flatMap segs).drop (offs segs i),
      ∃ c, i ≤ c ∧ c < N ∧ y ∈ segs c := by
  intro d
  induction d with
  | zero =>
    intro i hi y hy
    simp at hi; subst hi
    have e : ((List.range i).flatMap segs).drop (offs segs i) = [] :=
      List.drop_eq_nil_of_le (Nat.le_refl _)
    rw [e] at hy
    simp at hy
  | succ d ih =>
    intro i hi y hy
    rw [drop_offs segs N i (by omega), List.mem_append] at hy
    rcases hy with hy | hy
    · exact ⟨i, Nat.le_refl _, by omega, hy⟩
    · obtain ⟨c, h1, h2, h3⟩ := ih (i + 1) (by omega) y hy
      exact ⟨c, by omega, h2, h3⟩

end Sparsity
end casadi

namespace casadi
namespace Sparsity

/-! ## The sorted index list is a permutation of the input indices -/

theorem filter_lt_succ_perm (l : List Nat) (f : Nat → Nat) (K : Nat) :
    (l.filter (fun x => f x < K) ++ l.filter (fun x => f x = K)).Perm
      (l.filter (fun x => f x < K + 1)) := by
  induction l with
  | nil => simp
  | cons x xs ih =>
    by_cases h1 : f x < K
    · have d1 : decide (f x < K) = true := by simp [h1]
      have d2 : decide (f x = K) = false := by simp; omega
      have d3 : decide (f x < K + 1) = true := by simp; omega
      simp only [List.filter_cons, d1, d2, d3, if_true, Bool.false_eq_true, if_false,
        List.cons_append]
      exact List.Perm.cons _ ih
    · by_cases h3 : f x = K
      · have d1 : decide (f x < K) = false := by simp [h1]
        have d2 : decide (f x = K) = true := by simp [h3]
        have d3 : decide (f x < K + 1) = true := by simp; omega
        simp only [List.filter_cons, d1, d2, d3, if_true, Bool.false_eq_true, if_false]
        exact List.perm_middle.trans (List.Perm.cons _ ih)
      · have d1 : decide (f x < K) = false := by simp [h1]
        have d2 : decide (f x = K) = false := by simp [h3]
        have d3 : decide (f x < K + 1) = false := by simp; omega
        simp only [List.filter_cons, d1, d2, d3, Bool.false_eq_true, if_false]
        exact ih

theorem buckets_perm_filter (items : List Nat) (f : Nat → Nat) (K : Nat) :
    ((List.range K).flatMap (fun r => items.filter (fun x => f x = r))).Perm
      (items.filter (fun x => f x < K)) := by
  induction K with
  | zero => simp
  | succ K ih =>
    rw [flatMap_range_succ]
    exact (List.Perm.append_right _ ih).trans (filter_lt_succ_perm items f K)

theorem buckets_perm (items : List Nat) (f : Nat → Nat) (K : Nat) (hK : ∀ x ∈ items, f x < K) :
    ((List.range K).flatMap (fun r => items.filter (fun x => f x = r))).Perm items := by
  have h := buckets_perm_filter items f K
  rwa [List.filter_eq_self.2 (by intro x hx; simpa using hK x hx)] at h

/-- The index list after the first sorting pass. -/
theorem triplet_sorted_eq (nrow ncol : Nat) (row col : List Nat) :
    (List.range ncol).flatMap (fun c =>
      ((List.range nrow).flatMap (fun r =>
        (List.range row.length).filter (fun k => vget row k = r))).filter
          (fun x => vget col x = c)) = triplet_sorted nrow ncol row col := by
  unfold triplet_sorted triplet_block triplet_group
  simp only [List.filter_flatMap, List.filter_filter]

theorem triplet_sorted_perm (nrow ncol : Nat) (row col : List Nat)
    (hval : ∀ k, k < row.length → vget row k < nrow ∧ vget col k < ncol) :
    (triplet_sorted nrow ncol row col).Perm (List.range row.length) := by
  rw [← triplet_sorted_eq]
  have h1 : ((List.range nrow).flatMap (fun r =>
        (List.range row.length).filter (fun k => vget row k = r))).Perm (List.range row.length) :=
    buckets_perm _ (fun k => vget row k) nrow (by
      intro x hx; exact (hval x (List.mem_range.1 hx)).1)
  refine (buckets_perm _ (fun k => vget col k) ncol ?_).trans h1
  intro x hx
  exact (hval x (List.mem_range.1 (h1.mem_iff.1 hx))).2

theorem triplet_rel_reset (inv : Bool) (L : List Nat) (s : TripletState) (a : TripletOut) (t : Nat)
    (h : TripletRel inv L s a t) :
    TripletRel inv L { s with j_prev := -1 } { a with j_prev := -1 } t := by
  obtain ⟨h1, h2, -, h4, h5, h6, h7, h8, h9, h10, h11⟩ := h
  exact ⟨h1, h2, rfl, h4, h5, h6, h7, h8, h9, h10, h11⟩

theorem triplet_block_col (nrow : Nat) (row col : List Nat) (c : Nat) :
    ∀ x ∈ triplet_block nrow row col c, vget col x = c := by
  intro x hx
  simp only [triplet_block, List.mem_flatMap] at hx
  obtain ⟨r, -, hr⟩ := hx
  exact triplet_group_col row col r c x hr

/-- The loop over the columns: the state after `i` columns. -/
theorem triplet_columns_spec (nrow ncol : Nat) (row col : List Nat) (inv : Bool)
    (hlen : row.length = col.length)
    (hval : ∀ k, k < row.length → vget row k < nrow ∧ vget col k < ncol)
    (s₀ : TripletState) (c₀ : List Nat) (hc₀ : c₀.length = ncol + 1)
    (hs₀ : TripletRel inv (triplet_sorted nrow ncol row col) s₀
      { j_prev := -1, rows := [], firsts := [], slots := [] } 0) :
    ∀ i, i ≤ ncol → ∃ s colind a,
      (List.range i).foldlM (triplet_column row col inv) (s₀, c₀.set 0 0) = some (s, colind) ∧
      TripletRel inv (triplet_sorted nrow ncol row col) s a (offs (triplet_block nrow row col) i) ∧
      a.rows = (List.range i).flatMap (triplet_seg nrow row col) ∧
      a.firsts = (List.range i).flatMap (fun c =>
        (List.range nrow).flatMap (fun r => (triplet_group row col r c).head?.toList)) ∧
      a.slots = (List.range i).flatMap (fun c =>
        (List.range nrow).flatMap (fun r =>
          (triplet_group row col r c).map (fun x => (x, triplet_slot nrow row col r c)))) ∧
      colind.length = ncol + 1 ∧
      (∀ c, c ≤ i → vget colind c = offs (triplet_seg nrow row col) c) := by
  have hperm := triplet_sorted_perm nrow ncol row col hval
  have hLlen : (triplet_sorted nrow ncol row col).length = row.length := by
    rw [hperm.length_eq]; simp
  have hnd : (triplet_sorted nrow ncol row col).Nodup := hperm.nodup_iff.2 (List.nodup_range _)
  have hL : ∀ x ∈ triplet_sorted nrow ncol row col, x < (triplet_sorted nrow ncol row col).length := by
    intro x hx
    rw [hLlen]
    exact List.mem_range.1 (hperm.mem_iff.1 hx)
  intro i
  induction i with
  | zero =>
    intro _
    refine ⟨s₀, c₀.set 0 0, _, rfl, by simpa [offs_zero] using hs₀, rfl, rfl, rfl, by simp [hc₀], ?_⟩
    intro c hc
    have : c = 0 := by omega
    subst this
    rw [vget_set_self _ _ _ (by omega), offs_zero]
  | succ i ih =>
    intro hi
    obtain ⟨s, colind, a, hfold, hrel, hrows, hfirsts, hslots, hclen, hcol⟩ := ih (by omega)
    -- the inner loop reads exactly the block of column `i`
    have hdrop : (triplet_sorted nrow ncol row col).drop (offs (triplet_block nrow row col) i) =
        triplet_block nrow row col i ++
          (triplet_sorted nrow ncol row col).drop (offs (triplet_block nrow row col) (i + 1)) :=
      drop_offs (triplet_block nrow row col) ncol i (by omega)
    have hrest : ∀ y, ((triplet_sorted nrow ncol row col).drop
        (offs (triplet_block nrow row col) (i + 1))).head? = some y → vget col y ≠ i := by
      intro y hy
      have hmem : y ∈ (triplet_sorted nrow ncol row col).drop
          (offs (triplet_block nrow row col) (i + 1)) := List.mem_of_mem_head? hy
      obtain ⟨c, h1, -, h3⟩ := mem_drop_offs (triplet_block nrow row col) ncol (ncol - (i + 1))
        (i + 1) (by omega) y hmem
      rw [triplet_block_col nrow row col c y h3]
      omega
    have hblen : (triplet_block nrow row col i).length < col.length + 1 := by
      have h1 : (triplet_block nrow row col i).length ≤
          ((triplet_sorted nrow ncol row col).drop (offs (triplet_block nrow row col) i)).length := by
        rw [hdrop]; simp
      have h2 : ((triplet_sorted nrow ncol row col).drop
          (offs (triplet_block nrow row col) i)).length ≤ row.length := by
        rw [List.length_drop, hLlen]; omega
      omega
    obtain ⟨s', hs', hrel'⟩ := triplet_while row col inv _ i hnd hL _ hrest
      (triplet_block nrow row col i) { s with j_prev := -1 } { a with j_prev := -1 } _ _
      (triplet_rel_reset inv _ s a _ hrel) hdrop (triplet_block_col nrow row col i) hblen
    obtain ⟨jp, -, hout⟩ := triplet_out_block row col i nrow { a with j_prev := -1 } rfl
    have hout' : (triplet_block nrow row col i).foldl (triplet_out_step row)
        { a with j_prev := -1 } = _ := hout
    rw [hout'] at hrel'
    rw [← offs_succ] at hrel'
    refine ⟨s', colind.set (i + 1) s'.r_el, _, ?_, hrel', ?_, ?_, ?_, by simp [hclen], ?_⟩
    · rw [List.range_succ, List.foldlM_append, hfold]
      simp [triplet_column, hs']
    · simp only
      rw [flatMap_range_succ, hrows]; rfl
    · simp only
      rw [flatMap_range_succ, hfirsts]
    · simp only
      rw [flatMap_range_succ, hslots, hrows]
      rfl
    · intro c hc
      by_cases e : c = i + 1
      · subst e
        rw [vget_set_self _ _ _ (by omega), hrel'.2.1]
        simp only
        rw [hrows, offs_succ, List.length_append]
        rfl
      · rw [vget_set_ne _ _ _ _ (by omega)]
        exact hcol c (by omega)

end Sparsity
end casadi

namespace casadi
namespace Sparsity

theorem resize_of_length (v : List Nat) (n : Nat) (h : v.length = n) : resize v n = v := by
  subst h; simp [resize]

theorem vget_map_range (f : Nat → Nat) (n p : Nat) (h : p < n) :
    vget ((List.range n).map f) p = f p := by
  unfold vget
  rw [List.getD_eq_getElem _ _ (by simpa using h)]
  simp

theorem mem_triplet_group (row col : List Nat) (k : Nat) (hk : k < row.length) :
    k ∈ triplet_group row col (vget row k) (vget col k) := by
  simp [triplet_group, hk]

/-- The general path of `triplet` computes the column offsets, the rows and the mapping
given by the lists `triplet_colind`, `triplet_row` and `triplet_mapping`. -/
theorem triplet_sort_eq (nrow ncol : Nat) (row col mapping : List Nat) (inv : Bool)
    (hlen : row.length = col.length)
    (hval : ∀ k, k < row.length → vget row k < nrow ∧ vget col k < ncol) :
    triplet_sort nrow ncol row col mapping inv =
      some (triplet_colind nrow ncol row col, triplet_row nrow ncol row col,
        triplet_mapping nrow ncol row col inv) := by
  -- first pass: by row
  have hS1 := counting_sort row (List.range row.length) nrow
    (resize (if inv then mapping else []) row.length)
    (by intro x hx; exact (hval x (List.mem_range.1 hx)).1) (by simp)
  rw [map_vget_range] at hS1
  obtain ⟨hrc, hm2⟩ := hS1
  have hS1perm : ((List.range nrow).flatMap (fun r =>
        (List.range row.length).filter (fun k => vget row k = r))).Perm (List.range row.length) :=
    buckets_perm _ (fun k => vget row k) nrow (by
      intro x hx; exact (hval x (List.mem_range.1 hx)).1)
  have hS1len : ((List.range nrow).flatMap (fun r =>
        (List.range row.length).filter (fun k => vget row k = r))).length = row.length := by
    rw [hS1perm.length_eq]; simp
  -- second pass: by column
  have hS2 := counting_sort col ((List.range nrow).flatMap (fun r =>
        (List.range row.length).filter (fun k => vget row k = r))) ncol
    (resize (triplet_scatter row (List.range row.length)
      (triplet_cumsum nrow (triplet_count row (List.replicate (nrow + 1) 0)))
      (resize (if inv then mapping else []) row.length)).1 col.length)
    (by intro x hx; exact (hval x (List.mem_range.1 (hS1perm.mem_iff.1 hx))).2)
    (by rw [length_resize, hS1len]; exact hlen.symm)
  rw [triplet_sorted_eq] at hS2
  obtain ⟨hcc, hm1⟩ := hS2
  have hperm := triplet_sorted_perm nrow ncol row col hval
  have hLlen : (triplet_sorted nrow ncol row col).length = row.length := by
    rw [hperm.length_eq]; simp
  -- the loop over the columns
  obtain ⟨s, colind, a, hfold, hrel, hrows, hfirsts, hslots, hclen, hcol⟩ :=
    triplet_columns_spec nrow ncol row col inv hlen hval
      { it := 0, r_el := 0, j_prev := -1, mapping1 := triplet_sorted nrow ncol row col,
        mapping2 := (List.range nrow).flatMap (fun r =>
          (List.range row.length).filter (fun k => vget row k = r)) }
      (triplet_scatter col ((List.range nrow).flatMap (fun r =>
          (List.range row.length).filter (fun k => vget row k = r)))
        (triplet_cumsum ncol (triplet_count
          (((List.range nrow).flatMap (fun r =>
            (List.range row.length).filter (fun k => vget row k = r))).map (fun x => vget col x))
          (List.replicate (ncol + 1) 0)))
        (resize (triplet_scatter row (List.range row.length)
          (triplet_cumsum nrow (triplet_count row (List.replicate (nrow + 1) 0)))
          (resize (if inv then mapping else []) row.length)).1 col.length)).1
      hcc
      ⟨rfl, rfl, rfl, Nat.le_refl _, rfl, rfl, by simp [hS1len, hLlen], fun _ _ => rfl, by simp,
        fun _ => ⟨fun q hq => by simp at hq, fun pr hpr => by simp at hpr⟩,
        fun _ q hq => by simp at hq⟩
      ncol (Nat.le_refl _)
  have hcolind : colind = triplet_colind nrow ncol row col := by
    apply ext_vget (by simp [triplet_colind, hclen])
    intro p hp
    rw [hclen] at hp
    rw [hcol p (by omega), triplet_colind, vget_map_range _ _ _ hp]
  obtain ⟨hit, hrel_el, -, -, hfl, hm1len, hm2len, -, -, hinv, hninv⟩ := hrel
  have hrows' : a.rows = triplet_row nrow ncol row col := hrows
  unfold triplet_sort
  simp only [length_resize, hm2, hm1]
  have e1 : (if inv then resize (triplet_sorted nrow ncol row col) col.length
      else triplet_sorted nrow ncol row col) = triplet_sorted nrow ncol row col := by
    split
    · exact resize_of_length _ _ (hLlen.trans hlen)
    · rfl
  have e2 : (if inv then ((List.range nrow).flatMap (fun r =>
        (List.range row.length).filter (fun k => vget row k = r)))
      else resize ((List.range nrow).flatMap (fun r =>
        (List.range row.length).filter (fun k => vget row k = r))) col.length) =
      ((List.range nrow).flatMap (fun r =>
        (List.range row.length).filter (fun k => vget row k = r))) := by
    split
    · rfl
    · exact resize_of_length _ _ (hS1len.trans hlen)
  rw [e1, e2]
  unfold triplet_columns
  cases inv with
  | true =>
    simp only [if_true] at hfold ⊢
    rw [hfold]
    simp only
    obtain ⟨h1, h2⟩ := hinv rfl
    rw [hcolind, hrel_el, resize_eq_of_prefix _ _ h1, hrows']
    congr 3
    apply ext_vget (by simp [triplet_mapping, hm2len, hLlen])
    intro k hk
    rw [hm2len, hLlen] at hk
    have hmem : (k, triplet_slot nrow row col (vget row k) (vget col k)) ∈ a.slots := by
      rw [hslots]
      simp only [List.mem_flatMap, List.mem_range, List.mem_map]
      exact ⟨vget col k, (hval k hk).2, vget row k, (hval k hk).1, k,
        mem_triplet_group row col k hk, rfl⟩
    rw [h2 _ hmem]
    simp only [triplet_mapping, if_true]
    rw [vget_map_range _ _ _ hk]
  | false =>
    simp only [Bool.false_eq_true, if_false] at hfold ⊢
    rw [hfold]
    simp only
    have h1 := hninv rfl
    have hR : resize s.mapping2 s.r_el = triplet_row nrow ncol row col := by
      rw [hrel_el, resize_eq_of_prefix _ _ (fun q hq => (h1 q hq).1), hrows']
    have hM : resize s.mapping1 s.r_el = triplet_mapping nrow ncol row col false := by
      rw [hrel_el, ← hfl, resize_eq_of_prefix _ _ (fun q hq => (h1 q (by omega)).2), hfirsts]
      simp [triplet_mapping]
    rw [hcolind, hR, hM]

end Sparsity
end casadi

namespace casadi
namespace Sparsity

/-! ## Patterns given by their columns -/

theorem vget_mem (l : List Nat) (j : Nat) (h : j < l.length) : vget l j ∈ l :=
  vget_lt_length_mem l j h

theorem exists_vget_of_mem (l : List Nat) (x : Nat) (h : x ∈ l) : ∃ j, j < l.length ∧ vget l j = x := by
  obtain ⟨j, hj, e⟩ := List.getElem_of_mem h
  exact ⟨j, hj, by unfold vget; rw [List.getD_eq_getElem l 0 hj]; exact e⟩

theorem vget_flatMap_range (segs : Nat → List Nat) (N c j : Nat) (hc : c < N)
    (hj : j < (segs c).length) :
    vget ((List.range N).flatMap segs) (offs segs c + j) = vget (segs c) j :=
  vget_congr (getElem?_flatMap_range segs N c j hc hj)

theorem vget_lt_of_pairwise (l : List Nat) (h : l.Pairwise (· < ·)) (j : Nat)
    (hj : j + 1 < l.length) : vget l j < vget l (j + 1) := by
  unfold vget
  rw [List.getD_eq_getElem l 0 (by omega), List.getD_eq_getElem l 0 hj]
  exact List.pairwise_iff_getElem.1 h j (j + 1) (by omega) hj (by omega)

theorem ofSegs_colind (nrow ncol : Nat) (seg : Nat → List Nat) (c : Nat) (hc : c ≤ ncol) :
    vget (ofSegs nrow ncol seg).colind c = offs seg c := by
  unfold ofSegs
  exact vget_map_range _ _ _ (by omega)

theorem ofSegs_row (nrow ncol : Nat) (seg : Nat → List Nat) (c j : Nat) (hc : c < ncol)
    (hj : j < (seg c).length) :
    vget (ofSegs nrow ncol seg).row (offs seg c + j) = vget (seg c) j :=
  vget_flatMap_range seg ncol c j hc hj

theorem ofSegs_wf (nrow ncol : Nat) (seg : Nat → List Nat)
    (hlt : ∀ c, c < ncol → ∀ r ∈ seg c, r < nrow)
    (hinc : ∀ c, c < ncol → (seg c).Pairwise (· < ·)) :
    (ofSegs nrow ncol seg).wf := by
  have hrowlen : (ofSegs nrow ncol seg).row.length = offs seg ncol := rfl
  refine ⟨by simp [ofSegs], ?_, ?_, ?_, ?_, ?_⟩
  · rw [ofSegs_colind _ _ _ _ (Nat.zero_le _), offs_zero]
  · intro c hc
    replace hc : c < ncol := hc
    show vget (ofSegs nrow ncol seg).colind c ≤ vget (ofSegs nrow ncol seg).colind (c + 1)
    rw [ofSegs_colind _ _ _ _ (by omega), ofSegs_colind _ _ _ _ (by omega)]
    exact offs_mono seg (by omega)
  · show (ofSegs nrow ncol seg).row.length = vget (ofSegs nrow ncol seg).colind ncol
    rw [ofSegs_colind _ _ _ _ (Nat.le_refl _)]; rfl
  · intro k hk
    rw [hrowlen] at hk
    obtain ⟨c, j, hc, hj, e⟩ := offs_cover seg ncol k hk
    subst e
    rw [ofSegs_row _ _ _ _ _ hc hj]
    exact hlt c hc _ (vget_mem _ _ hj)
  · intro c hc k _ h1 h2
    replace hc : c < ncol := hc
    have e1 : vget (ofSegs nrow ncol seg).colind c = offs seg c := ofSegs_colind _ _ _ _ (by omega)
    have e2 : vget (ofSegs nrow ncol seg).colind (c + 1) = offs seg (c + 1) :=
      ofSegs_colind _ _ _ _ (by omega)
    have h1' : offs seg c ≤ k := by rw [← e1]; exact h1
    have h2' : k + 1 < offs seg (c + 1) := by rw [← e2]; exact h2
    rw [offs_succ] at h2'
    obtain ⟨j, rfl⟩ : ∃ j, k = offs seg c + j := ⟨k - offs seg c, by omega⟩
    show vget (ofSegs nrow ncol seg).row (offs seg c + j) <
      vget (ofSegs nrow ncol seg).row (offs seg c + j + 1)
    rw [ofSegs_row _ _ _ _ _ hc (by omega), Nat.add_assoc, ofSegs_row _ _ _ _ _ hc (by omega)]
    exact vget_lt_of_pairwise _ (hinc c hc) j (by omega)

theorem ofSegs_has_entry (nrow ncol : Nat) (seg : Nat → List Nat) (r c : Nat) :
    (ofSegs nrow ncol seg).has_entry r c ↔ c < ncol ∧ r ∈ seg c := by
  unfold has_entry
  constructor
  · rintro ⟨hc, k, h1, h2, h3⟩
    have hc' : c < ncol := hc
    refine ⟨hc', ?_⟩
    rw [ofSegs_colind _ _ _ _ (by omega)] at h1 h2
    rw [offs_succ] at h2
    obtain ⟨j, rfl⟩ : ∃ j, k = offs seg c + j := ⟨k - offs seg c, by omega⟩
    rw [ofSegs_row _ _ _ _ _ hc' (by omega)] at h3
    rw [← h3]
    exact vget_mem _ _ (by omega)
  · rintro ⟨hc, hr⟩
    obtain ⟨j, hj, e⟩ := exists_vget_of_mem _ _ hr
    refine ⟨hc, offs seg c + j, ?_, ?_, ?_⟩
    · rw [ofSegs_colind _ _ _ _ (by omega)]; omega
    · rw [ofSegs_colind _ _ _ _ (by omega), offs_succ]; omega
    · rw [ofSegs_row _ _ _ _ _ hc hj, e]

/-! ## The constructor on valid data -/

theorem getLastD_eq_vget (l : List Nat) (n : Nat) (h : l.length = n + 1) :
    l.getLastD 0 = vget l n := by
  have hne : l ≠ [] := by intro e; subst e; simp at h
  rw [List.getLastD_eq_getLast?, List.getLast?_eq_getLast _ hne, List.getLast_eq_getElem]
  unfold vget
  rw [List.getD_eq_getElem l 0 (by omega)]
  simp [h]

theorem assign_cached_wf (nrow ncol : Nat) (colind row : List Nat)
    (h : (⟨nrow, ncol, colind, row⟩ : Sparsity).wf) :
    assign_cached nrow ncol colind row = .ok ⟨nrow, ncol, colind, row⟩ := by
  obtain ⟨h1, h2, h3, h4, h5, h6⟩ := h
  simp only at h1 h2 h3 h4 h5 h6
  have hlast : colind.getLastD 0 = vget colind ncol := getLastD_eq_vget colind ncol h1
  unfold assign_cached
  rw [if_neg (by simp [h1]), if_neg (by rw [hlast]; simp [h4])]
  by_cases h00 : ncol = 0 ∧ nrow = 0
  · obtain ⟨rfl, rfl⟩ := h00
    rw [if_pos ⟨rfl, rfl⟩]
    match colind, h1, h2, h4 with
    | [a], _, h2, h4 =>
      simp [vget] at h2 h4
      subst h2
      have : row = [] := List.eq_nil_of_length_eq_zero h4
      subst this
      rfl
  · rw [if_neg h00]
    by_cases h11 : ncol = 1 ∧ nrow = 1
    · obtain ⟨rfl, rfl⟩ := h11
      rw [if_pos ⟨rfl, rfl⟩]
      match colind, h1, h2, h4, h6 with
      | [a, b], _, h2, h4, h6 =>
        simp [vget] at h2 h4 h6 ⊢
        subst h2
        match row, h4, h5, h6 with
        | [], h4, _, _ =>
          simp at h4; subst h4; simp [getScalarSparse]
        | [r], h4, h5, _ =>
          simp at h4; subst h4
          have := h5 0 (by simp)
          simp [vget] at this
          subst this
          simp [getScalar]
        | r₀ :: r₁ :: rs, h4, h5, h6 =>
          exfalso
          have hb : 2 ≤ b := by rw [← h4]; simp
          have a1 := h6 0 (by simp) (by omega)
          have a2 := h5 1 (by simp)
          simp [vget] at a1 a2
          omega
    · rw [if_neg h11]

theorem ofVectors_wf (nrow ncol : Nat) (colind row : List Nat)
    (h : (⟨nrow, ncol, colind, row⟩ : Sparsity).wf) :
    ofVectors nrow ncol colind row = .ok ⟨nrow, ncol, colind, row⟩ := by
  unfold ofVectors
  rw [assign_cached_wf nrow ncol colind row h]
  simp only
  unfold sanity_check
  rw [if_pos h]

end Sparsity
end casadi

namespace casadi
namespace Sparsity

/-! ## The consistency loop and the quick return of `triplet` -/

theorem triplet_check_false (nrow ncol : Nat) :
    ∀ (cs rs : List Int) (lc lr : Int), cs.length = rs.length →
      (∀ c ∈ cs, 0 ≤ c ∧ c < ncol) → (∀ r ∈ rs, 0 ≤ r ∧ r < nrow) →
      triplet_check nrow ncol cs rs lc lr false = .ok false := by
  intro cs
  induction cs with
  | nil => intro rs lc lr _ _ _; cases rs <;> rfl
  | cons c cs ih =>
    intro rs lc lr hlen hc hr
    cases rs with
    | nil => simp at hlen
    | cons r rs =>
      have h1 := hc c (List.mem_cons_self _ _)
      have h2 := hr r (List.mem_cons_self _ _)
      simp only [triplet_check]
      rw [if_neg (by simp; omega), if_neg (by simp; omega)]
      simp only [Bool.false_and]
      exact ih rs c r (by simpa using hlen) (fun x hx => hc x (List.mem_cons_of_mem _ hx))
        (fun x hx => hr x (List.mem_cons_of_mem _ hx))

theorem triplet_check_ok (nrow ncol : Nat) (cs rs : List Int) (hlen : cs.length = rs.length)
    (hc : ∀ c ∈ cs, 0 ≤ c ∧ c < ncol) (hr : ∀ r ∈ rs, 0 ≤ r ∧ r < nrow) :
    triplet_check nrow ncol cs rs (-1) (-1) true = .ok cs.isEmpty := by
  cases cs with
  | nil => cases rs <;> rfl
  | cons c cs =>
    cases rs with
    | nil => simp at hlen
    | cons r rs =>
      have h1 := hc c (List.mem_cons_self _ _)
      have h2 := hr r (List.mem_cons_self _ _)
      simp only [triplet_check]
      rw [if_neg (by simp; omega), if_neg (by simp; omega)]
      have e : (true && (decide (c < -1) || (decide (c = -1) && decide (r ≤ -1)))) = false := by
        have a1 : ¬ c < -1 := by omega
        have a2 : ¬ c = -1 := by omega
        simp [a1, a2]
      rw [e]
      simp only [List.isEmpty_cons]
      exact triplet_check_false nrow ncol cs rs c r (by simpa using hlen)
        (fun x hx => hc x (List.mem_cons_of_mem _ hx))
        (fun x hx => hr x (List.mem_cons_of_mem _ hx))

theorem set_replicate_zero (n j : Nat) : (List.replicate n 0).set j 0 = List.replicate n 0 := by
  apply ext_vget (by simp)
  intro p _
  rw [vget_set, vget_replicate_zero]
  split <;> rfl

theorem triplet_offsets_nil (ncol : Nat) :
    triplet_offsets ncol [] (List.replicate (ncol + 1) 0) = some (List.replicate (ncol + 1) 0) := by
  have h : ∀ i, (List.range i).foldlM (triplet_offset []) (0, List.replicate (ncol + 1) 0) =
      some (0, List.replicate (ncol + 1) 0) := by
    intro i
    induction i with
    | zero => rfl
    | succ i ih =>
      rw [List.range_succ, List.foldlM_append, ih]
      simp [triplet_offset, whileFuel, set_replicate_zero]
  unfold triplet_offsets
  rw [h]

theorem offs_nil (seg : Nat → List Nat) (h : ∀ c, seg c = []) (i : Nat) : offs seg i = 0 := by
  induction i with
  | zero => exact offs_zero seg
  | succ i ih => rw [offs_succ, ih, h]; rfl

theorem triplet_seg_nil (nrow c : Nat) : triplet_seg nrow [] [] c = [] := by
  simp [triplet_seg, triplet_seg_upto, triplet_present, triplet_group]

theorem triplet_colind_nil (nrow ncol : Nat) :
    triplet_colind nrow ncol [] [] = List.replicate (ncol + 1) 0 := by
  apply ext_vget (by simp [triplet_colind])
  intro p hp
  simp [triplet_colind] at hp
  rw [triplet_colind, vget_map_range _ _ _ hp, vget_replicate_zero,
    offs_nil _ (triplet_seg_nil nrow)]

theorem triplet_row_nil (nrow ncol : Nat) : triplet_row nrow ncol [] [] = [] := by
  have := offs_nil _ (triplet_seg_nil nrow) ncol
  exact List.eq_nil_of_length_eq_zero this

theorem triplet_mapping_nil (nrow ncol : Nat) (inv : Bool) :
    triplet_mapping nrow ncol [] [] inv = [] := by
  cases inv
  · simp [triplet_mapping, triplet_group]
  · simp [triplet_mapping]

/-! ## `triplet` on valid input -/

theorem vget_map_toNat (l : List Int) (n k : Nat) (h : ∀ x ∈ l, 0 ≤ x ∧ x < n)
    (hk : k < (l.map Int.toNat).length) : vget (l.map Int.toNat) k < n := by
  obtain ⟨x, hx, e⟩ := List.mem_map.1 (vget_mem _ _ hk)
  have := h x hx
  omega

/-- On valid input `triplet` hands to the constructor the column offsets and rows of
the pattern that stores, in every column, the rows occurring in the input. -/
theorem triplet_vectors_eq (nrow ncol : Nat) (row col : List Int) (mapping : List Nat)
    (inv : Bool) (hlen : row.length = col.length)
    (hr : ∀ r ∈ row, 0 ≤ r ∧ r < nrow) (hc : ∀ c ∈ col, 0 ≤ c ∧ c < ncol) :
    triplet_vectors nrow ncol row col mapping inv =
      .ok (triplet_colind nrow ncol (row.map Int.toNat) (col.map Int.toNat),
        triplet_row nrow ncol (row.map Int.toNat) (col.map Int.toNat),
        triplet_mapping nrow ncol (row.map Int.toNat) (col.map Int.toNat) inv) := by
  unfold triplet_vectors
  rw [if_neg (by simp [hlen]), triplet_check_ok nrow ncol col row hlen.symm hc hr]
  simp only
  cases col with
  | nil =>
    have : row = [] := List.eq_nil_of_length_eq_zero (by simpa using hlen)
    subst this
    simp only [List.isEmpty_nil, if_true, List.map_nil, triplet_offsets_nil, List.length_nil,
      List.range_zero, triplet_colind_nil, triplet_row_nil, triplet_mapping_nil]
  | cons c cs =>
    simp only [List.isEmpty_cons, Bool.false_eq_true, if_false]
    rw [triplet_sort_eq nrow ncol _ _ mapping inv (by simp [hlen])]
    intro k hk
    exact ⟨vget_map_toNat row nrow k hr hk,
      vget_map_toNat (c :: cs) ncol k hc (by simpa [hlen] using hk)⟩

theorem triplet_seg_lt (nrow : Nat) (row col : List Nat) (c : Nat) :
    ∀ r ∈ triplet_seg nrow row col c, r < nrow := by
  intro r hr
  simp [triplet_seg, triplet_seg_upto] at hr
  exact hr.1

theorem triplet_seg_pairwise (nrow : Nat) (row col : List Nat) (c : Nat) :
    (triplet_seg nrow row col c).Pairwise (· < ·) :=
  (List.pairwise_lt_range nrow).filter _

theorem triplet_wf (nrow ncol : Nat) (row col : List Nat) :
    (ofSegs nrow ncol (triplet_seg nrow row col)).wf :=
  ofSegs_wf nrow ncol _ (fun c _ => triplet_seg_lt nrow row col c)
    (fun c _ => triplet_seg_pairwise nrow row col c)

/-- On valid input `triplet` returns the pattern that stores, in every column, the rows
occurring in the input, together with the mapping `triplet_mapping`. -/
theorem triplet_eq (nrow ncol : Nat) (row col : List Int) (mapping : List Nat)
    (inv : Bool) (hlen : row.length = col.length)
    (hr : ∀ r ∈ row, 0 ≤ r ∧ r < nrow) (hc : ∀ c ∈ col, 0 ≤ c ∧ c < ncol) :
    triplet nrow ncol row col mapping inv =
      .ok (ofSegs nrow ncol (triplet_seg nrow (row.map Int.toNat) (col.map Int.toNat)),
        triplet_mapping nrow ncol (row.map Int.toNat) (col.map Int.toNat) inv) := by
  unfold triplet
  rw [triplet_vectors_eq nrow ncol row col mapping inv hlen hr hc]
  simp only
  have h := ofVectors_wf nrow ncol _ _ (triplet_wf nrow ncol (row.map Int.toNat) (col.map Int.toNat))
  unfold triplet_colind triplet_row
  unfold ofSegs at h
  rw [h]
  rfl

end Sparsity
end casadi

namespace casadi
namespace Sparsity

/-! ## The entries of the pattern built by `triplet` -/

theorem vget_map_toNat_eq (l : List Int) (k : Nat) (x : Int) (h : l[k]? = some x) :
    vget (l.map Int.toNat) k = x.toNat := by
  unfold vget
  rw [List.getD_eq_getElem?_getD, List.getElem?_map, h]
  rfl

theorem getElem?_of_lt (l : List Int) (k : Nat) (h : k < l.length) :
    ∃ x, l[k]? = some x ∧ x ∈ l :=
  ⟨l[k], List.getElem?_eq_getElem h, List.getElem_mem h⟩

theorem lt_of_getElem? (l : List Int) (k : Nat) (x : Int) (h : l[k]? = some x) :
    k < l.length ∧ x ∈ l := by
  obtain ⟨hk, e⟩ := List.getElem?_eq_some.1 h
  exact ⟨hk, e ▸ List.getElem_mem hk⟩

theorem triplet_present_iff (row col : List Nat) (r c : Nat) :
    triplet_present row col r c = true ↔
      ∃ k, k < row.length ∧ vget row k = r ∧ vget col k = c := by
  unfold triplet_present triplet_group
  rw [Bool.not_eq_true', List.isEmpty_eq_false_iff_exists_mem]
  constructor
  · rintro ⟨k, hk⟩
    simp only [List.mem_filter, List.mem_range, Bool.and_eq_true, decide_eq_true_eq] at hk
    exact ⟨k, hk.1, hk.2.2, hk.2.1⟩
  · rintro ⟨k, h1, h2, h3⟩
    exact ⟨k, by simp [h1, h2, h3]⟩

theorem mem_triplet_seg (nrow : Nat) (row col : List Nat) (r c : Nat) :
    r ∈ triplet_seg nrow row col c ↔
      r < nrow ∧ ∃ k, k < row.length ∧ vget row k = r ∧ vget col k = c := by
  unfold triplet_seg triplet_seg_upto
  rw [List.mem_filter, List.mem_range, triplet_present_iff]

/-- The stored entries, in terms of the coordinate lists as given. -/
theorem triplet_entry_iff (nrow ncol : Nat) (row col : List Int)
    (hlen : row.length = col.length)
    (hr : ∀ r ∈ row, 0 ≤ r ∧ r < nrow) (hc : ∀ c ∈ col, 0 ≤ c ∧ c < ncol) (r c : Nat) :
    (c < ncol ∧ r ∈ triplet_seg nrow (row.map Int.toNat) (col.map Int.toNat) c) ↔
      ∃ k : Nat, row[k]? = some (r : Int) ∧ col[k]? = some (c : Int) := by
  rw [mem_triplet_seg]
  constructor
  · rintro ⟨-, -, k, hk, h1, h2⟩
    rw [List.length_map] at hk
    obtain ⟨x, hx, hxm⟩ := getElem?_of_lt row k hk
    obtain ⟨y, hy, hym⟩ := getElem?_of_lt col k (by omega)
    rw [vget_map_toNat_eq row k x hx] at h1
    rw [vget_map_toNat_eq col k y hy] at h2
    have := hr x hxm
    have := hc y hym
    refine ⟨k, ?_, ?_⟩
    · rw [hx]; congr 1; omega
    · rw [hy]; congr 1; omega
  · rintro ⟨k, h1, h2⟩
    obtain ⟨hk, hxm⟩ := lt_of_getElem? row k _ h1
    obtain ⟨-, hym⟩ := lt_of_getElem? col k _ h2
    have a1 := hr _ hxm
    have a2 := hc _ hym
    refine ⟨by omega, by omega, k, by simpa using hk, ?_, ?_⟩
    · rw [vget_map_toNat_eq row k _ h1]; simp
    · rw [vget_map_toNat_eq col k _ h2]; simp

theorem offs_congr_length {α β : Type} (s₁ : Nat → List α) (s₂ : Nat → List β)
    (h : ∀ c, (s₁ c).length = (s₂ c).length) (i : Nat) : offs s₁ i = offs s₂ i := by
  induction i with
  | zero => simp [offs]
  | succ i ih => rw [offs_succ, offs_succ, ih, h]

end Sparsity
end casadi

namespace casadi
namespace Sparsity

/-! ## The mapping returned by `triplet` -/

theorem triplet_seg_upto_split (row col : List Nat) (c r : Nat)
    (hp : triplet_present row col r c = true) :
    ∀ d, ∃ tl, triplet_seg_upto row col c (r + 1 + d) = triplet_seg_upto row col c r ++ r :: tl := by
  intro d
  induction d with
  | zero =>
    refine ⟨[], ?_⟩
    rw [Nat.add_zero, triplet_seg_upto_succ]
    have : (triplet_group row col r c).isEmpty = false := by
      simpa [triplet_present] using hp
    rw [this]; rfl
  | succ d ih =>
    obtain ⟨tl, e⟩ := ih
    rw [← Nat.add_assoc, triplet_seg_upto_succ, e]
    exact ⟨tl ++ (if (triplet_group row col (r + 1 + d) c).isEmpty then [] else [r + 1 + d]),
      by simp⟩

theorem vget_append_cons (l tl : List Nat) (x : Nat) : vget (l ++ x :: tl) l.length = x := by
  unfold vget
  rw [List.getD_eq_getElem?_getD, List.getElem?_append_right (Nat.le_refl _)]
  simp

/-- The slot computed for an entry holds its row and lies in its column. -/
theorem triplet_slot_spec (nrow ncol : Nat) (row col : List Nat) (r c : Nat)
    (hr : r < nrow) (hc : c < ncol) (hp : triplet_present row col r c = true) :
    vget (ofSegs nrow ncol (triplet_seg nrow row col)).row (triplet_slot nrow row col r c) = r ∧
    vget (ofSegs nrow ncol (triplet_seg nrow row col)).colind c ≤ triplet_slot nrow row col r c ∧
    triplet_slot nrow row col r c <
      vget (ofSegs nrow ncol (triplet_seg nrow row col)).colind (c + 1) := by
  obtain ⟨tl, e⟩ := triplet_seg_upto_split row col c r hp (nrow - (r + 1))
  rw [show r + 1 + (nrow - (r + 1)) = nrow by omega] at e
  have e' : triplet_seg nrow row col c = triplet_seg_upto row col c r ++ r :: tl := e
  have hlt : (triplet_seg_upto row col c r).length < (triplet_seg nrow row col c).length := by
    rw [e']; simp
  unfold triplet_slot
  rw [ofSegs_colind _ _ _ _ (by omega), ofSegs_colind _ _ _ _ (by omega), offs_succ,
    ofSegs_row _ _ _ _ _ hc hlt]
  refine ⟨?_, by omega, by omega⟩
  rw [e', vget_append_cons]

theorem triplet_firsts_eq (row col : List Nat) (c m : Nat) :
    (List.range m).flatMap (fun r => (triplet_group row col r c).head?.toList) =
      (triplet_seg_upto row col c m).map (fun r => (triplet_group row col r c).headD 0) := by
  induction m with
  | zero => simp [triplet_seg_upto]
  | succ m ih =>
    rw [flatMap_range_succ, ih, triplet_seg_upto_succ, List.map_append]
    congr 1
    cases h : triplet_group row col m c <;> simp [h]

theorem triplet_group_sorted (row col : List Nat) (r c : Nat) :
    (triplet_group row col r c).Pairwise (· < ·) :=
  (List.pairwise_lt_range _).filter _

theorem headD_le_of_pairwise (l : List Nat) (h : l.Pairwise (· < ·)) (x : Nat) (hx : x ∈ l) :
    l.headD 0 ≤ x := by
  cases l with
  | nil => simp at hx
  | cons a tl =>
    rcases List.mem_cons.1 hx with e | hx'
    · subst e; simp
    · have := (List.pairwise_cons.1 h).1 x hx'
      simp; omega

theorem headD_mem (l : List Nat) (h : l ≠ []) : l.headD 0 ∈ l := by
  cases l with
  | nil => exact absurd rfl h
  | cons a tl => simp

theorem mem_triplet_group_iff (row col : List Nat) (r c k : Nat) :
    k ∈ triplet_group row col r c ↔ k < row.length ∧ vget row k = r ∧ vget col k = c := by
  simp only [triplet_group, List.mem_filter, List.mem_range, Bool.and_eq_true, decide_eq_true_eq]
  tauto

/-- Without `invert_mapping`, slot `s` of the mapping holds the first input index of the
entry stored in slot `s`. -/
theorem triplet_first_spec (nrow ncol : Nat) (row col : List Nat) (s : Nat)
    (hs : s < (ofSegs nrow ncol (triplet_seg nrow row col)).nnz) :
    ∃ r c, c < ncol ∧ r < nrow ∧
      vget (ofSegs nrow ncol (triplet_seg nrow row col)).colind c ≤ s ∧
      s < vget (ofSegs nrow ncol (triplet_seg nrow row col)).colind (c + 1) ∧
      vget (ofSegs nrow ncol (triplet_seg nrow row col)).row s = r ∧
      vget (triplet_mapping nrow ncol row col false) s ∈ triplet_group row col r c ∧
      ∀ k ∈ triplet_group row col r c, vget (triplet_mapping nrow ncol row col false) s ≤ k := by
  have hnnz : (ofSegs nrow ncol (triplet_seg nrow row col)).nnz =
      offs (triplet_seg nrow row col) ncol := ofSegs_colind _ _ _ _ (Nat.le_refl _)
  rw [hnnz] at hs
  obtain ⟨c, j, hc, hj, rfl⟩ := offs_cover _ ncol s hs
  have hmem := vget_mem _ _ hj
  have hr := triplet_seg_lt nrow row col c _ hmem
  have hne : triplet_group row col (vget (triplet_seg nrow row col c) j) c ≠ [] := by
    have := ((List.mem_filter.1 hmem).2 : triplet_present row col _ c = true)
    intro e
    simp [triplet_present, e] at this
  have hmap : vget (triplet_mapping nrow ncol row col false)
      (offs (triplet_seg nrow row col) c + j) =
      (triplet_group row col (vget (triplet_seg nrow row col c) j) c).headD 0 := by
    have e1 : triplet_mapping nrow ncol row col false =
        (List.range ncol).flatMap (fun c => (triplet_seg nrow row col c).map
          (fun r => (triplet_group row col r c).headD 0)) := by
      simp only [triplet_mapping, Bool.false_eq_true, if_false, triplet_firsts_eq]
      rfl
    rw [e1, offs_congr_length (triplet_seg nrow row col) (fun c => (triplet_seg nrow row col c).map
      (fun r => (triplet_group row col r c).headD 0)) (by intro c; simp),
      vget_flatMap_range _ _ _ _ hc (by simpa using hj)]
    unfold vget
    rw [List.getD_eq_getElem _ _ (by simpa using hj), List.getD_eq_getElem _ _ hj]
    simp
  refine ⟨_, c, hc, hr, ?_, ?_, ofSegs_row _ _ _ _ _ hc hj, ?_, ?_⟩
  · rw [ofSegs_colind _ _ _ _ (by omega)]; omega
  · rw [ofSegs_colind _ _ _ _ (by omega), offs_succ]; omega
  · rw [hmap]; exact headD_mem _ hne
  · intro k hk
    rw [hmap]
    exact headD_le_of_pairwise _ (triplet_group_sorted _ _ _ _) k hk

theorem length_triplet_mapping_false (nrow ncol : Nat) (row col : List Nat) :
    (triplet_mapping nrow ncol row col false).length =
      (ofSegs nrow ncol (triplet_seg nrow row col)).nnz := by
  have hnnz : (ofSegs nrow ncol (triplet_seg nrow row col)).nnz =
      offs (triplet_seg nrow row col) ncol := ofSegs_colind _ _ _ _ (Nat.le_refl _)
  rw [hnnz, offs_congr_length (triplet_seg nrow row col) (fun c =>
    (List.range nrow).flatMap (fun r => (triplet_group row col r c).head?.toList))
    (by intro c; simp only [triplet_firsts_eq]; simp [triplet_seg])]
  simp [triplet_mapping, offs]

end Sparsity
end casadi

namespace casadi
namespace Sparsity

/-! ## Claims on `Sparsity::triplet` -/

/-- C2: on valid input the vectors `(colind, row)` that `triplet` hands to the constructor
satisfy the compressed-column invariant: `colind` has `ncol+1` entries, starts at 0 and
never decreases, `row` has `colind[ncol]` entries, all below `nrow`, and the rows of every
column increase strictly. -/
theorem triplet_vectors_wf (nrow ncol : Nat) (row col : List Int) (mapping : List Nat)
    (invert_mapping : Bool) (hlen : row.length = col.length)
    (hrow : ∀ r ∈ row, 0 ≤ r ∧ r < nrow) (hcol : ∀ c ∈ col, 0 ≤ c ∧ c < ncol) :
    ∃ r_colind r_row m,
      triplet_vectors nrow ncol row col mapping invert_mapping = .ok (r_colind, r_row, m) ∧
      (⟨nrow, ncol, r_colind, r_row⟩ : Sparsity).wf :=
  ⟨_, _, _, triplet_vectors_eq nrow ncol row col mapping invert_mapping hlen hrow hcol,
    triplet_wf nrow ncol _ _⟩

/-- C2, at an unsorted input with a duplicate. -/
theorem triplet_vectors_wf_witness :
    ∃ r_colind r_row m,
      triplet_vectors 3 4 [2, 0, 1, 2, 0, 1] [3, 1, 0, 3, 1, 1] [7, 7] true =
        .ok (r_colind, r_row, m) ∧
      (⟨3, 4, r_colind, r_row⟩ : Sparsity).wf :=
  triplet_vectors_wf 3 4 [2, 0, 1, 2, 0, 1] [3, 1, 0, 3, 1, 1] [7, 7] true
    (by decide) (by decide) (by decide)

/-- C5: with `invert_mapping = true` the mapping has the length of the input, and for every
input index `k` the slot `mapping[k]` holds `row[k]` and lies in column `col[k]`; two
indices with equal coordinates get the same slot. -/
theorem triplet_invert_mapping (nrow ncol : Nat) (row col : List Int) (mapping : List Nat)
    (hlen : row.length = col.length)
    (hrow : ∀ r ∈ row, 0 ≤ r ∧ r < nrow) (hcol : ∀ c ∈ col, 0 ≤ c ∧ c < ncol) :
    ∃ p m, triplet nrow ncol row col mapping true = .ok (p, m) ∧
      m.length = row.length ∧
      (∀ (k : Nat) (r c : Int), row[k]? = some r → col[k]? = some c →
        (vget p.row (vget m k) : Int) = r ∧
        vget p.colind c.toNat ≤ vget m k ∧ vget m k < vget p.colind (c.toNat + 1)) ∧
      (∀ k k' : Nat, k < row.length → k' < row.length → row[k]? = row[k']? →
        col[k]? = col[k']? → vget m k = vget m k') := by
  refine ⟨_, _, triplet_eq nrow ncol row col mapping true hlen hrow hcol, by simp [triplet_mapping],
    ?_, ?_⟩
  · intro k r c h1 h2
    obtain ⟨hk, hrm⟩ := lt_of_getElem? row k r h1
    obtain ⟨-, hcm⟩ := lt_of_getElem? col k c h2
    have a1 := hrow r hrm
    have a2 := hcol c hcm
    have hm : vget (triplet_mapping nrow ncol (row.map Int.toNat) (col.map Int.toNat) true) k =
        triplet_slot nrow (row.map Int.toNat) (col.map Int.toNat) r.toNat c.toNat := by
      simp only [triplet_mapping, if_true]
      rw [vget_map_range _ _ _ (by simpa using hk), vget_map_toNat_eq row k r h1,
        vget_map_toNat_eq col k c h2]
    have hp : triplet_present (row.map Int.toNat) (col.map Int.toNat) r.toNat c.toNat = true :=
      (triplet_present_iff _ _ _ _).2 ⟨k, by simpa using hk, vget_map_toNat_eq row k r h1,
        vget_map_toNat_eq col k c h2⟩
    obtain ⟨b1, b2, b3⟩ := triplet_slot_spec nrow ncol (row.map Int.toNat) (col.map Int.toNat)
      r.toNat c.toNat (by omega) (by omega) hp
    rw [hm]
    refine ⟨?_, b2, b3⟩
    rw [b1]; omega
  · intro k k' hk hk' h1 h2
    simp only [triplet_mapping, if_true]
    rw [vget_map_range _ _ _ (by simpa using hk), vget_map_range _ _ _ (by simpa using hk')]
    have e1 : vget (row.map Int.toNat) k = vget (row.map Int.toNat) k' := by
      unfold vget
      rw [List.getD_eq_getElem?_getD, List.getD_eq_getElem?_getD, List.getElem?_map,
        List.getElem?_map, h1]
    have e2 : vget (col.map Int.toNat) k = vget (col.map Int.toNat) k' := by
      unfold vget
      rw [List.getD_eq_getElem?_getD, List.getD_eq_getElem?_getD, List.getElem?_map,
        List.getElem?_map, h2]
    rw [e1, e2]

/-- C5, at `rows = [0,0,1]`, `cols = [0,0,1]` on a 2-by-2 matrix. -/
theorem triplet_invert_mapping_witness :
    ∃ p m, triplet 2 2 [0, 0, 1] [0, 0, 1] [] true = .ok (p, m) ∧
      m.length = 3 ∧
      (∀ (k : Nat) (r c : Int), ([0, 0, 1] : List Int)[k]? = some r →
        ([0, 0, 1] : List Int)[k]? = some c →
        (vget p.row (vget m k) : Int) = r ∧
        vget p.colind c.toNat ≤ vget m k ∧ vget m k < vget p.colind (c.toNat + 1)) ∧
      (∀ k k' : Nat, k < 3 → k' < 3 → ([0, 0, 1] : List Int)[k]? = ([0, 0, 1] : List Int)[k']? →
        ([0, 0, 1] : List Int)[k]? = ([0, 0, 1] : List Int)[k']? → vget m k = vget m k') :=
  triplet_invert_mapping 2 2 [0, 0, 1] [0, 0, 1] [] (by decide) (by decide) (by decide)

/-- C6: with `invert_mapping = false` the mapping has `nnz` entries, and for every slot `s`
the index `mapping[s]` is the smallest input index whose coordinates are the entry stored
in slot `s`. -/
theorem triplet_first_mapping (nrow ncol : Nat) (row col : List Int) (mapping : List Nat)
    (hlen : row.length = col.length)
    (hrow : ∀ r ∈ row, 0 ≤ r ∧ r < nrow) (hcol : ∀ c ∈ col, 0 ≤ c ∧ c < ncol) :
    ∃ p m, triplet nrow ncol row col mapping false = .ok (p, m) ∧
      m.length = p.nnz ∧
      ∀ s, s < p.nnz → ∃ c : Nat, c < ncol ∧ vget p.colind c ≤ s ∧ s < vget p.colind (c + 1) ∧
        row[vget m s]? = some (vget p.row s : Int) ∧ col[vget m s]? = some (c : Int) ∧
        ∀ k : Nat, row[k]? = some (vget p.row s : Int) → col[k]? = some (c : Int) →
          vget m s ≤ k := by
  refine ⟨_, _, triplet_eq nrow ncol row col mapping false hlen hrow hcol,
    length_triplet_mapping_false nrow ncol _ _, ?_⟩
  intro s hs
  obtain ⟨r, c, hc, hr, h1, h2, h3, h4, h5⟩ :=
    triplet_first_spec nrow ncol (row.map Int.toNat) (col.map Int.toNat) s hs
  rw [mem_triplet_group_iff] at h4
  generalize vget (triplet_mapping nrow ncol (row.map Int.toNat) (col.map Int.toNat) false) s = k₀
    at h4 h5 ⊢
  obtain ⟨hk0, e1, e2⟩ := h4
  rw [List.length_map] at hk0
  obtain ⟨x, hx, hxm⟩ := getElem?_of_lt row k₀ hk0
  obtain ⟨y, hy, hym⟩ := getElem?_of_lt col k₀ (by omega)
  rw [vget_map_toNat_eq row _ x hx] at e1
  rw [vget_map_toNat_eq col _ y hy] at e2
  have a1 := hrow x hxm
  have a2 := hcol y hym
  refine ⟨c, hc, h1, h2, ?_, ?_, ?_⟩
  · rw [hx, h3]; congr 1; omega
  · rw [hy]; congr 1; omega
  · intro k g1 g2
    apply h5
    rw [mem_triplet_group_iff]
    obtain ⟨hk, -⟩ := lt_of_getElem? row k _ g1
    refine ⟨by simpa using hk, ?_, ?_⟩
    · rw [vget_map_toNat_eq row k _ g1, h3]; simp
    · rw [vget_map_toNat_eq col k _ g2]; simp

/-- C6, at an unsorted input with duplicates. -/
theorem triplet_first_mapping_witness :
    ∃ p m, triplet 3 4 [2, 0, 1, 2, 0, 1] [3, 1, 0, 3, 1, 1] [] false = .ok (p, m) ∧
      m.length = p.nnz ∧
      ∀ s, s < p.nnz → ∃ c : Nat, c < 4 ∧ vget p.colind c ≤ s ∧ s < vget p.colind (c + 1) ∧
        ([2, 0, 1, 2, 0, 1] : List Int)[vget m s]? = some (vget p.row s : Int) ∧
        ([3, 1, 0, 3, 1, 1] : List Int)[vget m s]? = some (c : Int) ∧
        ∀ k : Nat, ([2, 0, 1, 2, 0, 1] : List Int)[k]? = some (vget p.row s : Int) →
          ([3, 1, 0, 3, 1, 1] : List Int)[k]? = some (c : Int) → vget m s ≤ k :=
  triplet_first_mapping 3 4 [2, 0, 1, 2, 0, 1] [3, 1, 0, 3, 1, 1] [] (by decide) (by decide)
    (by decide)

end Sparsity
end casadi

namespace casadi

/-! ## `int` arithmetic -/

/-- The function `wrap` in closed form. -/
theorem wrap_eq (n : Int) : wrap n = (n + 2147483648) % 4294967296 - 2147483648 := by
  unfold wrap
  cases n with
  | ofNat m =>
    simp only
    split
    · simp only [Int.ofNat_eq_coe]; omega
    · simp only [Int.negSucc_eq, Int.ofNat_eq_coe]; omega
  | negSucc m =>
    simp only
    split
    · simp only [Int.negSucc_eq]; omega
    · simp only [Int.negSucc_eq, Int.ofNat_eq_coe]; omega

theorem wrap_of_lt (n : Nat) (h : n < 2147483648) : wrap (n : Int) = (n : Int) := by
  rw [wrap_eq]
  omega

theorem wrap_lt_iff (n : Nat) : wrap (n : Int) < (n : Int) ↔ 2147483648 ≤ n := by
  rw [wrap_eq]
  omega

theorem wrap_add_wrap (a b : Int) : wrap (wrap a + b) = wrap (a + b) := by
  rw [wrap_eq, wrap_eq, wrap_eq]
  omega

theorem wrap_add_cast (a b : Nat) (h : a + b < 2147483648) :
    wrap ((a : Int) + (b : Int)) = ((a + b : Nat) : Int) := by
  rw [← Nat.cast_add]
  exact wrap_of_lt _ h

theorem wrap_mul_cast (a b : Nat) (h : a * b < 2147483648) :
    wrap ((a : Int) * (b : Int)) = ((a * b : Nat) : Int) := by
  rw [← Nat.cast_mul]
  exact wrap_of_lt _ h

theorem iget_map_cast (l : List Nat) (k : Nat) :
    iget (l.map (fun (n : Nat) => (n : Int))) k = (vget l k : Int) := by
  unfold iget vget
  rw [List.getD_eq_getElem?_getD, List.getD_eq_getElem?_getD, List.getElem?_map]
  cases l[k]? <;> rfl

theorem map_toNat_cast (l : List Nat) : (l.map (fun (n : Nat) => (n : Int))).map Int.toNat = l := by
  rw [List.map_map]
  conv_rhs => rw [← List.map_id l]
  apply List.map_congr_left
  intro a _
  simp

theorem all_nonneg_cast (l : List Nat) :
    (l.map (fun (n : Nat) => (n : Int))).all (fun x => decide (0 ≤ x)) = true := by
  rw [List.all_eq_true]
  intro x hx
  obtain ⟨n, _, rfl⟩ := List.mem_map.1 hx
  simp

namespace Sparsity

/-- On data without a negative value the constructor on `int` data is the constructor on
naturals. -/
theorem ofInts_cast (nrow ncol : Nat) (colind row : List Nat) :
    ofInts (nrow : Int) (ncol : Int) (colind.map (fun (n : Nat) => (n : Int)))
      (row.map (fun (n : Nat) => (n : Int))) = ofVectors nrow ncol colind row := by
  unfold ofInts
  rw [if_neg (by omega), if_neg (by omega), all_nonneg_cast, all_nonneg_cast, map_toNat_cast,
    map_toNat_cast]
  simp

end Sparsity
end casadi

namespace casadi

/-! ## `for` loops -/

theorem forLoop_empty {σ : Type} (a b : Nat) (f : σ → Nat → σ) (s : σ) (h : b ≤ a) :
    forLoop a b f s = s := by
  unfold forLoop
  rw [Nat.sub_eq_zero_of_le h]
  rfl

theorem forLoop_succ {σ : Type} (a b : Nat) (f : σ → Nat → σ) (s : σ) (h : a ≤ b) :
    forLoop a (b + 1) f s = f (forLoop a b f s) b := by
  unfold forLoop
  rw [show b + 1 - a = (b - a) + 1 by omega, List.range'_concat, List.foldl_append]
  simp only [List.foldl_cons, List.foldl_nil, Nat.one_mul]
  rw [show a + (b - a) = b by omega]

theorem forLoop_first {σ : Type} (a b : Nat) (f : σ → Nat → σ) (s : σ) (h : a < b) :
    forLoop a b f s = forLoop (a + 1) b f (f s a) := by
  unfold forLoop
  rw [show b - a = (b - (a + 1)) + 1 by omega, List.range'_succ]
  rfl

theorem length_forLoop_set (g : Nat → Nat) (p : Nat → Nat) (a m : Nat) (v : List Nat) :
    (forLoop a m (fun v i => v.set (p i) (g i)) v).length = v.length := by
  induction m with
  | zero => rw [forLoop_empty _ _ _ _ (Nat.zero_le _)]
  | succ m ih =>
    by_cases h : a ≤ m
    · rw [forLoop_succ _ _ _ _ h]; simp [ih]
    · rw [forLoop_empty _ _ _ _ (by omega)]

/-- The effect of `for (i=0; i<m; ++i) v[i+off] = g(i)`. -/
theorem vget_forLoop_set (g : Nat → Nat) (off m : Nat) (v : List Nat) (k : Nat) :
    vget (forLoop 0 m (fun v i => v.set (i + off) (g i)) v) k =
      if off ≤ k ∧ k < off + m ∧ k < v.length then g (k - off) else vget v k := by
  induction m with
  | zero =>
    rw [forLoop_empty _ _ _ _ (Nat.le_refl _), if_neg (by omega)]
  | succ m ih =>
    rw [forLoop_succ _ _ _ _ (Nat.zero_le _), vget_set, ih,
      length_forLoop_set g (fun i => i + off)]
    by_cases e : m + off = k
    · subst e
      by_cases hl : m + off < v.length
      · rw [if_pos ⟨rfl, hl⟩, if_pos ⟨by omega, by omega, hl⟩]
        congr 1; omega
      · rw [if_neg (by omega), if_neg (by omega), if_neg (by omega)]
    · rw [if_neg (by omega)]
      by_cases h2 : off ≤ k ∧ k < off + m ∧ k < v.length
      · rw [if_pos h2, if_pos ⟨h2.1, by omega, h2.2.2⟩]
      · rw [if_neg h2, if_neg (by omega)]

namespace Sparsity

/-! ## The dense pattern -/

@[simp] theorem length_dense_colind (nrow ncol : Nat) :
    (dense_colind nrow ncol).length = ncol + 1 := by
  unfold dense_colind
  rw [length_forLoop_set (fun cc => cc * nrow) (fun i => i)]
  simp

theorem vget_dense_colind (nrow ncol c : Nat) (hc : c ≤ ncol) :
    vget (dense_colind nrow ncol) c = c * nrow := by
  have h := vget_forLoop_set (fun cc => cc * nrow) 0 (ncol + 1) (List.replicate (ncol + 1) 0) c
  simp only [Nat.add_zero] at h
  unfold dense_colind
  rw [h, if_pos ⟨Nat.zero_le _, by omega, by simp; omega⟩]
  simp

theorem length_dense_row_loop (nrow i : Nat) (v : List Nat) :
    (forLoop 0 i (fun row cc => forLoop 0 nrow (fun row rr => row.set (rr + cc * nrow) rr) row)
      v).length = v.length := by
  induction i with
  | zero => rw [forLoop_empty _ _ _ _ (Nat.le_refl _)]
  | succ i ih =>
    rw [forLoop_succ _ _ _ _ (Nat.zero_le _),
      length_forLoop_set (fun rr => rr) (fun rr => rr + i * nrow), ih]

@[simp] theorem length_dense_row (nrow ncol : Nat) :
    (dense_row nrow ncol).length = ncol * nrow := by
  unfold dense_row
  rw [length_dense_row_loop nrow]
  simp

theorem mod_of_between (nrow i k : Nat) (h1 : i * nrow ≤ k) (h2 : k < i * nrow + nrow) :
    k % nrow = k - i * nrow := by
  obtain ⟨j, rfl⟩ : ∃ j, k = i * nrow + j := ⟨k - i * nrow, by omega⟩
  rw [Nat.mul_comm, Nat.mul_add_mod, Nat.mod_eq_of_lt (by omega)]
  omega

theorem vget_dense_row_loop (nrow ncol i k : Nat) (hi : i ≤ ncol) :
    vget (forLoop 0 i (fun row cc => forLoop 0 nrow (fun row rr => row.set (rr + cc * nrow) rr) row)
      (List.replicate (ncol * nrow) 0)) k =
      if k < i * nrow ∧ k < ncol * nrow then k % nrow else 0 := by
  induction i with
  | zero => rw [forLoop_empty _ _ _ _ (Nat.le_refl _), vget_replicate_zero, if_neg (by omega)]
  | succ i ih =>
    rw [forLoop_succ _ _ _ _ (Nat.zero_le _), vget_forLoop_set (fun rr => rr) (i * nrow) nrow,
      length_dense_row_loop nrow, ih (by omega), Nat.succ_mul]
    simp only [List.length_replicate]
    by_cases h1 : i * nrow ≤ k ∧ k < i * nrow + nrow ∧ k < ncol * nrow
    · rw [if_pos h1, if_pos ⟨h1.2.1, h1.2.2⟩, mod_of_between nrow i k h1.1 h1.2.1]
    · rw [if_neg h1]
      by_cases h2 : k < i * nrow ∧ k < ncol * nrow
      · rw [if_pos h2, if_pos ⟨by omega, h2.2⟩]
      · rw [if_neg h2, if_neg (by omega)]

theorem vget_dense_row (nrow ncol k : Nat) (hk : k < ncol * nrow) :
    vget (dense_row nrow ncol) k = k % nrow := by
  unfold dense_row
  rw [vget_dense_row_loop nrow ncol ncol k (Nat.le_refl _), if_pos ⟨hk, hk⟩]

theorem dense_wf (nrow ncol : Nat) :
    (⟨nrow, ncol, dense_colind nrow ncol, dense_row nrow ncol⟩ : Sparsity).wf := by
  refine ⟨by simp, ?_, ?_, ?_, ?_, ?_⟩
  · show vget (dense_colind nrow ncol) 0 = 0
    rw [vget_dense_colind _ _ _ (Nat.zero_le _)]; simp
  · intro c hc
    replace hc : c < ncol := hc
    show vget (dense_colind nrow ncol) c ≤ vget (dense_colind nrow ncol) (c + 1)
    rw [vget_dense_colind _ _ _ (by omega), vget_dense_colind _ _ _ (by omega), Nat.succ_mul]
    omega
  · show (dense_row nrow ncol).length = vget (dense_colind nrow ncol) ncol
    rw [vget_dense_colind _ _ _ (Nat.le_refl _)]; simp
  · intro k hk
    replace hk : k < (dense_row nrow ncol).length := hk
    rw [length_dense_row] at hk
    show vget (dense_row nrow ncol) k < nrow
    rw [vget_dense_row _ _ _ hk]
    apply Nat.mod_lt
    rcases Nat.eq_zero_or_pos nrow with h | h
    · subst h; simp at hk
    · exact h
  · intro c hc k hk h1 h2
    replace hc : c < ncol := hc
    replace hk : k < (dense_row nrow ncol).length := hk
    replace h1 : vget (dense_colind nrow ncol) c ≤ k := h1
    replace h2 : k + 1 < vget (dense_colind nrow ncol) (c + 1) := h2
    rw [length_dense_row] at hk
    rw [vget_dense_colind _ _ _ (by omega)] at h1 h2
    rw [Nat.succ_mul] at h2
    have h3 : (c + 1) * nrow ≤ ncol * nrow := Nat.mul_le_mul_right _ (by omega)
    rw [Nat.succ_mul] at h3
    show vget (dense_row nrow ncol) k < vget (dense_row nrow ncol) (k + 1)
    rw [vget_dense_row _ _ _ hk, vget_dense_row _ _ _ (by omega),
      mod_of_between nrow c k h1 (by omega), mod_of_between nrow c (k + 1) (by omega) (by omega)]
    omega

/-- The two cases of `dense`: with `ncol*nrow` in the `int` range the loops fill the
vectors of the full pattern, and otherwise the call returns no pattern. -/
theorem dense_cases (nrow ncol : Nat) :
    dense nrow ncol =
      if 2147483648 ≤ ncol * nrow then .error "out of range: row[rr+cc*nrow]"
      else .ok ⟨nrow, ncol, dense_colind nrow ncol, dense_row nrow ncol⟩ := by
  unfold dense
  have e : ((ncol : Int) * (nrow : Int)) = ((ncol * nrow : Nat) : Int) := (Nat.cast_mul _ _).symm
  rw [e]
  by_cases h : 2147483648 ≤ ncol * nrow
  · rw [if_pos ((wrap_lt_iff _).2 h), if_pos h]
  · rw [if_neg (fun h2 => h ((wrap_lt_iff _).1 h2)), if_neg h]
    exact ofVectors_wf nrow ncol _ _ (dense_wf nrow ncol)

theorem dense_eq (nrow ncol : Nat) (h : ncol * nrow < 2147483648) :
    dense nrow ncol = .ok ⟨nrow, ncol, dense_colind nrow ncol, dense_row nrow ncol⟩ := by
  rw [dense_cases, if_neg (by omega)]

end Sparsity
end casadi

namespace casadi
namespace Sparsity

/-! ## A valid pattern with `nrow*ncol` entries is the dense pattern -/

theorem wf_colind_mono (p : Sparsity) (h : p.wf) (c : Nat) :
    ∀ d, c + d ≤ p.ncol → vget p.colind c ≤ vget p.colind (c + d) := by
  intro d
  induction d with
  | zero => intro _; exact Nat.le_refl _
  | succ d ih =>
    intro hd
    have := h.2.2.1 (c + d) (by omega)
    have := ih (by omega)
    rw [← Nat.add_assoc]
    omega

theorem wf_colind_le_nnz (p : Sparsity) (h : p.wf) (c : Nat) (hc : c ≤ p.ncol) :
    vget p.colind c ≤ p.row.length := by
  have := wf_colind_mono p h c (p.ncol - c) (by omega)
  rw [show c + (p.ncol - c) = p.ncol by omega] at this
  rw [h.2.2.2.1]
  exact this

/-- Within a column the rows grow at least by one per slot. -/
theorem wf_row_step (p : Sparsity) (h : p.wf) (c : Nat) (hc : c < p.ncol) (k : Nat)
    (hk : vget p.colind c ≤ k) :
    ∀ i, k + i < vget p.colind (c + 1) → vget p.row k + i ≤ vget p.row (k + i) := by
  intro i
  induction i with
  | zero => intro _; exact Nat.le_refl _
  | succ i ih =>
    intro hi
    have hlen := wf_colind_le_nnz p h (c + 1) (by omega)
    have := h.2.2.2.2.2 c hc (k + i) (by omega) (by omega) (by omega)
    have := ih (by omega)
    rw [show k + (i + 1) = k + i + 1 by omega]
    omega

theorem wf_col_length_le (p : Sparsity) (h : p.wf) (c : Nat) (hc : c < p.ncol) :
    vget p.colind (c + 1) ≤ vget p.colind c + p.nrow := by
  by_contra hcon
  have hlen := wf_colind_le_nnz p h (c + 1) (by omega)
  have h1 := wf_row_step p h c hc (vget p.colind c) (Nat.le_refl _) p.nrow (by omega)
  have h2 := h.2.2.2.2.1 (vget p.colind c + p.nrow) (by omega)
  omega

theorem wf_colind_le (p : Sparsity) (h : p.wf) (c : Nat) (hc : c ≤ p.ncol) :
    vget p.colind c ≤ c * p.nrow := by
  induction c with
  | zero => rw [h.2.1]; exact Nat.zero_le _
  | succ c ih =>
    have := ih (by omega)
    have := wf_col_length_le p h c (by omega)
    rw [Nat.succ_mul]
    omega

theorem wf_colind_ge (p : Sparsity) (h : p.wf) :
    ∀ d c, c + d = p.ncol → vget p.colind p.ncol ≤ vget p.colind c + d * p.nrow := by
  intro d
  induction d with
  | zero => intro c hc; simp at hc; subst hc; simp
  | succ d ih =>
    intro c hc
    have := ih (c + 1) (by omega)
    have := wf_col_length_le p h c (by omega)
    rw [Nat.succ_mul]
    omega

theorem wf_dense_colind (p : Sparsity) (h : p.wf) (hd : p.nnz = p.nrow * p.ncol) (c : Nat)
    (hc : c ≤ p.ncol) : vget p.colind c = c * p.nrow := by
  have h1 := wf_colind_le p h c hc
  have h2 := wf_colind_ge p h (p.ncol - c) c (by omega)
  have h3 : p.ncol * p.nrow = c * p.nrow + (p.ncol - c) * p.nrow := by
    rw [← Nat.add_mul]; congr 1; omega
  have h4 : vget p.colind p.ncol = p.ncol * p.nrow := by
    rw [Nat.mul_comm]; exact hd
  omega

theorem wf_dense_row (p : Sparsity) (h : p.wf) (hd : p.nnz = p.nrow * p.ncol) (k : Nat)
    (hk : k < p.ncol * p.nrow) : vget p.row k = k % p.nrow := by
  have hpos : 0 < p.nrow := by
    rcases Nat.eq_zero_or_pos p.nrow with h0 | h0
    · rw [h0] at hk; simp at hk
    · exact h0
  have hc : k / p.nrow < p.ncol := Nat.div_lt_of_lt_mul (by rw [Nat.mul_comm]; exact hk)
  have hdm := Nat.div_add_mod k p.nrow
  have hmod := Nat.mod_lt k hpos
  generalize k / p.nrow = c at hc hdm
  generalize k % p.nrow = j at hdm hmod ⊢
  rw [Nat.mul_comm] at hdm
  subst hdm
  have e1 := wf_dense_colind p h hd c (by omega)
  have e2 := wf_dense_colind p h hd (c + 1) (by omega)
  rw [Nat.succ_mul] at e2
  -- from below
  have lo := wf_row_step p h c hc (vget p.colind c) (Nat.le_refl _) j (by omega)
  rw [e1] at lo
  -- from above
  have hi := wf_row_step p h c hc (c * p.nrow + j) (by omega) (p.nrow - 1 - j) (by omega)
  have hlen := wf_colind_le_nnz p h (c + 1) (by omega)
  have hb := h.2.2.2.2.1 (c * p.nrow + j + (p.nrow - 1 - j)) (by omega)
  omega

/-- A valid pattern with `nrow*ncol` stored entries has the vectors built by `dense`. -/
theorem wf_dense_eq (p : Sparsity) (h : p.wf) (hd : p.nnz = p.nrow * p.ncol) :
    p = ⟨p.nrow, p.ncol, dense_colind p.nrow p.ncol, dense_row p.nrow p.ncol⟩ := by
  have hc : p.colind = dense_colind p.nrow p.ncol := by
    apply ext_vget (by rw [h.1]; simp)
    intro c hc
    rw [h.1] at hc
    rw [wf_dense_colind p h hd c (by omega), vget_dense_colind _ _ _ (by omega)]
  have hr : p.row = dense_row p.nrow p.ncol := by
    have hlen : p.row.length = p.ncol * p.nrow := by
      rw [h.2.2.2.1, Nat.mul_comm]; exact hd
    apply ext_vget (by rw [hlen]; simp)
    intro k hk
    rw [hlen] at hk
    rw [wf_dense_row p h hd k hk, vget_dense_row _ _ _ hk]
  cases p
  simp only at hc hr
  rw [← hc, ← hr]

/-! ## Claim on `compressed(compress())` -/

theorem vget_cons_cons_zero (a b : Nat) (l : List Nat) : vget (a :: b :: l) 0 = a := rfl

theorem vget_cons_cons_one (a b : Nat) (l : List Nat) : vget (a :: b :: l) 1 = b := rfl

end Sparsity
end casadi

namespace casadi

/-! ## Shifting the column offsets -/

theorem length_forLoop_incr (a b s : Nat) (v : List Nat) :
    (forLoop a b (fun v i => incr v (i + s)) v).length = v.length := by
  induction b with
  | zero => rw [forLoop_empty _ _ _ _ (Nat.zero_le _)]
  | succ b ih =>
    by_cases h : a ≤ b
    · rw [forLoop_succ _ _ _ _ h]; simp [ih]
    · rw [forLoop_empty _ _ _ _ (by omega)]

/-- The effect of `for (i=a; i<b; ++i) v[i+s]++`. -/
theorem vget_forLoop_incr (a b s : Nat) (v : List Nat) (j : Nat) :
    vget (forLoop a b (fun v i => incr v (i + s)) v) j =
      vget v j + (if a + s ≤ j ∧ j < b + s ∧ j < v.length then 1 else 0) := by
  induction b generalizing j with
  | zero => rw [forLoop_empty _ _ _ _ (Nat.zero_le _), if_neg (by omega)]; rfl
  | succ b ih =>
    by_cases h : a ≤ b
    · rw [forLoop_succ _ _ _ _ h, vget_incr, length_forLoop_incr]
      by_cases e : b + s = j
      · subst e
        by_cases hl : b + s < v.length
        · rw [if_pos ⟨rfl, hl⟩, ih, if_neg (by omega), if_pos ⟨by omega, by omega, hl⟩]
        · rw [if_neg (by omega), ih, if_neg (by omega), if_neg (by omega)]
      · rw [if_neg (by omega), ih]
        by_cases h2 : a + s ≤ j ∧ j < b + s ∧ j < v.length
        · rw [if_pos h2, if_pos ⟨h2.1, by omega, h2.2.2⟩]
        · rw [if_neg h2, if_neg (by omega)]
    · rw [forLoop_empty _ _ _ _ (by omega), if_neg (by omega)]; rfl

theorem vget_insert (row : List Nat) (r ind k : Nat) (hind : ind ≤ row.length) :
    vget (row.take ind ++ r :: row.drop ind) k =
      if k < ind then vget row k else if k = ind then r else vget row (k - 1) := by
  have hl : (row.take ind).length = ind := by simp; omega
  unfold vget
  by_cases h1 : k < ind
  · rw [if_pos h1, List.getD_append _ _ _ _ (by omega)]
    simp only [List.getD_eq_getElem?_getD, List.getElem?_take, h1, if_true]
  · rw [if_neg h1, List.getD_append_right _ _ _ _ (by omega), hl]
    by_cases h2 : k = ind
    · subst h2; simp
    · rw [if_neg h2]
      obtain ⟨m, hm⟩ : ∃ m, k - ind = m + 1 := ⟨k - ind - 1, by omega⟩
      rw [hm]
      simp only [List.getD_eq_getElem?_getD, List.getElem?_cons_succ, List.getElem?_drop]
      rw [show ind + m = k - 1 by omega]

namespace Sparsity

/-! ## Inserting an entry -/

theorem insert_nz_colind (p : Sparsity) (h : p.wf) (r c ind j : Nat) :
    vget (insert_nz p r c ind).colind j =
      vget p.colind j + (if c < j ∧ j ≤ p.ncol then 1 else 0) := by
  have := vget_forLoop_incr (c + 1) (p.ncol + 1) 0 p.colind j
  simp only [Nat.add_zero] at this
  unfold insert_nz
  simp only
  rw [this, h.1]
  by_cases hh : c < j ∧ j ≤ p.ncol
  · rw [if_pos hh, if_pos ⟨by omega, by omega, by omega⟩]
  · rw [if_neg hh, if_neg (by omega)]

theorem insert_nz_row (p : Sparsity) (r c ind k : Nat) (hind : ind ≤ p.row.length) :
    vget (insert_nz p r c ind).row k =
      if k < ind then vget p.row k else if k = ind then r else vget p.row (k - 1) :=
  vget_insert p.row r ind k hind

theorem wf_mono (p : Sparsity) (h : p.wf) {a b : Nat} (hab : a ≤ b) (hb : b ≤ p.ncol) :
    vget p.colind a ≤ vget p.colind b := by
  have := wf_colind_mono p h a (b - a) (by omega)
  rwa [show a + (b - a) = b by omega] at this

theorem InsertAt.ind_le {p : Sparsity} {r c ind : Nat} (h : InsertAt p r c ind) :
    ind ≤ p.row.length :=
  Nat.le_trans h.hi (wf_colind_le_nnz p h.wf (c + 1) h.hc)

theorem InsertAt.not_has_entry {p : Sparsity} {r c ind : Nat} (h : InsertAt p r c ind) :
    ¬ p.has_entry r c := by
  rintro ⟨-, k, h1, h2, h3⟩
  by_cases hk : k < ind
  · have := h.below k h1 hk; omega
  · have := h.above k (by omega) h2; omega

theorem insert_nz_wf {p : Sparsity} {r c ind : Nat} (h : InsertAt p r c ind) :
    (insert_nz p r c ind).wf := by
  have hwf := h.wf
  obtain ⟨w1, w2, w3, w4, w5, w6⟩ := h.wf
  have hind := h.ind_le
  have hcol := fun j => insert_nz_colind p hwf r c ind j
  have hrow := fun k => insert_nz_row p r c ind k hind
  have hlen : (insert_nz p r c ind).row.length = p.row.length + 1 := by
    simp [insert_nz]; omega
  have hc := h.hc
  have hlo := h.lo
  have hhi := h.hi
  refine ⟨?_, ?_, ?_, ?_, ?_, ?_⟩
  · show (forLoop (c + 1) (p.ncol + 1) (fun v j => incr v j) p.colind).length = p.ncol + 1
    have := length_forLoop_incr (c + 1) (p.ncol + 1) 0 p.colind
    simp only [Nat.add_zero] at this
    rw [this, w1]
  · rw [hcol, if_neg (by omega), w2]
  · intro j hj
    replace hj : j < p.ncol := hj
    rw [hcol, hcol]
    have := w3 j hj
    split <;> split <;> omega
  · show (insert_nz p r c ind).row.length = vget (insert_nz p r c ind).colind p.ncol
    rw [hlen, hcol, if_pos ⟨by omega, Nat.le_refl _⟩, w4]
  · intro k hk
    rw [hlen] at hk
    show vget (insert_nz p r c ind).row k < p.nrow
    rw [hrow]
    split
    · exact w5 k (by omega)
    · split
      · exact h.hr
      · exact w5 (k - 1) (by omega)
  · intro j hj k hk h1 h2
    replace hj : j < p.ncol := hj
    rw [hlen] at hk
    rw [hcol] at h1 h2
    show vget (insert_nz p r c ind).row k < vget (insert_nz p r c ind).row (k + 1)
    rw [hrow, hrow]
    have m1 : j ≤ c → vget p.colind j ≤ vget p.colind c := fun hh => wf_mono p hwf hh (by omega)
    have m2 : j < c → vget p.colind (j + 1) ≤ vget p.colind c :=
      fun hh => wf_mono p hwf (by omega) (by omega)
    have m3 : c < j → vget p.colind (c + 1) ≤ vget p.colind j :=
      fun hh => wf_mono p hwf (by omega) (by omega)
    have m4 := w3 j hj
    by_cases c1 : k + 1 < ind
    · rw [if_pos (by omega), if_pos c1]
      have hjc : j ≤ c := by
        by_contra hh
        have := m3 (by omega)
        rw [if_pos ⟨by omega, by omega⟩] at h1
        omega
      apply w6 j hj k (by omega)
      · split at h1 <;> omega
      · rcases Nat.eq_or_lt_of_le hjc with e | e
        · subst e; omega
        · have := m2 e
          rw [if_neg (by omega)] at h1
          rw [if_neg (by omega)] at h2
          omega
    · by_cases c2 : k + 1 = ind
      · rw [if_pos (by omega), if_neg (by omega), if_pos c2]
        have hjc : j = c := by
          rcases Nat.lt_trichotomy j c with e | e | e
          · have := m2 e
            rw [if_neg (by omega)] at h2
            omega
          · exact e
          · have := m3 e
            rw [if_pos ⟨by omega, by omega⟩] at h1
            omega
        subst hjc
        rw [if_neg (by omega)] at h1
        exact h.below k h1 (by omega)
      · by_cases c3 : k = ind
        · subst c3
          rw [if_neg (by omega), if_pos rfl, if_neg (by omega), if_neg (by omega)]
          have hjc : j = c := by
            rcases Nat.lt_trichotomy j c with e | e | e
            · have := m2 e
              rw [if_neg (by omega)] at h2
              omega
            · exact e
            · have := m3 e
              rw [if_pos ⟨by omega, by omega⟩] at h1
              omega
          subst hjc
          rw [if_pos ⟨by omega, by omega⟩] at h2
          rw [show k + 1 - 1 = k by omega]
          exact h.above k (Nat.le_refl _) (by omega)
        · rw [if_neg (by omega), if_neg c3, if_neg (by omega), if_neg (by omega)]
          have hjc : c ≤ j := by
            by_contra hh
            have := m2 (by omega)
            rw [if_neg (by omega)] at h2
            omega
          rw [show k + 1 - 1 = k - 1 + 1 by omega]
          apply w6 j hj (k - 1) (by omega)
          · rcases Nat.eq_or_lt_of_le hjc with e | e
            · subst e; omega
            · rw [if_pos ⟨e, by omega⟩] at h1; omega
          · rw [if_pos ⟨by omega, by omega⟩] at h2; omega

end Sparsity
end casadi

namespace casadi
namespace Sparsity

theorem insert_nz_has_entry {p : Sparsity} {r c ind : Nat} (h : InsertAt p r c ind)
    (r' c' : Nat) :
    (insert_nz p r c ind).has_entry r' c' ↔ p.has_entry r' c' ∨ (r' = r ∧ c' = c) := by
  have hwf := h.wf
  obtain ⟨w1, w2, w3, w4, w5, w6⟩ := h.wf
  have hind := h.ind_le
  have hcol := fun j => insert_nz_colind p hwf r c ind j
  have hrow := fun k => insert_nz_row p r c ind k hind
  have hc := h.hc
  have hlo := h.lo
  have hhi := h.hi
  have m1 : ∀ j, j < c → vget p.colind (j + 1) ≤ vget p.colind c :=
    fun j hh => wf_mono p hwf (by omega) (by omega)
  have m2 : ∀ j, c < j → j ≤ p.ncol → vget p.colind (c + 1) ≤ vget p.colind j :=
    fun j hh hj => wf_mono p hwf (by omega) hj
  constructor
  · rintro ⟨hc', k, h1, h2, h3⟩
    replace hc' : c' < p.ncol := hc'
    rw [hcol] at h1 h2
    rw [hrow] at h3
    have m3 := w3 c' hc'
    rcases Nat.lt_trichotomy c' c with e | e | e
    · have := m1 c' e
      rw [if_neg (by omega)] at h1 h2
      rw [if_pos (by omega)] at h3
      exact Or.inl ⟨hc', k, h1, h2, h3⟩
    · subst e
      rw [if_neg (by omega)] at h1
      rw [if_pos ⟨by omega, by omega⟩] at h2
      by_cases c1 : k < ind
      · rw [if_pos c1] at h3
        exact Or.inl ⟨hc', k, h1, by omega, h3⟩
      · by_cases c2 : k = ind
        · rw [if_neg c1, if_pos c2] at h3
          exact Or.inr ⟨h3.symm, rfl⟩
        · rw [if_neg c1, if_neg c2] at h3
          exact Or.inl ⟨hc', k - 1, by omega, by omega, h3⟩
    · have := m2 c' e (by omega)
      rw [if_pos ⟨e, by omega⟩] at h1
      rw [if_pos ⟨by omega, by omega⟩] at h2
      rw [if_neg (by omega), if_neg (by omega)] at h3
      exact Or.inl ⟨hc', k - 1, by omega, by omega, h3⟩
  · rintro (⟨hc', k, h1, h2, h3⟩ | ⟨rfl, rfl⟩)
    · replace hc' : c' < p.ncol := hc'
      have m3 := w3 c' hc'
      rcases Nat.lt_trichotomy c' c with e | e | e
      · have := m1 c' e
        refine ⟨hc', k, ?_, ?_, ?_⟩
        · rw [hcol, if_neg (by omega)]; exact h1
        · rw [hcol, if_neg (by omega)]; exact h2
        · rw [hrow, if_pos (by omega)]; exact h3
      · subst e
        by_cases c1 : k < ind
        · refine ⟨hc', k, ?_, ?_, ?_⟩
          · rw [hcol, if_neg (by omega)]; exact h1
          · rw [hcol, if_pos ⟨by omega, by omega⟩]; omega
          · rw [hrow, if_pos c1]; exact h3
        · refine ⟨hc', k + 1, ?_, ?_, ?_⟩
          · rw [hcol, if_neg (by omega)]; omega
          · rw [hcol, if_pos ⟨by omega, by omega⟩]; omega
          · rw [hrow, if_neg (by omega), if_neg (by omega)]; exact h3
      · have := m2 c' e (by omega)
        refine ⟨hc', k + 1, ?_, ?_, ?_⟩
        · rw [hcol, if_pos ⟨e, by omega⟩]; omega
        · rw [hcol, if_pos ⟨by omega, by omega⟩]; omega
        · rw [hrow, if_neg (by omega), if_neg (by omega)]; exact h3
    · refine ⟨hc, ind, ?_, ?_, ?_⟩
      · rw [hcol, if_neg (by omega)]; exact hlo
      · rw [hcol, if_pos ⟨by omega, by omega⟩]; omega
      · rw [hrow, if_neg (by omega), if_pos rfl]

theorem insert_nz_index {p : Sparsity} {r c ind : Nat} (h : InsertAt p r c ind) :
    vget (insert_nz p r c ind).row ind = r ∧
    vget (insert_nz p r c ind).colind c ≤ ind ∧
    ind < vget (insert_nz p r c ind).colind (c + 1) ∧
    (insert_nz p r c ind).nnz = p.nnz + 1 := by
  have hwf := h.wf
  have hc := h.hc
  have hlo := h.lo
  have hhi := h.hi
  refine ⟨?_, ?_, ?_, ?_⟩
  · rw [insert_nz_row p r c ind ind h.ind_le, if_neg (by omega), if_pos rfl]
  · rw [insert_nz_colind p hwf, if_neg (by omega)]; exact hlo
  · rw [insert_nz_colind p hwf, if_pos ⟨by omega, by omega⟩]; omega
  · show vget (insert_nz p r c ind).colind p.ncol = vget p.colind p.ncol + 1
    rw [insert_nz_colind p hwf, if_pos ⟨by omega, Nat.le_refl _⟩]

/-- The search loop of `add_nz`: it finds the entry, or the place where it belongs. -/
theorem add_nz_search_spec (p : Sparsity) (h : p.wf) (r c : Nat) (hc : c < p.ncol) :
    ∀ n ind, ind + n = vget p.colind (c + 1) → vget p.colind c ≤ ind →
      (∀ k, vget p.colind c ≤ k → k < ind → vget p.row k < r) →
      (∃ k, add_nz_search p.row r n ind = .inl k ∧ vget p.colind c ≤ k ∧
        k < vget p.colind (c + 1) ∧ vget p.row k = r) ∨
      (∃ k, add_nz_search p.row r n ind = .inr k ∧ vget p.colind c ≤ k ∧
        k ≤ vget p.colind (c + 1) ∧ (∀ j, vget p.colind c ≤ j → j < k → vget p.row j < r) ∧
        (∀ j, k ≤ j → j < vget p.colind (c + 1) → r < vget p.row j)) := by
  intro n
  induction n with
  | zero =>
    intro ind h1 h2 h3
    right
    exact ⟨ind, rfl, h2, by omega, h3, fun j a b => by omega⟩
  | succ n ih =>
    intro ind h1 h2 h3
    unfold add_nz_search
    by_cases e1 : vget p.row ind = r
    · left
      rw [if_pos e1]
      exact ⟨ind, rfl, h2, by omega, e1⟩
    · rw [if_neg e1]
      by_cases e2 : vget p.row ind > r
      · right
        rw [if_pos e2]
        refine ⟨ind, rfl, h2, by omega, h3, ?_⟩
        intro j a b
        have := wf_row_step p h c hc ind h2 (j - ind) (by omega)
        rw [show ind + (j - ind) = j by omega] at this
        omega
      · rw [if_neg e2]
        apply ih (ind + 1) (by omega) (by omega)
        intro k a b
        by_cases e3 : k = ind
        · subst e3; omega
        · exact h3 k a (by omega)

theorem wf_take_colind (p : Sparsity) (h : p.wf) : p.colind.take (p.ncol + 1) = p.colind := by
  rw [← h.1, List.take_length]

theorem add_nz_append_row (row : List Nat) (r : Nat) :
    (resize (row.take row.length) (row.length + 1)).set row.length r =
      row.take row.length ++ r :: row.drop row.length := by
  rw [List.take_length, List.drop_length]
  apply ext_vget (by simp)
  intro k hk
  simp at hk
  rw [vget_set, vget_resize, vget_append_single]
  by_cases e : k = row.length
  · subst e; rw [if_pos ⟨rfl, by simp⟩, if_pos rfl]
  · rw [if_neg (by omega), if_pos (by omega), if_neg e]

theorem add_nz_append_colind (p : Sparsity) (h : p.wf) (c : Nat) :
    forLoop c p.ncol (fun v j => incr v (j + 1)) (p.colind.take (p.ncol + 1)) =
      forLoop (c + 1) (p.ncol + 1) (fun v j => incr v j) p.colind := by
  rw [wf_take_colind p h]
  have h0 := fun j => vget_forLoop_incr (c + 1) (p.ncol + 1) 0 p.colind j
  have l0 := length_forLoop_incr (c + 1) (p.ncol + 1) 0 p.colind
  simp only [Nat.add_zero] at h0 l0
  apply ext_vget (by rw [length_forLoop_incr, l0])
  intro j _
  rw [vget_forLoop_incr, h0]

end Sparsity
end casadi

namespace casadi
namespace Sparsity

/-! ## The three paths of `add_nz` -/

theorem add_nz_checked_dense (p : Sparsity) (h : p.wf) (r c : Nat) (hr : r < p.nrow)
    (hc : c < p.ncol) (hd : p.is_dense = true) :
    add_nz_checked p r c = (.ok (r + c * p.nrow), p) ∧
    vget p.row (r + c * p.nrow) = r ∧ vget p.colind c ≤ r + c * p.nrow ∧
    r + c * p.nrow < vget p.colind (c + 1) := by
  have hnnz : p.nnz = p.nrow * p.ncol := by
    simpa [is_dense, numel] using hd
  have e1 := wf_dense_colind p h hnnz c (by omega)
  have e2 := wf_dense_colind p h hnnz (c + 1) (by omega)
  have h3 : (c + 1) * p.nrow ≤ p.ncol * p.nrow := Nat.mul_le_mul_right _ (by omega)
  rw [Nat.succ_mul] at e2 h3
  refine ⟨?_, ?_, by omega, by omega⟩
  · unfold add_nz_checked
    rw [if_pos hd]; rfl
  · rw [wf_dense_row p h hnnz _ (by omega), Nat.add_comm,
      mod_of_between p.nrow c (c * p.nrow + r) (by omega) (by omega)]
    omega

/-- What `add_nz` does to a valid pattern at checked indices: the entry exists and its
index is returned, or it is inserted at the place kept sorted. -/
theorem add_nz_checked_spec (p : Sparsity) (h : p.wf) (r c : Nat) (hr : r < p.nrow)
    (hc : c < p.ncol) :
    (∃ k, add_nz_checked p r c = (.ok k, p) ∧ vget p.row k = r ∧ vget p.colind c ≤ k ∧
      k < vget p.colind (c + 1)) ∨
    (∃ ind, InsertAt p r c ind ∧ add_nz_checked p r c = (.ok ind, insert_nz p r c ind)) := by
  by_cases hd : p.is_dense = true
  · left
    obtain ⟨a, b, c', d⟩ := add_nz_checked_dense p h r c hr hc hd
    exact ⟨_, a, b, c', d⟩
  · have hnnz : p.nnz = p.row.length := h.2.2.2.1.symm
    have hmono := h.2.2.1 c hc
    have hle := wf_colind_le_nnz p h (c + 1) (by omega)
    by_cases h2 : vget p.colind c = p.nnz ∨
        (vget p.colind (c + 1) = p.nnz ∧ vget p.row (p.nnz - 1) < r)
    · -- adding an element to the end
      right
      have hins : InsertAt p r c p.row.length := by
        refine ⟨h, hr, hc, by omega, ?_, ?_, ?_⟩
        · rcases h2 with e | e <;> omega
        · intro k a b
          rcases h2 with e | e
          · omega
          · have := wf_row_step p h c hc k a (p.nnz - 1 - k) (by omega)
            rw [show k + (p.nnz - 1 - k) = p.nnz - 1 by omega] at this
            omega
        · intro k a b; omega
      refine ⟨p.row.length, hins, ?_⟩
      unfold add_nz_checked
      rw [if_neg hd]
      simp only
      rw [if_pos h2, hnnz, add_nz_append_row]
      simp only [size1, size2]
      rw [add_nz_append_colind p h c]
      have := assign_cached_wf _ _ _ _ (insert_nz_wf hins)
      unfold insert_nz at this
      rw [this]
      simp only [insert_nz]
      congr 2
      simp
    · -- the search loop
      rcases add_nz_search_spec p h r c hc (vget p.colind (c + 1) - vget p.colind c)
        (vget p.colind c) (by omega) (Nat.le_refl _) (fun k a b => by omega) with
        ⟨k, e, a1, a2, a3⟩ | ⟨k, e, a1, a2, a3, a4⟩
      · left
        refine ⟨k, ?_, a3, a1, a2⟩
        unfold add_nz_checked
        rw [if_neg hd]
        simp only
        rw [if_neg h2, e]
      · right
        have hins : InsertAt p r c k := ⟨h, hr, hc, a1, a2, a3, a4⟩
        refine ⟨k, hins, ?_⟩
        unfold add_nz_checked
        rw [if_neg hd]
        simp only
        rw [if_neg h2, e]
        simp only [size1, size2]
        have := assign_cached_wf _ _ _ _ (insert_nz_wf hins)
        unfold insert_nz at this
        rw [this]
        rfl

theorem add_nz_of_nat (p : Sparsity) (r c : Nat) (hr : r < p.nrow) (hc : c < p.ncol) :
    add_nz p r c = add_nz_checked p r c := by
  unfold add_nz
  simp only [size1, size2]
  rw [if_neg (by omega), if_neg (by omega), if_neg (by simp), if_neg (by simp)]
  simp

/-- Within a column a row is stored in one slot only. -/
theorem wf_slot_unique (p : Sparsity) (h : p.wf) (c : Nat) (hc : c < p.ncol) (k k' : Nat)
    (h1 : vget p.colind c ≤ k) (h2 : k < vget p.colind (c + 1))
    (h1' : vget p.colind c ≤ k') (h2' : k' < vget p.colind (c + 1))
    (e : vget p.row k = vget p.row k') : k = k' := by
  rcases Nat.lt_trichotomy k k' with l | l | l
  · have := wf_row_step p h c hc k h1 (k' - k) (by omega)
    rw [show k + (k' - k) = k' by omega] at this
    omega
  · exact l
  · have := wf_row_step p h c hc k' h1' (k - k') (by omega)
    rw [show k' + (k - k') = k by omega] at this
    omega

end Sparsity
end casadi

namespace casadi
namespace Sparsity

/-! ## Claims on `Sparsity::add_nz` -/

/-- C8: for a valid pattern `p` and in-range `(rr, cc)`, after `k = p.add_nz(rr, cc)` the
pattern held is a valid pattern of the same dimensions whose entries are the old entries
and `(rr, cc)`, and `k` is the flat index of that entry; `nnz` grows by one when the entry
was absent, the pattern is unchanged when it was present, and a second `add_nz(rr, cc)`
returns the same `k`. -/
theorem add_nz_spec (p : Sparsity) (h : p.wf) (rr cc : Nat) (hr : rr < p.nrow)
    (hc : cc < p.ncol) :
    ∃ k q, add_nz p rr cc = (.ok k, q) ∧ q.wf ∧ q.nrow = p.nrow ∧ q.ncol = p.ncol ∧
      (∀ r c, q.has_entry r c ↔ p.has_entry r c ∨ (r = rr ∧ c = cc)) ∧
      vget q.row k = rr ∧ vget q.colind cc ≤ k ∧ k < vget q.colind (cc + 1) ∧
      (¬ p.has_entry rr cc → q.nnz = p.nnz + 1) ∧
      (p.has_entry rr cc → q = p) ∧
      add_nz q rr cc = (.ok k, q) := by
  rw [add_nz_of_nat p rr cc hr hc]
  rcases add_nz_checked_spec p h rr cc hr hc with ⟨k, e, a1, a2, a3⟩ | ⟨ind, hins, e⟩
  · have hhas : p.has_entry rr cc := ⟨hc, k, a2, a3, a1⟩
    refine ⟨k, p, e, h, rfl, rfl, ?_, a1, a2, a3, fun hn => absurd hhas hn, fun _ => rfl, ?_⟩
    · intro r c
      constructor
      · exact Or.inl
      · rintro (h1 | ⟨rfl, rfl⟩)
        · exact h1
        · exact hhas
    · rw [add_nz_of_nat p rr cc hr hc]; exact e
  · obtain ⟨b1, b2, b3, b4⟩ := insert_nz_index hins
    have hwf := insert_nz_wf hins
    refine ⟨ind, insert_nz p rr cc ind, e, hwf, rfl, rfl, insert_nz_has_entry hins, b1, b2, b3,
      fun _ => b4, fun hhas => absurd hhas hins.not_has_entry, ?_⟩
    have hr' : rr < (insert_nz p rr cc ind).nrow := hr
    have hc' : cc < (insert_nz p rr cc ind).ncol := hc
    rw [add_nz_of_nat _ rr cc hr' hc']
    rcases add_nz_checked_spec _ hwf rr cc hr' hc' with ⟨k, e', a1, a2, a3⟩ | ⟨ind', hins', -⟩
    · have := wf_slot_unique _ hwf cc hc' k ind a2 a3 b2 b3 (by rw [a1, b1])
      cases this; exact e'
    · exact absurd ((insert_nz_has_entry hins rr cc).2 (Or.inr ⟨rfl, rfl⟩)) hins'.not_has_entry

/-- C8, at a shifted insert into a 3-by-4 pattern. -/
theorem add_nz_spec_witness :
    ∃ k q, add_nz ⟨3, 4, [0, 1, 3, 3, 4], [1, 0, 1, 2]⟩ (0 : Nat) (3 : Nat) = (.ok k, q) ∧
      q.wf ∧ q.nrow = 3 ∧ q.ncol = 4 ∧
      (∀ r c, q.has_entry r c ↔
        (⟨3, 4, [0, 1, 3, 3, 4], [1, 0, 1, 2]⟩ : Sparsity).has_entry r c ∨ (r = 0 ∧ c = 3)) ∧
      vget q.row k = 0 ∧ vget q.colind 3 ≤ k ∧ k < vget q.colind (3 + 1) ∧
      (¬ (⟨3, 4, [0, 1, 3, 3, 4], [1, 0, 1, 2]⟩ : Sparsity).has_entry 0 3 →
        q.nnz = (⟨3, 4, [0, 1, 3, 3, 4], [1, 0, 1, 2]⟩ : Sparsity).nnz + 1) ∧
      ((⟨3, 4, [0, 1, 3, 3, 4], [1, 0, 1, 2]⟩ : Sparsity).has_entry 0 3 →
        q = ⟨3, 4, [0, 1, 3, 3, 4], [1, 0, 1, 2]⟩) ∧
      add_nz q (0 : Nat) (3 : Nat) = (.ok k, q) :=
  add_nz_spec ⟨3, 4, [0, 1, 3, 3, 4], [1, 0, 1, 2]⟩ (by decide) 0 3 (by decide) (by decide)

/-- C9: `add_nz(rr, cc)` on a valid pattern uses `rr + size1` for a negative `rr` and
`cc + size2` for a negative `cc`; it fails exactly when the adjusted row is outside
`[0, size1)` or the adjusted column is outside `[0, size2)`, and then the pattern held is
unchanged. -/
theorem add_nz_fails_iff (p : Sparsity) (h : p.wf) (rr cc : Int) :
    ((∃ e, (add_nz p rr cc).1 = .error e) ↔
      ¬ (0 ≤ (if rr < 0 then rr + p.size1 else rr) ∧
          (if rr < 0 then rr + p.size1 else rr) < p.size1) ∨
      ¬ (0 ≤ (if cc < 0 then cc + p.size2 else cc) ∧
          (if cc < 0 then cc + p.size2 else cc) < p.size2)) ∧
    ((∃ e, (add_nz p rr cc).1 = .error e) → (add_nz p rr cc).2 = p) ∧
    ((0 ≤ (if rr < 0 then rr + p.size1 else rr) ∧
        (if rr < 0 then rr + p.size1 else rr) < p.size1) →
      (0 ≤ (if cc < 0 then cc + p.size2 else cc) ∧
        (if cc < 0 then cc + p.size2 else cc) < p.size2) →
      add_nz p rr cc =
        add_nz p (if rr < 0 then rr + p.size1 else rr) (if cc < 0 then cc + p.size2 else cc)) := by
  generalize hr : (if rr < 0 then rr + (p.size1 : Int) else rr) = r
  generalize hcc : (if cc < 0 then cc + (p.size2 : Int) else cc) = c
  have hunfold : add_nz p rr cc =
      if ¬ (r ≥ 0 ∧ r < p.size1) then (.error "Row index out of bounds", p)
      else if ¬ (c ≥ 0 ∧ c < p.size2) then (.error "Column index out of bounds", p)
      else add_nz_checked p r.toNat c.toNat := by
    unfold add_nz
    simp only [hr, hcc]
  by_cases h1 : 0 ≤ r ∧ r < p.size1
  · by_cases h2 : 0 ≤ c ∧ c < p.size2
    · have hgood : add_nz p rr cc = add_nz_checked p r.toNat c.toNat := by
        rw [hunfold, if_neg (by simpa using h1), if_neg (by simpa using h2)]
      have hok : ∃ k q, add_nz p rr cc = (.ok k, q) := by
        rw [hgood]
        have a1 : r.toNat < p.nrow := by simp only [size1] at h1; omega
        have a2 : c.toNat < p.ncol := by simp only [size2] at h2; omega
        rcases add_nz_checked_spec p h r.toNat c.toNat a1 a2 with ⟨k, e, -⟩ | ⟨k, -, e⟩
        · exact ⟨_, _, e⟩
        · exact ⟨_, _, e⟩
      obtain ⟨k, q, e⟩ := hok
      refine ⟨?_, ?_, ?_⟩
      · rw [e]
        constructor
        · rintro ⟨_, he⟩; cases he
        · rintro (hn | hn)
          · exact absurd h1 hn
          · exact absurd h2 hn
      · rw [e]
        rintro ⟨_, he⟩; cases he
      · intro _ _
        rw [hgood]
        have e1 : (if r < 0 then r + (p.size1 : Int) else r) = r := if_neg (by omega)
        have e2 : (if c < 0 then c + (p.size2 : Int) else c) = c := if_neg (by omega)
        unfold add_nz
        simp only [e1, e2]
        rw [if_neg (by simpa using h1), if_neg (by simpa using h2)]
    · have e : add_nz p rr cc = (.error "Column index out of bounds", p) := by
        rw [hunfold, if_neg (by simpa using h1), if_pos (by simpa using h2)]
      refine ⟨?_, fun _ => by rw [e], fun _ hn => absurd hn h2⟩
      rw [e]
      exact ⟨fun _ => Or.inr h2, fun _ => ⟨_, rfl⟩⟩
  · have e : add_nz p rr cc = (.error "Row index out of bounds", p) := by
      rw [hunfold, if_pos (by simpa using h1)]
    refine ⟨?_, fun _ => by rw [e], fun hn => absurd hn h1⟩
    rw [e]
    exact ⟨fun _ => Or.inl h1, fun _ => ⟨_, rfl⟩⟩

/-- C9, at `add_nz(-1, -1)` on a 3-by-4 pattern: it is `add_nz(2, 3)`. -/
theorem add_nz_fails_iff_witness :
    add_nz ⟨3, 4, [0, 1, 3, 3, 4], [1, 0, 1, 2]⟩ (-1) (-1) =
      add_nz ⟨3, 4, [0, 1, 3, 3, 4], [1, 0, 1, 2]⟩ 2 3 :=
  (add_nz_fails_iff ⟨3, 4, [0, 1, 3, 3, 4], [1, 0, 1, 2]⟩ (by decide) (-1) (-1)).2.2
    (by decide) (by decide)

end Sparsity
end casadi

namespace casadi
namespace Linsol

/-! ## `linsol_spsolve` on a decomposition with different row and column orders -/

/-- C10, evaluated at the 3-by-3 pattern with nonzeros (0,0), (0,1), (1,1), (1,2), (2,0),
`rowperm = [2,0,1]`, `colperm = [0,1,2]`, singleton blocks and `B = [1,0,0]`: the forward
sweep returns `X = [1,1,0]`.  Column 2 forms block 2 with row 1, and `A(1,1)` is a nonzero
in column 1 of the earlier block 1, but `X[2]` lacks the bit of `X[1]`; the sweep has
written the mask of block 1 to `X[0]` and `X[1]`, the row indices of column 1. -/
theorem linsol_spsolve_forward_example :
    linsol_spsolve ⟨⟨3, 3, [0, 2, 4, 5], [0, 2, 0, 1, 1]⟩, [2, 0, 1], [0, 1, 2], [0, 1, 2, 3],
        [0, 1, 2, 3]⟩ [0, 0, 0] [1, 0, 0] false = [1, 1, 0] ∧
    ¬ (vget [1, 1, 0] 1 ||| vget [1, 1, 0] 2 = vget [1, 1, 0] 2) := by
  constructor
  · decide
  · decide

end Linsol
end casadi

namespace casadi
namespace Cache

/-! ## The cache of `assign_cached` -/

theorem alive_iff (st : Cache) (id : Nat) :
    st.alive id = true ↔ ∃ n ∈ st.live, n.1 = id := by
  simp [alive]

theorem is_equal_iff (st : Cache) (id : Nat) (t : Sparsity) :
    st.is_equal id t = true ↔ (id, t) ∈ st.live := by
  simp only [is_equal, List.any_eq_true, Bool.and_eq_true, beq_iff_eq]
  constructor
  · rintro ⟨⟨a, b⟩, hm, rfl, rfl⟩; exact hm
  · intro hm; exact ⟨(id, t), hm, rfl, rfl⟩

theorem alive_of_is_equal (st : Cache) (id : Nat) (t : Sparsity) (h : st.is_equal id t = true) :
    st.alive id = true :=
  (alive_iff st id).2 ⟨(id, t), (is_equal_iff st id t).1 h, rfl⟩

/-- What the loop over `equal_range(h)` returns. -/
theorem lookup_spec (st : Cache) (h : Nat) (t : Sparsity) :
    ∀ (es : List (Nat × Nat)) (index : Nat),
      (∀ id, lookup st h t es index = .found id →
        (h, id) ∈ es ∧ st.is_equal id t = true) ∧
      (∀ i, lookup st h t es index = .reuse i →
        index ≤ i ∧ (∃ e, es[i - index]? = some e ∧ e.1 = h ∧ st.alive e.2 = false) ∧
        ∀ e ∈ es, e.1 = h → st.is_equal e.2 t = false) ∧
      (lookup st h t es index = .missing →
        ∀ e ∈ es, e.1 = h → st.is_equal e.2 t = false) := by
  intro es
  induction es with
  | nil =>
    intro index
    refine ⟨?_, ?_, ?_⟩
    · intro id hh; simp [lookup] at hh
    · intro i hh; simp [lookup] at hh
    · intro _ e he; simp at he
  | cons e rest ih =>
    intro index
    obtain ⟨ih1, ih2, ih3⟩ := ih (index + 1)
    have hskip : st.is_equal e.2 t = false ∨ e.1 ≠ h →
        (∀ id, lookup st h t rest (index + 1) = .found id →
          (h, id) ∈ e :: rest ∧ st.is_equal id t = true) ∧
        (∀ i, lookup st h t rest (index + 1) = .reuse i →
          index ≤ i ∧ (∃ e', (e :: rest)[i - index]? = some e' ∧ e'.1 = h ∧
            st.alive e'.2 = false) ∧
          ∀ e' ∈ e :: rest, e'.1 = h → st.is_equal e'.2 t = false) ∧
        (lookup st h t rest (index + 1) = .missing →
          ∀ e' ∈ e :: rest, e'.1 = h → st.is_equal e'.2 t = false) := by
      intro hne
      have hall : (∀ e' ∈ rest, e'.1 = h → st.is_equal e'.2 t = false) →
          ∀ e' ∈ e :: rest, e'.1 = h → st.is_equal e'.2 t = false := by
        intro hr e' he' hk
        rcases List.mem_cons.1 he' with rfl | he'
        · rcases hne with a | a
          · exact a
          · exact absurd hk a
        · exact hr e' he' hk
      refine ⟨?_, ?_, ?_⟩
      · intro id hh
        obtain ⟨a, b⟩ := ih1 id hh
        exact ⟨List.mem_cons_of_mem _ a, b⟩
      · intro i hh
        obtain ⟨a, ⟨e', b1, b2, b3⟩, c⟩ := ih2 i hh
        refine ⟨by omega, ⟨e', ?_, b2, b3⟩, hall c⟩
        rw [show i - index = (i - (index + 1)) + 1 by omega]
        simpa using b1
      · intro hh
        exact hall (ih3 hh)
    by_cases hk : e.1 ≠ h
    · have e1 : lookup st h t (e :: rest) index = lookup st h t rest (index + 1) := by
        simp only [lookup]; rw [if_pos hk]
      rw [e1]
      exact hskip (Or.inr hk)
    · by_cases ha : st.alive e.2 = true
      · by_cases heq : st.is_equal e.2 t = true
        · have e1 : lookup st h t (e :: rest) index = .found e.2 := by
            simp only [lookup]; rw [if_neg hk, if_pos ha, if_pos heq]
          rw [e1]
          refine ⟨?_, ?_, ?_⟩
          · intro id hh
            cases hh
            refine ⟨?_, heq⟩
            have : e = (h, e.2) := by
              have hk' : e.1 = h := by simpa using hk
              rw [← hk']
            rw [this]
            exact List.mem_cons_self _ _
          · intro i hh; cases hh
          · intro hh; cases hh
        · have e1 : lookup st h t (e :: rest) index = lookup st h t rest (index + 1) := by
            simp only [lookup]; rw [if_neg hk, if_pos ha, if_neg heq]
          rw [e1]
          exact hskip (Or.inl (by simpa using heq))
      · have hdead : st.alive e.2 = false := by simpa using ha
        have hnoteq : st.is_equal e.2 t = false := by
          cases hh : st.is_equal e.2 t
          · rfl
          · exact absurd (alive_of_is_equal st e.2 t hh) ha
        cases hf : rest.find? (fun j => j.1 == h && st.alive j.2 && st.is_equal j.2 t) with
        | some j =>
          have e1 : lookup st h t (e :: rest) index = .found j.2 := by
            simp only [lookup]; rw [if_neg hk, if_neg ha, hf]
          rw [e1]
          have hj := List.find?_some hf
          have hjm := List.mem_of_find?_eq_some hf
          simp only [Bool.and_eq_true, beq_iff_eq] at hj
          refine ⟨?_, ?_, ?_⟩
          · intro id hh
            cases hh
            refine ⟨List.mem_cons_of_mem _ ?_, hj.2⟩
            have : j = (h, j.2) := by rw [← hj.1.1]
            rw [← this]; exact hjm
          · intro i hh; cases hh
          · intro hh; cases hh
        | none =>
          have e1 : lookup st h t (e :: rest) index = .reuse index := by
            simp only [lookup]; rw [if_neg hk, if_neg ha, hf]
          rw [e1]
          have hnone := List.find?_eq_none.1 hf
          refine ⟨?_, ?_, ?_⟩
          · intro id hh; cases hh
          · intro i hh
            cases hh
            refine ⟨Nat.le_refl _, ⟨e, by simp, by simpa using hk, hdead⟩, ?_⟩
            intro e' he' hk'
            rcases List.mem_cons.1 he' with rfl | he'
            · exact hnoteq
            · have := hnone e' he'
              cases hq : st.is_equal e'.2 t
              · rfl
              · exfalso
                apply this
                simp [hk', hq, alive_of_is_equal st e'.2 t hq]
          · intro hh; cases hh

end Cache
end casadi

namespace casadi
namespace Cache

theorem inv_init (hash : Sparsity → Nat) (buckets : Nat) : Inv hash ⟨0, [], [], buckets⟩ :=
  ⟨by simp, by simp, by simp, by simp, by simp, by simp, fun _ => rfl⟩

theorem inv_release (hash : Sparsity → Nat) (st : Cache) (id : Nat) (h : Inv hash st) :
    Inv hash (release st id) := by
  have hsub : ∀ n ∈ (release st id).live, n ∈ st.live := by
    intro n hn
    exact (List.mem_filter.1 hn).1
  exact ⟨fun n hn => h.fresh_live n (hsub n hn), h.fresh_entries,
    fun n hn => h.cached n (hsub n hn),
    fun n hn m hm => h.ids n (hsub n hn) m (hsub m hm),
    fun n hn m hm => h.canonical n (hsub n hn) m (hsub m hm),
    fun n hn => h.shape n (hsub n hn), h.buckets⟩

/-- The state after a node for `t` has been created and entered in the multimap. -/
theorem inv_created (hash : Sparsity → Nat) (st : Cache) (h : Inv hash st) (t : Sparsity)
    (hshape : ¬ (t.ncol = 0 ∧ t.nrow = 0) ∧ ¬ (t.ncol = 1 ∧ t.nrow = 1))
    (hnew : ∀ n ∈ st.live, n.2 ≠ t) (entries : List (Nat × Nat)) (buckets : Nat)
    (hfresh : ∀ e ∈ entries, e.2 < st.next + 1)
    (hent_new : (hash t, st.next) ∈ entries)
    (hent_old : ∀ n ∈ st.live, (hash n.2, n.1) ∈ entries)
    (hb : buckets = 0 → entries = []) :
    Inv hash ⟨st.next + 1, (st.next, t) :: st.live, entries, buckets⟩ := by
  refine ⟨?_, hfresh, ?_, ?_, ?_, ?_, hb⟩
  · intro n hn
    rcases List.mem_cons.1 hn with rfl | hn
    · exact Nat.lt_succ_self _
    · exact Nat.lt_succ_of_lt (h.fresh_live n hn)
  · intro n hn
    rcases List.mem_cons.1 hn with rfl | hn
    · exact hent_new
    · exact hent_old n hn
  · intro n hn m hm e
    rcases List.mem_cons.1 hn with rfl | hn <;> rcases List.mem_cons.1 hm with rfl | hm
    · rfl
    · have := h.fresh_live m hm
      simp only at e
      omega
    · have := h.fresh_live n hn
      simp only at e
      omega
    · exact h.ids n hn m hm e
  · intro n hn m hm e
    rcases List.mem_cons.1 hn with rfl | hn <;> rcases List.mem_cons.1 hm with rfl | hm
    · rfl
    · exact absurd e.symm (hnew m hm)
    · exact absurd e (hnew n hn)
    · exact h.canonical n hn m hm e
  · intro n hn
    rcases List.mem_cons.1 hn with rfl | hn
    · exact hshape
    · exact h.shape n hn

/-- The outcome of the lookup of `assign_cached`, as far as the live nodes go. -/
theorem lookup_live (hash : Sparsity → Nat) (st : Cache) (h : Inv hash st) (t : Sparsity) :
    (∀ id, (if st.buckets > 0 then lookup st (hash t) t st.entries 0 else .missing) = .found id →
      (id, t) ∈ st.live) ∧
    (∀ i, (if st.buckets > 0 then lookup st (hash t) t st.entries 0 else .missing) = .reuse i →
      0 < st.buckets ∧ (∃ e, st.entries[i]? = some e ∧ st.alive e.2 = false) ∧
      ∀ n ∈ st.live, n.2 ≠ t) ∧
    ((if st.buckets > 0 then lookup st (hash t) t st.entries 0 else .missing) = .missing →
      ∀ n ∈ st.live, n.2 ≠ t) := by
  have hno : (∀ e ∈ st.entries, e.1 = hash t → st.is_equal e.2 t = false) →
      ∀ n ∈ st.live, n.2 ≠ t := by
    intro hall n hn e
    have h1 := hall _ (h.cached n hn) (by rw [e])
    have h2 : st.is_equal n.1 t = true := (is_equal_iff st n.1 t).2 (by rw [← e]; exact hn)
    simp only at h1
    rw [h2] at h1
    cases h1
  by_cases hb : st.buckets > 0
  · rw [if_pos hb]
    obtain ⟨a, b, c⟩ := lookup_spec st (hash t) t st.entries 0
    refine ⟨?_, ?_, ?_⟩
    · intro id hh
      exact (is_equal_iff st id t).1 (a id hh).2
    · intro i hh
      obtain ⟨-, ⟨e, b1, -, b3⟩, b4⟩ := b i hh
      exact ⟨hb, ⟨e, by simpa using b1, b3⟩, hno b4⟩
    · intro hh
      exact hno (c hh)
  · rw [if_neg hb]
    have hempty := h.buckets (by omega)
    refine ⟨?_, ?_, ?_⟩
    · intro id hh; cases hh
    · intro i hh; cases hh
    · intro _
      apply hno
      intro e he
      rw [hempty] at he
      simp at he

theorem mem_insert_iff (entries : List (Nat × Nat)) (position : Nat) (x e : Nat × Nat) :
    e ∈ entries.take position ++ x :: entries.drop position ↔ e = x ∨ e ∈ entries := by
  rw [List.mem_append, List.mem_cons]
  constructor
  · rintro (a | a | a)
    · exact Or.inr (List.mem_of_mem_take a)
    · exact Or.inl a
    · exact Or.inr (List.mem_of_mem_drop a)
  · rintro (a | a)
    · exact Or.inr (Or.inl a)
    · rw [← List.take_append_drop position entries, List.mem_append] at a
      rcases a with a | a
      · exact Or.inl a
      · exact Or.inr (Or.inr a)

/-- `assign_cached` keeps the invariant of the cache. -/
theorem inv_assign (hash : Sparsity → Nat) (st : Cache) (h : Inv hash st) (t : Sparsity)
    (position buckets_after : Nat) (hb : 0 < buckets_after) :
    Inv hash (assign_cached hash position buckets_after st t).1 := by
  unfold assign_cached
  by_cases s0 : t.ncol = 0 ∧ t.nrow = 0
  · rw [if_pos s0]; exact h
  · rw [if_neg s0]
    by_cases s1 : t.ncol = 1 ∧ t.nrow = 1
    · rw [if_pos s1]
      split <;> exact h
    · rw [if_neg s1]
      obtain ⟨l1, l2, l3⟩ := lookup_live hash st h t
      simp only
      cases hres : (if st.buckets > 0 then lookup st (hash t) t st.entries 0 else .missing) with
      | found id => exact h
      | reuse i =>
        obtain ⟨hbk, ⟨e, he, hdead⟩, hnew⟩ := l2 i hres
        obtain ⟨hi, hei⟩ := List.getElem?_eq_some.1 he
        apply inv_created hash st h t ⟨s0, s1⟩ hnew
        · intro x hx
          rcases List.mem_or_eq_of_mem_set hx with a | a
          · exact Nat.lt_succ_of_lt (h.fresh_entries x a)
          · rw [a]; exact Nat.lt_succ_self _
        · rw [List.mem_iff_getElem?]
          exact ⟨i, by rw [List.getElem?_set]; simp [hi]⟩
        · intro n hn
          obtain ⟨j, hj⟩ := List.mem_iff_getElem?.1 (h.cached n hn)
          rw [List.mem_iff_getElem?]
          refine ⟨j, ?_⟩
          rw [List.getElem?_set]
          have hne : i ≠ j := by
            intro hij
            subst hij
            rw [he] at hj
            cases hj
            have : st.alive n.1 = true := (alive_iff st n.1).2 ⟨n, hn, rfl⟩
            simp only at hdead
            rw [this] at hdead
            cases hdead
          rw [if_neg hne]
          exact hj
        · intro hz
          simp only at hz
          omega
      | missing =>
        have hnew := l3 hres
        simp only
        by_cases hgc : st.buckets ≠ buckets_after
        · rw [if_pos hgc]
          apply inv_created hash st h t ⟨s0, s1⟩ hnew
          · intro x hx
            rcases (mem_insert_iff _ _ _ _).1 (List.mem_filter.1 hx).1 with a | a
            · rw [a]; exact Nat.lt_succ_self _
            · exact Nat.lt_succ_of_lt (h.fresh_entries x a)
          · rw [List.mem_filter]
            refine ⟨(mem_insert_iff _ _ _ _).2 (Or.inl rfl), ?_⟩
            simp [alive]
          · intro n hn
            rw [List.mem_filter]
            refine ⟨(mem_insert_iff _ _ _ _).2 (Or.inr (h.cached n hn)), ?_⟩
            simp only [alive, List.any_eq_true, beq_iff_eq]
            exact ⟨n, List.mem_cons_of_mem _ hn, rfl⟩
          · intro hz; omega
        · rw [if_neg hgc]
          apply inv_created hash st h t ⟨s0, s1⟩ hnew
          · intro x hx
            rcases (mem_insert_iff _ _ _ _).1 hx with a | a
            · rw [a]; exact Nat.lt_succ_self _
            · exact Nat.lt_succ_of_lt (h.fresh_entries x a)
          · exact (mem_insert_iff _ _ _ _).2 (Or.inl rfl)
          · intro n hn
            exact (mem_insert_iff _ _ _ _).2 (Or.inr (h.cached n hn))
          · intro hz; omega

theorem inv_of_reachable (hash : Sparsity → Nat) (st : Cache) (h : Reachable hash st) :
    Inv hash st := by
  induction h with
  | init b => exact inv_init hash b
  | assign st t position b _ hb ih => exact inv_assign hash st ih t position b hb
  | release st id _ ih => exact inv_release hash st id ih

/-- In a state that satisfies the invariant, a request for the content of a live node
adopts that node and leaves the cache as it is. -/
theorem assign_cached_adopts (hash : Sparsity → Nat) (st : Cache) (h : Inv hash st)
    (t : Sparsity) (id position buckets_after : Nat) (hlive : (id, t) ∈ st.live) :
    assign_cached hash position buckets_after st t = (st, .node id) := by
  obtain ⟨s0, s1⟩ := h.shape _ hlive
  simp only at s0 s1
  unfold assign_cached
  rw [if_neg s0, if_neg s1]
  obtain ⟨l1, l2, l3⟩ := lookup_live hash st h t
  simp only
  cases hres : (if st.buckets > 0 then lookup st (hash t) t st.entries 0 else .missing) with
  | found id' =>
    have := h.canonical _ (l1 id' hres) _ hlive rfl
    simp only at this
    subst this
    rfl
  | reuse i =>
    exact absurd rfl ((l2 i hres).2.2 _ hlive)
  | missing =>
    exact absurd rfl (l3 hres _ hlive)

end Cache
end casadi

namespace casadi
namespace Cache

/-! ## Claim on the canonical instances -/

/-- A request for a tuple that is no singleton ends with a node that is alive and holds
the tuple: the node found in the cache, or the node created. -/
theorem assign_cached_live (hash : Sparsity → Nat) (st : Cache) (h : Inv hash st)
    (t : Sparsity) (position buckets_after : Nat)
    (s0 : ¬ (t.ncol = 0 ∧ t.nrow = 0)) (s1 : ¬ (t.ncol = 1 ∧ t.nrow = 1)) :
    ∃ id, (assign_cached hash position buckets_after st t).2 = .node id ∧
      (id, t) ∈ (assign_cached hash position buckets_after st t).1.live := by
  obtain ⟨l1, -, -⟩ := lookup_live hash st h t
  unfold assign_cached
  rw [if_neg s0, if_neg s1]
  simp only
  cases hres : (if st.buckets > 0 then lookup st (hash t) t st.entries 0 else .missing) with
  | found id => exact ⟨id, rfl, l1 id hres⟩
  | reuse i => exact ⟨st.next, rfl, List.mem_cons_self _ _⟩
  | missing =>
    simp only
    split
    · exact ⟨st.next, rfl, List.mem_cons_self _ _⟩
    · exact ⟨st.next, rfl, List.mem_cons_self _ _⟩

/-- C3: in every reachable state of the cache, `assign_cached` called with the tuple of a
live cached node adopts that very node and creates nothing, whatever the hash function,
the dead entries and the colliding entries; at most one live cached node exists per
tuple; and a call with a tuple that is no singleton leaves `*this` with a live node that
holds the tuple, which a second call with the same tuple adopts. -/
theorem assign_cached_canonical (hash : Sparsity → Nat) (st : Cache)
    (hreach : Reachable hash st) :
    (∀ (t : Sparsity) (id position buckets_after : Nat), (id, t) ∈ st.live →
      assign_cached hash position buckets_after st t = (st, .node id)) ∧
    (∀ (t : Sparsity) (id id' : Nat), (id, t) ∈ st.live → (id', t) ∈ st.live → id = id') ∧
    (∀ (t : Sparsity) (position buckets_after : Nat), 0 < buckets_after →
      ¬ (t.ncol = 0 ∧ t.nrow = 0) → ¬ (t.ncol = 1 ∧ t.nrow = 1) →
      ∃ id, (assign_cached hash position buckets_after st t).2 = .node id ∧
        (id, t) ∈ (assign_cached hash position buckets_after st t).1.live ∧
        ∀ position2 buckets_after2 : Nat,
          assign_cached hash position2 buckets_after2
              (assign_cached hash position buckets_after st t).1 t =
            ((assign_cached hash position buckets_after st t).1, .node id)) := by
  have hinv := inv_of_reachable hash st hreach
  refine ⟨fun t id position b hl => assign_cached_adopts hash st hinv t id position b hl,
    fun t id id' h1 h2 => hinv.canonical _ h1 _ h2 rfl, ?_⟩
  intro t position b hb s0 s1
  obtain ⟨id, e1, e2⟩ := assign_cached_live hash st hinv t position b s0 s1
  exact ⟨id, e1, e2, fun p2 b2 =>
    assign_cached_adopts hash _ (inv_assign hash st hinv t position b hb) t id p2 b2 e2⟩

/-- C3, in the state reached with a constant hash by caching three 2-by-2 patterns and
letting the last one die: its entry, now dead, is the first of the bucket, followed by the
entries of two live patterns with the same hash.  A call with the first pattern adopts
node 0 and leaves the state as it is; a call with a fourth pattern takes over the dead
entry for the new node 3, and the call after it adopts node 3. -/
theorem assign_cached_canonical_witness :
    ∃ st : Cache, Reachable (fun _ => 0) st ∧
      st.entries = [(0, 2), (0, 1), (0, 0)] ∧
      st.live = [(1, ⟨2, 2, [0, 0, 1], [0]⟩), (0, ⟨2, 2, [0, 1, 2], [0, 1]⟩)] ∧
      assign_cached (fun _ => 0) 0 1 st ⟨2, 2, [0, 1, 2], [0, 1]⟩ = (st, .node 0) ∧
      (assign_cached (fun _ => 0) 0 1 st ⟨2, 2, [0, 2, 4], [0, 1, 0, 1]⟩).2 = .node 3 ∧
      (assign_cached (fun _ => 0) 0 1 st ⟨2, 2, [0, 2, 4], [0, 1, 0, 1]⟩).1.entries =
        [(0, 3), (0, 1), (0, 0)] ∧
      ∃ id, (assign_cached (fun _ => 0) 0 1 st ⟨2, 2, [0, 2, 4], [0, 1, 0, 1]⟩).2 = .node id ∧
        (id, (⟨2, 2, [0, 2, 4], [0, 1, 0, 1]⟩ : Sparsity)) ∈
          (assign_cached (fun _ => 0) 0 1 st ⟨2, 2, [0, 2, 4], [0, 1, 0, 1]⟩).1.live ∧
        ∀ position2 buckets_after2 : Nat,
          assign_cached (fun _ => 0) position2 buckets_after2
              (assign_cached (fun _ => 0) 0 1 st ⟨2, 2, [0, 2, 4], [0, 1, 0, 1]⟩).1
              ⟨2, 2, [0, 2, 4], [0, 1, 0, 1]⟩ =
            ((assign_cached (fun _ => 0) 0 1 st ⟨2, 2, [0, 2, 4], [0, 1, 0, 1]⟩).1, .node id) :=
  have hreach : Reachable (fun _ => 0)
      (release (assign_cached (fun _ => 0) 0 1 (assign_cached (fun _ => 0) 0 1
        (assign_cached (fun _ => 0) 0 1 ⟨0, [], [], 0⟩ ⟨2, 2, [0, 1, 2], [0, 1]⟩).1
        ⟨2, 2, [0, 0, 1], [0]⟩).1 ⟨2, 2, [0, 1, 1], [1]⟩).1 2) :=
    Reachable.release _ 2
      (Reachable.assign _ _ 0 1
        (Reachable.assign _ _ 0 1
          (Reachable.assign _ _ 0 1 (Reachable.init 0) (by decide))
          (by decide))
        (by decide))
  ⟨_, hreach, by decide, by decide,
    (assign_cached_canonical (fun _ => 0) _ hreach).1 ⟨2, 2, [0, 1, 2], [0, 1]⟩ 0 0 1
      (by decide),
    by decide, by decide,
    (assign_cached_canonical (fun _ => 0) _ hreach).2.2 ⟨2, 2, [0, 2, 4], [0, 1, 0, 1]⟩ 0 1
      (by decide) (by decide) (by decide)⟩

end Cache
end casadi

namespace casadi
namespace Cache

/-! ## The cache and the pattern held after `assign_cached` -/

theorem content_of_live (hash : Sparsity → Nat) (st : Cache) (h : Inv hash st) (id : Nat)
    (t : Sparsity) (hl : (id, t) ∈ st.live) : content st (.node id) = some t := by
  show (st.live.find? (fun n => n.1 == id)).map (fun n => n.2) = some t
  cases hf : st.live.find? (fun n => n.1 == id) with
  | none =>
    have := List.find?_eq_none.1 hf (id, t) hl
    simp at this
  | some n =>
    have h1 := List.find?_some hf
    have h2 := List.mem_of_find?_eq_some hf
    have := h.ids n h2 (id, t) hl (by simpa using h1)
    rw [this]
    rfl

/-- The instance that `*this` owns after `assign_cached` holds the pattern given by
`Sparsity.assign_cached`: the cache changes which node is shared, not the data. -/
theorem assign_cached_content (hash : Sparsity → Nat) (st : Cache) (h : Inv hash st)
    (nrow ncol : Nat) (colind row : List Nat) (position buckets_after : Nat)
    (hb : 0 < buckets_after)
    (h1 : colind.length = ncol + 1) (h2 : row.length = colind.getLastD 0) :
    Sparsity.assign_cached nrow ncol colind row =
      match content (assign_cached hash position buckets_after st ⟨nrow, ncol, colind, row⟩).1
          (assign_cached hash position buckets_after st ⟨nrow, ncol, colind, row⟩).2 with
      | some p => .ok p
      | none => .error "no node" := by
  have hinv' := inv_assign hash st h ⟨nrow, ncol, colind, row⟩ position buckets_after hb
  unfold Sparsity.assign_cached
  rw [if_neg (by simp [h1]), if_neg (by simp [h2])]
  revert hinv'
  unfold assign_cached
  simp only
  by_cases s0 : ncol = 0 ∧ nrow = 0
  · rw [if_pos s0, if_pos s0]
    intro _; rfl
  · rw [if_neg s0, if_neg s0]
    by_cases s1 : ncol = 1 ∧ nrow = 1
    · rw [if_pos s1, if_pos s1]
      split <;> intro _ <;> rfl
    · rw [if_neg s1, if_neg s1]
      obtain ⟨l1, -, -⟩ := lookup_live hash st h ⟨nrow, ncol, colind, row⟩
      cases hres : (if st.buckets > 0 then
          lookup st (hash ⟨nrow, ncol, colind, row⟩) ⟨nrow, ncol, colind, row⟩ st.entries 0
          else .missing) with
      | found id =>
        intro _
        simp only
        rw [content_of_live hash st h id _ (l1 id hres)]
      | reuse i =>
        intro hinv'
        simp only at hinv' ⊢
        rw [content_of_live hash _ hinv' st.next ⟨nrow, ncol, colind, row⟩
          (List.mem_cons_self _ _)]
      | missing =>
        simp only
        split
        · intro hinv'
          rw [content_of_live hash _ hinv' st.next ⟨nrow, ncol, colind, row⟩
            (List.mem_cons_self _ _)]
        · intro hinv'
          rw [content_of_live hash _ hinv' st.next ⟨nrow, ncol, colind, row⟩
            (List.mem_cons_self _ _)]

end Cache
end casadi

namespace casadi
namespace Sparsity

/-! ## A pattern is given by the rows of its columns -/

theorem vget_take_drop (l : List Nat) (a n j : Nat) :
    vget ((l.drop a).take n) j = if j < n then vget l (a + j) else 0 := by
  unfold vget
  rw [List.getD_eq_getElem?_getD, List.getD_eq_getElem?_getD, List.getElem?_take]
  by_cases h : j < n
  · rw [if_pos h, if_pos h, List.getElem?_drop]
  · rw [if_neg h, if_neg h]; rfl

theorem length_col_rows (p : Sparsity) (h : p.wf) (c : Nat) (hc : c < p.ncol) :
    (col_rows p c).length = vget p.colind (c + 1) - vget p.colind c := by
  have h1 := wf_colind_le_nnz p h (c + 1) (by omega)
  have h2 := h.2.2.1 c hc
  have h3 := h.2.2.2.1
  unfold col_rows
  rw [List.length_take, List.length_drop]
  omega

theorem vget_col_rows (p : Sparsity) (c j : Nat)
    (hj : j < vget p.colind (c + 1) - vget p.colind c) :
    vget (col_rows p c) j = vget p.row (vget p.colind c + j) := by
  unfold col_rows
  rw [vget_take_drop, if_pos hj]

theorem offs_col_rows (p : Sparsity) (h : p.wf) (c : Nat) (hc : c ≤ p.ncol) :
    offs (col_rows p) c = vget p.colind c := by
  induction c with
  | zero => rw [offs_zero, h.2.1]
  | succ c ih =>
    have := h.2.2.1 c (by omega)
    rw [offs_succ, ih (by omega), length_col_rows p h c (by omega)]
    omega

/-- A pattern that satisfies the invariant is the pattern of its columns. -/
theorem wf_eq_ofSegs (p : Sparsity) (h : p.wf) : p = ofSegs p.nrow p.ncol (col_rows p) := by
  have hcol : p.colind = (List.range (p.ncol + 1)).map (offs (col_rows p)) := by
    apply ext_vget
    · rw [h.1]; simp
    · intro c hc
      rw [h.1] at hc
      rw [vget_map_range _ _ _ hc, offs_col_rows p h c (by omega)]
  have hrow : p.row = (List.range p.ncol).flatMap (col_rows p) := by
    have hlen : ((List.range p.ncol).flatMap (col_rows p)).length = p.row.length := by
      have : ((List.range p.ncol).flatMap (col_rows p)).length = offs (col_rows p) p.ncol := rfl
      rw [this, offs_col_rows p h p.ncol (Nat.le_refl _), h.2.2.2.1]
    apply ext_vget hlen.symm
    intro k hk
    have hk' : k < offs (col_rows p) p.ncol := by
      rw [offs_col_rows p h p.ncol (Nat.le_refl _), ← h.2.2.2.1]; exact hk
    obtain ⟨c, j, hc, hj, e⟩ := offs_cover (col_rows p) p.ncol k hk'
    rw [e, vget_flatMap_range _ _ _ _ hc hj]
    rw [length_col_rows p h c hc] at hj
    rw [vget_col_rows p c j hj, offs_col_rows p h c (by omega)]
  cases p with
  | mk nrow ncol colind row =>
    unfold ofSegs
    simp only at hcol hrow ⊢
    rw [← hcol, ← hrow]

theorem ofSegs_congr (nrow ncol : Nat) (s₁ s₂ : Nat → List Nat)
    (h : ∀ c, c < ncol → s₁ c = s₂ c) : ofSegs nrow ncol s₁ = ofSegs nrow ncol s₂ := by
  have hoffs : ∀ c, c ≤ ncol → offs s₁ c = offs s₂ c := by
    intro c
    induction c with
    | zero => intro _; rw [offs_zero, offs_zero]
    | succ c ih => intro hc; rw [offs_succ, offs_succ, ih (by omega), h c (by omega)]
  unfold ofSegs
  congr 1
  · apply List.map_congr_left
    intro c hc
    exact hoffs c (by simpa [Nat.lt_succ_iff] using hc)
  · apply List.flatMap_congr
    intro c hc
    exact h c (by simpa using hc)

theorem mem_col_rows (p : Sparsity) (h : p.wf) (r c : Nat) (hc : c < p.ncol) :
    r ∈ col_rows p c ↔ p.has_entry r c := by
  have hlen := length_col_rows p h c hc
  have hm := h.2.2.1 c hc
  constructor
  · intro hr
    obtain ⟨j, hj, e⟩ := exists_vget_of_mem _ _ hr
    rw [hlen] at hj
    rw [vget_col_rows p c j hj] at e
    exact ⟨hc, vget p.colind c + j, by omega, by omega, e⟩
  · rintro ⟨_, k, h1, h2, e⟩
    have : vget (col_rows p c) (k - vget p.colind c) = r := by
      rw [vget_col_rows p c _ (by omega), show vget p.colind c + (k - vget p.colind c) = k by omega, e]
    rw [← this]
    exact vget_mem _ _ (by omega)

theorem col_rows_lt (p : Sparsity) (h : p.wf) (c : Nat) (hc : c < p.ncol) :
    ∀ r ∈ col_rows p c, r < p.nrow := by
  intro r hr
  obtain ⟨_, k, h1, h2, e⟩ := (mem_col_rows p h r c hc).1 hr
  have := wf_colind_le_nnz p h (c + 1) (by omega)
  rw [← e]
  exact h.2.2.2.2.1 k (by omega)

theorem col_rows_pairwise (p : Sparsity) (h : p.wf) (c : Nat) (hc : c < p.ncol) :
    (col_rows p c).Pairwise (· < ·) := by
  have hlen := length_col_rows p h c hc
  rw [List.pairwise_iff_getElem]
  intro i j hi hj hij
  have e1 : vget (col_rows p c) i = (col_rows p c)[i] := by
    unfold vget; exact List.getD_eq_getElem _ _ hi
  have e2 : vget (col_rows p c) j = (col_rows p c)[j] := by
    unfold vget; exact List.getD_eq_getElem _ _ hj
  rw [← e1, ← e2, vget_col_rows p c i (by omega), vget_col_rows p c j (by omega)]
  have := wf_row_step p h c hc (vget p.colind c + i) (by omega) (j - i) (by omega)
  rw [show vget p.colind c + i + (j - i) = vget p.colind c + j by omega] at this
  omega

end Sparsity
end casadi

namespace casadi

theorem pairwise_lt_ext (l₁ l₂ : List Nat) (h₁ : l₁.Pairwise (· < ·)) (h₂ : l₂.Pairwise (· < ·))
    (h : ∀ a, a ∈ l₁ ↔ a ∈ l₂) : l₁ = l₂ := by
  have n₁ : l₁.Nodup := h₁.imp (fun hab => Nat.ne_of_lt hab)
  have n₂ : l₂.Nodup := h₂.imp (fun hab => Nat.ne_of_lt hab)
  exact List.eq_of_perm_of_sorted ((List.perm_ext_iff_of_nodup n₁ n₂).2 h) h₁ h₂

theorem offs_congr {α : Type} (s₁ s₂ : Nat → List α) (n : Nat)
    (h : ∀ c, c < n → s₁ c = s₂ c) : offs s₁ n = offs s₂ n := by
  induction n with
  | zero => rw [offs_zero, offs_zero]
  | succ n ih =>
    rw [offs_succ, offs_succ, ih (fun c hc => h c (by omega)), h n (by omega)]

theorem offs_add {α : Type} (s : Nat → List α) (a n : Nat) :
    offs s (a + n) = offs s a + offs (fun c => s (a + c)) n := by
  induction n with
  | zero => rw [offs_zero]; rfl
  | succ n ih =>
    rw [← Nat.add_assoc, offs_succ, offs_succ, ih]
    omega

namespace Sparsity

/-- Two patterns that satisfy the invariant and have the same dimensions and the same
entries are equal. -/
theorem wf_ext (p q : Sparsity) (hp : p.wf) (hq : q.wf) (h1 : p.nrow = q.nrow)
    (h2 : p.ncol = q.ncol) (h : ∀ r c, p.has_entry r c ↔ q.has_entry r c) : p = q := by
  rw [wf_eq_ofSegs p hp, wf_eq_ofSegs q hq, h1, h2]
  apply ofSegs_congr
  intro c hc
  apply pairwise_lt_ext _ _ (col_rows_pairwise p hp c (by omega)) (col_rows_pairwise q hq c hc)
  intro r
  rw [mem_col_rows p hp r c (by omega), mem_col_rows q hq r c hc]
  exact h r c

/-- On valid coordinates `triplet` builds the pattern whose column `c` holds, in
increasing order, the rows given with the column `c`. -/
theorem triplet_rc_ofSegs (nrow ncol : Nat) (row col : List Int) (seg : Nat → List Nat)
    (hlen : row.length = col.length)
    (hr : ∀ r ∈ row, 0 ≤ r ∧ r < nrow) (hc : ∀ c ∈ col, 0 ≤ c ∧ c < ncol)
    (hs : ∀ c, c < ncol → (seg c).Pairwise (· < ·))
    (hm : ∀ c, c < ncol → ∀ r : Nat,
      r ∈ seg c ↔ ∃ k : Nat, row[k]? = some (r : Int) ∧ col[k]? = some (c : Int)) :
    triplet_rc nrow ncol row col = .ok (ofSegs nrow ncol seg) := by
  unfold triplet_rc
  rw [triplet_eq nrow ncol row col [] false hlen hr hc]
  simp only
  congr 1
  apply ofSegs_congr
  intro c hcc
  apply pairwise_lt_ext _ _ (triplet_seg_pairwise _ _ _ _) (hs c hcc)
  intro r
  rw [hm c hcc r, ← triplet_entry_iff nrow ncol row col hlen hr hc r c]
  exact ⟨fun h => ⟨hcc, h⟩, fun h => h.2⟩

/-- The coordinates that are read off a list of entries. -/
theorem exists_getElem?_maps (L : List (Nat × Nat)) (r c : Nat) :
    (∃ k : Nat, (L.map (fun e => (e.1 : Int)))[k]? = some (r : Int) ∧
      (L.map (fun e => (e.2 : Int)))[k]? = some (c : Int)) ↔ (r, c) ∈ L := by
  constructor
  · rintro ⟨k, h1, h2⟩
    rw [List.getElem?_map] at h1 h2
    cases hk : L[k]? with
    | none => rw [hk] at h1; simp at h1
    | some e =>
      rw [hk] at h1 h2
      simp only [Option.map_some', Option.some.injEq, Nat.cast_inj] at h1 h2
      have : e = (r, c) := Prod.ext h1 h2
      rw [← this]
      exact List.mem_iff_getElem?.2 ⟨k, hk⟩
  · intro h
    obtain ⟨k, hk⟩ := List.mem_iff_getElem?.1 h
    exact ⟨k, by rw [List.getElem?_map, hk]; rfl, by rw [List.getElem?_map, hk]; rfl⟩

theorem mem_entries (p : Sparsity) (r c : Nat) : (r, c) ∈ entries p ↔ p.has_entry r c := by
  unfold entries has_entry
  simp only [List.mem_flatMap, List.mem_range, List.mem_map, List.mem_range', Prod.mk.injEq]
  constructor
  · rintro ⟨cc, hcc, k, ⟨i, hi, rfl⟩, e1, rfl⟩
    exact ⟨hcc, _, by omega, by omega, e1⟩
  · rintro ⟨hc, k, h1, h2, e⟩
    exact ⟨c, hc, k, ⟨k - vget p.colind c, by omega, by omega⟩, e, rfl⟩

end Sparsity
end casadi

namespace casadi
namespace Sparsity

/-! ## `Sparsity::horzcat`: the triplet vectors -/

theorem horzcat_inner (p : Sparsity) (cc : Nat) (K : List Nat) (s : HorzcatState) :
    K.foldl (fun (s : HorzcatState) k =>
        { s with ret_row := s.ret_row ++ [(vget p.row k : Int)],
                 ret_col := s.ret_col ++ [((cc + s.ret_ncol : Nat) : Int)] }) s =
      ⟨s.ret_row ++ (K.map (fun k => (vget p.row k, cc))).map (fun e => (e.1 : Int)),
        s.ret_col ++ (K.map (fun k => (vget p.row k, cc))).map
          (fun e => ((e.2 + s.ret_ncol : Nat) : Int)),
        s.ret_ncol⟩ := by
  induction K generalizing s with
  | nil => simp
  | cons k K ih => rw [List.foldl_cons, ih]; simp

theorem horzcat_outer (p : Sparsity) (C : List Nat) (s : HorzcatState) :
    C.foldl (fun (s : HorzcatState) cc =>
        forLoop (vget p.colind cc) (vget p.colind (cc + 1)) (fun (s : HorzcatState) k =>
          { s with ret_row := s.ret_row ++ [(vget p.row k : Int)],
                   ret_col := s.ret_col ++ [((cc + s.ret_ncol : Nat) : Int)] }) s) s =
      ⟨s.ret_row ++ (C.flatMap (fun cc =>
          (List.range' (vget p.colind cc) (vget p.colind (cc + 1) - vget p.colind cc)).map
            (fun k => (vget p.row k, cc)))).map (fun e => (e.1 : Int)),
        s.ret_col ++ (C.flatMap (fun cc =>
          (List.range' (vget p.colind cc) (vget p.colind (cc + 1) - vget p.colind cc)).map
            (fun k => (vget p.row k, cc)))).map (fun e => ((e.2 + s.ret_ncol : Nat) : Int)),
        s.ret_ncol⟩ := by
  induction C generalizing s with
  | nil => simp
  | cons cc C ih =>
    rw [List.foldl_cons]
    have e := horzcat_inner p cc
      (List.range' (vget p.colind cc) (vget p.colind (cc + 1) - vget p.colind cc)) s
    unfold forLoop at ih ⊢
    rw [e, ih]
    simp

theorem horzcat_entries_eq (p : Sparsity) (s : HorzcatState) :
    horzcat_entries p s =
      ⟨s.ret_row ++ (entries p).map (fun e => (e.1 : Int)),
        s.ret_col ++ (entries p).map (fun e => ((e.2 + s.ret_ncol : Nat) : Int)),
        s.ret_ncol⟩ := by
  unfold horzcat_entries entries
  have := horzcat_outer p (List.range' 0 p.ncol) s
  rw [List.range_eq_range']
  exact this

theorem horzcat_append_eq (R : Nat) (sp : List Sparsity) (s : HorzcatState)
    (h : ∀ p ∈ sp, p.size1 = R ∨ p.size1 = 0) :
    horzcat_append R sp s =
      .ok ⟨s.ret_row ++ (hentries sp s.ret_ncol).map (fun e => (e.1 : Int)),
        s.ret_col ++ (hentries sp s.ret_ncol).map (fun e => (e.2 : Int)),
        s.ret_ncol + (sp.map size2).sum⟩ := by
  induction sp generalizing s with
  | nil => simp [horzcat_append, hentries]
  | cons p sp ih =>
    unfold horzcat_append
    rw [if_neg (not_not.2 (h p (List.mem_cons_self _ _)))]
    simp only
    rw [horzcat_entries_eq, ih _ (fun q hq => h q (List.mem_cons_of_mem _ hq))]
    simp [hentries, Nat.add_assoc, Function.comp_def]

theorem mem_hentries (sp : List Sparsity) (h : ∀ p ∈ sp, p.wf) (off r c : Nat) :
    (r, c) ∈ hentries sp off ↔
      off ≤ c ∧ c - off < (sp.map size2).sum ∧ r ∈ hseg sp (c - off) := by
  induction sp generalizing off with
  | nil => simp [hentries]
  | cons p sp ih =>
    have hp := h p (List.mem_cons_self _ _)
    unfold hentries hseg
    rw [List.mem_append, ih (fun q hq => h q (List.mem_cons_of_mem _ hq))]
    simp only [List.mem_map, Prod.mk.injEq, Prod.exists, List.map_cons, List.sum_cons]
    have e : p.size2 = p.ncol := rfl
    rw [e]
    constructor
    · rintro (⟨r', c', he, rfl, rfl⟩ | ⟨h1, h2, h3⟩)
      · have he' := (mem_entries p r' c').1 he
        have hc' : c' < p.ncol := he'.1
        rw [show c' + off - off = c' by omega]
        refine ⟨by omega, by omega, ?_⟩
        rw [if_pos hc']
        exact (mem_col_rows p hp r' c' hc').2 he'
      · refine ⟨by omega, by omega, ?_⟩
        rw [if_neg (by omega), show c - off - p.ncol = c - (off + p.ncol) by omega]
        exact h3
    · rintro ⟨h1, h2, h3⟩
      by_cases hc : c - off < p.ncol
      · rw [if_pos hc] at h3
        left
        exact ⟨r, c - off, (mem_entries p r _).2 ((mem_col_rows p hp r _ hc).1 h3), rfl,
          by omega⟩
      · rw [if_neg hc] at h3
        right
        refine ⟨by omega, by omega, ?_⟩
        rw [show c - (off + p.ncol) = c - off - p.ncol by omega]
        exact h3

theorem hseg_pairwise (sp : List Sparsity) (h : ∀ p ∈ sp, p.wf) (c : Nat) :
    (hseg sp c).Pairwise (· < ·) := by
  induction sp generalizing c with
  | nil => simp [hseg]
  | cons p sp ih =>
    unfold hseg
    by_cases hc : c < p.size2
    · rw [if_pos hc]
      exact col_rows_pairwise p (h p (List.mem_cons_self _ _)) c hc
    · rw [if_neg hc]
      exact ih (fun q hq => h q (List.mem_cons_of_mem _ hq)) _

theorem hseg_lt (R : Nat) (sp : List Sparsity) (h : ∀ p ∈ sp, p.wf)
    (hR : ∀ p ∈ sp, p.size1 = R ∨ p.size1 = 0) (c : Nat) : ∀ r ∈ hseg sp c, r < R := by
  induction sp generalizing c with
  | nil => simp [hseg]
  | cons p sp ih =>
    unfold hseg
    by_cases hc : c < p.size2
    · rw [if_pos hc]
      intro r hr
      have := col_rows_lt p (h p (List.mem_cons_self _ _)) c hc r hr
      rcases hR p (List.mem_cons_self _ _) with e | e
      · rw [← e]; exact this
      · have e' : p.nrow = 0 := e
        omega
    · rw [if_neg hc]
      exact ih (fun q hq => h q (List.mem_cons_of_mem _ hq))
        (fun q hq => hR q (List.mem_cons_of_mem _ hq)) _

/-- For two patterns or more, `horzcat` returns the pattern whose columns are the columns
of the patterns, one pattern after the other. -/
theorem horzcat_eq (a b : Sparsity) (sp : List Sparsity) (h : ∀ p ∈ a :: b :: sp, p.wf)
    (hR : ∀ p ∈ a :: b :: sp,
      p.size1 = horzcat_nrow (a :: b :: sp) 0 ∨ p.size1 = 0) :
    horzcat (a :: b :: sp) =
      .ok (ofSegs (horzcat_nrow (a :: b :: sp) 0) (((a :: b :: sp).map size2).sum)
        (hseg (a :: b :: sp))) := by
  unfold horzcat
  simp only
  rw [horzcat_append_eq _ _ _ hR]
  simp only [List.nil_append, Nat.zero_add]
  apply triplet_rc_ofSegs
  · simp
  · intro r hr
    obtain ⟨e, he, rfl⟩ := List.mem_map.1 hr
    have := (mem_hentries _ h 0 e.1 e.2).1 he
    have := hseg_lt _ _ h hR _ _ this.2.2
    omega
  · intro c hc
    obtain ⟨e, he, rfl⟩ := List.mem_map.1 hc
    have := (mem_hentries _ h 0 e.1 e.2).1 he
    omega
  · intro c _
    exact hseg_pairwise _ h c
  · intro c hc r
    rw [exists_getElem?_maps, mem_hentries _ h 0 r c]
    exact ⟨fun hr => ⟨Nat.zero_le _, hc, hr⟩, fun hr => hr.2.2⟩

end Sparsity
end casadi

namespace casadi
namespace Sparsity

/-! ## `Sparsity::horzcat`: the parts of the result -/

theorem col_offset_zero (sp : List Sparsity) : col_offset sp 0 = 0 := by
  simp [col_offset]

theorem col_offset_succ (p : Sparsity) (sp : List Sparsity) (i : Nat) :
    col_offset (p :: sp) (i + 1) = p.size2 + col_offset sp i := by
  simp [col_offset]

theorem col_offset_le (sp : List Sparsity) (i : Nat) (p : Sparsity) (h : sp[i]? = some p) :
    col_offset sp i + p.size2 ≤ (sp.map size2).sum := by
  induction sp generalizing i with
  | nil => simp at h
  | cons q sp ih =>
    cases i with
    | zero =>
      simp only [List.getElem?_cons_zero, Option.some.injEq] at h
      subst h
      rw [col_offset_zero]
      simp
    | succ i =>
      rw [List.getElem?_cons_succ] at h
      have := ih i h
      rw [col_offset_succ]
      simp only [List.map_cons, List.sum_cons]
      omega

theorem hseg_eq (sp : List Sparsity) (i : Nat) (p : Sparsity) (c : Nat) (h : sp[i]? = some p)
    (h1 : col_offset sp i ≤ c) (h2 : c < col_offset sp i + p.size2) :
    hseg sp c = col_rows p (c - col_offset sp i) := by
  induction sp generalizing i c with
  | nil => simp at h
  | cons q sp ih =>
    cases i with
    | zero =>
      simp only [List.getElem?_cons_zero, Option.some.injEq] at h
      subst h
      rw [col_offset_zero] at h2 ⊢
      unfold hseg
      rw [if_pos (by omega)]
      rfl
    | succ i =>
      rw [List.getElem?_cons_succ] at h
      rw [col_offset_succ] at h1 h2 ⊢
      unfold hseg
      rw [if_neg (by omega), ih i (c - q.size2) h (by omega) (by omega)]
      congr 1
      omega

theorem col_offset_cover (sp : List Sparsity) (c : Nat) (h : c < (sp.map size2).sum) :
    ∃ i p, sp[i]? = some p ∧ col_offset sp i ≤ c ∧ c < col_offset sp i + p.size2 := by
  induction sp generalizing c with
  | nil => simp at h
  | cons q sp ih =>
    by_cases hc : c < q.size2
    · exact ⟨0, q, List.getElem?_cons_zero, by rw [col_offset_zero]; omega,
        by rw [col_offset_zero]; omega⟩
    · simp only [List.map_cons, List.sum_cons] at h
      obtain ⟨i, p, e, h1, h2⟩ := ih (c - q.size2) (by omega)
      exact ⟨i + 1, p, by rw [List.getElem?_cons_succ]; exact e,
        by rw [col_offset_succ]; omega, by rw [col_offset_succ]; omega⟩

theorem horzcat_nrow_pos (sp : List Sparsity) (n : Nat) (h : n ≠ 0) : horzcat_nrow sp n = n := by
  cases sp with
  | nil => rfl
  | cons p sp => unfold horzcat_nrow; rw [if_neg h]

theorem horzcat_nrow_const (sp : List Sparsity) (R : Nat) (hne : sp ≠ [])
    (hR : ∀ p ∈ sp, p.size1 = R) : horzcat_nrow sp 0 = R := by
  induction sp with
  | nil => exact absurd rfl hne
  | cons p sp ih =>
    have hp := hR p (List.mem_cons_self _ _)
    unfold horzcat_nrow
    rw [if_pos rfl, hp]
    by_cases h0 : R = 0
    · subst h0
      cases sp with
      | nil => rfl
      | cons q sp => exact ih (by simp) (fun t ht => hR t (List.mem_cons_of_mem _ ht))
    · exact horzcat_nrow_pos sp R h0

theorem ofDims_zero : ofDims 0 0 = .ok getEmpty := by decide

theorem ofSegs_size1 (nrow ncol : Nat) (seg : Nat → List Nat) : (ofSegs nrow ncol seg).size1 = nrow :=
  rfl

theorem ofSegs_nnz (nrow ncol : Nat) (seg : Nat → List Nat) :
    (ofSegs nrow ncol seg).nnz = offs seg ncol :=
  ofSegs_colind _ _ _ _ (Nat.le_refl _)

end Sparsity
end casadi

namespace casadi
namespace Sparsity

theorem hseg_wf (R : Nat) (sp : List Sparsity) (h : ∀ p ∈ sp, p.wf)
    (hR : ∀ p ∈ sp, p.size1 = R ∨ p.size1 = 0) (n : Nat) : (ofSegs R n (hseg sp)).wf :=
  ofSegs_wf R n _ (fun c _ => hseg_lt R sp h hR c) (fun c _ => hseg_pairwise sp h c)

/-- The result of `horzcat` on patterns with one common number of rows, the empty list and
the list of one pattern included. -/
theorem horzcat_eq_const (sp : List Sparsity) (R : Nat) (h : ∀ p ∈ sp, p.wf)
    (hR : ∀ p ∈ sp, p.size1 = R) :
    horzcat sp =
      .ok (ofSegs (if sp = [] then 0 else R) ((sp.map size2).sum) (hseg sp)) := by
  match sp, h, hR with
  | [], _, _ => rfl
  | [p], h, hR =>
    have hp := h p (List.mem_cons_self _ _)
    have hRp := hR p (List.mem_cons_self _ _)
    show Except.ok p = _
    rw [if_neg (by simp)]
    congr 1
    have e1 : ([p].map size2).sum = p.ncol := by simp [size2]
    have e2 : R = p.nrow := hRp.symm
    rw [e1, e2]
    conv_lhs => rw [wf_eq_ofSegs p hp]
    apply ofSegs_congr
    intro c hc
    show col_rows p c = if c < p.size2 then col_rows p c else hseg [] (c - p.size2)
    rw [if_pos (show c < p.size2 from hc)]
  | a :: b :: sp, h, hR =>
    have hn := horzcat_nrow_const (a :: b :: sp) R (by simp) hR
    rw [horzcat_eq a b sp h (fun p hp => Or.inl (by rw [hn]; exact hR p hp)), hn,
      if_neg (by simp)]

end Sparsity
end casadi

namespace casadi
namespace Sparsity

/-! ## Claims on `Sparsity::horzcat` -/

end Sparsity
end casadi

namespace casadi
namespace Sparsity

/-! ## `Sparsity::vertcat` -/

theorem has_entry_lt (p : Sparsity) (h : p.wf) (r c : Nat) (he : p.has_entry r c) :
    r < p.nrow ∧ c < p.ncol := by
  obtain ⟨hc, k, h1, h2, e⟩ := he
  have := wf_colind_le_nnz p h (c + 1) (by omega)
  rw [← e]
  exact ⟨h.2.2.2.2.1 k (by omega), hc⟩

theorem row_offset_zero (sp : List Sparsity) : row_offset sp 0 = 0 := by
  simp [row_offset]

theorem row_offset_succ (p : Sparsity) (sp : List Sparsity) (i : Nat) :
    row_offset (p :: sp) (i + 1) = p.size1 + row_offset sp i := by
  simp [row_offset]

theorem row_offset_le (sp : List Sparsity) (i : Nat) (p : Sparsity) (h : sp[i]? = some p) :
    row_offset sp i + p.size1 ≤ (sp.map size1).sum := by
  induction sp generalizing i with
  | nil => simp at h
  | cons q sp ih =>
    cases i with
    | zero =>
      simp only [List.getElem?_cons_zero, Option.some.injEq] at h
      subst h
      rw [row_offset_zero]
      simp
    | succ i =>
      rw [List.getElem?_cons_succ] at h
      have := ih i h
      rw [row_offset_succ]
      simp only [List.map_cons, List.sum_cons]
      omega

theorem row_offset_cover (sp : List Sparsity) (c : Nat) (h : c < (sp.map size1).sum) :
    ∃ i p, sp[i]? = some p ∧ row_offset sp i ≤ c ∧ c < row_offset sp i + p.size1 := by
  induction sp generalizing c with
  | nil => simp at h
  | cons q sp ih =>
    by_cases hc : c < q.size1
    · exact ⟨0, q, List.getElem?_cons_zero, by rw [row_offset_zero]; omega,
        by rw [row_offset_zero]; omega⟩
    · simp only [List.map_cons, List.sum_cons] at h
      obtain ⟨i, p, e, h1, h2⟩ := ih (c - q.size1) (by omega)
      exact ⟨i + 1, p, by rw [List.getElem?_cons_succ]; exact e,
        by rw [row_offset_succ]; omega, by rw [row_offset_succ]; omega⟩

end Sparsity
end casadi

namespace casadi
namespace Sparsity

end Sparsity
end casadi

namespace casadi
namespace Sparsity

/-! ## `Sparsity::horzsplit`: one output -/

theorem length_forLoop_sub (m : Nat) (v : List Nat) :
    (forLoop 1 m (fun v j => v.set j (vget v j - vget v 0)) v).length = v.length := by
  induction m with
  | zero => rw [forLoop_empty _ _ _ _ (by omega)]
  | succ m ih =>
    by_cases hm : 1 ≤ m
    · rw [forLoop_succ _ _ _ _ hm, List.length_set, ih]
    · rw [forLoop_empty _ _ _ _ (by omega)]

/-- The effect of `for (it=v.begin()+1; it!=v.end(); ++it) *it -= v[0]`. -/
theorem vget_forLoop_sub (m : Nat) (v : List Nat) (k : Nat) :
    vget (forLoop 1 m (fun v j => v.set j (vget v j - vget v 0)) v) k =
      if 1 ≤ k ∧ k < m ∧ k < v.length then vget v k - vget v 0 else vget v k := by
  induction m generalizing k with
  | zero => rw [forLoop_empty _ _ _ _ (by omega), if_neg (by omega)]
  | succ m ih =>
    by_cases hm : 1 ≤ m
    · rw [forLoop_succ _ _ _ _ hm, vget_set, ih k, ih m, ih 0, length_forLoop_sub]
      by_cases e : m = k
      · subst e
        by_cases hk : m < v.length
        · rw [if_pos ⟨rfl, hk⟩, if_neg (by omega), if_neg (by omega), if_pos ⟨hm, by omega, hk⟩]
        · rw [if_neg (by omega), if_neg (by omega), if_neg (by omega)]
      · rw [if_neg (by omega)]
        by_cases hk : 1 ≤ k ∧ k < m ∧ k < v.length
        · rw [if_pos hk, if_pos ⟨hk.1, by omega, hk.2.2⟩]
        · rw [if_neg hk, if_neg (by omega)]
    · rw [forLoop_empty _ _ _ _ (by omega), if_neg (by omega)]

/-- The effect of `copy(src+a, src+a+m, v.begin())`. -/
theorem vget_forLoop_copy (src : List Nat) (a m : Nat) (v : List Nat) (k : Nat) :
    vget (forLoop 0 m (fun v j => v.set j (vget src (a + j))) v) k =
      if k < m ∧ k < v.length then vget src (a + k) else vget v k := by
  have := vget_forLoop_set (fun j => vget src (a + j)) 0 m v k
  simp only [Nat.add_zero, Nat.zero_le, true_and, Nat.zero_add, Nat.sub_zero] at this
  exact this

theorem length_forLoop_copy (src : List Nat) (a m : Nat) (v : List Nat) :
    (forLoop 0 m (fun v j => v.set j (vget src (a + j))) v).length = v.length :=
  length_forLoop_set (fun j => vget src (a + j)) (fun j => j) 0 m v

/-- The columns `first, ..., last-1` of `x`, as a pattern. -/
theorem offs_shift_col_rows (x : Sparsity) (h : x.wf) (first c : Nat) (hc : first + c ≤ x.ncol) :
    offs (fun c => col_rows x (first + c)) c = vget x.colind (first + c) - vget x.colind first := by
  have h1 := offs_add (col_rows x) first c
  rw [offs_col_rows x h _ hc, offs_col_rows x h first (by omega)] at h1
  omega

theorem horzsplit_body_eq (x : Sparsity) (h : x.wf) (offset : List Nat) (s : HorzsplitState)
    (i : Nat) (h1 : vget offset i ≤ vget offset (i + 1)) (h2 : vget offset (i + 1) ≤ x.ncol) :
    ∃ cw rw, horzsplit_body x offset s i =
      .ok ⟨cw, rw, s.ret ++ [ofSegs x.nrow (vget offset (i + 1) - vget offset i)
        (fun c => col_rows x (vget offset i + c))]⟩ := by
  generalize hfirst : vget offset i = first at h1
  generalize hlast : vget offset (i + 1) = last at h1 h2
  have hmono : ∀ j, j ≤ last - first → vget x.colind first ≤ vget x.colind (first + j) :=
    fun j hj => wf_mono x h (by omega) (by omega)
  unfold horzsplit_body
  simp only
  rw [hfirst, hlast]
  -- the column offsets
  have hc1 : ∀ j, j < last - first + 1 →
      vget (forLoop 0 (last + 1 - first) (fun v j => v.set j (vget x.colind (first + j)))
        (resize s.colind (last - first + 1))) j = vget x.colind (first + j) := by
    intro j hj
    rw [vget_forLoop_copy, if_pos ⟨by omega, by rw [length_resize]; exact hj⟩]
  have hl1 : (forLoop 0 (last + 1 - first) (fun v j => v.set j (vget x.colind (first + j)))
      (resize s.colind (last - first + 1))).length = last - first + 1 := by
    rw [length_forLoop_copy, length_resize]
  generalize forLoop 0 (last + 1 - first) (fun v j => v.set j (vget x.colind (first + j)))
    (resize s.colind (last - first + 1)) = c1 at hc1 hl1 ⊢
  have hc3 : ∀ j, j < last - first + 1 →
      vget ((forLoop 1 c1.length (fun v j => v.set j (vget v j - vget v 0)) c1).set 0 0) j =
        vget x.colind (first + j) - vget x.colind first := by
    intro j hj
    rw [vget_set, length_forLoop_sub, vget_forLoop_sub]
    by_cases e : j = 0
    · subst e
      rw [if_pos ⟨rfl, by omega⟩]
      simp
    · rw [if_neg (by omega), if_pos ⟨by omega, by omega, by omega⟩, hc1 j hj, hc1 0 (by omega)]
      rfl
  have hl3 : ((forLoop 1 c1.length (fun v j => v.set j (vget v j - vget v 0)) c1).set 0 0).length =
      last - first + 1 := by
    rw [List.length_set, length_forLoop_sub, hl1]
  have hcolind : (forLoop 1 c1.length (fun v j => v.set j (vget v j - vget v 0)) c1).set 0 0 =
      (ofSegs x.nrow (last - first) (fun c => col_rows x (first + c))).colind := by
    apply ext_vget
    · rw [hl3]; simp [ofSegs]
    · intro j hj
      rw [hl3] at hj
      rw [hc3 j hj, ofSegs_colind _ _ _ _ (by omega), offs_shift_col_rows x h first j (by omega)]
  have hback : ((forLoop 1 c1.length (fun v j => v.set j (vget v j - vget v 0)) c1).set 0 0).getLastD 0 =
      vget x.colind last - vget x.colind first := by
    rw [getLastD_eq_vget _ (last - first) hl3, hc3 _ (by omega),
      show first + (last - first) = last by omega]
  -- the rows
  have hrow : forLoop 0 (vget x.colind last - vget x.colind first)
      (fun v j => v.set j (vget x.row (vget x.colind first + j)))
      (resize s.row (vget x.colind last - vget x.colind first)) =
      (ofSegs x.nrow (last - first) (fun c => col_rows x (first + c))).row := by
    have hrl : (ofSegs x.nrow (last - first) (fun c => col_rows x (first + c))).row.length =
        vget x.colind last - vget x.colind first := by
      show offs (fun c => col_rows x (first + c)) (last - first) = _
      rw [offs_shift_col_rows x h first _ (by omega), show first + (last - first) = last by omega]
    apply ext_vget
    · rw [length_forLoop_copy, length_resize, hrl]
    · intro k hk
      rw [length_forLoop_copy, length_resize] at hk
      rw [vget_forLoop_copy, if_pos ⟨hk, by rw [length_resize]; exact hk⟩]
      have hk' : k < offs (fun c => col_rows x (first + c)) (last - first) := by
        rw [offs_shift_col_rows x h first _ (by omega), show first + (last - first) = last by omega]
        exact hk
      obtain ⟨c, j, hc, hj, e⟩ := offs_cover _ _ k hk'
      have ho := offs_shift_col_rows x h first c (by omega)
      have hm := hmono c (by omega)
      rw [e, ofSegs_row _ _ _ _ _ hc hj]
      rw [length_col_rows x h _ (by omega)] at hj
      rw [vget_col_rows x _ j hj, ho]
      congr 1
      omega
  have hwf : (ofSegs x.nrow (last - first) (fun c => col_rows x (first + c))).wf :=
    ofSegs_wf _ _ _ (fun c hc => col_rows_lt x h _ (by omega))
      (fun c hc => col_rows_pairwise x h _ (by omega))
  rw [hback, hrow, hcolind]
  have hof : ofVectors x.nrow (last - first)
      (ofSegs x.nrow (last - first) (fun c => col_rows x (first + c))).colind
      (ofSegs x.nrow (last - first) (fun c => col_rows x (first + c))).row =
      .ok (ofSegs x.nrow (last - first) (fun c => col_rows x (first + c))) :=
    ofVectors_wf _ _ _ _ hwf
  rw [show x.size1 = x.nrow from rfl, hof]
  exact ⟨_, _, rfl⟩

end Sparsity
end casadi

namespace casadi
namespace Sparsity

/-! ## `Sparsity::horzsplit`: the loop and the checks -/

theorem horzsplit_loop (x : Sparsity) (h : x.wf) (o : List Nat) (n : Nat)
    (hm : ∀ i, i < n → vget o i ≤ vget o (i + 1) ∧ vget o (i + 1) ≤ x.ncol) (k : Nat)
    (hk : k ≤ n) :
    ∃ cw rw, forLoop 0 k (horzsplit_step x o) (.ok ⟨[], [], []⟩) =
      .ok ⟨cw, rw, (List.range k).map (horzsplit_piece x o)⟩ := by
  induction k with
  | zero => exact ⟨[], [], by rw [forLoop_empty _ _ _ _ (Nat.le_refl _)]; rfl⟩
  | succ k ih =>
    obtain ⟨cw, rw, e⟩ := ih (by omega)
    rw [forLoop_succ _ _ _ _ (Nat.zero_le _), e]
    obtain ⟨cw', rw', e'⟩ := horzsplit_body_eq x h o ⟨cw, rw, (List.range k).map (horzsplit_piece x o)⟩
      k (hm k (by omega)).1 (hm k (by omega)).2
    refine ⟨cw', rw', ?_⟩
    show horzsplit_body x o _ k = _
    rw [e', List.range_succ, List.map_append]
    rfl

theorem headD_eq_getElem (l : List Int) (h : 0 < l.length) : l.headD 0 = l[0] := by
  cases l with
  | nil => simp at h
  | cons a t => rfl

theorem getLastD_eq_getElem (l : List Int) (h : 0 < l.length) :
    l.getLastD 0 = l[l.length - 1] := by
  have hne : l ≠ [] := by intro e; subst e; simp at h
  rw [List.getLastD_eq_getLast?, List.getLast?_eq_getLast _ hne, List.getLast_eq_getElem]
  rfl

theorem chain_le_getElem (l : List Int) (h : l.Chain' (fun a b => a ≤ b)) (i j : Nat)
    (hj : j < l.length) (hij : i ≤ j) : l[i] ≤ l[j] := by
  have hp : l.Pairwise (fun a b => a ≤ b) := List.chain'_iff_pairwise.1 h
  rcases Nat.eq_or_lt_of_le hij with e | e
  · subst e; exact Int.le_refl _
  · exact List.pairwise_iff_getElem.1 hp i j (by omega) hj e

theorem chain_ge_getElem (l : List Int) (h : l.Chain' (fun a b => b ≤ a)) (i j : Nat)
    (hj : j < l.length) (hij : i ≤ j) : l[j] ≤ l[i] := by
  have hp : l.Pairwise (fun a b => b ≤ a) := List.chain'_iff_pairwise.1 h
  rcases Nat.eq_or_lt_of_le hij with e | e
  · subst e; exact Int.le_refl _
  · exact List.pairwise_iff_getElem.1 hp i j (by omega) hj e

theorem is_nondecreasing_iff (l : List Int) :
    is_nondecreasing l = true ↔ l.Chain' (fun a b => a ≤ b) := by
  induction l with
  | nil => simp [is_nondecreasing]
  | cons a t ih =>
    cases t with
    | nil => simp [is_nondecreasing]
    | cons b t =>
      unfold is_nondecreasing
      rw [List.chain'_cons, Bool.and_eq_true, decide_eq_true_eq, ih]

theorem is_nonincreasing_iff (l : List Int) :
    is_nonincreasing l = true ↔ l.Chain' (fun a b => b ≤ a) := by
  induction l with
  | nil => simp [is_nonincreasing]
  | cons a t ih =>
    cases t with
    | nil => simp [is_nonincreasing]
    | cons b t =>
      unfold is_nonincreasing
      rw [List.chain'_cons, Bool.and_eq_true, decide_eq_true_eq, ih]

/-- Between the two end checks of `horzsplit`, a monotone sequence is one that never
decreases. -/
theorem is_monotone_iff (l : List Int) (n : Nat) (hne : 0 < l.length) (hh : l.headD 0 = 0)
    (hl : l.getLastD 0 = (n : Int)) :
    is_monotone l = true ↔ l.Chain' (fun a b => a ≤ b) := by
  unfold is_monotone
  rw [Bool.or_eq_true, is_nondecreasing_iff, is_nonincreasing_iff]
  constructor
  · rintro (h | h)
    · exact h
    · rw [headD_eq_getElem l hne] at hh
      rw [getLastD_eq_getElem l hne] at hl
      have hz : ∀ k (hk : k < l.length), l[k] = 0 := by
        intro k hk
        have a1 := chain_ge_getElem l h 0 k hk (Nat.zero_le _)
        have a2 := chain_ge_getElem l h k (l.length - 1) (by omega) (by omega)
        omega
      apply List.chain'_iff_pairwise.2
      rw [List.pairwise_iff_getElem]
      intro i j hi hj _
      rw [hz i hi, hz j hj]
  · intro h
    exact Or.inl h

theorem horzsplit_offsets (l : List Int) (n : Nat) (hne : 0 < l.length) (hh : l.headD 0 = 0)
    (hl : l.getLastD 0 = (n : Int)) (hch : l.Chain' (fun a b => a ≤ b)) (k : Nat)
    (hk : k < l.length) :
    l[k]? = some ((vget (l.map Int.toNat) k : Nat) : Int) ∧ vget (l.map Int.toNat) k ≤ n ∧
      (k + 1 < l.length → vget (l.map Int.toNat) k ≤ vget (l.map Int.toNat) (k + 1)) := by
  rw [headD_eq_getElem l hne] at hh
  rw [getLastD_eq_getElem l hne] at hl
  have hv : ∀ j (hj : j < l.length), vget (l.map Int.toNat) j = l[j].toNat :=
    fun j hj => vget_map_toNat_eq l j _ (List.getElem?_eq_getElem hj)
  have a1 := chain_le_getElem l hch 0 k hk (Nat.zero_le _)
  have a2 := chain_le_getElem l hch k (l.length - 1) (by omega) (by omega)
  refine ⟨?_, ?_, ?_⟩
  · rw [hv k hk, List.getElem?_eq_getElem hk, Int.toNat_of_nonneg (by omega)]
  · rw [hv k hk]; omega
  · intro hk1
    have a3 := chain_le_getElem l hch k (k + 1) hk1 (by omega)
    rw [hv k hk, hv (k + 1) hk1]
    omega

/-- Past its four checks, `horzsplit` returns one pattern for every pair of adjacent
offsets. -/
theorem horzsplit_eq (x : Sparsity) (h : x.wf) (offset : List Int) (hne : 0 < offset.length)
    (hh : offset.headD 0 = 0) (hl : offset.getLastD 0 = (x.size2 : Int))
    (hch : offset.Chain' (fun a b => a ≤ b)) :
    horzsplit x offset =
      .ok ((List.range (offset.length - 1)).map (horzsplit_piece x (offset.map Int.toNat))) := by
  unfold horzsplit
  rw [if_neg (by omega), if_neg (not_not.2 hh), if_neg (not_not.2 hl),
    if_neg (not_not.2 ((is_monotone_iff offset x.size2 hne hh hl).2 hch))]
  simp only
  obtain ⟨cw, rw, e⟩ := horzsplit_loop x h (offset.map Int.toNat) (offset.length - 1)
    (fun i hi =>
      ⟨(horzsplit_offsets offset x.size2 hne hh hl hch i (by omega)).2.2 (by omega),
        (horzsplit_offsets offset x.size2 hne hh hl hch (i + 1) (by omega)).2.1⟩)
    (offset.length - 1) (Nat.le_refl _)
  rw [e]

theorem horzsplit_error (x : Sparsity) (offset : List Int)
    (hbad : offset.length = 0 ∨ offset.headD 0 ≠ 0 ∨ offset.getLastD 0 ≠ (x.size2 : Int) ∨
      is_monotone offset ≠ true) :
    ∃ e, horzsplit x offset = .error e := by
  unfold horzsplit
  by_cases c1 : offset.length ≥ 1
  · rw [if_neg (not_not.2 c1)]
    by_cases c2 : offset.headD 0 = 0
    · rw [if_neg (not_not.2 c2)]
      by_cases c3 : offset.getLastD 0 = (x.size2 : Int)
      · rw [if_neg (not_not.2 c3)]
        by_cases c4 : is_monotone offset = true
        · rcases hbad with b | b | b | b
          · omega
          · exact absurd c2 b
          · exact absurd c3 b
          · exact absurd c4 b
        · rw [if_pos c4]; exact ⟨_, rfl⟩
      · rw [if_pos c3]; exact ⟨_, rfl⟩
    · rw [if_pos c2]; exact ⟨_, rfl⟩
  · rw [if_pos c1]; exact ⟨_, rfl⟩

theorem horzsplit_piece_has_entry (x : Sparsity) (h : x.wf) (o : List Nat) (i : Nat)
    (h2 : vget o (i + 1) ≤ x.ncol) (r c : Nat) :
    (horzsplit_piece x o i).has_entry r c ↔
      vget o i + c < vget o (i + 1) ∧ x.has_entry r (vget o i + c) := by
  unfold horzsplit_piece
  rw [ofSegs_has_entry]
  constructor
  · rintro ⟨hc, hr⟩
    exact ⟨by omega, (mem_col_rows x h r _ (by omega)).1 hr⟩
  · rintro ⟨hc, hr⟩
    exact ⟨by omega, (mem_col_rows x h r _ (by omega)).2 hr⟩

theorem horzsplit_piece_wf (x : Sparsity) (h : x.wf) (o : List Nat) (i : Nat)
    (h2 : vget o (i + 1) ≤ x.ncol) : (horzsplit_piece x o i).wf :=
  ofSegs_wf _ _ _ (fun c hc => col_rows_lt x h _ (by omega))
    (fun c hc => col_rows_pairwise x h _ (by omega))

end Sparsity
end casadi

namespace casadi
namespace Sparsity

theorem getElem?_zero_eq_headD (l : List Int) (h : 0 < l.length) : l[0]? = some (l.headD 0) := by
  cases l with
  | nil => simp at h
  | cons a t => simp

theorem getLast?_eq_getLastD (l : List Int) (h : 0 < l.length) :
    l.getLast? = some (l.getLastD 0) := by
  have hne : l ≠ [] := by intro e; subst e; simp at h
  rw [List.getLastD_eq_getLast?, List.getLast?_eq_getLast _ hne]
  rfl

/-! ## Claims on `Sparsity::horzsplit` -/

/-- C20: on a pattern that satisfies the invariant, `horzsplit(x, offset)` fails exactly
when `offset` is empty, or does not start with 0, or does not end with `x.size2()`, or
decreases somewhere.  When it returns, it returns `offset.size()-1` patterns; the pattern
`i` satisfies the invariant, has `x.size1()` rows and `offset[i+1]-offset[i]` columns, and
has an entry at `(r, c)` exactly when `x` has one at `(r, offset[i]+c)` and
`offset[i]+c < offset[i+1]`. -/
theorem horzsplit_spec (x : Sparsity) (offset : List Int) (hx : x.wf) :
    ((∃ e, horzsplit x offset = .error e) ↔
      (offset = [] ∨ offset[0]? ≠ some 0 ∨ offset.getLast? ≠ some (x.size2 : Int) ∨
        ¬ offset.Chain' (fun a b => a ≤ b))) ∧
    (∀ ret, horzsplit x offset = .ok ret →
      ret.length = offset.length - 1 ∧
      ∀ (i : Nat) (p : Sparsity), ret[i]? = some p →
        ∃ lo hi : Nat, offset[i]? = some (lo : Int) ∧ offset[i + 1]? = some (hi : Int) ∧
          lo ≤ hi ∧ p.wf ∧ p.size1 = x.size1 ∧ p.size2 = hi - lo ∧
          ∀ r c, p.has_entry r c ↔ (lo + c < hi ∧ x.has_entry r (lo + c))) := by
  by_cases hne : 0 < offset.length
  swap
  · have he : offset = [] := List.length_eq_zero.1 (by omega)
    obtain ⟨e, herr⟩ := horzsplit_error x offset (Or.inl (by omega))
    refine ⟨⟨fun _ => Or.inl he, fun _ => ⟨e, herr⟩⟩, ?_⟩
    intro ret hret
    rw [herr] at hret
    exact absurd hret (by simp)
  have e0 := getElem?_zero_eq_headD offset hne
  have eL := getLast?_eq_getLastD offset hne
  have hnil : offset ≠ [] := by intro e; subst e; simp at hne
  by_cases hh : offset.headD 0 = 0
  swap
  · obtain ⟨e, herr⟩ := horzsplit_error x offset (Or.inr (Or.inl hh))
    refine ⟨⟨fun _ => Or.inr (Or.inl ?_), fun _ => ⟨e, herr⟩⟩, ?_⟩
    · rw [e0]
      intro h
      exact hh (Option.some.inj h)
    · intro ret hret
      rw [herr] at hret
      exact absurd hret (by simp)
  by_cases hl : offset.getLastD 0 = (x.size2 : Int)
  swap
  · obtain ⟨e, herr⟩ := horzsplit_error x offset (Or.inr (Or.inr (Or.inl hl)))
    refine ⟨⟨fun _ => Or.inr (Or.inr (Or.inl ?_)), fun _ => ⟨e, herr⟩⟩, ?_⟩
    · rw [eL]
      intro h
      exact hl (Option.some.inj h)
    · intro ret hret
      rw [herr] at hret
      exact absurd hret (by simp)
  by_cases hch : offset.Chain' (fun a b => a ≤ b)
  swap
  · obtain ⟨e, herr⟩ := horzsplit_error x offset (Or.inr (Or.inr (Or.inr
      (fun hm => hch ((is_monotone_iff offset x.size2 hne hh hl).1 hm)))))
    refine ⟨⟨fun _ => Or.inr (Or.inr (Or.inr hch)), fun _ => ⟨e, herr⟩⟩, ?_⟩
    intro ret hret
    rw [herr] at hret
    exact absurd hret (by simp)
  have hok := horzsplit_eq x hx offset hne hh hl hch
  refine ⟨⟨?_, ?_⟩, ?_⟩
  · rintro ⟨e, herr⟩
    rw [hok] at herr
    exact absurd herr (by simp)
  · rintro (h | h | h | h)
    · exact absurd h hnil
    · rw [e0, hh] at h; exact absurd rfl h
    · rw [eL, hl] at h; exact absurd rfl h
    · exact absurd hch h
  · intro ret hret
    rw [hok] at hret
    have hret' := (Except.ok.inj hret).symm
    subst hret'
    refine ⟨by simp, ?_⟩
    intro i p hi
    rw [List.getElem?_map] at hi
    have hi' : i < offset.length - 1 := by
      by_contra hcon
      rw [List.getElem?_eq_none (by simpa using hcon)] at hi
      simp at hi
    rw [List.getElem?_eq_getElem (by simpa using hi')] at hi
    simp only [List.getElem_range, Option.map_some', Option.some.injEq] at hi
    subst hi
    have o1 := horzsplit_offsets offset x.size2 hne hh hl hch i (by omega)
    have o2 := horzsplit_offsets offset x.size2 hne hh hl hch (i + 1) (by omega)
    refine ⟨vget (offset.map Int.toNat) i, vget (offset.map Int.toNat) (i + 1), o1.1, o2.1,
      o1.2.2 (by omega), horzsplit_piece_wf x hx _ i o2.2.1, rfl, rfl, ?_⟩
    intro r c
    exact horzsplit_piece_has_entry x hx _ i o2.2.1 r c

theorem horzsplit_spec_witness :
    (∃ e, horzsplit ⟨2, 5, [0, 1, 3, 3, 5, 6], [0, 0, 1, 0, 1, 1]⟩ [0, 1, 4, 3, 5] = .error e) ∧
      (∃ ret, horzsplit ⟨2, 5, [0, 1, 3, 3, 5, 6], [0, 0, 1, 0, 1, 1]⟩ [0, 0, 1, 4, 5, 5] =
        .ok ret ∧ ret.length = 5) :=
  ⟨(horzsplit_spec ⟨2, 5, [0, 1, 3, 3, 5, 6], [0, 0, 1, 0, 1, 1]⟩ [0, 1, 4, 3, 5]
      (by decide)).1.2 (Or.inr (Or.inr (Or.inr (by simp)))),
    ⟨[⟨2, 0, [0], []⟩, ⟨2, 1, [0, 1], [0]⟩, ⟨2, 3, [0, 2, 2, 4], [0, 1, 0, 1]⟩,
        ⟨2, 1, [0, 1], [1]⟩, ⟨2, 0, [0], []⟩], by decide,
      ((horzsplit_spec ⟨2, 5, [0, 1, 3, 3, 5, 6], [0, 0, 1, 0, 1, 1]⟩ [0, 0, 1, 4, 5, 5]
        (by decide)).2 _ (by decide)).1⟩⟩

end Sparsity
end casadi

namespace casadi

namespace Linsol

/-! ## Claims on `Linsol` -/

/-- C11: on the lower triangular 2-by-2 pattern with two blocks of one equation, in either
order of the blocks, the forward `linsol_spsolve` from `X = [0, 0]` with `B = [1, 0]`
gives `X = [1, 1]`; on the upper triangular pattern it gives `X = [1, 0]`. -/
theorem linsol_spsolve_triangular :
    linsol_spsolve ⟨⟨2, 2, [0, 2, 3], [0, 1, 1]⟩, [0, 1], [0, 1], [0, 1, 2], [0, 1, 2]⟩
      [0, 0] [1, 0] false = [1, 1] ∧
    linsol_spsolve ⟨⟨2, 2, [0, 2, 3], [0, 1, 1]⟩, [1, 0], [1, 0], [0, 1, 2], [0, 1, 2]⟩
      [0, 0] [1, 0] false = [1, 1] ∧
    linsol_spsolve ⟨⟨2, 2, [0, 1, 3], [0, 0, 1]⟩, [0, 1], [0, 1], [0, 1, 2], [0, 1, 2]⟩
      [0, 0] [1, 0] false = [1, 0] ∧
    linsol_spsolve ⟨⟨2, 2, [0, 1, 3], [0, 0, 1]⟩, [1, 0], [1, 0], [0, 1, 2], [0, 1, 2]⟩
      [0, 0] [1, 0] false = [1, 0] := by
  decide

end Linsol

namespace LinsolNode

end LinsolNode
end casadi

namespace casadi
namespace Sparsity

theorem vget_drop (l : List Nat) (a k : Nat) : vget (l.drop a) k = vget l (a + k) := by
  unfold vget
  rw [List.getD_eq_getElem?_getD, List.getD_eq_getElem?_getD, List.getElem?_drop]

/-! ## Claims on `Sparsity::dense`, `Sparsity::compressed` and the constructor -/

theorem dense_has_entry (nrow ncol r c : Nat) (hr : r < nrow) (hc : c < ncol) :
    has_entry ⟨nrow, ncol, dense_colind nrow ncol, dense_row nrow ncol⟩ r c := by
  have h1 : (c + 1) * nrow ≤ ncol * nrow := Nat.mul_le_mul_right _ (by omega)
  have h2 : (c + 1) * nrow = c * nrow + nrow := Nat.succ_mul _ _
  refine ⟨hc, c * nrow + r, ?_, ?_, ?_⟩
  · show vget (dense_colind nrow ncol) c ≤ _
    rw [vget_dense_colind _ _ _ (by omega)]
    omega
  · show _ < vget (dense_colind nrow ncol) (c + 1)
    rw [vget_dense_colind _ _ _ (by omega)]
    omega
  · show vget (dense_row nrow ncol) _ = r
    rw [vget_dense_row _ _ _ (by omega), Nat.mul_comm, Nat.mul_add_mod, Nat.mod_eq_of_lt hr]

/-- C27: a buffer that `compressed` accepts and in which `colind[ncol]` is `nrow*ncol`
gives the pattern `dense(nrow, ncol)`, with a row part in the buffer or without. -/
theorem compressed_dense (v : List Nat) (hacc : ∃ p, compressed v = .ok p)
    (hd : vget (v.drop 2) (vget v 1) = vget v 0 * vget v 1) :
    compressed v = dense (vget v 0) (vget v 1) := by
  obtain ⟨p, hp⟩ := hacc
  unfold compressed at hp ⊢
  by_cases h1 : v.length ≥ 2
  swap
  · rw [if_pos h1] at hp; exact absurd hp (by simp)
  rw [if_neg (not_not.2 h1)] at hp ⊢
  simp only at hp ⊢
  by_cases h2 : v.length ≥ 2 + vget v 1 + 1
  swap
  · rw [if_pos h2] at hp; exact absurd hp (by simp)
  rw [if_neg (not_not.2 h2)] at hp ⊢
  split at hp
  · exact absurd hp (by simp)
  · rename_i h3
    rw [if_neg h3]
    unfold compressed_ptr
    simp only
    by_cases h4 : vget (v.drop 2) 0 = 1
    · rw [if_pos h4]
    · rw [if_neg h4, if_pos (by rw [hd]; push_cast; rfl)]

theorem compressed_dense_witness :
    compressed [2, 1, 0, 2, 0, 1] = dense 2 1 ∧ compressed [2, 1, 0, 2] = dense 2 1 :=
  ⟨compressed_dense [2, 1, 0, 2, 0, 1] ⟨⟨2, 1, [0, 2], [0, 1]⟩, by decide⟩ (by decide),
    compressed_dense [2, 1, 0, 2] ⟨⟨2, 1, [0, 2], [0, 1]⟩, by decide⟩ (by decide)⟩

/-- C30 fails on the code: the constructor takes the 1-by-1 data `colind = [0, 1]`,
`row = [5]`, which break the invariant, and returns the dense scalar, whose `row` is
`[0]`; it takes the 0-by-0 data `colind = [3]`, `row = [0, 0, 0]` and returns the empty
pattern.  With 2 rows, the same `colind` and `row` are rejected. -/
theorem ofVectors_scalar_example :
    ¬ (⟨1, 1, [0, 1], [5]⟩ : Sparsity).wf ∧
      ofVectors 1 1 [0, 1] [5] = .ok ⟨1, 1, [0, 1], [0]⟩ ∧
      ¬ (⟨0, 0, [3], [0, 0, 0]⟩ : Sparsity).wf ∧
      ofVectors 0 0 [3] [0, 0, 0] = .ok ⟨0, 0, [0], []⟩ ∧
      ofVectors 2 1 [0, 1] [5] = .error "sanity_check" := by
  decide

end Sparsity
end casadi

namespace casadi

/-! ## Loops with an invariant -/

/-- A property that holds before a loop and is kept by every turn holds after it. -/
theorem forLoop_ind {σ : Type} (P : Nat → σ → Prop) (a b : Nat) (f : σ → Nat → σ) (s : σ)
    (hab : a ≤ b) (h0 : P a s)
    (hstep : ∀ i t, a ≤ i → i < b → P i t → P (i + 1) (f t i)) : P b (forLoop a b f s) := by
  induction b with
  | zero =>
    have : a = 0 := by omega
    subst this
    rw [forLoop_empty _ _ _ _ (Nat.le_refl _)]
    exact h0
  | succ b ih =>
    rcases Nat.eq_or_lt_of_le hab with e | e
    · rw [← e, forLoop_empty _ _ _ _ (Nat.le_refl _)]
      exact h0
    · rw [forLoop_succ _ _ _ _ (by omega)]
      exact hstep b _ (by omega) (by omega)
        (ih (by omega) (fun i t h1 h2 hp => hstep i t h1 (by omega) hp))

/-- A property kept by every turn of a loop holds after it, whatever the bounds are. -/
theorem forLoop_inv {σ : Type} (P : σ → Prop) (a b : Nat) (f : σ → Nat → σ) (s : σ)
    (h0 : P s) (hstep : ∀ i t, a ≤ i → i < b → P t → P (f t i)) : P (forLoop a b f s) := by
  by_cases hab : a ≤ b
  · exact forLoop_ind (fun _ t => P t) a b f s hab h0 hstep
  · rw [forLoop_empty _ _ _ _ (by omega)]
    exact h0

/-- A relation between the states of two loops over the same range that holds before
them and is kept by every turn holds after them. -/
theorem forLoop_ind2 {α β : Type} (R : Nat → α → β → Prop) (a b : Nat) (f : α → Nat → α)
    (g : β → Nat → β) (s : α) (t : β) (hab : a ≤ b) (h0 : R a s t)
    (hstep : ∀ i x y, a ≤ i → i < b → R i x y → R (i + 1) (f x i) (g y i)) :
    R b (forLoop a b f s) (forLoop a b g t) := by
  induction b with
  | zero =>
    have : a = 0 := by omega
    subst this
    rw [forLoop_empty _ _ f s (Nat.le_refl _), forLoop_empty _ _ g t (Nat.le_refl _)]
    exact h0
  | succ b ih =>
    rcases Nat.eq_or_lt_of_le hab with e | e
    · rw [← e, forLoop_empty _ _ f s (Nat.le_refl _), forLoop_empty _ _ g t (Nat.le_refl _)]
      exact h0
    · rw [forLoop_succ _ _ f s (by omega), forLoop_succ _ _ g t (by omega)]
      exact hstep b _ _ (by omega) (by omega)
        (ih (by omega) (fun i x y h1 h2 hp => hstep i x y h1 (by omega) hp))

theorem foldl_rel3 {α β γ ι : Type} (R : α → β → γ → Prop) (L : List ι)
    (f : α → ι → α) (g : β → ι → β) (h : γ → ι → γ) (s : α) (t : β) (u : γ)
    (h0 : R s t u)
    (hstep : ∀ i, i ∈ L → ∀ x y z, R x y z → R (f x i) (g y i) (h z i)) :
    R (L.foldl f s) (L.foldl g t) (L.foldl h u) := by
  induction L generalizing s t u with
  | nil => exact h0
  | cons i L ih =>
    rw [List.foldl_cons, List.foldl_cons, List.foldl_cons]
    exact ih _ _ _ (hstep i (List.mem_cons_self _ _) _ _ _ h0)
      (fun j hj => hstep j (List.mem_cons_of_mem _ hj))

theorem forLoop_rel3 {α β γ : Type} (R : α → β → γ → Prop) (a b : Nat)
    (f : α → Nat → α) (g : β → Nat → β) (h : γ → Nat → γ) (s : α) (t : β) (u : γ)
    (h0 : R s t u) (hstep : ∀ i x y z, R x y z → R (f x i) (g y i) (h z i)) :
    R (forLoop a b f s) (forLoop a b g t) (forLoop a b h u) :=
  foldl_rel3 R _ f g h s t u h0 (fun i _ => hstep i)

theorem foldl_rel2 {α β ι : Type} (R : α → β → Prop) (L : List ι)
    (f : α → ι → α) (g : β → ι → β) (s : α) (t : β) (h0 : R s t)
    (hstep : ∀ i, i ∈ L → ∀ x y, R x y → R (f x i) (g y i)) :
    R (L.foldl f s) (L.foldl g t) := by
  induction L generalizing s t with
  | nil => exact h0
  | cons i L ih =>
    rw [List.foldl_cons, List.foldl_cons]
    exact ih _ _ (hstep i (List.mem_cons_self _ _) _ _ h0)
      (fun j hj => hstep j (List.mem_cons_of_mem _ hj))

theorem forLoop_rel2 {α β : Type} (R : α → β → Prop) (a b : Nat)
    (f : α → Nat → α) (g : β → Nat → β) (s : α) (t : β)
    (h0 : R s t) (hstep : ∀ i x y, R x y → R (f x i) (g y i)) :
    R (forLoop a b f s) (forLoop a b g t) :=
  foldl_rel2 R _ f g s t h0 (fun i _ => hstep i)

theorem foldl_inv {α ι : Type} (P : α → Prop) (L : List ι) (f : α → ι → α) (s : α)
    (h0 : P s) (hstep : ∀ i, i ∈ L → ∀ x, P x → P (f x i)) : P (L.foldl f s) := by
  induction L generalizing s with
  | nil => exact h0
  | cons i L ih =>
    rw [List.foldl_cons]
    exact ih _ (hstep i (List.mem_cons_self _ _) _ h0)
      (fun j hj => hstep j (List.mem_cons_of_mem _ hj))

theorem foldl_flatMap_eq {σ α β : Type} (L : List α) (g : α → List β) (f : σ → β → σ) (s : σ) :
    L.foldl (fun s k => (g k).foldl f s) s = (L.flatMap g).foldl f s := by
  induction L generalizing s with
  | nil => rfl
  | cons k L ih => rw [List.foldl_cons, ih, List.flatMap_cons, List.foldl_append]

theorem forLoop_eq_foldl_map {σ β : Type} (a b : Nat) (g : Nat → β) (f : σ → β → σ) (s : σ) :
    forLoop a b (fun s k => f s (g k)) s = ((List.range' a (b - a)).map g).foldl f s := by
  unfold forLoop
  rw [List.foldl_map]

theorem range_add_flatMap {α : Type} (a b : Nat) (f : Nat → List α) :
    (List.range (a + b)).flatMap f =
      (List.range a).flatMap f ++ (List.range b).flatMap (fun c => f (a + c)) := by
  induction b with
  | zero => simp
  | succ b ih =>
    rw [← Nat.add_assoc, flatMap_range_succ, ih, flatMap_range_succ, List.append_assoc]

theorem range_add_map {α : Type} (a b : Nat) (f : Nat → α) :
    (List.range (a + b)).map f =
      (List.range a).map f ++ (List.range b).map (fun c => f (a + c)) := by
  induction b with
  | zero => simp
  | succ b ih =>
    rw [← Nat.add_assoc, List.range_succ, List.map_append, ih, List.range_succ,
      List.map_append, List.append_assoc]
    rfl

end casadi

namespace casadi

theorem forLoop_push {α : Type} (a b : Nat) (g : Nat → α) (l : List α) :
    forLoop a b (fun l k => l ++ [g k]) l = l ++ (List.range' a (b - a)).map g := by
  unfold forLoop
  generalize List.range' a (b - a) = L
  induction L generalizing l with
  | nil => simp
  | cons k L ih => rw [List.foldl_cons, ih]; simp

theorem offs_congr_length_lt {α β : Type} (s₁ : Nat → List α) (s₂ : Nat → List β) (n : Nat)
    (h : ∀ c, c < n → (s₁ c).length = (s₂ c).length) : offs s₁ n = offs s₂ n := by
  induction n with
  | zero => rw [offs_zero, offs_zero]
  | succ n ih => rw [offs_succ, offs_succ, ih (fun c hc => h c (by omega)), h n (by omega)]

namespace Sparsity

/-! ## `Sparsity::diagcat` -/

/-- While the row counts, the column counts and the entry counts sum up within the `int`
range, no sum of `diagcat` wraps: the state holds the casts of the exact sums and of the
vectors `dcolind` and `drow`. -/
theorem diagcat_foldl (v : List Sparsity) (hwf : ∀ p ∈ v, p.wf) (n m nz : Nat)
    (colind row : List Nat)
    (hn : n + (v.map size2).sum < 2147483648) (hm : m + (v.map size1).sum < 2147483648)
    (hz : nz + (v.map nnz).sum < 2147483648) :
    v.foldl diagcat_body
        { n := (n : Int), m := (m : Int), colind := colind.map (fun (k : Nat) => (k : Int)),
          row := row.map (fun (k : Nat) => (k : Int)), nz := (nz : Int) } =
      { n := ((n + (v.map size2).sum : Nat) : Int), m := ((m + (v.map size1).sum : Nat) : Int),
        colind := (colind ++ dcolind v nz).map (fun (k : Nat) => (k : Int)),
        row := (row ++ drow v m).map (fun (k : Nat) => (k : Int)),
        nz := ((nz + (v.map nnz).sum : Nat) : Int) } := by
  induction v generalizing n m nz colind row with
  | nil => simp [dcolind, drow]
  | cons p v ih =>
    simp only [List.map_cons, List.sum_cons] at hn hm hz
    have hp := hwf p (List.mem_cons_self _ _)
    rw [List.foldl_cons]
    have e1 : wrap ((n : Int) + (p.size2 : Int)) = ((n + p.size2 : Nat) : Int) := by
      exact wrap_add_cast _ _ (by omega)
    have e2 : wrap ((m : Int) + (p.size1 : Int)) = ((m + p.size1 : Nat) : Int) := by
      exact wrap_add_cast _ _ (by omega)
    have e3 : wrap ((nz : Int) + (p.nnz : Int)) = ((nz + p.nnz : Nat) : Int) := by
      exact wrap_add_cast _ _ (by omega)
    have e4 : (List.range' 1 (p.size2 + 1 - 1)).map
          (fun k => wrap ((vget p.colind k : Int) + (nz : Int))) =
        ((List.range' 1 p.size2).map (fun k => vget p.colind k + nz)).map
          (fun (k : Nat) => (k : Int)) := by
      rw [List.map_map, Nat.add_sub_cancel]
      apply List.map_congr_left
      intro k hk
      have hk2 := (List.mem_range'_1.1 hk)
      have hle := wf_colind_le_nnz p hp k (by have e : p.size2 = p.ncol := rfl; omega)
      have hr : p.row.length = p.nnz := hp.2.2.2.1
      show _ = ((vget p.colind k + nz : Nat) : Int)
      exact wrap_add_cast _ _ (by omega)
    have e5 : (List.range' 0 (p.nnz - 0)).map
          (fun k => wrap ((vget p.row k : Int) + (m : Int))) =
        ((List.range p.nnz).map (fun k => vget p.row k + m)).map
          (fun (k : Nat) => (k : Int)) := by
      rw [List.map_map, Nat.sub_zero, List.range_eq_range']
      apply List.map_congr_left
      intro k hk
      have hk2 := (List.mem_range'_1.1 hk)
      have hr : p.row.length = p.nnz := hp.2.2.2.1
      have hlt := hp.2.2.2.2.1 k (by omega)
      have e : p.size1 = p.nrow := rfl
      show _ = ((vget p.row k + m : Nat) : Int)
      exact wrap_add_cast _ _ (by omega)
    have step : diagcat_body
        { n := (n : Int), m := (m : Int), colind := colind.map (fun (k : Nat) => (k : Int)),
          row := row.map (fun (k : Nat) => (k : Int)), nz := (nz : Int) } p =
        { n := ((n + p.size2 : Nat) : Int), m := ((m + p.size1 : Nat) : Int),
          colind := (colind ++ (List.range' 1 p.size2).map (fun k => vget p.colind k + nz)).map
            (fun (k : Nat) => (k : Int)),
          row := (row ++ (List.range p.nnz).map (fun k => vget p.row k + m)).map
            (fun (k : Nat) => (k : Int)),
          nz := ((nz + p.nnz : Nat) : Int) } := by
      unfold diagcat_body
      simp only [forLoop_push]
      rw [e1, e2, e3, e4, e5, List.map_append, List.map_append]
    rw [step, ih (fun q hq => hwf q (List.mem_cons_of_mem _ hq)) _ _ _ _ _ (by omega) (by omega)
      (by omega)]
    simp only [dcolind, drow, List.append_assoc, Nat.add_assoc, List.map_cons, List.sum_cons]

theorem map_col_rows_flatMap (p : Sparsity) (h : p.wf) (m : Nat) :
    (List.range p.size2).flatMap (fun c => (col_rows p c).map (fun r => r + m)) =
      (List.range p.nnz).map (fun k => vget p.row k + m) := by
  have h1 : p.row = (List.range p.ncol).flatMap (col_rows p) := by
    have := wf_eq_ofSegs p h
    exact congrArg Sparsity.row this
  have h2 : (List.range p.nnz).map (fun k => vget p.row k + m) = p.row.map (fun r => r + m) := by
    have hl : p.nnz = p.row.length := h.2.2.2.1.symm
    rw [hl]
    conv_rhs => rw [← map_vget_range p.row]
    rw [List.map_map]
    rfl
  rw [h2]
  conv_rhs => rw [h1]
  rw [List.map_flatMap]
  rfl

theorem drow_eq (v : List Sparsity) (h : ∀ p ∈ v, p.wf) (m : Nat) :
    drow v m = (List.range ((v.map size2).sum)).flatMap (dseg v m) := by
  induction v generalizing m with
  | nil => simp [drow]
  | cons p v ih =>
    have hp := h p (List.mem_cons_self _ _)
    unfold drow
    rw [List.map_cons, List.sum_cons, range_add_flatMap, ih (fun q hq => h q (List.mem_cons_of_mem _ hq))]
    congr 1
    · rw [← map_col_rows_flatMap p hp m]
      apply List.flatMap_congr
      intro c hc
      have hc' : c < p.size2 := by simpa using hc
      show _ = (if c < p.size2 then (col_rows p c).map (fun r => r + m)
        else dseg v (m + p.size1) (c - p.size2))
      rw [if_pos hc']
    · apply List.flatMap_congr
      intro c _
      show _ = (if p.size2 + c < p.size2 then (col_rows p (p.size2 + c)).map (fun r => r + m)
        else dseg v (m + p.size1) (p.size2 + c - p.size2))
      rw [if_neg (by omega), Nat.add_sub_cancel_left]

theorem offs_dseg_cons_le (p : Sparsity) (h : p.wf) (v : List Sparsity) (m c : Nat)
    (hc : c ≤ p.size2) : offs (dseg (p :: v) m) c = vget p.colind c := by
  rw [← offs_col_rows p h c hc]
  apply offs_congr_length_lt
  intro c' hc'
  show (if c' < p.size2 then (col_rows p c').map (fun r => r + m)
    else dseg v (m + p.size1) (c' - p.size2)).length = _
  rw [if_pos (by omega), List.length_map]

theorem offs_dseg_cons_add (p : Sparsity) (h : p.wf) (v : List Sparsity) (m c : Nat) :
    offs (dseg (p :: v) m) (p.size2 + c) = p.nnz + offs (dseg v (m + p.size1)) c := by
  rw [offs_add, offs_dseg_cons_le p h v m p.size2 (Nat.le_refl _)]
  congr 1
  apply offs_congr
  intro c' _
  show (if p.size2 + c' < p.size2 then (col_rows p (p.size2 + c')).map (fun r => r + m)
    else dseg v (m + p.size1) (p.size2 + c' - p.size2)) = _
  rw [if_neg (by omega), Nat.add_sub_cancel_left]

theorem dcolind_eq (v : List Sparsity) (h : ∀ p ∈ v, p.wf) (nz m : Nat) :
    dcolind v nz =
      (List.range ((v.map size2).sum)).map (fun c => nz + offs (dseg v m) (c + 1)) := by
  induction v generalizing nz m with
  | nil => simp [dcolind]
  | cons p v ih =>
    have hp := h p (List.mem_cons_self _ _)
    unfold dcolind
    rw [List.map_cons, List.sum_cons, range_add_map,
      ih (fun q hq => h q (List.mem_cons_of_mem _ hq)) (nz + p.nnz) (m + p.size1)]
    congr 1
    · rw [List.range'_eq_map_range, List.map_map]
      apply List.map_congr_left
      intro c hc
      have hc' : c < p.size2 := by simpa using hc
      show vget p.colind (1 + c) + nz = _
      rw [offs_dseg_cons_le p hp v m (c + 1) (by omega), Nat.add_comm 1 c, Nat.add_comm]
    · apply List.map_congr_left
      intro c _
      show nz + p.nnz + _ = nz + offs (dseg (p :: v) m) (p.size2 + c + 1)
      rw [Nat.add_assoc p.size2 c 1, offs_dseg_cons_add p hp v m (c + 1)]
      omega

end Sparsity
end casadi

namespace casadi
namespace Sparsity

theorem dseg_pairwise (v : List Sparsity) (h : ∀ p ∈ v, p.wf) (m c : Nat) :
    (dseg v m c).Pairwise (· < ·) := by
  induction v generalizing m c with
  | nil => simp [dseg]
  | cons p v ih =>
    unfold dseg
    by_cases hc : c < p.size2
    · rw [if_pos hc]
      exact (col_rows_pairwise p (h p (List.mem_cons_self _ _)) c hc).map _
        (fun a b hab => Nat.add_lt_add_right hab m)
    · rw [if_neg hc]
      exact ih (fun q hq => h q (List.mem_cons_of_mem _ hq)) _ _

theorem mem_dseg (v : List Sparsity) (h : ∀ p ∈ v, p.wf) (m r c : Nat) :
    r ∈ dseg v m c ↔
      ∃ i p, v[i]? = some p ∧ col_offset v i ≤ c ∧ c < col_offset v i + p.size2 ∧
        m + row_offset v i ≤ r ∧
        p.has_entry (r - (m + row_offset v i)) (c - col_offset v i) := by
  induction v generalizing m c with
  | nil => simp [dseg]
  | cons q v ih =>
    have hq := h q (List.mem_cons_self _ _)
    unfold dseg
    by_cases hc : c < q.size2
    · rw [if_pos hc, List.mem_map]
      constructor
      · rintro ⟨r', hr', rfl⟩
        refine ⟨0, q, List.getElem?_cons_zero, by rw [col_offset_zero]; omega,
          by rw [col_offset_zero]; omega, by rw [row_offset_zero]; omega, ?_⟩
        rw [col_offset_zero, row_offset_zero, Nat.sub_zero, Nat.add_zero, Nat.add_sub_cancel]
        exact (mem_col_rows q hq r' c hc).1 hr'
      · rintro ⟨i, p, hi, h1, h2, h3, h4⟩
        cases i with
        | zero =>
          simp only [List.getElem?_cons_zero, Option.some.injEq] at hi
          subst hi
          rw [col_offset_zero, row_offset_zero, Nat.sub_zero, Nat.add_zero] at h4
          rw [row_offset_zero] at h3
          exact ⟨r - m, (mem_col_rows q hq _ c hc).2 h4, by omega⟩
        | succ i =>
          rw [col_offset_succ] at h1
          omega
    · rw [if_neg hc, ih (fun t ht => h t (List.mem_cons_of_mem _ ht))]
      constructor
      · rintro ⟨i, p, hi, h1, h2, h3, h4⟩
        refine ⟨i + 1, p, by rw [List.getElem?_cons_succ]; exact hi,
          by rw [col_offset_succ]; omega, by rw [col_offset_succ]; omega,
          by rw [row_offset_succ]; omega, ?_⟩
        rw [col_offset_succ, row_offset_succ,
          show r - (m + (q.size1 + row_offset v i)) = r - (m + q.size1 + row_offset v i) by omega,
          show c - (q.size2 + col_offset v i) = c - q.size2 - col_offset v i by omega]
        exact h4
      · rintro ⟨i, p, hi, h1, h2, h3, h4⟩
        cases i with
        | zero =>
          simp only [List.getElem?_cons_zero, Option.some.injEq] at hi
          subst hi
          rw [col_offset_zero] at h2
          omega
        | succ i =>
          rw [List.getElem?_cons_succ] at hi
          rw [col_offset_succ] at h1 h2 h4
          rw [row_offset_succ] at h3 h4
          refine ⟨i, p, hi, by omega, by omega, by omega, ?_⟩
          rw [show r - (m + q.size1 + row_offset v i) = r - (m + (q.size1 + row_offset v i)) by omega,
            show c - q.size2 - col_offset v i = c - (q.size2 + col_offset v i) by omega]
          exact h4

theorem dseg_lt (v : List Sparsity) (h : ∀ p ∈ v, p.wf) (m c : Nat) :
    ∀ r ∈ dseg v m c, r < m + (v.map size1).sum := by
  intro r hr
  obtain ⟨i, p, hi, _, _, h3, h4⟩ := (mem_dseg v h m r c).1 hr
  have := (has_entry_lt p (h p (List.getElem?_mem hi)) _ _ h4).1
  have := row_offset_le v i p hi
  have e : p.size1 = p.nrow := rfl
  omega

theorem offs_dseg (v : List Sparsity) (h : ∀ p ∈ v, p.wf) (m : Nat) :
    offs (dseg v m) ((v.map size2).sum) = (v.map nnz).sum := by
  induction v generalizing m with
  | nil => simp [offs_zero]
  | cons p v ih =>
    rw [List.map_cons, List.sum_cons, offs_dseg_cons_add p (h p (List.mem_cons_self _ _)),
      ih (fun q hq => h q (List.mem_cons_of_mem _ hq))]
    simp

/-- On patterns that satisfy the invariant, `diagcat` returns the pattern whose columns are
the columns of the patterns, each moved down by the rows of the patterns before it. -/
theorem diagcat_eq (v : List Sparsity) (h : ∀ p ∈ v, p.wf)
    (hm : (v.map size1).sum < 2147483648) (hn : (v.map size2).sum < 2147483648)
    (hz : (v.map nnz).sum < 2147483648) :
    diagcat v = .ok (ofSegs ((v.map size1).sum) ((v.map size2).sum) (dseg v 0)) := by
  have hwf : (ofSegs ((v.map size1).sum) ((v.map size2).sum) (dseg v 0)).wf :=
    ofSegs_wf _ _ _ (fun c _ r hr => by
      have := dseg_lt v h 0 c r hr
      omega) (fun c _ => dseg_pairwise v h 0 c)
  have hf : v.foldl diagcat_body { n := 0, m := 0, colind := [0], row := [], nz := 0 } =
      { n := ((0 + (v.map size2).sum : Nat) : Int), m := ((0 + (v.map size1).sum : Nat) : Int),
        colind := ([0] ++ dcolind v 0).map (fun (k : Nat) => (k : Int)),
        row := ([] ++ drow v 0).map (fun (k : Nat) => (k : Int)),
        nz := ((0 + (v.map nnz).sum : Nat) : Int) } :=
    diagcat_foldl v h 0 0 0 [0] [] (by omega) (by omega) (by omega)
  unfold diagcat
  simp only
  rw [hf]
  simp only [Nat.zero_add, List.nil_append]
  rw [ofInts_cast]
  have hrow : drow v 0 = (ofSegs ((v.map size1).sum) ((v.map size2).sum) (dseg v 0)).row :=
    drow_eq v h 0
  have hcol : [0] ++ dcolind v 0 =
      (ofSegs ((v.map size1).sum) ((v.map size2).sum) (dseg v 0)).colind := by
    show _ = (List.range ((v.map size2).sum + 1)).map (offs (dseg v 0))
    rw [List.range_succ_eq_map, List.map_cons, List.map_map, offs_zero, dcolind_eq v h 0 0]
    simp only [List.singleton_append, Nat.zero_add]
    rfl
  rw [hrow, hcol]
  exact ofVectors_wf _ _ _ _ hwf

end Sparsity
end casadi

namespace casadi
namespace Sparsity

/-- C21, as amended: for every list of patterns that satisfy the invariant and whose row
counts, column counts and entry counts each sum to less than `2^31`, `diagcat` returns a
pattern that satisfies the invariant, with the sum of the row counts and the sum of the
column counts.  It has an entry at `(r, c)` exactly when, for some `i`, the row and column
offsets of `v[i]` (the total rows and columns of the patterns before it) are at most `r`
and `c` and `v[i]` has an entry at `(r - rowoff_i, c - coloff_i)`.  Its `nnz`, and the
length of its row array, is the sum of the parts' `nnz`. -/
theorem diagcat_spec (v : List Sparsity) (hwf : ∀ p ∈ v, p.wf)
    (hm : (v.map size1).sum < 2147483648) (hn2 : (v.map size2).sum < 2147483648)
    (hz : (v.map nnz).sum < 2147483648) :
    ∃ q, diagcat v = .ok q ∧ q.wf ∧
      q.size1 = (v.map size1).sum ∧ q.size2 = (v.map size2).sum ∧
      (∀ r c, q.has_entry r c ↔
        ∃ i p, v[i]? = some p ∧ row_offset v i ≤ r ∧ col_offset v i ≤ c ∧
          p.has_entry (r - row_offset v i) (c - col_offset v i)) ∧
      q.nnz = (v.map nnz).sum ∧ q.row.length = (v.map nnz).sum := by
  have hq : (ofSegs ((v.map size1).sum) ((v.map size2).sum) (dseg v 0)).wf :=
    ofSegs_wf _ _ _ (fun c _ r hr => by
      have := dseg_lt v hwf 0 c r hr
      omega) (fun c _ => dseg_pairwise v hwf 0 c)
  have hn : (ofSegs ((v.map size1).sum) ((v.map size2).sum) (dseg v 0)).nnz =
      (v.map nnz).sum := by
    rw [ofSegs_nnz, offs_dseg v hwf]
  refine ⟨_, diagcat_eq v hwf hm hn2 hz, hq, rfl, rfl, ?_, hn, ?_⟩
  · intro r c
    rw [ofSegs_has_entry, mem_dseg v hwf]
    constructor
    · rintro ⟨_, i, p, hi, h1, _, h3, h4⟩
      rw [Nat.zero_add] at h3 h4
      exact ⟨i, p, hi, h3, h1, h4⟩
    · rintro ⟨i, p, hi, h1, h2, h3⟩
      have hlt := (has_entry_lt p (hwf p (List.getElem?_mem hi)) _ _ h3).2
      have hle := col_offset_le v i p hi
      have e : p.size2 = p.ncol := rfl
      refine ⟨by omega, i, p, hi, h2, by omega, by omega, ?_⟩
      rw [Nat.zero_add]
      exact h3
  · rw [← hn]
    exact hq.2.2.2.1

theorem diagcat_spec_witness :
    ∃ q, diagcat [⟨2, 2, [0, 1, 3], [0, 0, 1]⟩, ⟨1, 2, [0, 0, 1], [0]⟩] = .ok q ∧
      q.wf ∧ q.size1 = 3 ∧ q.size2 = 4 ∧ q.nnz = 4 ∧ q.row.length = 4 :=
  let ⟨q, h1, h2, h3, h4, _, h5, h6⟩ :=
    diagcat_spec [⟨2, 2, [0, 1, 3], [0, 0, 1]⟩, ⟨1, 2, [0, 0, 1], [0]⟩] (by decide)
      (by decide) (by decide) (by decide)
  ⟨q, h1, h2, h3, h4, h5, h6⟩

/-- C21, as stated, fails: the empty pattern with 1073741824 rows and one column is valid,
and for two of them the row count `m`, an `int`, wraps to `-2147483648`, which the
assertion `nrow>=0` of the constructor refuses. -/
theorem diagcat_spec_counterexample :
    (⟨1073741824, 1, [0, 0], []⟩ : Sparsity).wf ∧
      diagcat [⟨1073741824, 1, [0, 0], []⟩, ⟨1073741824, 1, [0, 0], []⟩] =
        .error "nrow>=0" := by
  decide

end Sparsity
end casadi

namespace casadi
namespace Sparsity

theorem forLoop_rec {σ : Type} (P : Nat → σ → Prop) (r : σ) (a b : Nat) (f : σ → Nat → σ) (s : σ)
    (e : r = forLoop a b f s) (h0 : P a s)
    (hstep : ∀ i t, a ≤ i → i < b → P i t → P (i + 1) (f t i)) : P (max a b) r := by
  subst e
  by_cases hab : a ≤ b
  · rw [Nat.max_eq_right hab]
    exact forLoop_ind P a b f s hab h0 hstep
  · rw [Nat.max_eq_left (by omega), forLoop_empty _ _ _ _ (by omega)]
    exact h0

theorem wf_slot_cover (p : Sparsity) (h : p.wf) (k : Nat) (hk : k < p.row.length) :
    ∃ c, c < p.ncol ∧ vget p.colind c ≤ k ∧ k < vget p.colind (c + 1) := by
  have hk' : k < offs (col_rows p) p.ncol := by
    rw [offs_col_rows p h _ (Nat.le_refl _), ← h.2.2.2.1]
    exact hk
  obtain ⟨c, j, hc, hj, e⟩ := offs_cover (col_rows p) p.ncol k hk'
  rw [length_col_rows p h c hc] at hj
  have := offs_col_rows p h c (by omega)
  have := h.2.2.1 c hc
  exact ⟨c, hc, by omega, by omega⟩

theorem mul_load_spec (z_sp : Sparsity) (h : z_sp.wf) (cc : Nat) (hcc : cc < z_sp.ncol)
    (s : MulState) (hw : z_sp.nrow ≤ s.w.length) :
    (mul_load z_sp cc s).x = s.x ∧ (mul_load z_sp cc s).y = s.y ∧
    (mul_load z_sp cc s).z = s.z ∧ (mul_load z_sp cc s).w.length = s.w.length ∧
    ∀ kk, vget z_sp.colind cc ≤ kk → kk < vget z_sp.colind (cc + 1) →
      vget (mul_load z_sp cc s).w (vget z_sp.row kk) = vget s.z kk := by
  have key := forLoop_rec (fun i (t : MulState) =>
    t.x = s.x ∧ t.y = s.y ∧ t.z = s.z ∧ t.w.length = s.w.length ∧
    ∀ kk, vget z_sp.colind cc ≤ kk → kk < i → kk < vget z_sp.colind (cc + 1) →
      vget t.w (vget z_sp.row kk) = vget s.z kk) (mul_load z_sp cc s) _ _ _ _ rfl
    ⟨rfl, rfl, rfl, rfl, fun kk h1 h2 => by omega⟩
    (by
      rintro i t hi1 hi2 ⟨e1, e2, e3, e4, e5⟩
      refine ⟨e1, e2, e3, by simp [e4], ?_⟩
      intro kk h1 h2 h3
      simp only
      have hlen := wf_colind_le_nnz z_sp h (cc + 1) (by omega)
      by_cases hk : kk = i
      · subst hk
        rw [vget_set_self _ _ _ (by
          have := h.2.2.2.2.1 kk (by omega)
          omega), e3]
      · rw [vget_set_ne, e5 kk h1 (by omega) h3]
        intro e
        exact hk (wf_slot_unique z_sp h cc hcc i kk hi1 hi2 h1 h3 e).symm)
  obtain ⟨e1, e2, e3, e4, e5⟩ := key
  exact ⟨e1, e2, e3, e4, fun kk h1 h2 => e5 kk h1 (by omega) h2⟩

theorem mul_store_spec (z_sp : Sparsity) (cc : Nat) (s : MulState) :
    (mul_store z_sp cc s).x = s.x ∧ (mul_store z_sp cc s).y = s.y ∧
    (mul_store z_sp cc s).w = s.w ∧ (mul_store z_sp cc s).z.length = s.z.length ∧
    ∀ kk, vget (mul_store z_sp cc s).z kk =
      if vget z_sp.colind cc ≤ kk ∧ kk < vget z_sp.colind (cc + 1) ∧ kk < s.z.length then
        vget s.w (vget z_sp.row kk) else vget s.z kk := by
  have key := forLoop_rec (fun i (t : MulState) =>
    t.x = s.x ∧ t.y = s.y ∧ t.w = s.w ∧ t.z.length = s.z.length ∧
    ∀ kk, vget t.z kk =
      if vget z_sp.colind cc ≤ kk ∧ kk < i ∧ kk < vget z_sp.colind (cc + 1) ∧ kk < s.z.length then
        vget s.w (vget z_sp.row kk) else vget s.z kk) (mul_store z_sp cc s) _ _ _ _ rfl
    ⟨rfl, rfl, rfl, rfl, fun kk => by rw [if_neg (by omega)]⟩
    (by
      rintro i t hi1 hi2 ⟨e1, e2, e3, e4, e5⟩
      refine ⟨e1, e2, e3, by simp [e4], ?_⟩
      intro kk
      simp only
      rw [vget_set, e3, e4]
      by_cases hk : i = kk
      · subst hk
        by_cases hl : i < s.z.length
        · rw [if_pos ⟨rfl, hl⟩, if_pos ⟨hi1, by omega, hi2, hl⟩]
        · rw [if_neg (by omega), e5, if_neg (by omega), if_neg (by omega)]
      · rw [if_neg (by omega), e5]
        by_cases hc : vget z_sp.colind cc ≤ kk ∧ kk < i ∧ kk < vget z_sp.colind (cc + 1) ∧
            kk < s.z.length
        · rw [if_pos hc, if_pos ⟨hc.1, by omega, hc.2.2⟩]
        · rw [if_neg hc, if_neg (by omega)])
  obtain ⟨e1, e2, e3, e4, e5⟩ := key
  refine ⟨e1, e2, e3, e4, fun kk => ?_⟩
  rw [e5]
  by_cases hc : vget z_sp.colind cc ≤ kk ∧ kk < vget z_sp.colind (cc + 1) ∧ kk < s.z.length
  · rw [if_pos hc, if_pos ⟨hc.1, by omega, hc.2⟩]
  · rw [if_neg hc, if_neg (by omega)]

theorem testBit_vget_set_or (w : List Nat) (i v r b : Nat) (hr : r < w.length) :
    (vget (w.set i (vget w i ||| v)) r).testBit b = true ↔
      (vget w r).testBit b = true ∨ (i = r ∧ v.testBit b = true) := by
  rw [vget_set]
  by_cases h : i = r
  · subst h
    rw [if_pos ⟨rfl, hr⟩, Nat.testBit_or, Bool.or_eq_true]
    simp
  · rw [if_neg (by simp [h])]
    simp [h]

theorem mulF_inner_spec (x_sp : Sparsity) (rr yy : Nat) (s : MulState) :
    (mul_sparsityF_inner x_sp rr yy s).x = s.x ∧ (mul_sparsityF_inner x_sp rr yy s).y = s.y ∧
    (mul_sparsityF_inner x_sp rr yy s).z = s.z ∧
    (mul_sparsityF_inner x_sp rr yy s).w.length = s.w.length ∧
    ∀ r b, r < s.w.length →
      ((vget (mul_sparsityF_inner x_sp rr yy s).w r).testBit b = true ↔
        (vget s.w r).testBit b = true ∨
        ∃ kx, vget x_sp.colind rr ≤ kx ∧ kx < vget x_sp.colind (rr + 1) ∧
          vget x_sp.row kx = r ∧ (vget s.x kx ||| yy).testBit b = true) := by
  have key := forLoop_rec (fun i (t : MulState) =>
    t.x = s.x ∧ t.y = s.y ∧ t.z = s.z ∧ t.w.length = s.w.length ∧
    ∀ r b, r < s.w.length →
      ((vget t.w r).testBit b = true ↔
        (vget s.w r).testBit b = true ∨
        ∃ kx, vget x_sp.colind rr ≤ kx ∧ kx < i ∧ kx < vget x_sp.colind (rr + 1) ∧
          vget x_sp.row kx = r ∧ (vget s.x kx ||| yy).testBit b = true))
    (mul_sparsityF_inner x_sp rr yy s) _ _ _ _ rfl
    ⟨rfl, rfl, rfl, rfl, fun r b _ =>
      ⟨Or.inl, fun h => h.elim id (fun ⟨kx, h1, h2, _⟩ => by omega)⟩⟩
    (by
      rintro i t hi1 hi2 ⟨e1, e2, e3, e4, e5⟩
      refine ⟨e1, e2, e3, by simp [e4], ?_⟩
      intro r b hr
      simp only
      rw [testBit_vget_set_or _ _ _ _ _ (by omega), e5 r b hr, e1]
      constructor
      · rintro ((h | ⟨kx, h1, h2, h3, h4, h5⟩) | ⟨h1, h2⟩)
        · exact Or.inl h
        · exact Or.inr ⟨kx, h1, by omega, h3, h4, h5⟩
        · exact Or.inr ⟨i, hi1, by omega, hi2, h1, h2⟩
      · rintro (h | ⟨kx, h1, h2, h3, h4, h5⟩)
        · exact Or.inl (Or.inl h)
        · by_cases hk : kx = i
          · subst hk
            exact Or.inr ⟨h4, h5⟩
          · exact Or.inl (Or.inr ⟨kx, h1, by omega, h3, h4, h5⟩))
  obtain ⟨e1, e2, e3, e4, e5⟩ := key
  refine ⟨e1, e2, e3, e4, fun r b hr => ?_⟩
  rw [e5 r b hr]
  constructor
  · rintro (h | ⟨kx, h1, _, h3, h4, h5⟩)
    · exact Or.inl h
    · exact Or.inr ⟨kx, h1, h3, h4, h5⟩
  · rintro (h | ⟨kx, h1, h3, h4, h5⟩)
    · exact Or.inl h
    · exact Or.inr ⟨kx, h1, by omega, h3, h4, h5⟩

theorem mulF_column_spec (x_sp y_sp : Sparsity) (cc : Nat) (s : MulState) :
    (mul_sparsityF_column x_sp y_sp cc s).x = s.x ∧
    (mul_sparsityF_column x_sp y_sp cc s).y = s.y ∧
    (mul_sparsityF_column x_sp y_sp cc s).z = s.z ∧
    (mul_sparsityF_column x_sp y_sp cc s).w.length = s.w.length ∧
    ∀ r b, r < s.w.length →
      ((vget (mul_sparsityF_column x_sp y_sp cc s).w r).testBit b = true ↔
        (vget s.w r).testBit b = true ∨
        ∃ ky kx, vget y_sp.colind cc ≤ ky ∧ ky < vget y_sp.colind (cc + 1) ∧
          vget x_sp.colind (vget y_sp.row ky) ≤ kx ∧
          kx < vget x_sp.colind (vget y_sp.row ky + 1) ∧
          vget x_sp.row kx = r ∧ (vget s.x kx ||| vget s.y ky).testBit b = true) := by
  have key := forLoop_rec (fun i (t : MulState) =>
    t.x = s.x ∧ t.y = s.y ∧ t.z = s.z ∧ t.w.length = s.w.length ∧
    ∀ r b, r < s.w.length →
      ((vget t.w r).testBit b = true ↔
        (vget s.w r).testBit b = true ∨
        ∃ ky kx, vget y_sp.colind cc ≤ ky ∧ ky < i ∧ ky < vget y_sp.colind (cc + 1) ∧
          vget x_sp.colind (vget y_sp.row ky) ≤ kx ∧
          kx < vget x_sp.colind (vget y_sp.row ky + 1) ∧
          vget x_sp.row kx = r ∧ (vget s.x kx ||| vget s.y ky).testBit b = true))
    (mul_sparsityF_column x_sp y_sp cc s) _ _ _ _ rfl
    ⟨rfl, rfl, rfl, rfl, fun r b _ =>
      ⟨Or.inl, fun h => h.elim id (fun ⟨ky, kx, h1, h2, _⟩ => by omega)⟩⟩
    (by
      rintro i t hi1 hi2 ⟨e1, e2, e3, e4, e5⟩
      obtain ⟨f1, f2, f3, f4, f5⟩ := mulF_inner_spec x_sp (vget y_sp.row i) (vget t.y i) t
      refine ⟨f1.trans e1, f2.trans e2, f3.trans e3, f4.trans e4, ?_⟩
      intro r b hr
      rw [f5 r b (by omega), e5 r b hr, e1, e2]
      constructor
      · rintro ((h | ⟨ky, kx, h1, h2, h3, h4, h5, h6, h7⟩) | ⟨kx, h1, h2, h3, h4⟩)
        · exact Or.inl h
        · exact Or.inr ⟨ky, kx, h1, by omega, h3, h4, h5, h6, h7⟩
        · exact Or.inr ⟨i, kx, hi1, by omega, hi2, h1, h2, h3, h4⟩
      · rintro (h | ⟨ky, kx, h1, h2, h3, h4, h5, h6, h7⟩)
        · exact Or.inl (Or.inl h)
        · by_cases hk : ky = i
          · subst hk
            exact Or.inr ⟨kx, h4, h5, h6, h7⟩
          · exact Or.inl (Or.inr ⟨ky, kx, h1, by omega, h3, h4, h5, h6, h7⟩))
  obtain ⟨e1, e2, e3, e4, e5⟩ := key
  refine ⟨e1, e2, e3, e4, fun r b hr => ?_⟩
  rw [e5 r b hr]
  constructor
  · rintro (h | ⟨ky, kx, h1, _, h3, h4⟩)
    · exact Or.inl h
    · exact Or.inr ⟨ky, kx, h1, h3, h4⟩
  · rintro (h | ⟨ky, kx, h1, h3, h4⟩)
    · exact Or.inl h
    · exact Or.inr ⟨ky, kx, h1, by omega, h3, h4⟩

end Sparsity
end casadi

namespace casadi
namespace Sparsity

theorem mulF_loop_spec (x y z w : List Nat) (x_sp y_sp z_sp : Sparsity) (hz : z_sp.wf)
    (hzl : z.length = z_sp.nnz) (hw : z_sp.nrow ≤ w.length) (S : MulState)
    (hS : S = forLoop 0 z_sp.ncol (fun s cc =>
      mul_store z_sp cc (mul_sparsityF_column x_sp y_sp cc (mul_load z_sp cc s)))
      { x := x, y := y, z := z, w := w, w_index := [] }) :
    S.x = x ∧ S.y = y ∧ S.z.length = z.length ∧
    ∀ c kk, c < z_sp.ncol → vget z_sp.colind c ≤ kk → kk < vget z_sp.colind (c + 1) →
      ∀ b, ((vget S.z kk).testBit b = true ↔
        (vget z kk).testBit b = true ∨
        ∃ ky kx, vget y_sp.colind c ≤ ky ∧ ky < vget y_sp.colind (c + 1) ∧
          vget x_sp.colind (vget y_sp.row ky) ≤ kx ∧
          kx < vget x_sp.colind (vget y_sp.row ky + 1) ∧
          vget x_sp.row kx = vget z_sp.row kk ∧
          (vget x kx ||| vget y ky).testBit b = true) := by
  have key := forLoop_rec (fun i (t : MulState) =>
    t.x = x ∧ t.y = y ∧ t.z.length = z.length ∧ t.w.length = w.length ∧
    (∀ kk, vget z_sp.colind i ≤ kk → vget t.z kk = vget z kk) ∧
    ∀ c kk, c < i → c < z_sp.ncol → vget z_sp.colind c ≤ kk → kk < vget z_sp.colind (c + 1) →
      ∀ b, ((vget t.z kk).testBit b = true ↔
        (vget z kk).testBit b = true ∨
        ∃ ky kx, vget y_sp.colind c ≤ ky ∧ ky < vget y_sp.colind (c + 1) ∧
          vget x_sp.colind (vget y_sp.row ky) ≤ kx ∧
          kx < vget x_sp.colind (vget y_sp.row ky + 1) ∧
          vget x_sp.row kx = vget z_sp.row kk ∧
          (vget x kx ||| vget y ky).testBit b = true)) S _ _ _ _ hS
    ⟨rfl, rfl, rfl, rfl, fun _ _ => rfl, fun c kk h => by omega⟩
    (by
      rintro i t _ hi ⟨e1, e2, e3, e4, e5, e6⟩
      obtain ⟨l1, l2, l3, l4, l5⟩ := mul_load_spec z_sp hz i hi t (by omega)
      obtain ⟨c1, c2, c3, c4, c5⟩ := mulF_column_spec x_sp y_sp i (mul_load z_sp i t)
      obtain ⟨s1, s2, s3, s4, s5⟩ :=
        mul_store_spec z_sp i (mul_sparsityF_column x_sp y_sp i (mul_load z_sp i t))
      have hm := hz.2.2.1 i hi
      refine ⟨s1.trans (c1.trans (l1.trans e1)), s2.trans (c2.trans (l2.trans e2)),
        by rw [s4, c3, l3, e3], by rw [s3, c4, l4, e4], ?_, ?_⟩
      · intro kk hk
        rw [s5, if_neg (by omega), c3, l3]
        exact e5 kk (by omega)
      · intro c kk hc hc' h1 h2 b
        rw [s5]
        by_cases hci : c = i
        · subst hci
          have hlen := wf_colind_le_nnz z_sp hz (c + 1) (by omega)
          have hnnz : z_sp.row.length = z_sp.nnz := hz.2.2.2.1
          have hr := hz.2.2.2.2.1 kk (by omega)
          rw [if_pos ⟨h1, h2, by rw [c3, l3, e3]; omega⟩,
            c5 _ b (by rw [l4, e4]; omega), l5 kk h1 h2, e5 kk h1, l1, l2, e1, e2]
        · have := wf_mono z_sp hz (show c + 1 ≤ i by omega) (by omega)
          rw [if_neg (by omega), c3, l3]
          exact e6 c kk (by omega) hc' h1 h2 b)
  rw [Nat.max_eq_right (Nat.zero_le _)] at key
  obtain ⟨e1, e2, e3, _, _, e6⟩ := key
  exact ⟨e1, e2, e3, fun c kk hc h1 h2 b => e6 c kk hc hc h1 h2 b⟩

/-! ### The indices at which the work vector is read or written -/

theorem mul_load_index (z_sp : Sparsity) (hz : z_sp.wf) (cc : Nat) (hcc : cc < z_sp.ncol)
    (s : MulState) (hs : ∀ i ∈ s.w_index, i < z_sp.nrow) :
    ∀ i ∈ (mul_load z_sp cc s).w_index, i < z_sp.nrow := by
  refine forLoop_inv (fun (t : MulState) => ∀ i ∈ t.w_index, i < z_sp.nrow) _ _ _ _ hs ?_
  intro k t _ hk ht i hi
  have hlen := wf_colind_le_nnz z_sp hz (cc + 1) (by omega)
  rcases List.mem_append.1 hi with h | h
  · exact ht i h
  · rw [List.mem_singleton.1 h]
    exact hz.2.2.2.2.1 k (by omega)

theorem mul_store_index (z_sp : Sparsity) (hz : z_sp.wf) (cc : Nat) (hcc : cc < z_sp.ncol)
    (s : MulState) (hs : ∀ i ∈ s.w_index, i < z_sp.nrow) :
    ∀ i ∈ (mul_store z_sp cc s).w_index, i < z_sp.nrow := by
  refine forLoop_inv (fun (t : MulState) => ∀ i ∈ t.w_index, i < z_sp.nrow) _ _ _ _ hs ?_
  intro k t _ hk ht i hi
  have hlen := wf_colind_le_nnz z_sp hz (cc + 1) (by omega)
  rcases List.mem_append.1 hi with h | h
  · exact ht i h
  · rw [List.mem_singleton.1 h]
    exact hz.2.2.2.2.1 k (by omega)

theorem mulF_inner_index (x_sp : Sparsity) (hx : x_sp.wf) (rr yy : Nat) (hrr : rr < x_sp.ncol)
    (s : MulState) (hs : ∀ i ∈ s.w_index, i < x_sp.nrow) :
    ∀ i ∈ (mul_sparsityF_inner x_sp rr yy s).w_index, i < x_sp.nrow := by
  refine forLoop_inv (fun (t : MulState) => ∀ i ∈ t.w_index, i < x_sp.nrow) _ _ _ _ hs ?_
  intro k t _ hk ht i hi
  have hlen := wf_colind_le_nnz x_sp hx (rr + 1) (by omega)
  rcases List.mem_append.1 hi with h | h
  · exact ht i h
  · rw [List.mem_singleton.1 h]
    exact hx.2.2.2.2.1 k (by omega)

theorem mulF_column_index (x_sp y_sp : Sparsity) (hx : x_sp.wf) (hy : y_sp.wf)
    (hd : x_sp.ncol = y_sp.nrow) (cc : Nat) (hcc : cc < y_sp.ncol)
    (s : MulState) (hs : ∀ i ∈ s.w_index, i < x_sp.nrow) :
    ∀ i ∈ (mul_sparsityF_column x_sp y_sp cc s).w_index, i < x_sp.nrow := by
  refine forLoop_inv (fun (t : MulState) => ∀ i ∈ t.w_index, i < x_sp.nrow) _ _ _ _ hs ?_
  intro k t _ hk ht
  have hlen := wf_colind_le_nnz y_sp hy (cc + 1) (by omega)
  have hr := hy.2.2.2.2.1 k (by omega)
  exact mulF_inner_index x_sp hx _ _ (by omega) t ht

theorem mulR_inner_index (x_sp : Sparsity) (hx : x_sp.wf) (rr : Nat) (hrr : rr < x_sp.ncol)
    (s : MulState) (hs : ∀ i ∈ s.w_index, i < x_sp.nrow) :
    ∀ i ∈ (mul_sparsityR_inner x_sp rr s).1.w_index, i < x_sp.nrow := by
  refine forLoop_inv (fun (t : MulState × Nat) => ∀ i ∈ t.1.w_index, i < x_sp.nrow)
    _ _ _ _ hs ?_
  intro k t _ hk ht i hi
  have hlen := wf_colind_le_nnz x_sp hx (rr + 1) (by omega)
  have hr := hx.2.2.2.2.1 k (by omega)
  rcases List.mem_append.1 hi with h | h
  · exact ht i h
  · simp only [List.mem_cons, List.mem_singleton, List.not_mem_nil, or_false, or_self] at h
    rw [h]
    exact hr

theorem mulR_column_index (x_sp y_sp : Sparsity) (hx : x_sp.wf) (hy : y_sp.wf)
    (hd : x_sp.ncol = y_sp.nrow) (cc : Nat) (hcc : cc < y_sp.ncol)
    (s : MulState) (hs : ∀ i ∈ s.w_index, i < x_sp.nrow) :
    ∀ i ∈ (mul_sparsityR_column x_sp y_sp cc s).w_index, i < x_sp.nrow := by
  refine forLoop_inv (fun (t : MulState) => ∀ i ∈ t.w_index, i < x_sp.nrow) _ _ _ _ hs ?_
  intro k t _ hk ht
  have hlen := wf_colind_le_nnz y_sp hy (cc + 1) (by omega)
  have hr := hy.2.2.2.2.1 k (by omega)
  exact mulR_inner_index x_sp hx _ (by omega) t ht

end Sparsity
end casadi

namespace casadi
namespace Sparsity

/-- C24: let `z_sp` satisfy the invariant, let the dimensions of `x_sp`, `y_sp` and `z_sp`
agree, let `z` hold one value for each stored entry of `z_sp` and let `w` have an element
for each row of `x_sp`.  Then `mul_sparsityF` returns, leaves `x` and `y` unchanged and
keeps the length of `z`.  For a stored entry `(r, c)` of `z_sp` at `kk`, bit `b` of the new
`z[kk]` is set exactly when it was set in the old `z[kk]`, or when, for some `j`, `y_sp`
stores `(j, c)` at `ky` and `x_sp` stores `(r, j)` at `kx` and bit `b` of `x[kx]` or of
`y[ky]` is set.  No bit of `z` is cleared, and another work vector with an element for each
row of `x_sp` gives the same `z`. -/
theorem mul_sparsityF_spec (x y z w : List Nat) (x_sp y_sp z_sp : Sparsity) (hz : z_sp.wf)
    (hd : z_sp.size1 = x_sp.size1 ∧ x_sp.size2 = y_sp.size1 ∧ y_sp.size2 = z_sp.size2)
    (hzl : z.length = z_sp.nnz) (hw : x_sp.size1 ≤ w.length) :
    ∃ s, mul_sparsityF x x_sp y y_sp z z_sp w = .ok s ∧ s.x = x ∧ s.y = y ∧
      s.z.length = z.length ∧
      (∀ r c kk, c < z_sp.size2 → vget z_sp.colind c ≤ kk → kk < vget z_sp.colind (c + 1) →
        vget z_sp.row kk = r →
        ∀ b, ((vget s.z kk).testBit b = true ↔
          (vget z kk).testBit b = true ∨
          ∃ j ky kx, vget y_sp.colind c ≤ ky ∧ ky < vget y_sp.colind (c + 1) ∧
            vget y_sp.row ky = j ∧
            vget x_sp.colind j ≤ kx ∧ kx < vget x_sp.colind (j + 1) ∧ vget x_sp.row kx = r ∧
            ((vget x kx).testBit b = true ∨ (vget y ky).testBit b = true))) ∧
      (∀ kk b, (vget z kk).testBit b = true → (vget s.z kk).testBit b = true) ∧
      (∀ w2 : List Nat, x_sp.size1 ≤ w2.length →
        ∃ s2, mul_sparsityF x x_sp y y_sp z z_sp w2 = .ok s2 ∧ s2.z = s.z) := by
  have hrun : ∀ w1 : List Nat, mul_sparsityF x x_sp y y_sp z z_sp w1 =
      .ok (forLoop 0 z_sp.ncol (fun s cc =>
        mul_store z_sp cc (mul_sparsityF_column x_sp y_sp cc (mul_load z_sp cc s)))
        { x := x, y := y, z := z, w := w1, w_index := [] }) := by
    intro w1
    unfold mul_sparsityF
    rw [if_neg (not_not.2 hd)]
    rfl
  have hn : z_sp.nrow = x_sp.size1 := hd.1
  have hrl : z_sp.row.length = z_sp.nnz := hz.2.2.2.1
  obtain ⟨e1, e2, e3, e4⟩ :=
    mulF_loop_spec x y z w x_sp y_sp z_sp hz hzl (by omega) _ rfl
  refine ⟨_, hrun w, e1, e2, e3, ?_, ?_, ?_⟩
  · intro r c kk hc h1 h2 hr b
    rw [e4 c kk hc h1 h2 b]
    constructor
    · rintro (h | ⟨ky, kx, k1, k2, k3, k4, k5, k6⟩)
      · exact Or.inl h
      · rw [Nat.testBit_or, Bool.or_eq_true] at k6
        exact Or.inr ⟨_, ky, kx, k1, k2, rfl, k3, k4, k5.trans hr, k6⟩
    · rintro (h | ⟨j, ky, kx, k1, k2, k3, k4, k5, k6, k7⟩)
      · exact Or.inl h
      · subst k3
        refine Or.inr ⟨ky, kx, k1, k2, k4, k5, k6.trans hr.symm, ?_⟩
        rw [Nat.testBit_or, Bool.or_eq_true]
        exact k7
  · intro kk b hb
    by_cases hk : kk < z.length
    · obtain ⟨c, hc, h1, h2⟩ := wf_slot_cover z_sp hz kk (by omega)
      exact (e4 c kk hc h1 h2 b).2 (Or.inl hb)
    · rw [vget_of_le z kk (by omega)] at hb
      simp at hb
  · intro w2 hw2
    obtain ⟨f1, f2, f3, f4⟩ :=
      mulF_loop_spec x y z w2 x_sp y_sp z_sp hz hzl (by omega) _ rfl
    refine ⟨_, hrun w2, ?_⟩
    apply ext_vget (by rw [f3, e3])
    intro kk hk
    obtain ⟨c, hc, h1, h2⟩ := wf_slot_cover z_sp hz kk (by omega)
    apply Nat.eq_of_testBit_eq
    intro b
    rw [Bool.eq_iff_iff, f4 c kk hc h1 h2 b, e4 c kk hc h1 h2 b]

theorem mul_sparsityF_spec_witness :
    ∃ s, mul_sparsityF [1, 2, 4] ⟨3, 1, [0, 3], [0, 1, 2]⟩ [8] ⟨1, 1, [0, 1], [0]⟩
        [16, 32, 64] ⟨3, 1, [0, 3], [0, 1, 2]⟩ [7, 7, 7] = .ok s ∧
      s.x = [1, 2, 4] ∧ s.y = [8] ∧ s.z.length = 3 ∧
      ∃ s2, mul_sparsityF [1, 2, 4] ⟨3, 1, [0, 3], [0, 1, 2]⟩ [8] ⟨1, 1, [0, 1], [0]⟩
        [16, 32, 64] ⟨3, 1, [0, 3], [0, 1, 2]⟩ [0, 0, 0] = .ok s2 ∧ s2.z = s.z :=
  let ⟨s, h1, h2, h3, h4, _, _, h5⟩ :=
    mul_sparsityF_spec [1, 2, 4] [8] [16, 32, 64] [7, 7, 7] ⟨3, 1, [0, 3], [0, 1, 2]⟩
      ⟨1, 1, [0, 1], [0]⟩ ⟨3, 1, [0, 3], [0, 1, 2]⟩ (by decide) (by decide) (by decide)
      (by decide)
  ⟨s, h1, h2, h3, h4, h5 [0, 0, 0] (by decide)⟩

/-- C25, amended: for patterns that satisfy the invariant and whose dimensions agree,
`mul_sparsityF` and `mul_sparsityR` return, and every index at which they read or write
the work vector `w` is smaller than the row count `x_sp.size1()` of `x` and `z`: a work
vector of that length suffices. -/
theorem mul_sparsity_w_index (x y z w : List Nat) (x_sp y_sp z_sp : Sparsity)
    (hx : x_sp.wf) (hy : y_sp.wf) (hz : z_sp.wf)
    (hd : z_sp.size1 = x_sp.size1 ∧ x_sp.size2 = y_sp.size1 ∧ y_sp.size2 = z_sp.size2) :
    (∃ s, mul_sparsityF x x_sp y y_sp z z_sp w = .ok s ∧
      ∀ i ∈ s.w_index, i < x_sp.size1) ∧
    (∃ s, mul_sparsityR x x_sp y y_sp z z_sp w = .ok s ∧
      ∀ i ∈ s.w_index, i < x_sp.size1) := by
  have h1 : z_sp.nrow = x_sp.nrow := hd.1
  have h2 : x_sp.ncol = y_sp.nrow := hd.2.1
  have h3 : y_sp.ncol = z_sp.ncol := hd.2.2
  have e : x_sp.size1 = x_sp.nrow := rfl
  constructor
  · unfold mul_sparsityF
    rw [if_neg (not_not.2 hd)]
    refine ⟨_, rfl, ?_⟩
    rw [e]
    refine forLoop_inv (fun (t : MulState) => ∀ i ∈ t.w_index, i < x_sp.nrow) _ _ _ _
      (fun i hi => absurd hi (List.not_mem_nil i)) ?_
    intro cc t _ hcc ht
    have hcc' : cc < z_sp.ncol := hcc
    have l := mul_load_index z_sp hz cc hcc' t (by rw [h1]; exact ht)
    rw [h1] at l
    have c := mulF_column_index x_sp y_sp hx hy h2 cc (by omega) _ l
    rw [← h1] at c
    have s := mul_store_index z_sp hz cc hcc' _ c
    rw [h1] at s
    exact s
  · unfold mul_sparsityR
    rw [if_neg (not_not.2 hd)]
    refine ⟨_, rfl, ?_⟩
    rw [e]
    refine forLoop_inv (fun (t : MulState) => ∀ i ∈ t.w_index, i < x_sp.nrow) _ _ _ _
      (fun i hi => absurd hi (List.not_mem_nil i)) ?_
    intro cc t _ hcc ht
    have hcc' : cc < z_sp.ncol := hcc
    have l := mul_load_index z_sp hz cc hcc' t (by rw [h1]; exact ht)
    rw [h1] at l
    have c := mulR_column_index x_sp y_sp hx hy h2 cc (by omega) _ l
    rw [← h1] at c
    have s := mul_store_index z_sp hz cc hcc' _ c
    rw [h1] at s
    exact s

theorem mul_sparsity_w_index_witness :
    (∃ s, mul_sparsityF [1, 2, 4] ⟨3, 1, [0, 3], [0, 1, 2]⟩ [8] ⟨1, 1, [0, 1], [0]⟩
        [16, 32, 64] ⟨3, 1, [0, 3], [0, 1, 2]⟩ [0, 0, 0] = .ok s ∧
      ∀ i ∈ s.w_index, i < 3) ∧
    (∃ s, mul_sparsityR [1, 2, 4] ⟨3, 1, [0, 3], [0, 1, 2]⟩ [8] ⟨1, 1, [0, 1], [0]⟩
        [16, 32, 64] ⟨3, 1, [0, 3], [0, 1, 2]⟩ [0, 0, 0] = .ok s ∧
      ∀ i ∈ s.w_index, i < 3) :=
  mul_sparsity_w_index [1, 2, 4] [8] [16, 32, 64] [0, 0, 0] ⟨3, 1, [0, 3], [0, 1, 2]⟩
    ⟨1, 1, [0, 1], [0]⟩ ⟨3, 1, [0, 3], [0, 1, 2]⟩ (by decide) (by decide) (by decide)
    (by decide)

/-- C25 as stated fails: for the dense 3-by-1 patterns `x_sp` and `z_sp` and the 1-by-1
pattern `y_sp`, which satisfy the invariant and whose dimensions agree, the common
dimension is 1, and both routines read and write `w` at the indices 1 and 2. -/
theorem mul_sparsity_w_index_counterexample :
    (⟨3, 1, [0, 3], [0, 1, 2]⟩ : Sparsity).wf ∧ (⟨1, 1, [0, 1], [0]⟩ : Sparsity).wf ∧
    (⟨3, 1, [0, 3], [0, 1, 2]⟩ : Sparsity).size2 = 1 ∧
    (⟨1, 1, [0, 1], [0]⟩ : Sparsity).size1 = 1 ∧
    (mul_sparsityF [1, 2, 4] ⟨3, 1, [0, 3], [0, 1, 2]⟩ [8] ⟨1, 1, [0, 1], [0]⟩
      [16, 32, 64] ⟨3, 1, [0, 3], [0, 1, 2]⟩ [0, 0, 0]).map (fun s => s.w_index) =
      .ok [0, 1, 2, 0, 1, 2, 0, 1, 2] ∧
    (mul_sparsityR [1, 2, 4] ⟨3, 1, [0, 3], [0, 1, 2]⟩ [8] ⟨1, 1, [0, 1], [0]⟩
      [16, 32, 64] ⟨3, 1, [0, 3], [0, 1, 2]⟩ [0, 0, 0]).map (fun s => s.w_index) =
      .ok [0, 1, 2, 0, 0, 1, 1, 2, 2, 0, 1, 2] := by
  decide

end Sparsity
end casadi

namespace casadi
namespace Sparsity

theorem foldl_kpush (L : List Nat) (s : KronNat) :
    (L.foldl kpush s).i = s.i + L.length ∧ (L.foldl kpush s).j = s.j ∧
    (L.foldl kpush s).r_colind = s.r_colind ∧
    (L.foldl kpush s).r_row.length = s.r_row.length ∧
    ∀ k, vget (L.foldl kpush s).r_row k =
      if s.i ≤ k ∧ k < s.i + L.length ∧ k < s.r_row.length then vget L (k - s.i)
      else vget s.r_row k := by
  induction L generalizing s with
  | nil =>
    refine ⟨rfl, rfl, rfl, rfl, fun k => ?_⟩
    rw [if_neg (by simp only [List.length_nil]; omega)]
    rfl
  | cons v L ih =>
    obtain ⟨h1, h2, h3, h4, h5⟩ := ih (kpush s v)
    rw [List.foldl_cons]
    have e1 : (kpush s v).i = s.i + 1 := rfl
    have e2 : (kpush s v).r_row = s.r_row.set s.i v := rfl
    refine ⟨by rw [h1, e1, List.length_cons]; omega, h2, h3, by rw [h4, e2, List.length_set], ?_⟩
    intro k
    rw [h5, e1, e2, List.length_set, List.length_cons]
    by_cases hc : s.i + 1 ≤ k ∧ k < s.i + 1 + L.length ∧ k < s.r_row.length
    · rw [if_pos hc, if_pos ⟨by omega, by omega, hc.2.2⟩,
        show k - s.i = (k - (s.i + 1)) + 1 by omega]
      rfl
    · rw [if_neg hc, vget_set]
      by_cases hk : s.i = k ∧ s.i < s.r_row.length
      · rw [if_pos hk, if_pos ⟨by omega, by omega, by omega⟩, ← hk.1, Nat.sub_self]
        rfl
      · rw [if_neg hk, if_neg (by omega)]

theorem kron_nonzeros_nat_eq (a b : Sparsity) (a_start a_stop b_start b_stop : Nat)
    (s : KronNat) :
    kron_nonzeros_nat a b a_start a_stop b_start b_stop s =
      (((List.range' a_start (a_stop - a_start)).map (vget a.row)).flatMap (fun ar =>
        ((List.range' b_start (b_stop - b_start)).map (vget b.row)).map
          (fun br => ar * b.size1 + br))).foldl kpush s := by
  have inner : ∀ (t : KronNat) (a_el : Nat),
      forLoop b_start b_stop (fun (s : KronNat) b_el =>
        { s with r_row := s.r_row.set s.i (vget a.row a_el * b.size1 + vget b.row b_el),
                 i := s.i + 1 }) t =
      (((List.range' b_start (b_stop - b_start)).map (vget b.row)).map
        (fun br => vget a.row a_el * b.size1 + br)).foldl kpush t := by
    intro t a_el
    rw [List.map_map]
    exact forLoop_eq_foldl_map b_start b_stop
      (fun b_el => vget a.row a_el * b.size1 + vget b.row b_el) kpush t
  unfold kron_nonzeros_nat
  simp only
  rw [show (fun (s : KronNat) a_el =>
      forLoop b_start b_stop (fun (s : KronNat) b_el =>
        { s with r_row := s.r_row.set s.i (vget a.row a_el * b.size1 + vget b.row b_el),
                 i := s.i + 1 }) s) =
    (fun (s : KronNat) a_el =>
      (((List.range' b_start (b_stop - b_start)).map (vget b.row)).map
        (fun br => vget a.row a_el * b.size1 + br)).foldl kpush s) from
    funext fun t => funext fun a_el => inner t a_el]
  unfold forLoop
  rw [foldl_flatMap_eq, List.flatMap_map]

theorem vget_map_range_from (f : Nat → Nat) (a n k : Nat) (h : k < n) :
    vget ((List.range' a n).map f) k = f (a + k) := by
  unfold vget
  rw [List.getD_eq_getElem?_getD, List.getElem?_map]
  simp [List.getElem?_range', h]

theorem col_rows_eq_map (p : Sparsity) (h : p.wf) (c : Nat) (hc : c < p.ncol) :
    (List.range' (vget p.colind c) (vget p.colind (c + 1) - vget p.colind c)).map
      (vget p.row) = col_rows p c := by
  have hlen := length_col_rows p h c hc
  apply ext_vget
  · rw [List.length_map, List.length_range', hlen]
  · intro k hk
    rw [List.length_map, List.length_range'] at hk
    rw [vget_col_rows p c k hk, vget_map_range_from _ _ _ _ hk]

theorem length_flatMap_map {α β γ : Type} (L : List α) (M : List β) (g : α → β → γ) :
    (L.flatMap (fun x => M.map (g x))).length = L.length * M.length := by
  induction L with
  | nil => simp
  | cons x L ih =>
    rw [List.flatMap_cons, List.length_append, ih, List.length_map, List.length_cons,
      Nat.add_mul, Nat.one_mul, Nat.add_comm]

theorem kseg_index (a b : Sparsity) (a_cc b_cc : Nat) (hb : b_cc < b.size2) :
    kseg a b (a_cc * b.size2 + b_cc) =
      (col_rows a a_cc).flatMap (fun ar => (col_rows b b_cc).map (fun br => ar * b.size1 + br)) := by
  unfold kseg
  have h1 : (a_cc * b.size2 + b_cc) / b.size2 = a_cc := by
    rw [Nat.mul_comm, Nat.mul_add_div (by omega), Nat.div_eq_of_lt hb, Nat.add_zero]
  have h2 : (a_cc * b.size2 + b_cc) % b.size2 = b_cc := by
    rw [Nat.mul_comm, Nat.mul_add_mod, Nat.mod_eq_of_lt hb]
  rw [h1, h2]

theorem length_kseg (a b : Sparsity) (ha : a.wf) (hb : b.wf) (a_cc b_cc : Nat)
    (hac : a_cc < a.size2) (hbc : b_cc < b.size2) :
    (kseg a b (a_cc * b.size2 + b_cc)).length =
      (vget a.colind (a_cc + 1) - vget a.colind a_cc) *
        (vget b.colind (b_cc + 1) - vget b.colind b_cc) := by
  rw [kseg_index a b a_cc b_cc hbc, length_flatMap_map, length_col_rows a ha a_cc hac,
    length_col_rows b hb b_cc hbc]

theorem offs_kseg_b (a b : Sparsity) (ha : a.wf) (hb : b.wf) (a_cc : Nat)
    (hac : a_cc < a.size2) (b_cc : Nat) (hbc : b_cc ≤ b.size2) :
    offs (kseg a b) (a_cc * b.size2 + b_cc) =
      offs (kseg a b) (a_cc * b.size2) +
        (vget a.colind (a_cc + 1) - vget a.colind a_cc) * vget b.colind b_cc := by
  induction b_cc with
  | zero => rw [hb.2.1]; simp
  | succ n ih =>
    have hm := hb.2.2.1 n (by exact hbc)
    rw [← Nat.add_assoc, offs_succ, ih (by omega), length_kseg a b ha hb a_cc n hac (by omega),
      Nat.add_assoc, ← Nat.mul_add, Nat.add_sub_cancel' hm]

theorem offs_kseg_a (a b : Sparsity) (ha : a.wf) (hb : b.wf) (a_cc : Nat)
    (hac : a_cc ≤ a.size2) :
    offs (kseg a b) (a_cc * b.size2) = vget a.colind a_cc * b.nnz := by
  induction a_cc with
  | zero => rw [ha.2.1, Nat.zero_mul, Nat.zero_mul, offs_zero]
  | succ n ih =>
    have hm := ha.2.2.1 n (by exact hac)
    rw [Nat.add_mul, Nat.one_mul, offs_kseg_b a b ha hb n (by omega) b.size2 (Nat.le_refl _),
      ih (by omega)]
    show vget a.colind n * b.nnz + (vget a.colind (n + 1) - vget a.colind n) * b.nnz = _
    rw [← Nat.add_mul, Nat.add_sub_cancel' hm]

theorem offs_kseg_total (a b : Sparsity) (ha : a.wf) (hb : b.wf) :
    offs (kseg a b) (a.size2 * b.size2) = a.nnz * b.nnz :=
  offs_kseg_a a b ha hb a.size2 (Nat.le_refl _)

end Sparsity
end casadi

namespace casadi
namespace Sparsity

theorem kron_index_lt (A B a_cc b_cc : Nat) (ha : a_cc < A) (hb : b_cc < B) :
    a_cc * B + b_cc < A * B := by
  have h1 : (a_cc + 1) * B ≤ A * B := Nat.mul_le_mul_right B ha
  rw [Nat.add_mul, Nat.one_mul] at h1
  omega

theorem kron_column_nat_spec (a b : Sparsity) (ha : a.wf) (hb : b.wf) (a_cc b_cc : Nat)
    (hac : a_cc < a.size2) (hbc : b_cc < b.size2) (s : KronNat)
    (h : kron_inv a b (a_cc * b.size2 + b_cc) s) :
    kron_inv a b (a_cc * b.size2 + b_cc + 1) (kron_column_nat a b a_cc b_cc s) := by
  have hc := kron_index_lt a.size2 b.size2 a_cc b_cc hac hbc
  have hlen := length_kseg a b ha hb a_cc b_cc hac hbc
  have htot := offs_kseg_total a b ha hb
  have hmono := offs_mono (kseg a b) (show a_cc * b.size2 + b_cc + 1 ≤ a.size2 * b.size2 from hc)
  have hsucc := offs_succ (kseg a b) (a_cc * b.size2 + b_cc)
  obtain ⟨i1, i2, i3, i4, i5, i6⟩ := h
  obtain ⟨p1, p2, p3, p4, p5⟩ := foldl_kpush (kseg a b (a_cc * b.size2 + b_cc)) s
  unfold kron_column_nat
  simp only
  rw [kron_nonzeros_nat_eq, col_rows_eq_map a ha a_cc hac, col_rows_eq_map b hb b_cc hbc,
    ← kseg_index a b a_cc b_cc hbc]
  refine ⟨?_, ?_, ?_, ?_, ?_, ?_⟩
  · show (List.foldl kpush s (kseg a b (a_cc * b.size2 + b_cc))).j + 1 = _
    rw [p2, i1]
  · show (List.foldl kpush s (kseg a b (a_cc * b.size2 + b_cc))).i = _
    rw [p1, i2, hsucc]
  · simp only [List.length_set]
    rw [p3, i3]
  · show (List.foldl kpush s (kseg a b (a_cc * b.size2 + b_cc))).r_row.length = _
    rw [p4, i4]
  · intro d hd
    simp only
    rw [p2, p3, i1, vget_set, Nat.add_sub_cancel]
    by_cases e : a_cc * b.size2 + b_cc + 1 = d
    · rw [if_pos ⟨e, by rw [i3]; omega⟩, i5 _ (Nat.le_refl _), ← e, hsucc, hlen,
        Nat.mul_comm (vget b.colind (b_cc + 1) - vget b.colind b_cc)]
    · rw [if_neg (fun h => e h.1)]
      exact i5 d (by omega)
  · intro k hk
    show vget (List.foldl kpush s (kseg a b (a_cc * b.size2 + b_cc))).r_row k = _
    rw [p5, i2, i4]
    by_cases hlt : k < offs (kseg a b) (a_cc * b.size2 + b_cc)
    · rw [if_neg (by omega)]
      exact i6 k hlt
    · rw [if_pos ⟨by omega, by omega, by omega⟩]
      have := vget_flatMap_range (kseg a b) (a.size2 * b.size2) (a_cc * b.size2 + b_cc)
        (k - offs (kseg a b) (a_cc * b.size2 + b_cc)) hc (by omega)
      rw [show offs (kseg a b) (a_cc * b.size2 + b_cc) +
        (k - offs (kseg a b) (a_cc * b.size2 + b_cc)) = k by omega] at this
      exact this.symm

theorem kron_loop_nat_spec (a b : Sparsity) (ha : a.wf) (hb : b.wf) :
    kron_inv a b (a.size2 * b.size2) (kron_loop_nat a b) := by
  unfold kron_loop_nat
  simp only
  refine forLoop_ind (fun a_cc s => kron_inv a b (a_cc * b.size2) s) 0 a.size2 _ _
    (Nat.zero_le _) ?_ ?_
  · refine ⟨by simp, by simp [offs_zero], by simp, by simp, ?_, ?_⟩
    · intro d hd
      have : d = 0 := by omega
      subst this
      rw [offs_zero]
      exact vget_replicate_zero _ _
    · intro k hk
      rw [Nat.zero_mul, offs_zero] at hk
      omega
  · intro i t _ hi ht
    have := forLoop_ind (fun b_cc s => kron_inv a b (i * b.size2 + b_cc) s) 0 b.size2
      (fun s b_cc => kron_column_nat a b i b_cc s) t (Nat.zero_le _) ht
      (fun b_cc u _ hbc hu => kron_column_nat_spec a b ha hb i b_cc hi hbc u hu)
    simp only at this
    rw [Nat.add_mul, Nat.one_mul]
    exact this

theorem kseg_div_mod (a b : Sparsity) (c : Nat) (hc : c < a.size2 * b.size2) :
    c / b.size2 < a.ncol ∧ c % b.size2 < b.ncol := by
  have hpos : 0 < b.size2 := by
    rcases Nat.eq_zero_or_pos b.size2 with h | h
    · rw [h] at hc
      simp at hc
    · exact h
  exact ⟨Nat.div_lt_of_lt_mul (by rw [Nat.mul_comm]; exact hc), Nat.mod_lt _ hpos⟩

theorem mem_kseg (a b : Sparsity) (ha : a.wf) (hb : b.wf) (c : Nat)
    (hc : c < a.size2 * b.size2) (r : Nat) :
    r ∈ kseg a b c ↔
      ∃ ar br, a.has_entry ar (c / b.size2) ∧ b.has_entry br (c % b.size2) ∧
        r = ar * b.size1 + br := by
  obtain ⟨h1, h2⟩ := kseg_div_mod a b c hc
  unfold kseg
  rw [List.mem_flatMap]
  constructor
  · rintro ⟨ar, har, hr⟩
    obtain ⟨br, hbr, e⟩ := List.mem_map.1 hr
    exact ⟨ar, br, (mem_col_rows a ha _ _ h1).1 har, (mem_col_rows b hb _ _ h2).1 hbr, e.symm⟩
  · rintro ⟨ar, br, har, hbr, e⟩
    exact ⟨ar, (mem_col_rows a ha _ _ h1).2 har,
      List.mem_map.2 ⟨br, (mem_col_rows b hb _ _ h2).2 hbr, e.symm⟩⟩

theorem kron_row_lt (an bn ar br : Nat) (h1 : ar < an) (h2 : br < bn) :
    ar * bn + br < an * bn := by
  have := kron_index_lt an bn ar br h1 h2
  exact this

theorem kseg_lt (a b : Sparsity) (ha : a.wf) (hb : b.wf) (c : Nat)
    (hc : c < a.size2 * b.size2) : ∀ r ∈ kseg a b c, r < a.size1 * b.size1 := by
  intro r hr
  obtain ⟨ar, br, h1, h2, e⟩ := (mem_kseg a b ha hb c hc r).1 hr
  rw [e]
  exact kron_row_lt _ _ _ _ (has_entry_lt a ha _ _ h1).1 (has_entry_lt b hb _ _ h2).1

theorem kseg_pairwise (a b : Sparsity) (ha : a.wf) (hb : b.wf) (c : Nat)
    (hc : c < a.size2 * b.size2) : (kseg a b c).Pairwise (· < ·) := by
  obtain ⟨h1, h2⟩ := kseg_div_mod a b c hc
  unfold kseg
  rw [List.pairwise_flatMap]
  constructor
  · intro ar _
    rw [List.pairwise_map]
    exact (col_rows_pairwise b hb _ h2).imp (fun h => Nat.add_lt_add_left h _)
  · refine (col_rows_pairwise a ha _ h1).imp ?_
    intro a1 a2 h12 x hx y hy
    obtain ⟨b1, hb1, e1⟩ := List.mem_map.1 hx
    obtain ⟨b2, _, e2⟩ := List.mem_map.1 hy
    have hlt := col_rows_lt b hb _ h2 b1 hb1
    have h3 : (a1 + 1) * b.size1 ≤ a2 * b.size1 := Nat.mul_le_mul_right _ h12
    rw [Nat.add_mul, Nat.one_mul] at h3
    have e : b.size1 = b.nrow := rfl
    omega

theorem kseg_wf (a b : Sparsity) (ha : a.wf) (hb : b.wf) :
    (ofSegs (a.size1 * b.size1) (a.size2 * b.size2) (kseg a b)).wf :=
  ofSegs_wf _ _ _ (kseg_lt a b ha hb) (kseg_pairwise a b ha hb)

/-! ### The loops of `kron` on `int`s follow the loops on naturals -/

theorem kron_nonzeros_sim (a b : Sparsity) (ha : a.wf) (hb : b.wf)
    (hr : a.size1 * b.size1 < 2147483648) (a_cc b_cc : Nat) (hac : a_cc < a.size2)
    (hbc : b_cc < b.size2) (s : KronState) (t : KronNat) (h : kron_rel s t) :
    kron_rel
      (kron_nonzeros a b (vget a.colind a_cc) (vget a.colind (a_cc + 1))
        (vget b.colind b_cc) (vget b.colind (b_cc + 1)) s)
      (kron_nonzeros_nat a b (vget a.colind a_cc) (vget a.colind (a_cc + 1))
        (vget b.colind b_cc) (vget b.colind (b_cc + 1)) t) := by
  have hla := wf_colind_le_nnz a ha (a_cc + 1) hac
  have hlb := wf_colind_le_nnz b hb (b_cc + 1) hbc
  have hma : vget a.colind a_cc ≤ vget a.colind (a_cc + 1) := ha.2.2.1 a_cc hac
  have hmb : vget b.colind b_cc ≤ vget b.colind (b_cc + 1) := hb.2.2.1 b_cc hbc
  unfold kron_nonzeros kron_nonzeros_nat forLoop
  simp only
  refine foldl_rel2 kron_rel _ _ _ s t h ?_
  intro a_el ha_el x y hxy
  have h1 := (List.mem_range'_1.1 ha_el).2
  have hal : vget a.row a_el < a.size1 := ha.2.2.2.2.1 a_el (by omega)
  refine foldl_rel2 kron_rel _ _ _ x y hxy ?_
  intro b_el hb_el u w huw
  have h2 := (List.mem_range'_1.1 hb_el).2
  have hbl : vget b.row b_el < b.size1 := hb.2.2.2.2.1 b_el (by omega)
  have hlt := kron_row_lt a.size1 b.size1 _ _ hal hbl
  obtain ⟨r1, r2, r3, r4⟩ := huw
  have e : wrap (wrap ((vget a.row a_el : Int) * (b.size1 : Int)) + (vget b.row b_el : Int)) =
      ((vget a.row a_el * b.size1 + vget b.row b_el : Nat) : Int) := by
    rw [wrap_mul_cast _ _ (by omega)]
    exact wrap_add_cast _ _ (by omega)
  refine ⟨r1, ?_, ?_, r4⟩
  · show u.r_row.set u.i _ = (w.r_row.set w.i _).map _
    rw [e, r2, r3, List.map_set]
  · show u.i + 1 = w.i + 1
    rw [r3]

theorem kron_column_sim (a b : Sparsity) (ha : a.wf) (hb : b.wf)
    (hr : a.size1 * b.size1 < 2147483648) (hz : a.nnz * b.nnz < 2147483648)
    (a_cc b_cc : Nat) (hac : a_cc < a.size2) (hbc : b_cc < b.size2)
    (s : KronState) (t : KronNat) (h : kron_rel s t)
    (hinv : kron_inv a b (a_cc * b.size2 + b_cc) t) :
    kron_rel (kron_column a b a_cc b_cc s) (kron_column_nat a b a_cc b_cc t) := by
  have hc := kron_index_lt a.size2 b.size2 a_cc b_cc hac hbc
  have hlen := length_kseg a b ha hb a_cc b_cc hac hbc
  have htot := offs_kseg_total a b ha hb
  have hmono := offs_mono (kseg a b) (show a_cc * b.size2 + b_cc + 1 ≤ a.size2 * b.size2 from hc)
  have hsucc := offs_succ (kseg a b) (a_cc * b.size2 + b_cc)
  have hma : vget a.colind a_cc ≤ vget a.colind (a_cc + 1) := ha.2.2.1 a_cc hac
  have hmb : vget b.colind b_cc ≤ vget b.colind (b_cc + 1) := hb.2.2.1 b_cc hbc
  obtain ⟨i1, -, -, -, i5, -⟩ := hinv
  obtain ⟨-, p2, p3, -, -⟩ := foldl_kpush (kseg a b (a_cc * b.size2 + b_cc)) t
  have hnz := kron_nonzeros_sim a b ha hb hr a_cc b_cc hac hbc s t h
  have hN := kron_nonzeros_nat_eq a b (vget a.colind a_cc) (vget a.colind (a_cc + 1))
    (vget b.colind b_cc) (vget b.colind (b_cc + 1)) t
  rw [col_rows_eq_map a ha a_cc hac, col_rows_eq_map b hb b_cc hbc,
    ← kseg_index a b a_cc b_cc hbc] at hN
  have hj : (kron_nonzeros_nat a b (vget a.colind a_cc) (vget a.colind (a_cc + 1))
      (vget b.colind b_cc) (vget b.colind (b_cc + 1)) t).j = a_cc * b.size2 + b_cc := by
    rw [hN, p2, i1]
  have hcol : (kron_nonzeros_nat a b (vget a.colind a_cc) (vget a.colind (a_cc + 1))
      (vget b.colind b_cc) (vget b.colind (b_cc + 1)) t).r_colind = t.r_colind := by
    rw [hN, p3]
  obtain ⟨r1, r2, r3, r4⟩ := hnz
  have hprod : (vget b.colind (b_cc + 1) - vget b.colind b_cc) *
      (vget a.colind (a_cc + 1) - vget a.colind a_cc) =
      (kseg a b (a_cc * b.size2 + b_cc)).length := by
    rw [hlen, Nat.mul_comm]
  have hX : vget t.r_colind (a_cc * b.size2 + b_cc) = offs (kseg a b) (a_cc * b.size2 + b_cc) :=
    i5 _ (Nat.le_refl _)
  have e : wrap (iget
        (kron_nonzeros a b (vget a.colind a_cc) (vget a.colind (a_cc + 1))
          (vget b.colind b_cc) (vget b.colind (b_cc + 1)) s).r_colind
        ((kron_nonzeros a b (vget a.colind a_cc) (vget a.colind (a_cc + 1))
          (vget b.colind b_cc) (vget b.colind (b_cc + 1)) s).j + 1 - 1) +
      wrap (((vget b.colind (b_cc + 1) : Int) - (vget b.colind b_cc : Int)) *
        ((vget a.colind (a_cc + 1) : Int) - (vget a.colind a_cc : Int)))) =
      ((vget (kron_nonzeros_nat a b (vget a.colind a_cc) (vget a.colind (a_cc + 1))
          (vget b.colind b_cc) (vget b.colind (b_cc + 1)) t).r_colind
          ((kron_nonzeros_nat a b (vget a.colind a_cc) (vget a.colind (a_cc + 1))
            (vget b.colind b_cc) (vget b.colind (b_cc + 1)) t).j + 1 - 1) +
        (vget b.colind (b_cc + 1) - vget b.colind b_cc) *
          (vget a.colind (a_cc + 1) - vget a.colind a_cc) : Nat) : Int) := by
    rw [r1, r4, iget_map_cast, ← Nat.cast_sub hmb, ← Nat.cast_sub hma, hj, hcol,
      Nat.add_sub_cancel, hX, hprod, wrap_mul_cast _ _ (by rw [hprod]; omega)]
    rw [hprod]
    exact wrap_add_cast _ _ (by omega)
  unfold kron_column kron_column_nat
  simp only
  refine ⟨?_, r2, r3, ?_⟩
  · rw [e, r1, r4, List.map_set]
  · rw [r4]

theorem kron_loop_sim (a b : Sparsity) (ha : a.wf) (hb : b.wf)
    (hr : a.size1 * b.size1 < 2147483648) (hc : a.size2 * b.size2 < 2147483648)
    (hz : a.nnz * b.nnz < 2147483648) :
    kron_rel (kron_loop a b) (kron_loop_nat a b) ∧
      kron_inv a b (a.size2 * b.size2) (kron_loop_nat a b) := by
  have h0 : kron_inv a b 0
      { r_colind := List.replicate (a.size2 * b.size2 + 1) 0,
        r_row := List.replicate (a.nnz * b.nnz) 0, i := 0, j := 0 } := by
    refine ⟨by simp, by simp [offs_zero], by simp, by simp, ?_, ?_⟩
    · intro d hd
      have : d = 0 := by omega
      subst this
      rw [offs_zero]
      exact vget_replicate_zero _ _
    · intro k hk
      rw [offs_zero] at hk
      omega
  have hinit : kron_rel
      { r_colind := List.replicate (wrap ((a.size2 : Int) * (b.size2 : Int)) + 1).toNat 0,
        r_row := List.replicate (wrap ((a.nnz : Int) * (b.nnz : Int))).toNat 0, i := 0, j := 0 }
      { r_colind := List.replicate (a.size2 * b.size2 + 1) 0,
        r_row := List.replicate (a.nnz * b.nnz) 0, i := 0, j := 0 } := by
    refine ⟨?_, ?_, rfl, rfl⟩
    · show List.replicate _ 0 = (List.replicate _ 0).map _
      rw [wrap_mul_cast _ _ hc, List.map_replicate,
        show (((a.size2 * b.size2 : Nat) : Int) + 1).toNat = a.size2 * b.size2 + 1 by omega]
      rfl
    · show List.replicate _ 0 = (List.replicate _ 0).map _
      rw [wrap_mul_cast _ _ hz, List.map_replicate, Int.toNat_ofNat]
      rfl
  have key := forLoop_ind2
    (fun a_cc (s : KronState) (t : KronNat) => kron_rel s t ∧ kron_inv a b (a_cc * b.size2) t)
    0 a.size2
    (fun s a_cc => forLoop 0 b.size2 (fun s b_cc => kron_column a b a_cc b_cc s) s)
    (fun t a_cc => forLoop 0 b.size2 (fun t b_cc => kron_column_nat a b a_cc b_cc t) t)
    _ _ (Nat.zero_le _) ⟨hinit, by rw [Nat.zero_mul]; exact h0⟩
    (by
      intro i x y _ hi hxy
      have := forLoop_ind2
        (fun b_cc (s : KronState) (t : KronNat) =>
          kron_rel s t ∧ kron_inv a b (i * b.size2 + b_cc) t)
        0 b.size2 (fun s b_cc => kron_column a b i b_cc s)
        (fun t b_cc => kron_column_nat a b i b_cc t) x y (Nat.zero_le _) hxy
        (fun b_cc u w _ hbc huw =>
          ⟨kron_column_sim a b ha hb hr hz i b_cc hi hbc u w huw.1 huw.2,
            kron_column_nat_spec a b ha hb i b_cc hi hbc w huw.2⟩)
      simp only at this
      rw [Nat.add_mul, Nat.one_mul]
      exact this)
  exact key

/-- On patterns that satisfy the invariant and whose products of row counts, of column
counts and of entry counts are below `2^31`, the loops of `kron` build the pattern whose
column `c` holds the rows `ar*b.size1()+br` for the rows `ar` of column `c / b.size2()` of
`a` and the rows `br` of column `c % b.size2()` of `b`. -/
theorem kron_general_eq (a b : Sparsity) (ha : a.wf) (hb : b.wf)
    (hr : a.size1 * b.size1 < 2147483648) (hc : a.size2 * b.size2 < 2147483648)
    (hz : a.nnz * b.nnz < 2147483648) :
    kron_general a b = .ok (ofSegs (a.size1 * b.size1) (a.size2 * b.size2) (kseg a b)) := by
  obtain ⟨⟨r1, r2, r3, r4⟩, i1, i2, i3, i4, i5, i6⟩ := kron_loop_sim a b ha hb hr hc hz
  have htot := offs_kseg_total a b ha hb
  have hcol : (kron_loop_nat a b).r_colind =
      (ofSegs (a.size1 * b.size1) (a.size2 * b.size2) (kseg a b)).colind := by
    apply ext_vget
    · rw [i3]
      simp [ofSegs]
    · intro d hd
      rw [i3] at hd
      rw [i5 d (by omega), ofSegs_colind _ _ _ _ (by omega)]
  have hrow : (kron_loop_nat a b).r_row =
      (ofSegs (a.size1 * b.size1) (a.size2 * b.size2) (kseg a b)).row := by
    apply ext_vget
    · rw [i4, ← htot]
      rfl
    · intro k hk
      rw [i4, ← htot] at hk
      exact i6 k hk
  unfold kron_general
  simp only
  rw [wrap_mul_cast _ _ hc, wrap_mul_cast _ _ hz, wrap_mul_cast _ _ hr, if_neg (by omega),
    r3, r4, i1, i2, htot, if_neg (by omega), r1, r2, ofInts_cast, hcol, hrow]
  exact ofVectors_wf _ _ _ _ (kseg_wf a b ha hb)

theorem mul_add_inj (n a b c d : Nat) (hb : b < n) (hd : d < n) (e : a * n + b = c * n + d) :
    a = c ∧ b = d := by
  have h1 : (a * n + b) / n = a := by
    rw [Nat.mul_comm, Nat.mul_add_div (by omega), Nat.div_eq_of_lt hb, Nat.add_zero]
  have h2 : (c * n + d) / n = c := by
    rw [Nat.mul_comm, Nat.mul_add_div (by omega), Nat.div_eq_of_lt hd, Nat.add_zero]
  have h3 : a = c := by rw [← h1, ← h2, e]
  subst h3
  exact ⟨rfl, by omega⟩

end Sparsity
end casadi

namespace casadi
namespace Sparsity

/-- C22, as amended: for patterns `a` and `b` that satisfy the invariant and for which
`a.size1()*b.size1()`, `a.size2()*b.size2()` and `a.nnz()*b.nnz()` are below `2^31`, `kron`
returns a pattern `q` that satisfies the invariant, with `a.size1()*b.size1()` rows and
`a.size2()*b.size2()` columns.  For a position `(br, bc)` of `b`, `q` has an entry at
`(ar*b.size1()+br, ac*b.size2()+bc)` exactly when `a` has an entry at `(ar, ac)` and `b`
has one at `(br, bc)`, and every entry of `q` is at such a place.  The `nnz` of `q` is
`a.nnz()*b.nnz()`, the rows of each column of `q` increase strictly, `q` is what the
general loop produces, and when `a` and `b` are dense it is the dense pattern of the quick
return. -/
theorem kron_spec (a b : Sparsity) (ha : a.wf) (hb : b.wf)
    (hr : a.size1 * b.size1 < 2147483648) (hc : a.size2 * b.size2 < 2147483648)
    (hz : a.nnz * b.nnz < 2147483648) :
    ∃ q, kron a b = .ok q ∧ q.wf ∧
      q.size1 = a.size1 * b.size1 ∧ q.size2 = a.size2 * b.size2 ∧
      (∀ ar ac br bc, br < b.size1 → bc < b.size2 →
        (q.has_entry (ar * b.size1 + br) (ac * b.size2 + bc) ↔
          a.has_entry ar ac ∧ b.has_entry br bc)) ∧
      (∀ r c, q.has_entry r c →
        ∃ ar ac br bc, br < b.size1 ∧ bc < b.size2 ∧
          r = ar * b.size1 + br ∧ c = ac * b.size2 + bc) ∧
      q.nnz = a.nnz * b.nnz ∧
      (∀ c, c < q.size2 → (col_rows q c).Pairwise (· < ·)) ∧
      kron_general a b = .ok q ∧
      (a.is_dense = true → b.is_dense = true →
        dense (a.size1 * b.size1) (a.size2 * b.size2) = .ok q) := by
  have hK := kseg_wf a b ha hb
  have hgen := kron_general_eq a b ha hb hr hc hz
  have hnnz : (ofSegs (a.size1 * b.size1) (a.size2 * b.size2) (kseg a b)).nnz =
      a.nnz * b.nnz := by
    rw [ofSegs_nnz, offs_kseg_total a b ha hb]
  have hdense : a.is_dense = true → b.is_dense = true →
      dense (a.size1 * b.size1) (a.size2 * b.size2) =
        .ok (ofSegs (a.size1 * b.size1) (a.size2 * b.size2) (kseg a b)) := by
    intro h1 h2
    have e1 : a.nnz = a.nrow * a.ncol := by simpa [is_dense, numel] using h1
    have e2 : b.nnz = b.nrow * b.ncol := by simpa [is_dense, numel] using h2
    have e3 : (ofSegs (a.size1 * b.size1) (a.size2 * b.size2) (kseg a b)).nnz =
        (a.size1 * b.size1) * (a.size2 * b.size2) := by
      rw [hnnz, e1, e2]
      exact Nat.mul_mul_mul_comm _ _ _ _
    have := wf_dense_eq _ hK e3
    rw [dense_eq _ _ (by
      have e4 : a.size2 * b.size2 * (a.size1 * b.size1) = a.nnz * b.nnz := by
        rw [hnnz] at e3
        rw [e3]
        exact Nat.mul_comm _ _
      rw [e4]
      exact hz)]
    exact congrArg Except.ok this.symm
  refine ⟨_, ?_, hK, rfl, rfl, ?_, ?_, hnnz, ?_, hgen, hdense⟩
  · unfold kron
    by_cases hd : (a.is_dense && b.is_dense) = true
    · rw [if_pos hd]
      rw [Bool.and_eq_true] at hd
      simp only
      rw [wrap_mul_cast _ _ hr, wrap_mul_cast _ _ hc, if_neg (by omega), if_neg (by omega),
        Int.toNat_ofNat, Int.toNat_ofNat]
      exact hdense hd.1 hd.2
    · rw [if_neg hd]
      exact hgen
  · intro ar ac br bc hbr hbc
    have h1 : (ac * b.size2 + bc) / b.size2 = ac := by
      rw [Nat.mul_comm, Nat.mul_add_div (by omega), Nat.div_eq_of_lt hbc, Nat.add_zero]
    have h2 : (ac * b.size2 + bc) % b.size2 = bc := by
      rw [Nat.mul_comm, Nat.mul_add_mod, Nat.mod_eq_of_lt hbc]
    rw [ofSegs_has_entry]
    constructor
    · rintro ⟨hc, hr⟩
      obtain ⟨ar2, br2, k1, k2, e⟩ := (mem_kseg a b ha hb _ hc _).1 hr
      rw [h1] at k1
      rw [h2] at k2
      have hlt := (has_entry_lt b hb _ _ k2).1
      obtain ⟨e1, e2⟩ := mul_add_inj b.size1 ar br ar2 br2 hbr hlt e
      rw [e1, e2]
      exact ⟨k1, k2⟩
    · rintro ⟨k1, k2⟩
      have hc := kron_index_lt a.size2 b.size2 ac bc (has_entry_lt a ha _ _ k1).2 hbc
      refine ⟨hc, (mem_kseg a b ha hb _ hc _).2 ⟨ar, br, ?_, ?_, rfl⟩⟩
      · rw [h1]
        exact k1
      · rw [h2]
        exact k2
  · intro r c h
    rw [ofSegs_has_entry] at h
    obtain ⟨hc, hr⟩ := h
    obtain ⟨ar, br, _, k2, e⟩ := (mem_kseg a b ha hb _ hc _).1 hr
    refine ⟨ar, c / b.size2, br, c % b.size2, (has_entry_lt b hb _ _ k2).1,
      (kseg_div_mod a b c hc).2, e, ?_⟩
    rw [Nat.mul_comm]
    exact (Nat.div_add_mod c b.size2).symm
  · intro c hc
    exact col_rows_pairwise _ hK c hc

theorem kron_spec_witness :
    ∃ q, kron ⟨2, 2, [0, 1, 3], [0, 0, 1]⟩ ⟨2, 1, [0, 1], [1]⟩ = .ok q ∧ q.wf ∧
      q.size1 = 2 * 2 ∧ q.size2 = 2 * 1 ∧ q.nnz = 3 * 1 :=
  let ⟨q, h1, h2, h3, h4, _, _, h5, _⟩ :=
    kron_spec ⟨2, 2, [0, 1, 3], [0, 0, 1]⟩ ⟨2, 1, [0, 1], [1]⟩ (by decide) (by decide)
      (by decide) (by decide) (by decide)
  ⟨q, h1, h2, h3, h4, h5⟩

/-- C22, as stated, fails: the empty pattern with 65536 rows and one column is valid, and
for two of them the `int` product of the row counts is 0; `kron` returns the empty pattern
with no row and one column. -/
theorem kron_spec_counterexample :
    (⟨65536, 1, [0, 0], []⟩ : Sparsity).wf ∧
      kron ⟨65536, 1, [0, 0], []⟩ ⟨65536, 1, [0, 0], []⟩ = .ok ⟨0, 1, [0, 0], []⟩ ∧
      size1 ⟨65536, 1, [0, 0], []⟩ * size1 ⟨65536, 1, [0, 0], []⟩ = 4294967296 := by
  decide

end Sparsity
end casadi

namespace casadi

theorem iget_set (l : List Int) (i j : Nat) (a : Int) :
    iget (l.set i a) j = if i = j ∧ i < l.length then a else iget l j := by
  simp only [iget, List.getD_eq_getElem?_getD, List.getElem?_set]
  by_cases h : i = j
  · subst h
    by_cases h2 : i < l.length
    · simp [h2]
    · have : l[i]? = none := List.getElem?_eq_none (by omega)
      simp [h2, this]
  · simp [h]

theorem bget_set (l : List Bool) (i j : Nat) (a : Bool) :
    bget (l.set i a) j = if i = j ∧ i < l.length then a else bget l j := by
  simp only [bget, List.getD_eq_getElem?_getD, List.getElem?_set]
  by_cases h : i = j
  · subst h
    by_cases h2 : i < l.length
    · simp [h2]
    · have : l[i]? = none := List.getElem?_eq_none (by omega)
      simp [h2, this]
  · simp [h]

namespace Sparsity

theorem linked_set (next : List Int) (k : Nat) (v : Int) (head : Int) (ch : List Nat)
    (hk : k ∉ ch) (h : linked next head ch) : linked (next.set k v) head ch := by
  induction ch generalizing head with
  | nil => exact h
  | cons c rest ih =>
    obtain ⟨h1, h2⟩ := h
    refine ⟨h1, ?_⟩
    rw [iget_set, if_neg (fun e => hk (by rw [e.1]; exact List.mem_cons_self _ _))]
    exact ih _ (fun e => hk (List.mem_cons_of_mem _ e)) h2

theorem linked_ne (next : List Int) (head : Int) (ch : List Nat) (h : linked next head ch) :
    ∀ k ∈ ch, iget next k ≠ -1 := by
  induction ch generalizing head with
  | nil => intro k hk; exact absurd hk (List.not_mem_nil k)
  | cons c rest ih =>
    obtain ⟨_, h2⟩ := h
    intro k hk
    rcases List.mem_cons.1 hk with e | e
    · subst e
      cases rest with
      | nil =>
        have e2 : iget next k = -2 := h2
        omega
      | cons d rest2 =>
        have e2 : iget next k = (d : Int) := h2.1
        omega
    · exact ih _ h2 k e

theorem mark_spec (n : Nat) (s : Pass2State) (ch : List Nat) (k : Nat) (hk : k < n)
    (h : norm_inv n s ch) :
    ∃ ch2, norm_inv n (norm_0_mul_mark s k) ch2 ∧ (∀ m, m ∈ ch2 ↔ m = k ∨ m ∈ ch) ∧
      (norm_0_mul_mark s k).nnz = s.nnz ∧
      (ch.length = s.length → ch2.length = (norm_0_mul_mark s k).length) := by
  obtain ⟨n1, n2, nd, lt, lk, fr, sm⟩ := h
  have hsums : ∀ m, m < n → (bget (s.sums.set k true) m = true ↔ m = k ∨ m ∈ ch) := by
    intro m hm
    rw [bget_set]
    by_cases e : k = m
    · rw [if_pos ⟨e, by omega⟩]
      simp [e]
    · rw [if_neg (fun h => e h.1), sm m hm]
      constructor
      · exact Or.inr
      · rintro (h | h)
        · exact absurd h.symm e
        · exact h
  by_cases hm : k ∈ ch
  · have hne := linked_ne s.next s.head ch lk k hm
    have e : norm_0_mul_mark s k = { s with sums := s.sums.set k true } := by
      unfold norm_0_mul_mark
      simp only
      rw [if_neg hne]
    rw [e]
    refine ⟨ch, ⟨n1, by simp [n2], nd, lt, lk, fr, ?_⟩, ?_, rfl, fun h => h⟩
    · intro m hm2
      rw [hsums m hm2]
      constructor
      · rintro (h | h)
        · rw [h]; exact hm
        · exact h
      · exact Or.inr
    · intro m
      constructor
      · exact Or.inr
      · rintro (h | h)
        · rw [h]; exact hm
        · exact h
  · have heq := fr k hk hm
    have e : norm_0_mul_mark s k =
        { s with sums := s.sums.set k true, next := s.next.set k s.head, head := (k : Int),
                 length := s.length + 1 } := by
      unfold norm_0_mul_mark
      simp only
      rw [if_pos heq]
    rw [e]
    refine ⟨k :: ch, ⟨by simp [n1], by simp [n2], List.nodup_cons.2 ⟨hm, nd⟩, ?_, ?_, ?_, ?_⟩,
      ?_, rfl, ?_⟩
    · intro m hm2
      rcases List.mem_cons.1 hm2 with h | h
      · rw [h]; exact hk
      · exact lt m h
    · refine ⟨rfl, ?_⟩
      show linked (s.next.set k s.head) (iget (s.next.set k s.head) k) ch
      rw [iget_set, if_pos ⟨rfl, by omega⟩]
      exact linked_set _ _ _ _ _ hm lk
    · intro m hm2 hm3
      show iget (s.next.set k s.head) m = -1
      rw [iget_set, if_neg (fun h => hm3 (by rw [← h.1]; exact List.mem_cons_self _ _))]
      exact fr m hm2 (fun h => hm3 (List.mem_cons_of_mem _ h))
    · intro m hm2
      show bget (s.sums.set k true) m = true ↔ _
      rw [hsums m hm2, List.mem_cons]
    · intro m
      exact List.mem_cons
    · intro hl
      show (k :: ch).length = s.length + 1
      rw [List.length_cons, hl]

theorem foldl_mark_spec (n : Nat) (L : List Nat) (hL : ∀ k ∈ L, k < n) (s : Pass2State)
    (ch : List Nat) (h : norm_inv n s ch) (hl : ch.length = s.length) :
    ∃ ch2, norm_inv n (L.foldl norm_0_mul_mark s) ch2 ∧ (∀ m, m ∈ ch2 ↔ m ∈ L ∨ m ∈ ch) ∧
      (L.foldl norm_0_mul_mark s).nnz = s.nnz ∧
      ch2.length = (L.foldl norm_0_mul_mark s).length := by
  induction L generalizing s ch with
  | nil => exact ⟨ch, h, fun m => by simp, rfl, hl⟩
  | cons k L ih =>
    obtain ⟨c1, h1, h2, h3, h4⟩ := mark_spec n s ch k (hL k (List.mem_cons_self _ _)) h
    obtain ⟨c2, k1, k2, k3, k4⟩ :=
      ih (fun m hm => hL m (List.mem_cons_of_mem _ hm)) (norm_0_mul_mark s k) c1 h1 (h4 hl)
    refine ⟨c2, k1, ?_, k3.trans h3, k4⟩
    intro m
    rw [k2 m, h2 m, List.mem_cons]
    constructor
    · rintro (h | h | h)
      · exact Or.inl (Or.inr h)
      · exact Or.inl (Or.inl h)
      · exact Or.inr h
    · rintro ((h | h) | h)
      · exact Or.inr (Or.inl h)
      · exact Or.inl h
      · exact Or.inr (Or.inr h)

theorem norm_0_mul_scan_eq (x A : Sparsity) (s : Pass2State) (i : Nat) :
    norm_0_mul_scan x A s i = (scan_list x A i).foldl norm_0_mul_mark s := by
  unfold norm_0_mul_scan scan_list
  simp only
  rw [show (fun (s : Pass2State) jj =>
      forLoop (vget x.colind (vget A.row jj)) (vget x.colind (vget A.row jj + 1))
        (fun (s : Pass2State) kk => norm_0_mul_mark s (vget x.row kk)) s) =
    (fun (s : Pass2State) jj =>
      ((List.range' (vget x.colind (vget A.row jj))
        (vget x.colind (vget A.row jj + 1) - vget x.colind (vget A.row jj))).map
          (vget x.row)).foldl norm_0_mul_mark s) from
    funext fun t => funext fun jj => forLoop_eq_foldl_map _ _ (vget x.row) norm_0_mul_mark t]
  unfold forLoop
  rw [foldl_flatMap_eq]

theorem mem_scan_list (x A : Sparsity) (hx : x.wf) (hA : A.wf) (hd : A.size1 = x.size2)
    (i : Nat) (hi : i < A.ncol) (k : Nat) :
    k ∈ scan_list x A i ↔ ∃ j, x.has_entry k j ∧ A.has_entry j i := by
  have hd2 : A.nrow = x.ncol := hd
  have hmA := hA.2.2.1 i hi
  have hlen := wf_colind_le_nnz A hA (i + 1) (by omega)
  unfold scan_list
  rw [List.mem_flatMap]
  constructor
  · rintro ⟨jj, h1, h2⟩
    rw [List.mem_range'_1] at h1
    obtain ⟨kk, h3, h4⟩ := List.mem_map.1 h2
    rw [List.mem_range'_1] at h3
    have hj := hA.2.2.2.2.1 jj (by omega)
    have hmx := hx.2.2.1 (vget A.row jj) (by omega)
    exact ⟨vget A.row jj, ⟨by omega, kk, h3.1, by omega, h4⟩, hi, jj, h1.1, by omega, rfl⟩
  · rintro ⟨j, ⟨hj, kk, k1, k2, k3⟩, _, jj, j1, j2, j3⟩
    subst j3
    refine ⟨jj, ?_, List.mem_map.2 ⟨kk, ?_, k3⟩⟩
    · rw [List.mem_range'_1]
      omega
    · rw [List.mem_range'_1]
      omega

theorem scan_list_lt (x A : Sparsity) (hx : x.wf) (hA : A.wf) (hd : A.size1 = x.size2)
    (i : Nat) (hi : i < A.ncol) : ∀ k ∈ scan_list x A i, k < x.nrow := by
  intro k hk
  obtain ⟨j, h1, _⟩ := (mem_scan_list x A hx hA hd i hi k).1 hk
  exact (has_entry_lt x hx _ _ h1).1

end Sparsity
end casadi

namespace casadi
namespace Sparsity

theorem wrap_wrap (a : Int) : wrap (wrap a) = wrap a := by
  rw [wrap_eq, wrap_eq]
  omega

theorem pop_spec (n : Nat) (s : Pass2State) (k : Nat) (rest : List Nat)
    (h : norm_inv n s (k :: rest)) :
    norm_inv n (norm_0_mul_pop s) rest ∧ (norm_0_mul_pop s).nnz = wrap (s.nnz + 1) := by
  obtain ⟨n1, n2, nd, lt, lk, fr, sm⟩ := h
  obtain ⟨hh, lk2⟩ := lk
  have hk : k < n := lt k (List.mem_cons_self _ _)
  have hnot : k ∉ rest := (List.nodup_cons.1 nd).1
  have htn : s.head.toNat = k := by rw [hh]; rfl
  have hs : bget s.sums k = true := (sm k hk).2 (List.mem_cons_self _ _)
  unfold norm_0_mul_pop
  simp only
  rw [htn, hs]
  refine ⟨⟨by simp [n1], by simp [n2], (List.nodup_cons.1 nd).2,
    fun m hm => lt m (List.mem_cons_of_mem _ hm), ?_, ?_, ?_⟩, by simp⟩
  · exact linked_set _ _ _ _ _ hnot lk2
  · intro m hm hm2
    show iget (s.next.set k (-1)) m = -1
    rw [iget_set]
    by_cases e : k = m
    · rw [if_pos ⟨e, by omega⟩]
    · rw [if_neg (fun h => e h.1)]
      exact fr m hm (fun h => by
        rcases List.mem_cons.1 h with h | h
        · exact e h.symm
        · exact hm2 h)
  · intro m hm
    show bget (s.sums.set k false) m = true ↔ _
    rw [bget_set]
    by_cases e : k = m
    · rw [if_pos ⟨e, by omega⟩, ← e]
      simp [hnot]
    · rw [if_neg (fun h => e h.1), sm m hm, List.mem_cons]
      constructor
      · rintro (h | h)
        · exact absurd h.symm e
        · exact h
      · exact Or.inr

theorem pop_length (s : Pass2State) : (norm_0_mul_pop s).length = s.length := rfl

theorem count_spec (n : Nat) (s : Pass2State) (ch : List Nat) (h : norm_inv n s ch)
    (hl : ch.length = s.length) (hw : wrap s.nnz = s.nnz) :
    norm_inv n (norm_0_mul_count s) [] ∧
      (norm_0_mul_count s).nnz = wrap (s.nnz + (ch.length : Int)) := by
  have key := forLoop_ind (fun jj (t : Pass2State) =>
    ∃ rest, norm_inv n t rest ∧ rest.length + jj = ch.length ∧
      t.nnz = wrap (s.nnz + (jj : Int)))
    0 s.length (fun (s : Pass2State) _ => norm_0_mul_pop s) s (Nat.zero_le _)
    ⟨ch, h, rfl, by rw [Nat.cast_zero, Int.add_zero, hw]⟩
    (by
      rintro jj t _ hjj ⟨rest, r1, r2, r3⟩
      cases rest with
      | nil =>
        simp only [List.length_nil] at r2
        omega
      | cons k rest =>
        obtain ⟨p1, p2⟩ := pop_spec n t k rest r1
        refine ⟨rest, p1, ?_, ?_⟩
        · rw [List.length_cons] at r2
          omega
        · show (norm_0_mul_pop t).nnz = _
          rw [p2, r3, wrap_add_wrap, Nat.cast_succ, Int.add_assoc])
  obtain ⟨rest, r1, r2, r3⟩ := key
  have : rest = [] := List.eq_nil_of_length_eq_zero (by omega)
  subst this
  exact ⟨r1, by rw [hl]; exact r3⟩

theorem column_spec (n : Nat) (x A : Sparsity) (s : Pass2State) (i : Nat)
    (hL : ∀ k ∈ scan_list x A i, k < n) (h : norm_clean n s) (hw : wrap s.nnz = s.nnz) :
    ∃ ch : List Nat, ch.Nodup ∧ (∀ m, m ∈ ch ↔ m ∈ scan_list x A i) ∧
      norm_clean n (norm_0_mul_column x A s i) ∧
      (norm_0_mul_column x A s i).nnz = wrap (s.nnz + (ch.length : Int)) := by
  obtain ⟨c1, c2, c3, c4⟩ := h
  have h0 : norm_inv n { s with head := -2, length := 0 } [] :=
    ⟨c1, c2, List.nodup_nil, fun k hk => absurd hk (List.not_mem_nil k), rfl,
      fun k hk _ => c3 k hk, fun k hk => by
        show bget s.sums k = true ↔ _
        rw [c4 k hk]
        simp⟩
  obtain ⟨ch, k1, k2, k3, k4⟩ := foldl_mark_spec n (scan_list x A i) hL _ [] h0 rfl
  obtain ⟨q1, q2⟩ := count_spec n _ ch k1 k4 (by rw [k3]; exact hw)
  obtain ⟨m1, m2, _, _, m5, m6, m7⟩ := q1
  refine ⟨ch, k1.2.2.1, fun m => by rw [k2 m]; simp, ?_, ?_⟩
  · unfold norm_0_mul_column
    simp only
    rw [norm_0_mul_scan_eq]
    exact ⟨m1, m2, fun k hk => m6 k hk (List.not_mem_nil k), fun k hk => by
      have := m7 k hk
      simp only [List.not_mem_nil, iff_false, Bool.not_eq_true] at this
      exact this⟩
  · unfold norm_0_mul_column
    simp only
    rw [norm_0_mul_scan_eq, q2, k3]

theorem pass1_mask_length (x A : Sparsity) : (norm_0_mul_pass1 x A).mask.length = x.size1 := by
  unfold norm_0_mul_pass1
  refine forLoop_inv (fun (s : Pass1State) => s.mask.length = x.size1) _ _ _ _
    (by simp) ?_
  intro i s _ _ hs
  show (forLoop _ _ _ (s.mask, 0)).1.length = x.size1
  refine forLoop_inv (fun (r : List Int × Int) => r.1.length = x.size1) _ _ _ _ hs ?_
  intro jj r _ _ hr
  refine forLoop_inv (fun (r : List Int × Int) => r.1.length = x.size1) _ _ _ _ hr ?_
  intro kk r2 _ _ hr2
  simp only
  split
  · simp [hr2]
  · exact hr2

theorem pass2_spec (x A : Sparsity) (hx : x.wf) (hA : A.wf) (hd : A.size1 = x.size2)
    (s : Pass2State) (hs : norm_clean x.nrow s) (h0 : s.nnz = 0) :
    ∃ pairs : List (Nat × Nat), pairs.Nodup ∧
      wrap (pairs.length : Int) = (forLoop 0 A.size2 (norm_0_mul_column x A) s).nnz ∧
      ∀ k c, (k, c) ∈ pairs ↔ ∃ j, x.has_entry k j ∧ A.has_entry j c := by
  have key := forLoop_ind (fun i (t : Pass2State) =>
    norm_clean x.nrow t ∧ ∃ pairs : List (Nat × Nat), pairs.Nodup ∧
      wrap (pairs.length : Int) = t.nnz ∧
      ∀ k c, (k, c) ∈ pairs ↔ c < i ∧ ∃ j, x.has_entry k j ∧ A.has_entry j c)
    0 A.size2 (norm_0_mul_column x A) s (Nat.zero_le _)
    ⟨hs, [], List.nodup_nil, by rw [h0]; rfl, fun k c => by simp⟩
    (by
      rintro i t _ hi ⟨hc, pairs, p1, p2, p3⟩
      obtain ⟨ch, c1, c2, c3, c4⟩ :=
        column_spec x.nrow x A t i (scan_list_lt x A hx hA hd i hi) hc
          (by rw [← p2, wrap_wrap])
      refine ⟨c3, pairs ++ ch.map (fun k => (k, i)), ?_, ?_, ?_⟩
      · refine List.Nodup.append p1 (c1.map (fun a b e => (Prod.mk.inj e).1)) ?_
        intro p hp1 hp2
        obtain ⟨k, _, e⟩ := List.mem_map.1 hp2
        subst e
        have := ((p3 k i).1 hp1).1
        omega
      · rw [List.length_append, List.length_map, c4, ← p2, wrap_add_wrap, Nat.cast_add]
      · intro k c
        rw [List.mem_append, p3, List.mem_map]
        constructor
        · rintro (⟨h1, h2⟩ | ⟨k2, h1, h2⟩)
          · exact ⟨by omega, h2⟩
          · obtain ⟨e1, e2⟩ := Prod.mk.inj h2
            subst e1
            subst e2
            exact ⟨by omega, (mem_scan_list x A hx hA hd _ hi _).1 ((c2 _).1 h1)⟩
        · rintro ⟨h1, h2⟩
          by_cases e : c = i
          · subst e
            exact Or.inr ⟨k, (c2 _).2 ((mem_scan_list x A hx hA hd _ hi _).2 h2), rfl⟩
          · exact Or.inl ⟨by omega, h2⟩)
  obtain ⟨_, pairs, p1, p2, p3⟩ := key
  refine ⟨pairs, p1, p2, fun k c => ?_⟩
  rw [p3]
  constructor
  · exact fun h => h.2
  · rintro ⟨j, h1, h2⟩
    exact ⟨h2.1, j, h1, h2⟩

end Sparsity
end casadi

namespace casadi
namespace Sparsity

/-- With matching dimensions and a work vector whose size fits an `int`, `norm_0_mul`
returns the number of pairs `(k, i)` for which some `j` has an entry of `x` at `(k, j)` and
an entry of `A` at `(j, i)`, as the `int` counter holds it. -/
theorem norm_0_mul_eq (x A : Sparsity) (hx : x.wf) (hA : A.wf) (hd : A.size1 = x.size2)
    (hw : A.size2 + 1 + x.size1 < 2147483648) :
    ∃ S : Finset (Nat × Nat),
      (∀ k i, (k, i) ∈ S ↔ ∃ j, x.has_entry k j ∧ A.has_entry j i) ∧
      norm_0_mul x A = .ok (wrap (S.card : Int)) := by
  have hlen := pass1_mask_length x A
  obtain ⟨pairs, p1, p2, p3⟩ := pass2_spec x A hx hA hd
    { Cp := (norm_0_mul_pass1 x A).Cp.set 0 0,
      next := (norm_0_mul_pass1 x A).mask.map (fun _ => -1),
      sums := List.replicate x.size1 false, nnz := 0, head := 0, length := 0 }
    ⟨by simp only [List.length_map]; exact hlen, by simp; rfl,
      fun k hk => by
        show iget ((norm_0_mul_pass1 x A).mask.map (fun _ => -1)) k = -1
        unfold iget
        rw [List.getD_eq_getElem?_getD, List.getElem?_map,
          List.getElem?_eq_getElem (show k < (norm_0_mul_pass1 x A).mask.length by
            rw [hlen]; exact hk)]
        rfl,
      fun k hk => by
        show bget (List.replicate x.size1 false) k = false
        unfold bget
        rw [List.getD_eq_getElem?_getD, List.getElem?_replicate]
        split <;> rfl⟩ rfl
  refine ⟨pairs.toFinset, fun k i => by rw [List.mem_toFinset, p3], ?_⟩
  rw [List.toFinset_card_of_nodup p1, p2]
  unfold norm_0_mul
  have e : ((A.size2 : Int) + 1 + (x.size1 : Int)) = ((A.size2 + 1 + x.size1 : Nat) : Int) := by
    rw [Nat.cast_add, Nat.cast_add, Nat.cast_one]
  rw [if_neg (not_not.2 hd)]
  simp only
  rw [e, if_neg (fun h => by have := (wrap_lt_iff _).1 h; omega)]

/-- With matching dimensions and a work vector whose size does not fit an `int`,
`norm_0_mul` returns no count. -/
theorem norm_0_mul_work (x A : Sparsity) (hd : A.size1 = x.size2)
    (hw : 2147483648 ≤ A.size2 + 1 + x.size1) :
    norm_0_mul x A = .error "out of range: Iwork" := by
  unfold norm_0_mul
  have e : ((A.size2 : Int) + 1 + (x.size1 : Int)) = ((A.size2 + 1 + x.size1 : Nat) : Int) := by
    rw [Nat.cast_add, Nat.cast_add, Nat.cast_one]
  rw [if_neg (not_not.2 hd)]
  simp only
  rw [e, if_pos ((wrap_lt_iff _).2 hw)]

/-- C23, as amended: for patterns `x` and `A` that satisfy the invariant, with
`A.size2() + 1 + x.size1()` below `2^31`: `norm_0_mul(x, A)` with `A.size1() == x.size2()`
returns the number of pairs `(k, i)` for which some `j` has an entry of `x` at `(k, j)`
and an entry of `A` at `(j, i)`, as an `int` holds it: the number itself when it is below
`2^31`, and its 32-bit wrap in general; and the call fails exactly when
`A.size1() != x.size2()`.  With `A.size2() + 1 + x.size1()` of `2^31` or more the call
returns no count. -/
theorem norm_0_mul_spec (x A : Sparsity) (hx : x.wf) (hA : A.wf) :
    (A.size2 + 1 + x.size1 < 2147483648 →
      (A.size1 = x.size2 →
        ∃ S : Finset (Nat × Nat),
          (∀ k i, (k, i) ∈ S ↔ ∃ j, x.has_entry k j ∧ A.has_entry j i) ∧
          norm_0_mul x A = .ok (wrap (S.card : Int)) ∧
          (S.card < 2147483648 → norm_0_mul x A = .ok (S.card : Int))) ∧
      ((∃ e, norm_0_mul x A = .error e) ↔ A.size1 ≠ x.size2)) ∧
    (2147483648 ≤ A.size2 + 1 + x.size1 → ∃ e, norm_0_mul x A = .error e) := by
  refine ⟨fun hw => ⟨?_, ?_, ?_⟩, ?_⟩
  · intro hd
    obtain ⟨S, h1, h2⟩ := norm_0_mul_eq x A hx hA hd hw
    exact ⟨S, h1, h2, fun hlt => by rw [h2, wrap_of_lt _ hlt]⟩
  · rintro ⟨e, he⟩ hd
    obtain ⟨S, _, h2⟩ := norm_0_mul_eq x A hx hA hd hw
    rw [h2] at he
    exact absurd he (by simp)
  · intro hd
    unfold norm_0_mul
    rw [if_pos hd]
    exact ⟨_, rfl⟩
  · intro hw
    by_cases hd : A.size1 = x.size2
    · exact ⟨_, norm_0_mul_work x A hd hw⟩
    · unfold norm_0_mul
      rw [if_pos hd]
      exact ⟨_, rfl⟩

theorem norm_0_mul_spec_witness :
    ∃ S : Finset (Nat × Nat),
      (∀ k i, (k, i) ∈ S ↔ ∃ j, has_entry ⟨3, 2, [0, 2, 3], [0, 2, 1]⟩ k j ∧
        has_entry ⟨2, 3, [0, 1, 3, 3], [0, 0, 1]⟩ j i) ∧
      norm_0_mul ⟨3, 2, [0, 2, 3], [0, 2, 1]⟩ ⟨2, 3, [0, 1, 3, 3], [0, 0, 1]⟩ =
        .ok (wrap (S.card : Int)) ∧
      norm_0_mul ⟨3, 2, [0, 2, 3], [0, 2, 1]⟩ ⟨2, 3, [0, 1, 3, 3], [0, 0, 1]⟩ = .ok 5 ∧
      ∃ e, norm_0_mul ⟨2147483646, 1, [0, 0], []⟩ ⟨1, 1, [0, 0], []⟩ = .error e :=
  let ⟨S, h1, h2, _⟩ :=
    ((norm_0_mul_spec ⟨3, 2, [0, 2, 3], [0, 2, 1]⟩ ⟨2, 3, [0, 1, 3, 3], [0, 0, 1]⟩
      (by decide) (by decide)).1 (by decide)).1 (by decide)
  ⟨S, h1, h2, by decide,
    (norm_0_mul_spec ⟨2147483646, 1, [0, 0], []⟩ ⟨1, 1, [0, 0], []⟩
      (by decide) (by decide)).2 (by decide)⟩

/-- C23, as stated, fails: for the dense patterns `x` with 65536 rows and one column and
`A` with one row and 65536 columns, the product has an entry at each of its `2^32`
places, and the `int` counter of `norm_0_mul` ends at 0. -/
theorem norm_0_mul_spec_counterexample :
    ∃ x A : Sparsity, dense 65536 1 = .ok x ∧ dense 1 65536 = .ok A ∧ x.wf ∧ A.wf ∧
      A.size1 = x.size2 ∧
      (∀ k i, k < 65536 → i < 65536 → ∃ j, x.has_entry k j ∧ A.has_entry j i) ∧
      norm_0_mul x A = .ok 0 := by
  have hx := dense_wf 65536 1
  have hA := dense_wf 1 65536
  have hall : ∀ k i, k < 65536 → i < 65536 →
      ∃ j, has_entry ⟨65536, 1, dense_colind 65536 1, dense_row 65536 1⟩ k j ∧
        has_entry ⟨1, 65536, dense_colind 1 65536, dense_row 1 65536⟩ j i :=
    fun k i hk hi => ⟨0, dense_has_entry 65536 1 k 0 hk (by decide),
      dense_has_entry 1 65536 0 i (by decide) hi⟩
  refine ⟨_, _, dense_eq 65536 1 (by decide), dense_eq 1 65536 (by decide), hx, hA, rfl,
    hall, ?_⟩
  obtain ⟨S, h1, h2⟩ := norm_0_mul_eq _ _ hx hA rfl (by decide)
  have hS : S = Finset.range 65536 ×ˢ Finset.range 65536 := by
    ext ⟨k, i⟩
    rw [h1, Finset.mem_product, Finset.mem_range, Finset.mem_range]
    constructor
    · rintro ⟨j, e1, e2⟩
      exact ⟨(has_entry_lt _ hx _ _ e1).1, (has_entry_lt _ hA _ _ e2).2⟩
    · rintro ⟨hk, hi⟩
      exact hall k i hk hi
  have hcard : S.card = 4294967296 := by
    rw [hS, Finset.card_product, Finset.card_range]
  rw [h2, hcard]
  decide

end Sparsity
end casadi

namespace casadi

/-! ## Claims on the singletons, `is_singular`, `mul_sparsityR` and `HorzRepmat::sp_rev` -/

namespace Cache

/-- C31: for every tuple with no rows and no columns `assign_cached` takes the singleton
`getEmpty()`; for every 1-by-1 tuple it takes `getScalarSparse()` when `colind[1] == 0`
and `getScalar()` otherwise.  The state of the cache is returned as it was, and the state,
the hash function and the rest of the tuple have no influence on the instance: two
requests without rows and columns, two 1-by-1 requests with `colind[1] != 0` and two
1-by-1 requests with `colind[1] == 0` get the same instance, which holds the data of the
singleton. -/
theorem assign_cached_singleton (hash : Sparsity → Nat) (position buckets_after : Nat)
    (st : Cache) (t : Sparsity) :
    (t.nrow = 0 ∧ t.ncol = 0 →
      assign_cached hash position buckets_after st t = (st, Instance.getEmpty)) ∧
    (t.nrow = 1 ∧ t.ncol = 1 →
      assign_cached hash position buckets_after st t =
        (st, if vget t.colind 1 = 0 then Instance.getScalarSparse else Instance.getScalar)) ∧
    (∀ (hash2 : Sparsity → Nat) (position2 buckets2 : Nat) (st2 : Cache) (t2 : Sparsity),
      ((t.nrow = 0 ∧ t.ncol = 0 ∧ t2.nrow = 0 ∧ t2.ncol = 0) ∨
        (t.nrow = 1 ∧ t.ncol = 1 ∧ t2.nrow = 1 ∧ t2.ncol = 1 ∧
          (vget t.colind 1 = 0 ↔ vget t2.colind 1 = 0))) →
      (assign_cached hash position buckets_after st t).2 =
        (assign_cached hash2 position2 buckets2 st2 t2).2) ∧
    content st Instance.getEmpty = some Sparsity.getEmpty ∧
    content st Instance.getScalar = some Sparsity.getScalar ∧
    content st Instance.getScalarSparse = some Sparsity.getScalarSparse := by
  have h0 : ∀ (hash : Sparsity → Nat) (position buckets_after : Nat) (st : Cache)
      (t : Sparsity), t.nrow = 0 ∧ t.ncol = 0 →
      assign_cached hash position buckets_after st t = (st, Instance.getEmpty) := by
    intro hash position buckets_after st t h
    unfold assign_cached
    rw [if_pos ⟨h.2, h.1⟩]
  have h1 : ∀ (hash : Sparsity → Nat) (position buckets_after : Nat) (st : Cache)
      (t : Sparsity), t.nrow = 1 ∧ t.ncol = 1 →
      assign_cached hash position buckets_after st t =
        (st, if vget t.colind 1 = 0 then Instance.getScalarSparse else Instance.getScalar) := by
    intro hash position buckets_after st t h
    unfold assign_cached
    rw [if_neg (by omega), if_pos ⟨h.2, h.1⟩, h.2]
    by_cases e : vget t.colind 1 = 0
    · rw [if_pos e, if_pos e]
    · rw [if_neg e, if_neg e]
  refine ⟨h0 hash position buckets_after st t, h1 hash position buckets_after st t, ?_,
    rfl, rfl, rfl⟩
  intro hash2 position2 buckets2 st2 t2 h
  rcases h with ⟨a1, a2, a3, a4⟩ | ⟨a1, a2, a3, a4, a5⟩
  · rw [h0 hash position buckets_after st t ⟨a1, a2⟩, h0 hash2 position2 buckets2 st2 t2 ⟨a3, a4⟩]
  · rw [h1 hash position buckets_after st t ⟨a1, a2⟩, h1 hash2 position2 buckets2 st2 t2 ⟨a3, a4⟩]
    by_cases e : vget t.colind 1 = 0
    · rw [if_pos e, if_pos (a5.1 e)]
    · rw [if_neg e, if_neg (fun e2 => e (a5.2 e2))]

end Cache

namespace Sparsity

/-- C32: let `btf` return at least four coarse column-block boundaries for `x`.  Then
`x.is_singular()` fails exactly when `x` is not square; for a square `x`, `sprank(x)`
returns the boundary `coarse_colblock[3]`, and `is_singular` returns `true` exactly when
that rank differs from `x.size2()`. -/
theorem is_singular_spec (btf : Sparsity → Btf) (x : Sparsity)
    (hb : 4 ≤ (btf x).coarse_colblock.length) :
    ((∃ e, is_singular btf x = .error e) ↔ x.size1 ≠ x.size2) ∧
    (x.size1 = x.size2 →
      ∃ r s, (btf x).coarse_colblock[3]? = some r ∧ sprank btf x = .ok r ∧
        is_singular btf x = .ok s ∧ (s = true ↔ r ≠ x.size2)) := by
  have h3 : (btf x).coarse_colblock[3]? = some ((btf x).coarse_colblock[3]) :=
    List.getElem?_eq_getElem (by omega)
  have hr : sprank btf x = .ok ((btf x).coarse_colblock[3]) := by
    unfold sprank
    rw [h3]
  have hsq : x.is_square = true ↔ x.size1 = x.size2 := by
    unfold is_square
    exact beq_iff_eq
  constructor
  · constructor
    · rintro ⟨e, he⟩ heq
      unfold is_singular at he
      rw [if_neg (not_not.2 (hsq.2 heq)), hr] at he
      exact absurd he (by simp)
    · intro hne
      unfold is_singular
      rw [if_pos (fun h => hne (hsq.1 h))]
      exact ⟨_, rfl⟩
  · intro heq
    refine ⟨_, (btf x).coarse_colblock[3] != x.size2, h3, hr, ?_, ?_⟩
    · unfold is_singular
      rw [if_neg (not_not.2 (hsq.2 heq)), hr]
    · simp

theorem is_singular_spec_witness :
    ((∃ e, is_singular (fun _ => ⟨0, [], [], [], [], [0, 0, 1, 2, 2], [0, 0, 1, 1, 2]⟩)
        ⟨2, 2, [0, 1, 1], [0]⟩ = .error e) ↔ (2 : Nat) ≠ 2) ∧
      is_singular (fun _ => ⟨0, [], [], [], [], [0, 0, 1, 2, 2], [0, 0, 1, 1, 2]⟩)
        ⟨2, 2, [0, 1, 1], [0]⟩ = .ok true :=
  ⟨(is_singular_spec (fun _ => ⟨0, [], [], [], [], [0, 0, 1, 2, 2], [0, 0, 1, 1, 2]⟩)
      ⟨2, 2, [0, 1, 1], [0]⟩ (by decide)).1, by decide⟩

/-- C36 fails on the code: with the dense 2-by-1 pattern `x_sp`, the 1-by-1 pattern `y_sp`
and the 2-by-1 pattern `z_sp` that stores row 0 only, all of which satisfy the invariant
and agree in their dimensions, `mul_sparsityR` reads `w[1]`, which the call has not
written: from `w = {0, 0}` it gives `x = {4, 0}`, `y = {4}`, and from `w = {0, 1}` it
gives `x = {4, 1}`, `y = {5}`.  In both runs `z` stays `{4}`. -/
theorem mul_sparsityR_scratch_example :
    (⟨2, 1, [0, 2], [0, 1]⟩ : Sparsity).wf ∧ (⟨1, 1, [0, 1], [0]⟩ : Sparsity).wf ∧
    (⟨2, 1, [0, 1], [0]⟩ : Sparsity).wf ∧
    (mul_sparsityR [0, 0] ⟨2, 1, [0, 2], [0, 1]⟩ [0] ⟨1, 1, [0, 1], [0]⟩ [4]
      ⟨2, 1, [0, 1], [0]⟩ [0, 0]).map (fun s => (s.x, s.y, s.z)) = .ok ([4, 0], [4], [4]) ∧
    (mul_sparsityR [0, 0] ⟨2, 1, [0, 2], [0, 1]⟩ [0] ⟨1, 1, [0, 1], [0]⟩ [4]
      ⟨2, 1, [0, 1], [0]⟩ [0, 1]).map (fun s => (s.x, s.y, s.z)) = .ok ([4, 1], [5], [4]) := by
  decide

end Sparsity

namespace HorzRepmat

/-- C38 fails on the code: with `n = 2` repetitions of an argument with one nonzero,
`sp_rev` on `arg[0] = {0}` and `res[0] = {1, 2}` gives `arg[0] = {3}`, the old value OR-ed
with both seeds, and `res[0] = {0, 2}`: `std::fill` clears the first `nnz` seeds only, and
the second seed is still set.  With three repetitions of two nonzeros the last four seeds
stay. -/
theorem sp_rev_example :
    sp_rev ⟨2, 1⟩ [0] [1, 2] = ([3], [0, 2]) ∧
    sp_rev ⟨3, 2⟩ [8, 0] [1, 2, 4, 0, 16, 32] = ([29, 34], [0, 0, 4, 0, 16, 32]) := by
  decide

end HorzRepmat
end casadi

namespace casadi

theorem vget_forLoop_set_zero (g : Nat → Nat) (m : Nat) (v : List Nat) (k : Nat) :
    vget (forLoop 0 m (fun v i => v.set i (g i)) v) k =
      if k < m ∧ k < v.length then g k else vget v k := by
  have h := vget_forLoop_set g 0 m v k
  simp only [Nat.add_zero, Nat.zero_add, Nat.zero_le, true_and, Nat.sub_zero] at h
  exact h

theorem length_forLoop_set_zero (g : Nat → Nat) (m : Nat) (v : List Nat) :
    (forLoop 0 m (fun v i => v.set i (g i)) v).length = v.length :=
  length_forLoop_set g (fun i => i) 0 m v

theorem vget_range (n k : Nat) (h : k < n) : vget (List.range n) k = k := by
  unfold vget
  rw [List.getD_eq_getElem?_getD, List.getElem?_range h]
  rfl

namespace Sparsity

/-! ## `Sparsity::diag` -/

end Sparsity
end casadi

namespace casadi
namespace Sparsity

/-! ## `Sparsity::band` -/

end Sparsity
end casadi

namespace casadi
namespace Sparsity

/-! ## Claims on `Sparsity::diag` and `Sparsity::band` -/

end Sparsity
end casadi

namespace casadi
namespace Sparsity

/-! ## `horzcat` of the result of `horzsplit` -/

theorem col_offset_pieces (x : Sparsity) (o : List Nat) (m : Nat)
    (hmono : ∀ i, i < m → vget o i ≤ vget o (i + 1)) (i : Nat) (hi : i ≤ m) :
    col_offset ((List.range m).map (horzsplit_piece x o)) i + vget o 0 = vget o i := by
  unfold col_offset
  rw [← List.map_take, List.take_range, Nat.min_eq_left hi, List.map_map]
  induction i with
  | zero => simp
  | succ i ih =>
    have h1 := ih (by omega)
    have h2 := hmono i (by omega)
    have h3 : ∀ j, j ≤ i → vget o 0 ≤ vget o j := by
      intro j
      induction j with
      | zero => intro _; exact Nat.le_refl _
      | succ j ihj =>
        intro hj
        exact Nat.le_trans (ihj (by omega)) (hmono j (by omega))
    have h4 := h3 i (Nat.le_refl _)
    rw [List.range_succ, List.map_append, List.sum_append]
    have e : (size2 ∘ horzsplit_piece x o) i = vget o (i + 1) - vget o i := rfl
    simp only [List.map_cons, List.map_nil, List.sum_cons, List.sum_nil, Nat.add_zero, e]
    omega

theorem sum_size2_pieces (x : Sparsity) (o : List Nat) (m : Nat)
    (hmono : ∀ i, i < m → vget o i ≤ vget o (i + 1)) :
    (((List.range m).map (horzsplit_piece x o)).map size2).sum + vget o 0 = vget o m := by
  have h := col_offset_pieces x o m hmono m (Nat.le_refl _)
  unfold col_offset at h
  rw [List.take_of_length_le (by simp)] at h
  exact h

/-- For a pattern that satisfies the invariant and offsets that start at 0, never decrease
and end at the number of columns, `horzcat` of the pieces of `horzsplit` is the pattern. -/
theorem horzcat_pieces (x : Sparsity) (hx : x.wf) (o : List Nat) (m : Nat) (hm : 0 < m)
    (h0 : vget o 0 = 0) (hlast : vget o m = x.ncol)
    (hmono : ∀ i, i < m → vget o i ≤ vget o (i + 1)) :
    horzcat ((List.range m).map (horzsplit_piece x o)) = .ok x := by
  have hle : ∀ i, i ≤ m → vget o i ≤ x.ncol := by
    intro i hi
    have h : ∀ d, i + d ≤ m → vget o i ≤ vget o (i + d) := by
      intro d
      induction d with
      | zero => intro _; exact Nat.le_refl _
      | succ d ih =>
        intro hd
        exact Nat.le_trans (ih (by omega)) (hmono (i + d) (by omega))
    have := h (m - i) (by omega)
    rw [show i + (m - i) = m by omega, hlast] at this
    exact this
  have hget : ∀ i p, ((List.range m).map (horzsplit_piece x o))[i]? = some p →
      i < m ∧ p = horzsplit_piece x o i := by
    intro i p hp
    rw [List.getElem?_map] at hp
    by_cases hi : i < m
    · rw [List.getElem?_range hi] at hp
      exact ⟨hi, (Option.some.inj hp).symm⟩
    · rw [List.getElem?_eq_none (by simp; omega)] at hp
      exact absurd hp (by simp)
  have hwf : ∀ p ∈ (List.range m).map (horzsplit_piece x o), p.wf := by
    intro p hp
    obtain ⟨i, hi, e⟩ := List.mem_map.1 hp
    rw [← e]
    exact horzsplit_piece_wf x hx o i (hle (i + 1) (by
      have := List.mem_range.1 hi
      omega))
  have hR : ∀ p ∈ (List.range m).map (horzsplit_piece x o), p.size1 = x.nrow := by
    intro p hp
    obtain ⟨i, _, e⟩ := List.mem_map.1 hp
    rw [← e]
    rfl
  have hne : (List.range m).map (horzsplit_piece x o) ≠ [] := by
    intro e
    have := congrArg List.length e
    simp at this
    omega
  have hsum : (((List.range m).map (horzsplit_piece x o)).map size2).sum = x.ncol := by
    have := sum_size2_pieces x o m hmono
    omega
  rw [horzcat_eq_const _ x.nrow hwf hR, if_neg hne, hsum]
  have hq : (ofSegs x.nrow x.ncol (hseg ((List.range m).map (horzsplit_piece x o)))).wf :=
    hseg_wf x.nrow _ hwf (fun p hp => Or.inl (hR p hp)) _
  congr 1
  apply wf_ext _ _ hq hx rfl rfl
  intro r c
  rw [ofSegs_has_entry]
  constructor
  · rintro ⟨hc, hr⟩
    obtain ⟨i, p, hi, h1, h2⟩ := col_offset_cover _ c (by rw [hsum]; exact hc)
    obtain ⟨him, e⟩ := hget i p hi
    subst e
    have hoff := col_offset_pieces x o m hmono i (by omega)
    rw [hseg_eq _ i _ c hi h1 h2, mem_col_rows _ (horzsplit_piece_wf x hx o i (hle _ (by omega)))
      r _ (by
        have : (horzsplit_piece x o i).size2 = (horzsplit_piece x o i).ncol := rfl
        omega),
      horzsplit_piece_has_entry x hx o i (hle _ (by omega))] at hr
    rw [show vget o i + (c - col_offset ((List.range m).map (horzsplit_piece x o)) i) = c by
      omega] at hr
    exact hr.2
  · intro h
    have hc : c < x.ncol := h.1
    refine ⟨hc, ?_⟩
    obtain ⟨i, p, hi, h1, h2⟩ := col_offset_cover _ c (by rw [hsum]; exact hc)
    obtain ⟨him, e⟩ := hget i p hi
    subst e
    have hoff := col_offset_pieces x o m hmono i (by omega)
    have hsz : (horzsplit_piece x o i).size2 = vget o (i + 1) - vget o i := rfl
    rw [hseg_eq _ i _ c hi h1 h2, mem_col_rows _ (horzsplit_piece_wf x hx o i (hle _ (by omega)))
      r _ (by
        have : (horzsplit_piece x o i).size2 = (horzsplit_piece x o i).ncol := rfl
        omega),
      horzsplit_piece_has_entry x hx o i (hle _ (by omega)),
      show vget o i + (c - col_offset ((List.range m).map (horzsplit_piece x o)) i) = c by
        omega]
    exact ⟨by omega, h⟩

end Sparsity
end casadi

namespace casadi
namespace Sparsity

/-- C37: for a pattern `x` that satisfies the invariant and offsets with two elements or
more that start with 0, end with `x.size2()` and never decrease, `horzsplit(x, offset)`
returns `offset.size()-1` patterns and `horzcat` of them returns `x`.  Patterns without
rows and pieces without columns are included. -/
theorem horzcat_horzsplit (x : Sparsity) (offset : List Int) (hx : x.wf)
    (h2 : 2 ≤ offset.length) (hh : offset.headD 0 = 0)
    (hl : offset.getLastD 0 = (x.size2 : Int)) (hch : offset.Chain' (fun a b => a ≤ b)) :
    ∃ pieces, horzsplit x offset = .ok pieces ∧ pieces.length = offset.length - 1 ∧
      horzcat pieces = .ok x := by
  have hne : 0 < offset.length := by omega
  refine ⟨_, horzsplit_eq x hx offset hne hh hl hch, by simp, ?_⟩
  have hoff := horzsplit_offsets offset x.size2 hne hh hl hch
  have e : x.size2 = x.ncol := rfl
  apply horzcat_pieces x hx _ _ (by omega)
  · have h := (hoff 0 hne).1
    rw [headD_eq_getElem offset hne] at hh
    rw [List.getElem?_eq_getElem hne, hh] at h
    have := Option.some.inj h
    omega
  · have h := (hoff (offset.length - 1) (by omega)).1
    rw [getLastD_eq_getElem offset hne] at hl
    rw [List.getElem?_eq_getElem (by omega), hl] at h
    have := Option.some.inj h
    omega
  · intro i hi
    exact (hoff i (by omega)).2.2 (by omega)

theorem horzcat_horzsplit_witness :
    (∃ pieces, horzsplit ⟨2, 5, [0, 1, 3, 3, 5, 6], [0, 0, 1, 0, 1, 1]⟩ [0, 0, 1, 4, 5, 5] =
        .ok pieces ∧ pieces.length = 5 ∧
      horzcat pieces = .ok ⟨2, 5, [0, 1, 3, 3, 5, 6], [0, 0, 1, 0, 1, 1]⟩) ∧
    (∃ pieces, horzsplit ⟨0, 3, [0, 0, 0, 0], []⟩ [0, 1, 3] = .ok pieces ∧
      pieces.length = 2 ∧ horzcat pieces = .ok ⟨0, 3, [0, 0, 0, 0], []⟩) :=
  ⟨horzcat_horzsplit ⟨2, 5, [0, 1, 3, 3, 5, 6], [0, 0, 1, 0, 1, 1]⟩ [0, 0, 1, 4, 5, 5]
      (by decide) (by decide) (by decide) (by decide) (by simp),
    horzcat_horzsplit ⟨0, 3, [0, 0, 0, 0], []⟩ [0, 1, 3]
      (by decide) (by decide) (by decide) (by decide) (by simp)⟩

end Sparsity
end casadi

namespace casadi

theorem or_or_or_comm (a b c d : Nat) : (a ||| b) ||| (c ||| d) = (a ||| c) ||| (b ||| d) := by
  apply Nat.eq_of_testBit_eq
  intro i
  simp only [Nat.testBit_or]
  cases a.testBit i <;> cases b.testBit i <;> cases c.testBit i <;> cases d.testBit i <;> rfl

theorem vget_bor (a b : List Nat) (h : a.length = b.length) (k : Nat) :
    vget (bor a b) k = vget a k ||| vget b k := by
  unfold vget bor
  rw [List.getD_eq_getElem?_getD, List.getD_eq_getElem?_getD, List.getD_eq_getElem?_getD,
    List.getElem?_zipWith]
  by_cases hk : k < a.length
  · rw [List.getElem?_eq_getElem hk, List.getElem?_eq_getElem (by omega)]
    rfl
  · rw [List.getElem?_eq_none (by omega), List.getElem?_eq_none (by omega)]
    rfl

theorem length_bor (a b : List Nat) (h : a.length = b.length) : (bor a b).length = a.length := by
  unfold bor
  rw [List.length_zipWith, h, Nat.min_self]

/-- The buffer `X12` is the OR of the buffers `X1` and `X2`. -/
theorem bor_unique (X12 X1 X2 : List Nat) (h1 : X12.length = X1.length)
    (h2 : X2.length = X1.length) (h : ∀ k, vget X12 k = vget X1 k ||| vget X2 k) :
    X12 = bor X1 X2 := by
  apply ext_vget
  · rw [length_bor _ _ h2.symm, h1]
  · intro k _
    rw [h k, vget_bor _ _ h2.symm]

end casadi

namespace casadi

theorem lrel_set (ρ : Nat → Nat → Nat → Prop)
    (hor : ∀ a b c a2 b2 c2, ρ a b c → ρ a2 b2 c2 → ρ (a ||| a2) (b ||| b2) (c ||| c2))
    (X1 X2 X3 : List Nat) (d1 d2 d3 i : Nat) (hX : lrel ρ X1 X2 X3) (hd : ρ d1 d2 d3) :
    lrel ρ (X1.set i (vget X1 i ||| d1)) (X2.set i (vget X2 i ||| d2))
      (X3.set i (vget X3 i ||| d3)) := by
  obtain ⟨l2, l3, h⟩ := hX
  refine ⟨by simp [l2], by simp [l3], fun k => ?_⟩
  rw [vget_set, vget_set, vget_set, l2, l3]
  by_cases e : i = k ∧ i < X1.length
  · rw [if_pos e, if_pos e, if_pos e]
    exact hor _ _ _ _ _ _ (h i) hd
  · rw [if_neg e, if_neg e, if_neg e]
    exact h k

theorem contains_set (X0 X : List Nat) (d i : Nat) (h : contains X X0) :
    contains (X.set i (vget X i ||| d)) X0 := by
  obtain ⟨l, h⟩ := h
  refine ⟨by simp [l], fun k bit hb => ?_⟩
  rw [vget_set]
  by_cases e : i = k ∧ i < X.length
  · rw [if_pos e, Nat.testBit_or, Bool.or_eq_true, e.1]
    exact Or.inl (h k bit hb)
  · rw [if_neg e]
    exact h k bit hb

namespace Linsol

theorem spsolve_forward_block_eq (self : Linsol) (B X : List Nat) (b : Nat) :
    spsolve_forward_block self B X b =
      forward_propagate self (forward_dep self B X b) X b := rfl

theorem spsolve_transposed_block_eq (self : Linsol) (B X : List Nat) (b : Nat) :
    spsolve_transposed_block self B X b =
      transposed_propagate self (transposed_dep self B X b) X b := rfl

theorem or_col_lrel (ρ : Nat → Nat → Nat → Prop)
    (hor : ∀ a b c a2 b2 c2, ρ a b c → ρ a2 b2 c2 → ρ (a ||| a2) (b ||| b2) (c ||| c2))
    (self : Linsol) (X1 X2 X3 : List Nat) (d1 d2 d3 cc : Nat) (hX : lrel ρ X1 X2 X3)
    (hd : ρ d1 d2 d3) :
    lrel ρ (or_col self cc d1 X1) (or_col self cc d2 X2) (or_col self cc d3 X3) := by
  unfold or_col
  exact forLoop_rel3 (lrel ρ) _ _ _ _ _ _ _ _ hX
    (fun k x y z h => lrel_set ρ hor x y z d1 d2 d3 _ h hd)

theorem gather_col_lrel (ρ : Nat → Nat → Nat → Prop)
    (hor : ∀ a b c a2 b2 c2, ρ a b c → ρ a2 b2 c2 → ρ (a ||| a2) (b ||| b2) (c ||| c2))
    (self : Linsol) (X1 X2 X3 : List Nat) (d1 d2 d3 cc : Nat) (hX : lrel ρ X1 X2 X3)
    (hd : ρ d1 d2 d3) :
    ρ (gather_col self cc X1 d1) (gather_col self cc X2 d2) (gather_col self cc X3 d3) := by
  unfold gather_col
  exact forLoop_rel3 ρ _ _ _ _ _ _ _ _ hd
    (fun k x y z h => hor _ _ _ _ _ _ h (hX.2.2 _))

theorem forward_dep_lrel (ρ : Nat → Nat → Nat → Prop) (h0 : ρ 0 0 0)
    (hor : ∀ a b c a2 b2 c2, ρ a b c → ρ a2 b2 c2 → ρ (a ||| a2) (b ||| b2) (c ||| c2))
    (self : Linsol) (X1 X2 X3 B1 B2 B3 : List Nat) (b : Nat) (hX : lrel ρ X1 X2 X3)
    (hB : ∀ k, ρ (vget B1 k) (vget B2 k) (vget B3 k)) :
    ρ (forward_dep self B1 X1 b) (forward_dep self B2 X2 b) (forward_dep self B3 X3 b) := by
  unfold forward_dep
  refine forLoop_rel3 ρ _ _ _ _ _ _ _ _ ?_ (fun k x y z h => hor _ _ _ _ _ _ h (hX.2.2 _))
  exact forLoop_rel3 ρ _ _ _ _ _ _ _ _ h0 (fun k x y z h => hor _ _ _ _ _ _ h (hB _))

theorem forward_propagate_lrel (ρ : Nat → Nat → Nat → Prop)
    (hor : ∀ a b c a2 b2 c2, ρ a b c → ρ a2 b2 c2 → ρ (a ||| a2) (b ||| b2) (c ||| c2))
    (self : Linsol) (X1 X2 X3 : List Nat) (d1 d2 d3 b : Nat)
    (hX : lrel ρ X1 X2 X3) (hd : ρ d1 d2 d3) :
    lrel ρ (forward_propagate self d1 X1 b) (forward_propagate self d2 X2 b)
      (forward_propagate self d3 X3 b) := by
  unfold forward_propagate
  exact forLoop_rel3 (lrel ρ) _ _ _ _ _ _ _ _ hX
    (fun k x y z h => or_col_lrel ρ hor self _ _ _ d1 d2 d3 _
      (lrel_set ρ hor x y z d1 d2 d3 _ h hd) hd)

theorem transposed_dep_lrel (ρ : Nat → Nat → Nat → Prop) (h0 : ρ 0 0 0)
    (hor : ∀ a b c a2 b2 c2, ρ a b c → ρ a2 b2 c2 → ρ (a ||| a2) (b ||| b2) (c ||| c2))
    (self : Linsol) (X1 X2 X3 B1 B2 B3 : List Nat) (b : Nat) (hX : lrel ρ X1 X2 X3)
    (hB : ∀ k, ρ (vget B1 k) (vget B2 k) (vget B3 k)) :
    ρ (transposed_dep self B1 X1 b) (transposed_dep self B2 X2 b)
      (transposed_dep self B3 X3 b) := by
  unfold transposed_dep
  exact forLoop_rel3 ρ _ _ _ _ _ _ _ _ h0
    (fun k x y z h => gather_col_lrel ρ hor self _ _ _ _ _ _ _ hX (hor _ _ _ _ _ _ h (hB _)))

theorem transposed_propagate_lrel (ρ : Nat → Nat → Nat → Prop)
    (hor : ∀ a b c a2 b2 c2, ρ a b c → ρ a2 b2 c2 → ρ (a ||| a2) (b ||| b2) (c ||| c2))
    (self : Linsol) (X1 X2 X3 : List Nat) (d1 d2 d3 b : Nat)
    (hX : lrel ρ X1 X2 X3) (hd : ρ d1 d2 d3) :
    lrel ρ (transposed_propagate self d1 X1 b) (transposed_propagate self d2 X2 b)
      (transposed_propagate self d3 X3 b) := by
  unfold transposed_propagate
  exact forLoop_rel3 (lrel ρ) _ _ _ _ _ _ _ _ hX
    (fun k x y z h => lrel_set ρ hor x y z d1 d2 d3 _ h hd)

/-- A relation between three runs of `linsol_spsolve` that holds element by element for
the inputs, holds for zeros and is kept by OR, holds element by element for the results. -/
theorem linsol_spsolve_lrel (ρ : Nat → Nat → Nat → Prop) (h0 : ρ 0 0 0)
    (hor : ∀ a b c a2 b2 c2, ρ a b c → ρ a2 b2 c2 → ρ (a ||| a2) (b ||| b2) (c ||| c2))
    (self : Linsol) (X1 X2 X3 B1 B2 B3 : List Nat) (tr : Bool)
    (hX : lrel ρ X1 X2 X3) (hB : ∀ k, ρ (vget B1 k) (vget B2 k) (vget B3 k)) :
    lrel ρ (linsol_spsolve self X1 B1 tr) (linsol_spsolve self X2 B2 tr)
      (linsol_spsolve self X3 B3 tr) := by
  unfold linsol_spsolve
  cases tr with
  | false =>
    simp only [Bool.not_false, if_true]
    refine forLoop_rel3 (lrel ρ) _ _ _ _ _ _ _ _ hX ?_
    intro b x y z h
    rw [spsolve_forward_block_eq, spsolve_forward_block_eq, spsolve_forward_block_eq]
    exact forward_propagate_lrel ρ hor self _ _ _ _ _ _ _ h
      (forward_dep_lrel ρ h0 hor self _ _ _ _ _ _ _ h hB)
  | true =>
    simp only [Bool.not_true, Bool.false_eq_true, if_false]
    refine foldl_rel3 (lrel ρ) _ _ _ _ _ _ _ hX ?_
    intro b _ x y z h
    rw [spsolve_transposed_block_eq, spsolve_transposed_block_eq, spsolve_transposed_block_eq]
    exact transposed_propagate_lrel ρ hor self _ _ _ _ _ _ _ h
      (transposed_dep_lrel ρ h0 hor self _ _ _ _ _ _ _ h hB)

theorem or_col_contains (self : Linsol) (X0 X : List Nat) (d cc : Nat) (h : contains X X0) :
    contains (or_col self cc d X) X0 := by
  unfold or_col
  exact forLoop_inv (fun Y => contains Y X0) _ _ _ _ h
    (fun k x _ _ hx => contains_set X0 x d _ hx)

theorem linsol_spsolve_contains (self : Linsol) (X B : List Nat) (tr : Bool) :
    contains (linsol_spsolve self X B tr) X := by
  have hX : contains X X := ⟨rfl, fun _ _ h => h⟩
  have hf : ∀ Y b, contains Y X → contains (spsolve_forward_block self B Y b) X := by
    intro Y b hY
    rw [spsolve_forward_block_eq]
    unfold forward_propagate
    exact forLoop_inv (fun Z => contains Z X) _ _ _ _ hY
      (fun k x _ _ hx => or_col_contains self X _ _ _ (contains_set X x _ _ hx))
  have ht : ∀ Y b, contains Y X → contains (spsolve_transposed_block self B Y b) X := by
    intro Y b hY
    rw [spsolve_transposed_block_eq]
    unfold transposed_propagate
    exact forLoop_inv (fun Z => contains Z X) _ _ _ _ hY
      (fun k x _ _ hx => contains_set X x _ _ hx)
  unfold linsol_spsolve
  cases tr with
  | false =>
    simp only [Bool.not_false, if_true]
    exact forLoop_inv (fun Z => contains Z X) _ _ _ _ hX (fun b x _ _ hx => hf x b hx)
  | true =>
    simp only [Bool.not_true, Bool.false_eq_true, if_false]
    exact foldl_inv (fun Z => contains Z X) _ _ _ hX (fun b _ x hx => ht x b hx)

end Linsol
end casadi

namespace casadi
namespace Linsol

/-! ## Claims on `Linsol::linsol_spsolve` -/

/-- C35: for every stored decomposition and both values of `tr`, `linsol_spsolve` is
linear over the bitwise OR: for buffers `X1`, `X2` of one length and `B1`, `B2` of one
length, the result from `(X1|X2, B1|B2)` is the OR of the results from `(X1, B1)` and
`(X2, B2)`.  The result from zeros is zero, the final `X` has the length of the initial
`X` and every bit of it, and a bit position of the result depends only on that bit position
of the inputs. -/
theorem linsol_spsolve_or (self : Linsol) (X1 X2 B1 B2 : List Nat) (tr : Bool)
    (hX : X1.length = X2.length) (hB : B1.length = B2.length) :
    linsol_spsolve self (bor X1 X2) (bor B1 B2) tr =
      bor (linsol_spsolve self X1 B1 tr) (linsol_spsolve self X2 B2 tr) ∧
    (∀ n m, linsol_spsolve self (List.replicate n 0) (List.replicate m 0) tr =
      List.replicate n 0) ∧
    (linsol_spsolve self X1 B1 tr).length = X1.length ∧
    (∀ k bit, (vget X1 k).testBit bit = true →
      (vget (linsol_spsolve self X1 B1 tr) k).testBit bit = true) ∧
    (∀ bit, (∀ k, (vget X1 k).testBit bit = (vget X2 k).testBit bit) →
      (∀ k, (vget B1 k).testBit bit = (vget B2 k).testBit bit) →
      ∀ k, (vget (linsol_spsolve self X1 B1 tr) k).testBit bit =
        (vget (linsol_spsolve self X2 B2 tr) k).testBit bit) := by
  refine ⟨?_, ?_, (linsol_spsolve_contains self X1 B1 tr).1,
    (linsol_spsolve_contains self X1 B1 tr).2, ?_⟩
  · obtain ⟨l1, l2, h⟩ := linsol_spsolve_lrel (fun a b c => a = b ||| c) rfl
      (by
        intro a b c a2 b2 c2 h1 h2
        rw [h1, h2]
        exact or_or_or_comm _ _ _ _)
      self (bor X1 X2) X1 X2 (bor B1 B2) B1 B2 tr
      ⟨(length_bor X1 X2 hX).symm, by rw [length_bor X1 X2 hX, hX], vget_bor X1 X2 hX⟩
      (vget_bor B1 B2 hB)
    exact bor_unique _ _ _ l1.symm (by rw [l2, l1])  h
  · intro n m
    obtain ⟨_, _, h⟩ := linsol_spsolve_lrel (fun a _ _ => a = 0) rfl
      (by
        intro a b c a2 b2 c2 h1 h2
        rw [h1, h2]
        rfl)
      self (List.replicate n 0) (List.replicate n 0) (List.replicate n 0)
      (List.replicate m 0) (List.replicate m 0) (List.replicate m 0) tr
      ⟨rfl, rfl, fun k => vget_replicate_zero n k⟩ (fun k => vget_replicate_zero m k)
    apply ext_vget
    · exact (linsol_spsolve_contains self _ _ tr).1
    · intro k _
      rw [h k, vget_replicate_zero]
  · intro bit h1 h2
    exact (linsol_spsolve_lrel (fun a b _ => a.testBit bit = b.testBit bit) rfl
      (by
        intro a b c a2 b2 c2 e1 e2
        rw [Nat.testBit_or, Nat.testBit_or, e1, e2])
      self X1 X2 X1 B1 B2 B1 tr ⟨hX.symm, rfl, h1⟩ h2).2.2

theorem linsol_spsolve_or_witness :
    linsol_spsolve ⟨⟨3, 3, [0, 2, 4, 5], [0, 2, 0, 1, 1]⟩, [2, 0, 1], [0, 1, 2],
        [0, 1, 2, 3], [0, 1, 2, 3]⟩ (bor [1, 0, 0] [0, 2, 0]) (bor [4, 0, 0] [0, 0, 8]) false =
      bor (linsol_spsolve ⟨⟨3, 3, [0, 2, 4, 5], [0, 2, 0, 1, 1]⟩, [2, 0, 1], [0, 1, 2],
        [0, 1, 2, 3], [0, 1, 2, 3]⟩ [1, 0, 0] [4, 0, 0] false)
        (linsol_spsolve ⟨⟨3, 3, [0, 2, 4, 5], [0, 2, 0, 1, 1]⟩, [2, 0, 1], [0, 1, 2],
        [0, 1, 2, 3], [0, 1, 2, 3]⟩ [0, 2, 0] [0, 0, 8] false) :=
  (linsol_spsolve_or ⟨⟨3, 3, [0, 2, 4, 5], [0, 2, 0, 1, 1]⟩, [2, 0, 1], [0, 1, 2],
    [0, 1, 2, 3], [0, 1, 2, 3]⟩ [1, 0, 0] [0, 2, 0] [4, 0, 0] [0, 0, 8] false
    (by decide) (by decide)).1

end Linsol
end casadi

namespace casadi

theorem forLoop_single {σ : Type} (a : Nat) (f : σ → Nat → σ) (s : σ) :
    forLoop a (a + 1) f s = f s a := by
  rw [forLoop_succ _ _ _ _ (Nat.le_refl _), forLoop_empty _ _ _ _ (Nat.le_refl _)]

theorem foldl_range_reverse_ind {σ : Type} (P : Nat → σ → Prop) (n : Nat) (f : σ → Nat → σ)
    (s : σ) (h0 : P n s) (hstep : ∀ b t, b < n → P (b + 1) t → P b (f t b)) :
    P 0 ((List.range n).reverse.foldl f s) := by
  have key : ∀ m, m ≤ n → ∀ t, P m t → P 0 ((List.range m).reverse.foldl f t) := by
    intro m
    induction m with
    | zero => intro _ t ht; exact ht
    | succ m ih =>
      intro hm t ht
      rw [List.range_succ, List.reverse_append, List.reverse_singleton, List.singleton_append,
        List.foldl_cons]
      exact ih (by omega) _ (hstep m t (by omega) ht)
  exact key n (Nat.le_refl _) s h0

namespace Linsol

theorem or_col_spec (self : Linsol) (cc dep : Nat) (X : List Nat)
    (hcc : cc < self.sparsity.ncol) :
    (or_col self cc dep X).length = X.length ∧
    ∀ r bit, r < X.length →
      ((vget (or_col self cc dep X) r).testBit bit = true ↔
        (vget X r).testBit bit = true ∨
          (self.sparsity.has_entry r cc ∧ dep.testBit bit = true)) := by
  have key := Sparsity.forLoop_rec (fun i (t : List Nat) =>
    t.length = X.length ∧
    ∀ r bit, r < X.length →
      ((vget t r).testBit bit = true ↔
        (vget X r).testBit bit = true ∨
          ((∃ k, vget self.sparsity.colind cc ≤ k ∧ k < i ∧
            k < vget self.sparsity.colind (cc + 1) ∧ vget self.sparsity.row k = r) ∧
            dep.testBit bit = true)))
    (or_col self cc dep X) _ _ _ _ rfl
    ⟨rfl, fun r bit _ => ⟨Or.inl, fun h => h.elim id (fun ⟨⟨k, h1, h2, _⟩, _⟩ => by omega)⟩⟩
    (by
      rintro i t hi1 hi2 ⟨e1, e2⟩
      refine ⟨by simp [e1], ?_⟩
      intro r bit hr
      rw [Sparsity.testBit_vget_set_or _ _ _ _ _ (by omega), e2 r bit hr]
      constructor
      · rintro ((h | ⟨⟨k, h1, h2, h3, h4⟩, h5⟩) | ⟨h1, h2⟩)
        · exact Or.inl h
        · exact Or.inr ⟨⟨k, h1, by omega, h3, h4⟩, h5⟩
        · exact Or.inr ⟨⟨i, hi1, by omega, hi2, h1⟩, h2⟩
      · rintro (h | ⟨⟨k, h1, h2, h3, h4⟩, h5⟩)
        · exact Or.inl (Or.inl h)
        · by_cases hk : k = i
          · subst hk
            exact Or.inr ⟨h4, h5⟩
          · exact Or.inl (Or.inr ⟨⟨k, h1, by omega, h3, h4⟩, h5⟩))
  obtain ⟨e1, e2⟩ := key
  refine ⟨e1, fun r bit hr => ?_⟩
  rw [e2 r bit hr]
  constructor
  · rintro (h | ⟨⟨k, h1, _, h3, h4⟩, h5⟩)
    · exact Or.inl h
    · exact Or.inr ⟨⟨hcc, k, h1, h3, h4⟩, h5⟩
  · rintro (h | ⟨⟨_, k, h1, h3, h4⟩, h5⟩)
    · exact Or.inl h
    · exact Or.inr ⟨⟨k, h1, by omega, h3, h4⟩, h5⟩

theorem gather_col_spec (self : Linsol) (cc dep : Nat) (X : List Nat)
    (hcc : cc < self.sparsity.ncol) (bit : Nat) :
    (gather_col self cc X dep).testBit bit = true ↔
      dep.testBit bit = true ∨
        ∃ r, self.sparsity.has_entry r cc ∧ (vget X r).testBit bit = true := by
  have key := Sparsity.forLoop_rec (fun i (d : Nat) =>
    d.testBit bit = true ↔
      dep.testBit bit = true ∨
        ∃ k, vget self.sparsity.colind cc ≤ k ∧ k < i ∧
          k < vget self.sparsity.colind (cc + 1) ∧
          (vget X (vget self.sparsity.row k)).testBit bit = true)
    (gather_col self cc X dep) _ _ _ _ rfl
    ⟨Or.inl, fun h => h.elim id (fun ⟨k, h1, h2, _⟩ => by omega)⟩
    (by
      intro i d hi1 hi2 e
      rw [Nat.testBit_or, Bool.or_eq_true, e]
      constructor
      · rintro ((h | ⟨k, h1, h2, h3, h4⟩) | h)
        · exact Or.inl h
        · exact Or.inr ⟨k, h1, by omega, h3, h4⟩
        · exact Or.inr ⟨i, hi1, by omega, hi2, h⟩
      · rintro (h | ⟨k, h1, h2, h3, h4⟩)
        · exact Or.inl (Or.inl h)
        · by_cases hk : k = i
          · subst hk
            exact Or.inr h4
          · exact Or.inl (Or.inr ⟨k, h1, by omega, h3, h4⟩))
  simp only at key
  rw [key]
  constructor
  · rintro (h | ⟨k, h1, _, h3, h4⟩)
    · exact Or.inl h
    · exact Or.inr ⟨_, ⟨hcc, k, h1, h3, rfl⟩, h4⟩
  · rintro (h | ⟨r, ⟨_, k, h1, h3, h4⟩, h5⟩)
    · exact Or.inl h
    · subst h4
      exact Or.inr ⟨k, h1, by omega, h3, h5⟩

/-! ### The blocks with identity permutations and blocks of one variable -/

theorem forward_block_identity (A : Sparsity) (n : Nat) (B X : List Nat) (b : Nat)
    (hb : b < n) :
    spsolve_forward_block
        ⟨A, List.range n, List.range n, List.range (n + 1), List.range (n + 1)⟩ B X b =
      or_col ⟨A, List.range n, List.range n, List.range (n + 1), List.range (n + 1)⟩ b
        (vget B b ||| vget X b) (X.set b (vget X b ||| (vget B b ||| vget X b))) := by
  rw [spsolve_forward_block_eq]
  unfold forward_propagate forward_dep
  simp only
  rw [vget_range _ _ (show b < n + 1 by omega), vget_range _ _ (show b + 1 < n + 1 by omega),
    forLoop_single, forLoop_single, forLoop_single, vget_range _ _ hb, Nat.zero_or]

theorem transposed_block_identity (A : Sparsity) (n : Nat) (B X : List Nat) (b : Nat)
    (hb : b < n) :
    spsolve_transposed_block
        ⟨A, List.range n, List.range n, List.range (n + 1), List.range (n + 1)⟩ B X b =
      X.set b (vget X b ||| gather_col
        ⟨A, List.range n, List.range n, List.range (n + 1), List.range (n + 1)⟩ b X
        (vget B b)) := by
  rw [spsolve_transposed_block_eq]
  unfold transposed_propagate transposed_dep
  simp only
  rw [vget_range _ _ (show b < n + 1 by omega), vget_range _ _ (show b + 1 < n + 1 by omega),
    forLoop_single, forLoop_single, vget_range _ _ hb, Nat.zero_or]

end Linsol
end casadi

namespace casadi
namespace Linsol

/-! ### Paths along the nonzeros of a lower triangular pattern -/

theorem path_mono (A : Sparsity) (b j i : Nat)
    (h : Relation.ReflTransGen (fun c r => c < b ∧ A.has_entry r c) j i) :
    Relation.ReflTransGen (fun c r => c < b + 1 ∧ A.has_entry r c) j i :=
  Relation.ReflTransGen.mono (fun _ _ h => ⟨by omega, h.2⟩) h

theorem path_start (A : Sparsity) (b j i : Nat)
    (h : Relation.ReflTransGen (fun c r => c < b ∧ A.has_entry r c) j i) :
    j < b ∨ i = j := by
  induction h with
  | refl => exact Or.inr rfl
  | tail _ hstep ih =>
    rcases ih with h | h
    · exact Or.inl h
    · rw [← h]
      exact Or.inl hstep.1

theorem path_split (A : Sparsity) (hlow : ∀ r c, A.has_entry r c → c ≤ r) (b j i : Nat)
    (h : Relation.ReflTransGen (fun c r => c < b + 1 ∧ A.has_entry r c) j i) :
    Relation.ReflTransGen (fun c r => c < b ∧ A.has_entry r c) j i ∨
      (Relation.ReflTransGen (fun c r => c < b ∧ A.has_entry r c) j b ∧
        (i = b ∨ A.has_entry i b)) := by
  induction h with
  | refl => exact Or.inl Relation.ReflTransGen.refl
  | @tail k i _ hstep ih =>
    by_cases hk : k < b
    · rcases ih with h | ⟨_, h | h⟩
      · exact Or.inl (Relation.ReflTransGen.tail h ⟨hk, hstep.2⟩)
      · omega
      · have := hlow k b h
        omega
    · have e : k = b := by
        have := hstep.1
        omega
      subst e
      rcases ih with h | ⟨h, _⟩
      · exact Or.inr ⟨h, Or.inr hstep.2⟩
      · exact Or.inr ⟨h, Or.inr hstep.2⟩

theorem path_full (A : Sparsity) (j i : Nat) :
    Relation.ReflTransGen (fun c r => c < A.ncol ∧ A.has_entry r c) j i ↔ reach A j i := by
  unfold reach
  constructor
  · exact Relation.ReflTransGen.mono (fun _ _ h => h.2)
  · exact Relation.ReflTransGen.mono (fun _ _ h => ⟨h.1, h⟩)

theorem reach_head (A : Sparsity) (b j : Nat) (h : reach A b j) :
    j = b ∨ ∃ r, r ≠ b ∧ A.has_entry r b ∧ reach A r j := by
  unfold reach at h ⊢
  induction h using Relation.ReflTransGen.head_induction_on with
  | refl => exact Or.inl rfl
  | @head a c hac hcj ih =>
    by_cases e : c = a
    · subst e
      exact ih
    · exact Or.inr ⟨c, e, hac, hcj⟩

/-! ### The two sweeps on a lower triangular pattern -/

/-- The forward sweep with identity permutations and blocks of one variable, started from
zero, on a lower triangular pattern: bit by bit, `X[i]` is the OR of the `B[j]` for the
`j` from which `i` can be reached. -/
theorem forward_sweep_spec (A : Sparsity) (n : Nat) (B : List Nat) (hn : A.ncol = n)
    (hlow : ∀ r c, A.has_entry r c → c ≤ r) :
    (linsol_spsolve ⟨A, List.range n, List.range n, List.range (n + 1), List.range (n + 1)⟩
      (List.replicate n 0) B false).length = n ∧
    ∀ i bit, i < n →
      ((vget (linsol_spsolve
          ⟨A, List.range n, List.range n, List.range (n + 1), List.range (n + 1)⟩
          (List.replicate n 0) B false) i).testBit bit = true ↔
        ∃ j, j < n ∧ reach A j i ∧ (vget B j).testBit bit = true) := by
  have key := forLoop_ind (fun b (X : List Nat) =>
    X.length = n ∧
    ∀ i bit, i < n →
      ((vget X i).testBit bit = true ↔
        ∃ j, j < b ∧ Relation.ReflTransGen (fun c r => c < b ∧ A.has_entry r c) j i ∧
          (vget B j).testBit bit = true))
    0 n (spsolve_forward_block
      ⟨A, List.range n, List.range n, List.range (n + 1), List.range (n + 1)⟩ B)
    (List.replicate n 0) (Nat.zero_le _)
    ⟨List.length_replicate _ _, fun i bit _ => by
      rw [vget_replicate_zero]
      simp⟩
    (by
      rintro b X _ hb ⟨l, h⟩
      rw [forward_block_identity A n B X b hb]
      obtain ⟨l2, h2⟩ := or_col_spec
        ⟨A, List.range n, List.range n, List.range (n + 1), List.range (n + 1)⟩ b
        (vget B b ||| vget X b) (X.set b (vget X b ||| (vget B b ||| vget X b)))
        (show b < A.ncol by omega)
      rw [List.length_set] at l2 h2
      refine ⟨l2.trans l, ?_⟩
      intro i bit hi
      rw [h2 i bit (by omega), Sparsity.testBit_vget_set_or _ _ _ _ _ (by omega),
        Nat.testBit_or, Bool.or_eq_true, h i bit hi, h b bit hb]
      constructor
      · rintro ((⟨j, j1, j2, j3⟩ | ⟨e, hd⟩) | ⟨e, hd⟩)
        · exact ⟨j, by omega, path_mono A b j i j2, j3⟩
        · subst e
          rcases hd with hd | ⟨j, j1, j2, j3⟩
          · exact ⟨b, by omega, Relation.ReflTransGen.refl, hd⟩
          · exact ⟨j, by omega, path_mono A b j b j2, j3⟩
        · rcases hd with hd | ⟨j, j1, j2, j3⟩
          · exact ⟨b, by omega,
              Relation.ReflTransGen.tail Relation.ReflTransGen.refl ⟨by omega, e⟩, hd⟩
          · exact ⟨j, by omega,
              Relation.ReflTransGen.tail (path_mono A b j b j2) ⟨by omega, e⟩, j3⟩
      · rintro ⟨j, j1, j2, j3⟩
        rcases path_split A hlow b j i j2 with p | ⟨p, q⟩
        · by_cases hjb : j < b
          · exact Or.inl (Or.inl ⟨j, hjb, p, j3⟩)
          · have e : j = b := by omega
            rcases path_start A b j i p with s | s
            · omega
            · exact Or.inl (Or.inr ⟨by omega, Or.inl (by rw [← e]; exact j3)⟩)
        · have hd : (vget B b).testBit bit = true ∨
              ∃ j, j < b ∧ Relation.ReflTransGen (fun c r => c < b ∧ A.has_entry r c) j b ∧
                (vget B j).testBit bit = true := by
            by_cases e : j = b
            · subst e
              exact Or.inl j3
            · exact Or.inr ⟨j, by omega, p, j3⟩
          rcases q with q | q
          · exact Or.inl (Or.inr ⟨q.symm, hd⟩)
          · exact Or.inr ⟨q, hd⟩)
  obtain ⟨l, h⟩ := key
  have hnb : (List.range (n + 1)).length - 1 = n := by simp
  have hrun : linsol_spsolve
      ⟨A, List.range n, List.range n, List.range (n + 1), List.range (n + 1)⟩
      (List.replicate n 0) B false =
      forLoop 0 n (spsolve_forward_block
        ⟨A, List.range n, List.range n, List.range (n + 1), List.range (n + 1)⟩ B)
        (List.replicate n 0) := by
    unfold linsol_spsolve
    simp only [Bool.not_false, if_true]
    rw [hnb]
  rw [hrun]
  refine ⟨l, fun i bit hi => ?_⟩
  rw [h i bit hi]
  constructor
  · rintro ⟨j, j1, j2, j3⟩
    exact ⟨j, j1, (path_full A j i).1 (by rw [hn]; exact j2), j3⟩
  · rintro ⟨j, j1, j2, j3⟩
    refine ⟨j, j1, ?_, j3⟩
    have := (path_full A j i).2 j2
    rw [hn] at this
    exact this

end Linsol
end casadi

namespace casadi
namespace Linsol

theorem reach_start (A : Sparsity) (r j : Nat) (h : reach A r j) : r < A.ncol ∨ j = r :=
  path_start A A.ncol r j ((path_full A r j).2 h)

/-- The transposed sweep with identity permutations and blocks of one variable, started
from zero, on a lower triangular pattern: bit by bit, `X[i]` is the OR of the `B[j]` for
the `j` that can be reached from `i`. -/
theorem transposed_sweep_spec (A : Sparsity) (n : Nat) (B : List Nat) (hn : A.ncol = n)
    (hlow : ∀ r c, A.has_entry r c → c ≤ r) :
    (linsol_spsolve ⟨A, List.range n, List.range n, List.range (n + 1), List.range (n + 1)⟩
      (List.replicate n 0) B true).length = n ∧
    ∀ i bit, i < n →
      ((vget (linsol_spsolve
          ⟨A, List.range n, List.range n, List.range (n + 1), List.range (n + 1)⟩
          (List.replicate n 0) B true) i).testBit bit = true ↔
        ∃ j, j < n ∧ reach A i j ∧ (vget B j).testBit bit = true) := by
  have key := foldl_range_reverse_ind (fun b (X : List Nat) =>
    X.length = n ∧
    ∀ i bit, i < n →
      ((vget X i).testBit bit = true ↔
        b ≤ i ∧ ∃ j, j < n ∧ reach A i j ∧ (vget B j).testBit bit = true))
    n (spsolve_transposed_block
      ⟨A, List.range n, List.range n, List.range (n + 1), List.range (n + 1)⟩ B)
    (List.replicate n 0)
    ⟨List.length_replicate _ _, fun i bit hi => by
      rw [vget_replicate_zero]
      simp
      omega⟩
    (by
      rintro b X hb ⟨l, h⟩
      rw [transposed_block_identity A n B X b hb]
      refine ⟨by rw [List.length_set]; exact l, ?_⟩
      intro i bit hi
      rw [Sparsity.testBit_vget_set_or _ _ _ _ _ (by omega),
        gather_col_spec _ _ _ _ (show b < A.ncol by omega), h i bit hi]
      constructor
      · rintro (⟨h1, h2⟩ | ⟨e, hd⟩)
        · exact ⟨by omega, h2⟩
        · subst e
          refine ⟨Nat.le_refl _, ?_⟩
          rcases hd with hd | ⟨r, r1, r2⟩
          · exact ⟨b, hb, Relation.ReflTransGen.refl, hd⟩
          · have hr : r < n := by
              by_contra hcon
              rw [vget_of_le X r (by omega)] at r2
              simp at r2
            obtain ⟨_, j, j1, j2, j3⟩ := (h r bit hr).1 r2
            exact ⟨j, j1, Relation.ReflTransGen.head r1 j2, j3⟩
      · rintro ⟨h1, j, j1, j2, j3⟩
        by_cases e : b = i
        · subst e
          refine Or.inr ⟨rfl, ?_⟩
          rcases reach_head A b j j2 with q | ⟨r, r1, r2, r3⟩
          · rw [q] at j3
            exact Or.inl j3
          · have hle := hlow r b r2
            have hr : r < n := by
              rcases reach_start A r j r3 with s | s
              · omega
              · omega
            exact Or.inr ⟨r, r2, (h r bit hr).2 ⟨by omega, j, j1, r3, j3⟩⟩
        · exact Or.inl ⟨by omega, j, j1, j2, j3⟩)
  obtain ⟨l, h⟩ := key
  have hnb : (List.range (n + 1)).length - 1 = n := by simp
  have hrun : linsol_spsolve
      ⟨A, List.range n, List.range n, List.range (n + 1), List.range (n + 1)⟩
      (List.replicate n 0) B true =
      (List.range n).reverse.foldl (spsolve_transposed_block
        ⟨A, List.range n, List.range n, List.range (n + 1), List.range (n + 1)⟩ B)
        (List.replicate n 0) := by
    unfold linsol_spsolve
    simp only [Bool.not_true, Bool.false_eq_true, if_false]
    rw [hnb]
  rw [hrun]
  refine ⟨l, fun i bit hi => ?_⟩
  rw [h i bit hi]
  exact ⟨fun h => h.2, fun h => ⟨Nat.zero_le _, h⟩⟩

/-- A pattern that satisfies the invariant and whose stored rows are not above the
diagonal has every entry on or below the diagonal. -/
theorem lower_of_slots (A : Sparsity) (hA : A.wf)
    (h : ∀ c, c < A.ncol → ∀ k, k < A.row.length → vget A.colind c ≤ k →
      k < vget A.colind (c + 1) → c ≤ vget A.row k) :
    ∀ r c, A.has_entry r c → c ≤ r := by
  rintro r c ⟨hc, k, h1, h2, h3⟩
  have := Sparsity.wf_colind_le_nnz A hA (c + 1) (by omega)
  rw [← h3]
  exact h c hc k (by omega) h1 h2

end Linsol
end casadi

namespace casadi
namespace Linsol

/-- C33: let `A` have `n` columns and no entry above the diagonal, and let the
decomposition be the identity permutations with `n` blocks of one variable.  Then the
forward `linsol_spsolve`, started from `X = 0`, returns `n` values, and for every `i < n`
a bit is set in `X[i]` exactly when it is set in `B[j]` for some `j` from which `i` can be
reached, in any number of steps and in none, in the graph with a step from `j` to `i` for
every nonzero `A(i, j)`.  So `X[i]` holds `B[i]`, and `B[j]` for every nonzero
`A(i, j)`. -/
theorem linsol_spsolve_forward_reach (A : Sparsity) (n : Nat) (B : List Nat)
    (hn : A.ncol = n) (hlow : ∀ r c, A.has_entry r c → c ≤ r) :
    (linsol_spsolve ⟨A, List.range n, List.range n, List.range (n + 1), List.range (n + 1)⟩
      (List.replicate n 0) B false).length = n ∧
    (∀ i bit, i < n →
      ((vget (linsol_spsolve
          ⟨A, List.range n, List.range n, List.range (n + 1), List.range (n + 1)⟩
          (List.replicate n 0) B false) i).testBit bit = true ↔
        ∃ j, j < n ∧ reach A j i ∧ (vget B j).testBit bit = true)) ∧
    (∀ i bit, i < n → (vget B i).testBit bit = true →
      (vget (linsol_spsolve
        ⟨A, List.range n, List.range n, List.range (n + 1), List.range (n + 1)⟩
        (List.replicate n 0) B false) i).testBit bit = true) ∧
    (∀ i j bit, i < n → A.has_entry i j → (vget B j).testBit bit = true →
      (vget (linsol_spsolve
        ⟨A, List.range n, List.range n, List.range (n + 1), List.range (n + 1)⟩
        (List.replicate n 0) B false) i).testBit bit = true) := by
  obtain ⟨l, h⟩ := forward_sweep_spec A n B hn hlow
  refine ⟨l, h, ?_, ?_⟩
  · intro i bit hi hb
    exact (h i bit hi).2 ⟨i, hi, Relation.ReflTransGen.refl, hb⟩
  · intro i j bit hi he hb
    have hj : j < A.ncol := he.1
    exact (h i bit hi).2 ⟨j, by omega, Relation.ReflTransGen.single he, hb⟩

theorem linsol_spsolve_forward_reach_witness :
    (linsol_spsolve ⟨⟨3, 3, [0, 2, 4, 5], [0, 2, 1, 2, 2]⟩, List.range 3, List.range 3,
        List.range (3 + 1), List.range (3 + 1)⟩ (List.replicate 3 0) [1, 2, 4] false).length = 3 ∧
    ∀ i bit, i < 3 →
      ((vget (linsol_spsolve ⟨⟨3, 3, [0, 2, 4, 5], [0, 2, 1, 2, 2]⟩, List.range 3,
          List.range 3, List.range (3 + 1), List.range (3 + 1)⟩
          (List.replicate 3 0) [1, 2, 4] false) i).testBit bit = true ↔
        ∃ j, j < 3 ∧ reach ⟨3, 3, [0, 2, 4, 5], [0, 2, 1, 2, 2]⟩ j i ∧
          (vget [1, 2, 4] j).testBit bit = true) :=
  let ⟨h1, h2, _⟩ :=
    linsol_spsolve_forward_reach ⟨3, 3, [0, 2, 4, 5], [0, 2, 1, 2, 2]⟩ 3 [1, 2, 4] rfl
      (lower_of_slots ⟨3, 3, [0, 2, 4, 5], [0, 2, 1, 2, 2]⟩ (by decide) (by decide))
  ⟨h1, h2⟩

/-- C34: let `A` have `n` columns and no entry above the diagonal, and let the
decomposition be the identity permutations with `n` blocks of one variable.  For `i` and
`j` below `n`, a bit that is set in `B[j]` and in no other element of `B` is set in `X[i]`
after the forward pass from `X = 0` exactly when the same bit, set in `B[i]` and in no
other element of `B`, is set in `X[j]` after the transposed pass from `X = 0`: both hold
exactly when `i` can be reached from `j`. -/
theorem linsol_spsolve_adjoint (A : Sparsity) (n : Nat) (hn : A.ncol = n)
    (hlow : ∀ r c, A.has_entry r c → c ≤ r) (i j bit : Nat) (hi : i < n) (hj : j < n)
    (B1 B2 : List Nat) (h1 : ∀ k, (vget B1 k).testBit bit = true ↔ k = j)
    (h2 : ∀ k, (vget B2 k).testBit bit = true ↔ k = i) :
    ((vget (linsol_spsolve
        ⟨A, List.range n, List.range n, List.range (n + 1), List.range (n + 1)⟩
        (List.replicate n 0) B1 false) i).testBit bit = true ↔
      (vget (linsol_spsolve
        ⟨A, List.range n, List.range n, List.range (n + 1), List.range (n + 1)⟩
        (List.replicate n 0) B2 true) j).testBit bit = true) ∧
    ((vget (linsol_spsolve
        ⟨A, List.range n, List.range n, List.range (n + 1), List.range (n + 1)⟩
        (List.replicate n 0) B1 false) i).testBit bit = true ↔ reach A j i) := by
  have hf := (forward_sweep_spec A n B1 hn hlow).2 i bit hi
  have ht := (transposed_sweep_spec A n B2 hn hlow).2 j bit hj
  have e1 : (∃ k, k < n ∧ reach A k i ∧ (vget B1 k).testBit bit = true) ↔ reach A j i := by
    constructor
    · rintro ⟨k, _, k2, k3⟩
      rw [(h1 k).1 k3] at k2
      exact k2
    · intro h
      exact ⟨j, hj, h, (h1 j).2 rfl⟩
  have e2 : (∃ k, k < n ∧ reach A j k ∧ (vget B2 k).testBit bit = true) ↔ reach A j i := by
    constructor
    · rintro ⟨k, _, k2, k3⟩
      rw [(h2 k).1 k3] at k2
      exact k2
    · intro h
      exact ⟨i, hi, h, (h2 i).2 rfl⟩
  rw [hf, ht, e1, e2]
  exact ⟨Iff.rfl, Iff.rfl⟩

theorem linsol_spsolve_adjoint_witness :
    ((vget (linsol_spsolve ⟨⟨3, 3, [0, 2, 4, 5], [0, 2, 1, 2, 2]⟩, List.range 3, List.range 3,
        List.range (3 + 1), List.range (3 + 1)⟩ (List.replicate 3 0) [1, 0, 0] false)
        2).testBit 0 = true ↔
      (vget (linsol_spsolve ⟨⟨3, 3, [0, 2, 4, 5], [0, 2, 1, 2, 2]⟩, List.range 3, List.range 3,
        List.range (3 + 1), List.range (3 + 1)⟩ (List.replicate 3 0) [0, 0, 1] true)
        0).testBit 0 = true) ∧
    ((vget (linsol_spsolve ⟨⟨3, 3, [0, 2, 4, 5], [0, 2, 1, 2, 2]⟩, List.range 3, List.range 3,
        List.range (3 + 1), List.range (3 + 1)⟩ (List.replicate 3 0) [1, 0, 0] false)
        2).testBit 0 = true ↔ reach ⟨3, 3, [0, 2, 4, 5], [0, 2, 1, 2, 2]⟩ 0 2) :=
  linsol_spsolve_adjoint ⟨3, 3, [0, 2, 4, 5], [0, 2, 1, 2, 2]⟩ 3 rfl
    (lower_of_slots ⟨3, 3, [0, 2, 4, 5], [0, 2, 1, 2, 2]⟩ (by decide) (by decide))
    2 0 0 (by decide) (by decide) [1, 0, 0] [0, 0, 1]
    (by intro k; rcases k with _ | _ | _ | k <;> simp [vget])
    (by intro k; rcases k with _ | _ | _ | k <;> simp [vget])

end Linsol
end casadi

namespace casadi

namespace Sparsity

/-! ### `mul_sparsityR` leaves `z` as it was -/

theorem mulR_inner_wz (x_sp : Sparsity) (rr : Nat) (s : MulState) :
    (mul_sparsityR_inner x_sp rr s).1.w = s.w ∧ (mul_sparsityR_inner x_sp rr s).1.z = s.z := by
  unfold mul_sparsityR_inner
  exact forLoop_inv (fun (r : MulState × Nat) => r.1.w = s.w ∧ r.1.z = s.z) _ _ _ _
    ⟨rfl, rfl⟩ (fun k r _ _ hr => hr)

theorem mulR_column_wz (x_sp y_sp : Sparsity) (cc : Nat) (s : MulState) :
    (mul_sparsityR_column x_sp y_sp cc s).w = s.w ∧
    (mul_sparsityR_column x_sp y_sp cc s).z = s.z := by
  unfold mul_sparsityR_column
  refine forLoop_inv (fun (t : MulState) => t.w = s.w ∧ t.z = s.z) _ _ _ _ ⟨rfl, rfl⟩ ?_
  intro k t _ _ ht
  obtain ⟨h1, h2⟩ := mulR_inner_wz x_sp (vget y_sp.row k) t
  exact ⟨h1.trans ht.1, h2.trans ht.2⟩

/-- With `z_sp` satisfying the invariant and a work vector with an element for each row,
`mul_sparsityR` returns and leaves `z` as it was. -/
theorem mul_sparsityR_z (x y z w : List Nat) (x_sp y_sp z_sp : Sparsity) (hz : z_sp.wf)
    (hd : z_sp.size1 = x_sp.size1 ∧ x_sp.size2 = y_sp.size1 ∧ y_sp.size2 = z_sp.size2)
    (hw : z_sp.size1 ≤ w.length) :
    ∃ s, mul_sparsityR x x_sp y y_sp z z_sp w = .ok s ∧ s.z = z := by
  unfold mul_sparsityR
  rw [if_neg (not_not.2 hd)]
  refine ⟨_, rfl, ?_⟩
  have key := forLoop_inv (fun (t : MulState) => t.z = z ∧ t.w.length = w.length)
    0 z_sp.size2 (fun s cc =>
      mul_store z_sp cc (mul_sparsityR_column x_sp y_sp cc (mul_load z_sp cc s)))
    { x := x, y := y, z := z, w := w, w_index := [] } ⟨rfl, rfl⟩
    (by
      rintro cc t _ hcc ⟨e1, e2⟩
      obtain ⟨_, _, l3, l4, l5⟩ := mul_load_spec z_sp hz cc hcc t (by
        have : z_sp.size1 = z_sp.nrow := rfl
        omega)
      obtain ⟨c1, c2⟩ := mulR_column_wz x_sp y_sp cc (mul_load z_sp cc t)
      obtain ⟨_, _, s3, s4, s5⟩ :=
        mul_store_spec z_sp cc (mul_sparsityR_column x_sp y_sp cc (mul_load z_sp cc t))
      refine ⟨?_, by rw [s3, c1, l4, e2]⟩
      apply ext_vget
      · rw [s4, c2, l3, e1]
      · intro k _
        rw [s5, c1, c2, l3]
        by_cases h : vget z_sp.colind cc ≤ k ∧ k < vget z_sp.colind (cc + 1) ∧ k < t.z.length
        · rw [if_pos h, l5 k h.1 h.2.1, e1]
        · rw [if_neg h, e1])
  exact key.1

end Sparsity

namespace HorzRepmat

/-! ### What `HorzRepmat::sp_rev` does -/

theorem sp_rev_transform (res0 arg0 : List Nat) (off nnz : Nat) :
    (forLoop 0 nnz (fun arg0 k => arg0.set k (Orring (vget res0 (off + k)) (vget arg0 k)))
      arg0).length = arg0.length ∧
    ∀ j, vget (forLoop 0 nnz
        (fun arg0 k => arg0.set k (Orring (vget res0 (off + k)) (vget arg0 k))) arg0) j =
      if j < nnz ∧ j < arg0.length then vget arg0 j ||| vget res0 (off + j) else vget arg0 j := by
  have key := forLoop_ind (fun k (t : List Nat) =>
    t.length = arg0.length ∧
    ∀ j, vget t j =
      if j < k ∧ j < arg0.length then vget arg0 j ||| vget res0 (off + j) else vget arg0 j)
    0 nnz (fun arg0 k => arg0.set k (Orring (vget res0 (off + k)) (vget arg0 k))) arg0
    (Nat.zero_le _) ⟨rfl, fun j => by rw [if_neg (by omega)]⟩
    (by
      rintro k t _ _ ⟨l, h⟩
      refine ⟨by simp [l], fun j => ?_⟩
      rw [vget_set, l]
      by_cases e : k = j ∧ k < arg0.length
      · rw [if_pos e, if_pos ⟨by omega, by omega⟩, h k, if_neg (by omega), ← e.1]
        unfold Orring
        exact Nat.lor_comm _ _
      · rw [if_neg e, h j]
        by_cases c : j < k ∧ j < arg0.length
        · rw [if_pos c, if_pos ⟨by omega, c.2⟩]
        · rw [if_neg c, if_neg (by omega)])
  exact key

/-- The buffers after `sp_rev`: bit by bit, `arg[0][j]` for `j < nnz` is the old value
OR-ed with `res[0][i*nnz + j]` for every `i < n`; of `res[0]`, the first `nnz` elements
are zero and the others are as they were. -/
theorem sp_rev_spec (self : HorzRepmat) (arg0 res0 : List Nat) :
    (sp_rev self arg0 res0).1.length = arg0.length ∧
    (∀ j bit, j < self.nnz → j < arg0.length →
      ((vget (sp_rev self arg0 res0).1 j).testBit bit = true ↔
        (vget arg0 j).testBit bit = true ∨
          ∃ i, i < self.n ∧ (vget res0 (i * self.nnz + j)).testBit bit = true)) ∧
    (sp_rev self arg0 res0).2.length = res0.length ∧
    ∀ k, vget (sp_rev self arg0 res0).2 k =
      if k < self.nnz ∧ k < res0.length then 0 else vget res0 k := by
  have key := forLoop_ind (fun i (t : List Nat) =>
    t.length = arg0.length ∧
    ∀ j bit, j < self.nnz → j < arg0.length →
      ((vget t j).testBit bit = true ↔
        (vget arg0 j).testBit bit = true ∨
          ∃ i2, i2 < i ∧ (vget res0 (i2 * self.nnz + j)).testBit bit = true))
    0 self.n (fun arg0 i =>
      forLoop 0 self.nnz
        (fun arg0 k => arg0.set k (Orring (vget res0 (i * self.nnz + k)) (vget arg0 k))) arg0)
    arg0 (Nat.zero_le _)
    ⟨rfl, fun j bit _ _ => ⟨Or.inl, fun h => h.elim id (fun ⟨i2, h1, _⟩ => by omega)⟩⟩
    (by
      rintro i t _ _ ⟨l, h⟩
      obtain ⟨l2, h2⟩ := sp_rev_transform res0 t (i * self.nnz) self.nnz
      refine ⟨l2.trans l, fun j bit hj1 hj2 => ?_⟩
      rw [h2 j, if_pos ⟨hj1, by omega⟩, Nat.testBit_or, Bool.or_eq_true, h j bit hj1 hj2]
      constructor
      · rintro ((h | ⟨i2, h1, h3⟩) | h)
        · exact Or.inl h
        · exact Or.inr ⟨i2, by omega, h3⟩
        · exact Or.inr ⟨i, by omega, h⟩
      · rintro (h | ⟨i2, h1, h3⟩)
        · exact Or.inl (Or.inl h)
        · by_cases e : i2 = i
          · subst e
            exact Or.inr h3
          · exact Or.inl (Or.inr ⟨i2, by omega, h3⟩))
  refine ⟨key.1, key.2, ?_, ?_⟩
  · exact length_forLoop_set_zero (fun _ => 0) self.nnz res0
  · intro k
    exact vget_forLoop_set_zero (fun _ => 0) self.nnz res0 k

end HorzRepmat
end casadi
